import Mathlib

/-!
# Fast inverse square root: a verification development

Shallow embedding of `Implementierung/src/inverse_sqrt.c`.

* Floating point values are carried as their IEEE-754 bit patterns (natural numbers below
  `2^32` resp. `2^64`), so the union type-punning of the source is the identity.
* `fmul` and `fsub` are the IEEE-754 operations with round-to-nearest-even, including
  subnormals, signed zeros and infinities.  The result of an operation that yields a NaN is the
  canonical quiet NaN; NaN payloads are not tracked.
* `size_t` is a natural number below `2^64`; array indices wrap modulo `2^64`.
* The loops are run with fuel; `none` is "fuel exhausted".  Every kernel supplies fuel `n + 1`.
* Accuracy is stated against the real number `1 / sqrt x`, with `toRat` the value of a pattern.
  The bound on the raw estimate is obtained by checking one exponent period of the input in
  `2 ^ 12` blocks (`bandTree`) and by periodicity; the Newton updates are followed through the
  five roundings of the source expression.
* `magicnumber.c`: the search is parametric in the function `E` that gives the `maxError` of a
  candidate; the rounds are recorded (`Round`) and compared with a closed form
  (`searchRounds`).  `fdiv`, `ofNat` and `toUInt` are the IEEE-754 division and the conversions
  from and to unsigned integers, `lt` and `le` the comparisons.
* `parser.c`: `strtof` and `strtod` are parameters (`Strto`); `exit` is the outcome
  `Outcome.exit`, and `NULL` is `none`.
* The sample loops of `magicnumber.c` (`sampleLoop`) are parametric in the function that gives
  the `relativeError` of a sample; the prior of `magicnumber_dbl` is also given over exact
  rationals (`init_dbl_exact`).
* `relativeError_flt` and `relativeError_dbl` are the bodies of the sample loops: `fsqrt` is the
  IEEE-754 square root, `toDouble` the conversion of a `float` to `double`, `fabs` clears the
  sign bit.  `maxError_flt` and `maxError_dbl` are the values the sample loops leave in
  `maxError`; the searches are run on them.  Expressions are evaluated as written, without
  contraction to fused operations.
* `main.c`, option `-B`: `strtol` is a parameter (`Strtol`), `long` is 64 bits wide and `int`
  32 bits wide, and the conversion of a `long` to the `int` parameter of `execute` keeps the low
  32 bits (`longToInt`).  `execute` records the number of calls of the kernel.
* `tests.c`: the loops of `benchmarkAccuracy_flt` record the samples handed to the
  implementation under test at every call.
-/

namespace InvSqrt

/-! ## IEEE-754 binary interchange formats -/

/-- An IEEE-754 binary format: width of the exponent field and of the trailing significand. -/
structure FloatFormat where
  ebits : Nat
  mbits : Nat
deriving DecidableEq, Repr

/-- The C type `float`. -/
def binary32 : FloatFormat := ⟨8, 23⟩

/-- The C type `double`. -/
def binary64 : FloatFormat := ⟨11, 52⟩

namespace FloatFormat

/-- Exponent bias. -/
def bias (F : FloatFormat) : Nat := 2 ^ (F.ebits - 1) - 1

/-- Storage width in bits. -/
def width (F : FloatFormat) : Nat := 1 + F.ebits + F.mbits

/-- Sign bit of a pattern. -/
def signOf (F : FloatFormat) (b : Nat) : Nat := b / 2 ^ (F.ebits + F.mbits) % 2

/-- Biased exponent field of a pattern. -/
def expOf (F : FloatFormat) (b : Nat) : Nat := b / 2 ^ F.mbits % 2 ^ F.ebits

/-- Trailing significand field of a pattern. -/
def manOf (F : FloatFormat) (b : Nat) : Nat := b % 2 ^ F.mbits

/-- The pattern is a NaN. -/
def isNaN (F : FloatFormat) (b : Nat) : Bool :=
  F.expOf b == 2 ^ F.ebits - 1 && F.manOf b != 0

/-- The pattern is an infinity. -/
def isInf (F : FloatFormat) (b : Nat) : Bool :=
  F.expOf b == 2 ^ F.ebits - 1 && F.manOf b == 0

/-- The pattern is a zero (of either sign). -/
def isZero (F : FloatFormat) (b : Nat) : Bool :=
  F.expOf b == 0 && F.manOf b == 0

/-- The pattern is positive, finite and normal. -/
def isPosNormal (F : FloatFormat) (b : Nat) : Bool :=
  decide (2 ^ F.mbits ≤ b) && decide (b < (2 ^ F.ebits - 1) * 2 ^ F.mbits)

/-- Integer significand of a finite pattern (with the hidden bit for normal numbers). -/
def sigOf (F : FloatFormat) (b : Nat) : Nat :=
  if F.expOf b = 0 then F.manOf b else 2 ^ F.mbits + F.manOf b

/-- Exponent field of a finite pattern, subnormals sharing the exponent of the smallest
normal numbers: the value is `sigOf b * 2 ^ (qOf b - bias - mbits)`. -/
def qOf (F : FloatFormat) (b : Nat) : Nat := max (F.expOf b) 1

/-- Signed zero. -/
def zeroBits (F : FloatFormat) (s : Nat) : Nat := s * 2 ^ (F.ebits + F.mbits)

/-- Signed infinity. -/
def infBits (F : FloatFormat) (s : Nat) : Nat :=
  s * 2 ^ (F.ebits + F.mbits) + (2 ^ F.ebits - 1) * 2 ^ F.mbits

/-- Canonical quiet NaN. -/
def nanBits (F : FloatFormat) : Nat := (2 ^ F.ebits - 1) * 2 ^ F.mbits + 2 ^ (F.mbits - 1)

/-- Flip the sign bit. -/
def neg (F : FloatFormat) (b : Nat) : Nat :=
  if F.signOf b = 0 then b + 2 ^ (F.ebits + F.mbits) else b - 2 ^ (F.ebits + F.mbits)

/-- Number of binary digits of `n`, computed with `fuel` halvings. -/
def bitLen : Nat → Nat → Nat
  | 0, _ => 0
  | fuel + 1, n => if n = 0 then 0 else bitLen fuel (n / 2) + 1

/-- Position of the leading binary digit of `n` (`0` for `n = 0`). -/
def ilog2 (n : Nat) : Nat := bitLen n n - 1

/-- Round the exact value `(-1)^s * N * 2^(k - Z)` to the format, to nearest, ties to even,
and return its pattern.  `Z` is an exponent offset with `bias ≤ Z + 1`.  Values too large for
the format become infinity, values below the normal range are rounded on the subnormal grid. -/
def roundPack (F : FloatFormat) (s N k Z : Nat) : Nat :=
  if N = 0 then F.zeroBits s
  else
    let L := ilog2 N
    let T := max (k + L) (Z + 1 - F.bias)
    let sig :=
      if F.mbits + k ≤ T then
        let sh := T - (F.mbits + k)
        let q := N / 2 ^ sh
        let r := N % 2 ^ sh
        if 2 ^ sh < 2 * r ∨ (2 * r = 2 ^ sh ∧ q % 2 = 1) then q + 1 else q
      else N * 2 ^ (F.mbits + k - T)
    let mag := (T - (Z + 1 - F.bias)) * 2 ^ F.mbits + sig
    if (2 ^ F.ebits - 1) * 2 ^ F.mbits ≤ mag then F.infBits s
    else F.zeroBits s + mag

/-- IEEE-754 multiplication, round to nearest even. -/
def fmul (F : FloatFormat) (a b : Nat) : Nat :=
  let s := (F.signOf a + F.signOf b) % 2
  if F.isNaN a || F.isNaN b then F.nanBits
  else if F.isInf a || F.isInf b then
    if F.isZero a || F.isZero b then F.nanBits else F.infBits s
  else
    F.roundPack s (F.sigOf a * F.sigOf b) (F.qOf a + F.qOf b) (2 * F.bias + 2 * F.mbits)

/-- IEEE-754 addition, round to nearest even. -/
def fadd (F : FloatFormat) (a b : Nat) : Nat :=
  if F.isNaN a || F.isNaN b then F.nanBits
  else if F.isInf a then
    if F.isInf b && F.signOf a != F.signOf b then F.nanBits else a
  else if F.isInf b then b
  else
    let em := min (F.qOf a) (F.qOf b)
    let A := F.sigOf a * 2 ^ (F.qOf a - em)
    let B := F.sigOf b * 2 ^ (F.qOf b - em)
    let Z := F.bias + F.mbits
    if F.signOf a = F.signOf b then F.roundPack (F.signOf a) (A + B) em Z
    else if B < A then F.roundPack (F.signOf a) (A - B) em Z
    else if A < B then F.roundPack (F.signOf b) (B - A) em Z
    else F.zeroBits 0

/-- IEEE-754 subtraction, round to nearest even. -/
def fsub (F : FloatFormat) (a b : Nat) : Nat :=
  if F.isNaN b then F.nanBits else F.fadd a (F.neg b)

/-- The rational number denoted by a finite pattern. -/
def toRat (F : FloatFormat) (b : Nat) : ℚ :=
  (if F.signOf b = 0 then 1 else -1) * (F.sigOf b : ℚ) * 2 ^ ((F.qOf b : ℤ) - F.bias - F.mbits)

end FloatFormat

/-! ## Scalar arithmetic of the two C types -/

/-- `a * b` on `float`. -/
def mulf (a b : Nat) : Nat := binary32.fmul a b
/-- `a - b` on `float`. -/
def subf (a b : Nat) : Nat := binary32.fsub a b
/-- `a * b` on `double`. -/
def muld (a b : Nat) : Nat := binary64.fmul a b
/-- `a - b` on `double`. -/
def subd (a b : Nat) : Nat := binary64.fsub a b

/-- The literal `0.5f`. -/
def half_f : Nat := 0x3F000000
/-- The literal `1.5f`. -/
def threehalfs_f : Nat := 0x3FC00000
/-- The literal `0.5`. -/
def half_d : Nat := 0x3FE0000000000000
/-- The literal `1.5`. -/
def threehalfs_d : Nat := 0x3FF8000000000000

/-- `uint32_t` subtraction. -/
def sub32 (a b : Nat) : Nat := (a + 2 ^ 32 - b % 2 ^ 32) % 2 ^ 32
/-- `uint64_t` subtraction. -/
def sub64 (a b : Nat) : Nat := (a + 2 ^ 64 - b % 2 ^ 64) % 2 ^ 64

/-! ## Arrays, loops and the instrumented machine state -/

/-- `size_t` addition. -/
def addSize (a b : Nat) : Nat := (a + b) % 2 ^ 64

/-- Write the values `vs` to consecutive slots of `l`, starting at index `j`. -/
def writeAt (l : List Nat) (j : Nat) : List Nat → List Nat
  | [] => l
  | v :: vs => writeAt (l.set j v) (j + 1) vs

/-- State of a running kernel: the output array, and the record of the stores executed so far,
each as (first index written, number of consecutive slots written). -/
structure KState where
  out : List Nat
  trace : List (Nat × Nat)
deriving DecidableEq, Repr

/-- One store of `vs` to `out[j], out[j+1], ...`. -/
def KState.store (st : KState) (j : Nat) (vs : List Nat) : KState :=
  ⟨writeAt st.out j vs, st.trace ++ [(j, vs.length)]⟩

/-- The loop `for (; j < bound; j += stp) body`, with fuel.  Returns the final `j` and state. -/
def forLoop (bound stp : Nat) (body : Nat → KState → KState) :
    Nat → Nat → KState → Option (Nat × KState)
  | 0, _, _ => none
  | fuel + 1, j, st =>
    if j < bound then forLoop bound stp body fuel (addSize j stp) (body j st)
    else some (j, st)

/-! ## SSE2 vectors and intrinsics -/

/-- The type `__m128` / `__m128i` seen as four 32 bit lanes. -/
structure M128 where
  l0 : Nat
  l1 : Nat
  l2 : Nat
  l3 : Nat
deriving DecidableEq, Repr

/-- The type `__m128d` / `__m128i` seen as two 64 bit lanes. -/
structure M128d where
  d0 : Nat
  d1 : Nat
deriving DecidableEq, Repr

/-- Lane-wise binary operation on four lanes. -/
def M128.map2 (f : Nat → Nat → Nat) (a b : M128) : M128 :=
  ⟨f a.l0 b.l0, f a.l1 b.l1, f a.l2 b.l2, f a.l3 b.l3⟩

/-- Lane-wise binary operation on two lanes. -/
def M128d.map2 (f : Nat → Nat → Nat) (a b : M128d) : M128d :=
  ⟨f a.d0 b.d0, f a.d1 b.d1⟩

def _mm_set1_ps (a : Nat) : M128 := ⟨a, a, a, a⟩
def _mm_set1_epi32 (a : Nat) : M128 := ⟨a % 2 ^ 32, a % 2 ^ 32, a % 2 ^ 32, a % 2 ^ 32⟩
def _mm_loadu_ps (p : List Nat) (j : Nat) : M128 :=
  ⟨p.getD j 0, p.getD (j + 1) 0, p.getD (j + 2) 0, p.getD (j + 3) 0⟩
def _mm_mul_ps (a b : M128) : M128 := M128.map2 mulf a b
def _mm_sub_ps (a b : M128) : M128 := M128.map2 subf a b
def _mm_srli_epi32 (a : M128) (k : Nat) : M128 :=
  ⟨(a.l0 % 2 ^ 32) >>> k, (a.l1 % 2 ^ 32) >>> k, (a.l2 % 2 ^ 32) >>> k, (a.l3 % 2 ^ 32) >>> k⟩
def _mm_sub_epi32 (a b : M128) : M128 := M128.map2 sub32 a b
def _mm_store_ps (st : KState) (j : Nat) (a : M128) : KState :=
  st.store j [a.l0, a.l1, a.l2, a.l3]

def _mm_set1_pd (a : Nat) : M128d := ⟨a, a⟩
def _mm_set1_epi64x (a : Nat) : M128d := ⟨a % 2 ^ 64, a % 2 ^ 64⟩
def _mm_loadu_pd (p : List Nat) (j : Nat) : M128d := ⟨p.getD j 0, p.getD (j + 1) 0⟩
def _mm_mul_pd (a b : M128d) : M128d := M128d.map2 muld a b
def _mm_sub_pd (a b : M128d) : M128d := M128d.map2 subd a b
def _mm_srli_epi64 (a : M128d) (k : Nat) : M128d := ⟨(a.d0 % 2 ^ 64) >>> k, (a.d1 % 2 ^ 64) >>> k⟩
def _mm_sub_epi64 (a b : M128d) : M128d := M128d.map2 sub64 a b
def _mm_store_pd (st : KState) (j : Nat) (a : M128d) : KState :=
  st.store j [a.d0, a.d1]

/-! ## The kernels of `inverse_sqrt.c` -/

/-- The statement `conv.i = 0x5F375A86 - (conv.i >> 1);` on `uint32_t`. -/
def bitApprox_flt (conv_i : Nat) : Nat := sub32 0x5F375A86 (conv_i >>> 1)

/-- The statement `conv.i = 0x5FE6EB50C7B537A9 - (conv.i >> 1);` on `uint64_t`. -/
def bitApprox_dbl (conv_i : Nat) : Nat := sub64 0x5FE6EB50C7B537A9 (conv_i >>> 1)

/-- Loop body of `fastInvSqrt_flt_DoubleNewton`. -/
def body_flt_DoubleNewton (vals : List Nat) (j : Nat) (st : KState) : KState :=
  let threehalfs := threehalfs_f
  let conv := vals.getD j 0
  let xhalf := mulf conv half_f
  let conv := bitApprox_flt conv
  let conv := mulf conv (subf threehalfs (mulf (mulf xhalf conv) conv))
  let conv := mulf conv (subf threehalfs (mulf (mulf xhalf conv) conv))
  st.store j [conv]

def fastInvSqrt_flt_DoubleNewton (n : Nat) (vals out : List Nat) : Option KState :=
  (forLoop n 1 (body_flt_DoubleNewton vals) (n + 1) 0 ⟨out, []⟩).map Prod.snd

/-- Loop body of `fastInvSqrt_flt_V1`. -/
def body_flt_V1 (vals : List Nat) (j : Nat) (st : KState) : KState :=
  let threehalfs := threehalfs_f
  let conv := vals.getD j 0
  let xhalf := mulf conv half_f
  let conv := bitApprox_flt conv
  let conv := mulf conv (subf threehalfs (mulf (mulf xhalf conv) conv))
  st.store j [conv]

def fastInvSqrt_flt_V1 (n : Nat) (vals out : List Nat) : Option KState :=
  (forLoop n 1 (body_flt_V1 vals) (n + 1) 0 ⟨out, []⟩).map Prod.snd

/-- Body of the vector loop of `fastInvSqrt_flt`. -/
def body_flt_vec (vals : List Nat) (j : Nat) (st : KState) : KState :=
  let threehalfs := _mm_set1_ps threehalfs_f
  let magicnumber := _mm_set1_epi32 0x5F375A86
  let half := _mm_set1_ps half_f
  let convSSE := _mm_loadu_ps vals j
  let xhalf := _mm_mul_ps convSSE half
  let convSSE := _mm_sub_epi32 magicnumber (_mm_srli_epi32 convSSE 1)
  let convSSE :=
    _mm_mul_ps convSSE (_mm_sub_ps threehalfs (_mm_mul_ps xhalf (_mm_mul_ps convSSE convSSE)))
  _mm_store_ps st j convSSE

/-- Body of the scalar remainder loop of `fastInvSqrt_flt`. -/
def body_flt_rem (vals : List Nat) (j : Nat) (st : KState) : KState :=
  let conv := vals.getD j 0
  let xhalf := mulf conv half_f
  let conv := bitApprox_flt conv
  let conv := mulf conv (subf threehalfs_f (mulf (mulf xhalf conv) conv))
  st.store j [conv]

def fastInvSqrt_flt (n : Nat) (vals out : List Nat) : Option KState :=
  match forLoop (n &&& (2 ^ 64 - 4)) 4 (body_flt_vec vals) (n + 1) 0 ⟨out, []⟩ with
  | none => none
  | some (j, st) => (forLoop n 1 (body_flt_rem vals) (n + 1) j st).map Prod.snd

/-- Loop body of `fastInvSqrt_dbl_DoubleNewton`. -/
def body_dbl_DoubleNewton (vals : List Nat) (j : Nat) (st : KState) : KState :=
  let threehalfs := threehalfs_d
  let conv := vals.getD j 0
  let xhalf := muld conv half_d
  let conv := bitApprox_dbl conv
  let conv := muld conv (subd threehalfs (muld (muld xhalf conv) conv))
  let conv := muld conv (subd threehalfs (muld (muld xhalf conv) conv))
  st.store j [conv]

def fastInvSqrt_dbl_DoubleNewton (n : Nat) (vals out : List Nat) : Option KState :=
  (forLoop n 1 (body_dbl_DoubleNewton vals) (n + 1) 0 ⟨out, []⟩).map Prod.snd

/-- Loop body of `fastInvSqrt_dbl_V1`. -/
def body_dbl_V1 (vals : List Nat) (j : Nat) (st : KState) : KState :=
  let threehalfs := threehalfs_d
  let conv := vals.getD j 0
  let xhalf := muld conv half_d
  let conv := bitApprox_dbl conv
  let conv := muld conv (subd threehalfs (muld (muld xhalf conv) conv))
  st.store j [conv]

def fastInvSqrt_dbl_V1 (n : Nat) (vals out : List Nat) : Option KState :=
  (forLoop n 1 (body_dbl_V1 vals) (n + 1) 0 ⟨out, []⟩).map Prod.snd

/-- Body of the vector loop of `fastInvSqrt_dbl`. -/
def body_dbl_vec (vals : List Nat) (j : Nat) (st : KState) : KState :=
  let threehalfs := _mm_set1_pd threehalfs_d
  let magicnumber := _mm_set1_epi64x 0x5FE6EB50C7B537A9
  let half := _mm_set1_pd half_d
  let convSSE := _mm_loadu_pd vals j
  let xhalf := _mm_mul_pd convSSE half
  let convSSE := _mm_sub_epi64 magicnumber (_mm_srli_epi64 convSSE 1)
  let convSSE :=
    _mm_mul_pd convSSE (_mm_sub_pd threehalfs (_mm_mul_pd xhalf (_mm_mul_pd convSSE convSSE)))
  _mm_store_pd st j convSSE

/-- Body of the scalar remainder loop of `fastInvSqrt_dbl`. -/
def body_dbl_rem (vals : List Nat) (j : Nat) (st : KState) : KState :=
  let conv := vals.getD j 0
  let xhalf := muld conv half_d
  let conv := bitApprox_dbl conv
  let conv := muld conv (subd threehalfs_d (muld (muld xhalf conv) conv))
  st.store j [conv]

def fastInvSqrt_dbl (n : Nat) (vals out : List Nat) : Option KState :=
  match forLoop (n &&& (2 ^ 64 - 2)) 2 (body_dbl_vec vals) (n + 1) 0 ⟨out, []⟩ with
  | none => none
  | some (j, st) => (forLoop n 1 (body_dbl_rem vals) (n + 1) j st).map Prod.snd

/-- The output array after the slots `j, ..., j + len - 1` received `g` of the input slot. -/
def fillOut (out : List Nat) (j len : Nat) (g : Nat → Nat) (vals : List Nat) : List Nat :=
  (List.range out.length).map fun i =>
    if j ≤ i ∧ i < j + len then g (vals.getD i 0) else out.getD i 0

/-! ## Per-element functions computed by the kernels -/

/-- The source expression `y * (threehalfs - (xhalf * y * y))` with `xhalf = x * half`, in the
association order of the scalar loops, over an arbitrary arithmetic. -/
def newtonStepWith {α : Type} (mul sub : α → α → α) (half threehalfs x y : α) : α :=
  mul y (sub threehalfs (mul (mul (mul x half) y) y))

/-- The source expression `mul(y, sub(threehalfs, mul(xhalf, mul(y, y))))` with
`xhalf = mul(x, half)`, in the association order of the vector loops. -/
def newtonLaneWith {α : Type} (mul sub : α → α → α) (half threehalfs x y : α) : α :=
  mul y (sub threehalfs (mul (mul x half) (mul y y)))

/-- One Newton update in `float` arithmetic, scalar association. -/
def step_flt (x y : Nat) : Nat := newtonStepWith mulf subf half_f threehalfs_f x y
/-- One Newton update in `float` arithmetic, vector association. -/
def lane_flt (x y : Nat) : Nat := newtonLaneWith mulf subf half_f threehalfs_f x y
/-- One Newton update in `double` arithmetic, scalar association. -/
def step_dbl (x y : Nat) : Nat := newtonStepWith muld subd half_d threehalfs_d x y
/-- One Newton update in `double` arithmetic, vector association. -/
def lane_dbl (x y : Nat) : Nat := newtonLaneWith muld subd half_d threehalfs_d x y

/-- One Newton update in exact rational arithmetic, scalar association. -/
def step_exact (x y : ℚ) : ℚ := newtonStepWith (· * ·) (· - ·) (1 / 2) (3 / 2) x y
/-- One Newton update in exact rational arithmetic, vector association. -/
def lane_exact (x y : ℚ) : ℚ := newtonLaneWith (· * ·) (· - ·) (1 / 2) (3 / 2) x y

/-- Stores executed by a scalar loop over `n` elements. -/
def scalarTrace (n : Nat) : List (Nat × Nat) := (List.range n).map fun t => (t, 1)

/-- Indices written by a record of stores, in execution order. -/
def writtenIndices (tr : List (Nat × Nat)) : List Nat :=
  tr.flatMap fun p => List.range' p.1 p.2

/-- Stores executed by a kernel with a vector loop of width `w` and a scalar remainder loop. -/
def simdTrace (w n : Nat) : List (Nat × Nat) :=
  ((List.range (n / w)).map fun t => (w * t, w)) ++
    (List.range (n % w)).map fun t => (w * (n / w) + t, 1)

/-! ## Definitions for the rounding error analysis -/

namespace FloatFormat

/-- Scaled value of a finite pattern: `toRat b = val2 b / 2 ^ (bias + mbits)` for sign `0`. -/
def val2 (F : FloatFormat) (p : Nat) : Nat := F.sigOf p * 2 ^ F.qOf p

/-- The pattern is finite with sign bit `0`. -/
def isFinPos (F : FloatFormat) (b : Nat) : Prop := b < (2 ^ F.ebits - 1) * 2 ^ F.mbits

/-- The raw estimate for the pattern `b` with magic number `K` has
`qloN / D ≤ x * y0 ^ 2 ≤ qhiN / D`, stated on scaled integers. -/
def qBound (F : FloatFormat) (K qloN qhiN D b : Nat) : Prop :=
  F.val2 b * F.val2 (K - b / 2) ^ 2 * D ≤ qhiN * 2 ^ (3 * (F.bias + F.mbits)) ∧
  qloN * 2 ^ (3 * (F.bias + F.mbits)) ≤ F.val2 b * F.val2 (K - b / 2) ^ 2 * D

/-- Check of `qBound` on the patterns `lo, ..., hi` through the four corner values. -/
def bandOK (F : FloatFormat) (K qloN qhiN D lo hi : Nat) : Bool :=
  decide (F.val2 hi * F.val2 (K - lo / 2) ^ 2 * D ≤ qhiN * 2 ^ (3 * (F.bias + F.mbits))) &&
  decide (qloN * 2 ^ (3 * (F.bias + F.mbits)) ≤ F.val2 lo * F.val2 (K - hi / 2) ^ 2 * D)

/-- Check of `2 ^ d` consecutive blocks of `w` patterns, starting at `lo`. -/
def bandTree (F : FloatFormat) (K qloN qhiN D w : Nat) : Nat → Nat → Bool
  | 0, lo => F.bandOK K qloN qhiN D lo (lo + w - 1)
  | d + 1, lo =>
    bandTree F K qloN qhiN D w d lo && bandTree F K qloN qhiN D w d (lo + w * 2 ^ d)

/-- Integer content of `roundPack`: the significand it selects. -/
def roundSig (F : FloatFormat) (N k T : Nat) : Nat :=
  if F.mbits + k ≤ T then
    let sh := T - (F.mbits + k)
    let q := N / 2 ^ sh
    let r := N % 2 ^ sh
    if 2 ^ sh < 2 * r ∨ (2 * r = 2 ^ sh ∧ q % 2 = 1) then q + 1 else q
  else N * 2 ^ (F.mbits + k - T)

/-- Pattern of the constant `0.5`. -/
def halfBits (F : FloatFormat) : Nat := (F.bias - 1) * 2 ^ F.mbits
/-- Pattern of the constant `1.5`. -/
def threeHalfsBits (F : FloatFormat) : Nat := F.bias * 2 ^ F.mbits + 2 ^ (F.mbits - 1)

/-- One Newton update `y * (1.5 - ((x * 0.5) * y) * y)` in the arithmetic of the format. -/
def stepF (F : FloatFormat) (x y : Nat) : Nat :=
  F.fmul y (F.fsub F.threeHalfsBits (F.fmul (F.fmul (F.fmul x F.halfBits) y) y))

end FloatFormat

/-! ## Comparison, division and integer conversions -/

namespace FloatFormat

/-- Exponent and significand fields of a pattern, as one number. -/
def magOf (F : FloatFormat) (b : Nat) : Nat := b % 2 ^ (F.ebits + F.mbits)

/-- Place of a pattern that is not a NaN in the order of the values: the magnitude fields,
negated for sign bit `1`.  Both zeros have place `0`. -/
def ordKey (F : FloatFormat) (b : Nat) : Int :=
  if F.signOf b = 0 then (F.magOf b : Int) else -(F.magOf b : Int)

/-- The C comparison `a < b`: false when an operand is a NaN. -/
def lt (F : FloatFormat) (a b : Nat) : Bool :=
  !F.isNaN a && !F.isNaN b && decide (F.ordKey a < F.ordKey b)

/-- The C comparison `a <= b`: false when an operand is a NaN. -/
def le (F : FloatFormat) (a b : Nat) : Bool :=
  !F.isNaN a && !F.isNaN b && decide (F.ordKey a ≤ F.ordKey b)

/-- Conversion of an unsigned integer to the format, round to nearest even. -/
def ofNat (F : FloatFormat) (n : Nat) : Nat :=
  F.roundPack 0 n (F.bias + F.mbits) (F.bias + F.mbits)

/-- IEEE-754 division, round to nearest even.  The quotient of the significands is taken with
`2 * mbits + 3` extra binary digits and a sticky digit for the remainder. -/
def fdiv (F : FloatFormat) (a b : Nat) : Nat :=
  let s := (F.signOf a + F.signOf b) % 2
  if F.isNaN a || F.isNaN b then F.nanBits
  else if F.isInf a then
    if F.isInf b then F.nanBits else F.infBits s
  else if F.isInf b then F.zeroBits s
  else if F.isZero b then
    if F.isZero a then F.nanBits else F.infBits s
  else
    let sh := 2 * F.mbits + 3
    let Q := F.sigOf a * 2 ^ sh / F.sigOf b
    let R := F.sigOf a * 2 ^ sh % F.sigOf b
    F.roundPack s (2 * Q + (if R = 0 then 0 else 1)) (F.qOf a + F.bias)
      (F.qOf b + sh + 1 + F.bias)

/-- Conversion to an unsigned integer of `w` bits: the fractional part is discarded.  The
conversion is undefined (`none`) for a NaN, an infinity and a value whose integral part is
negative or not below `2 ^ w`. -/
def toUInt (F : FloatFormat) (w b : Nat) : Option Nat :=
  if F.isNaN b || F.isInf b then none
  else
    let v := F.sigOf b * 2 ^ F.qOf b / 2 ^ (F.bias + F.mbits)
    if F.signOf b = 0 then (if v < 2 ^ w then some v else none)
    else (if v = 0 then some 0 else none)

end FloatFormat

/-- `a / b` on `double`. -/
def divd (a b : Nat) : Nat := binary64.fdiv a b

/-- `pow(2, n)` for an integer `n ≥ 0` in range: the power of two itself. -/
def pow_2 (n : Nat) : Nat := binary64.ofNat (2 ^ n)

/-- The constant `DBL_MAX`. -/
def DBL_MAX : Nat := 0x7FEFFFFFFFFFFFFF

/-! ## The calibration search of `magicnumber.c`

The body of the candidate loop computes `maxError` from the candidate `c` alone (it is reset
to `0.0` and `conv` is overwritten for every sample), so the search is modelled over the
function `E` that gives the pattern of `maxError` for each candidate. -/

/-- The variables `minMaxError` and `minMaxC`. -/
structure Best where
  minMaxError : Nat
  minMaxC : Nat
deriving DecidableEq, Repr

/-- The statement `if (maxError < minMaxError) { minMaxError = maxError; minMaxC = c; }`. -/
def Best.update (E : Nat → Nat) (b : Best) (c : Nat) : Best :=
  if binary64.lt (E c) b.minMaxError then ⟨E c, c⟩ else b

/-- Record of one round of the `while (delta > 0)` loop: the window and step of the round,
`minMaxError` and `minMaxC` at its start, the candidates for which the body ran, in order, and
`minMaxError` and `minMaxC` at its end. -/
structure Round where
  minC : Nat
  maxC : Nat
  delta : Nat
  start : Best
  cands : List Nat
  best : Best
deriving DecidableEq, Repr

/-- Result of a search: the returned `minMaxError` and `minMaxC`, and the rounds. -/
structure Search where
  best : Best
  rounds : List Round
deriving DecidableEq, Repr

/-- The loop `for (c = minC; c < maxC; c += delta)` on an unsigned type of `w` bits, with fuel.
Returns `minMaxError`, `minMaxC` and the candidates visited. -/
def candLoop (w : Nat) (E : Nat → Nat) (maxC delta : Nat) :
    Nat → Nat → Best → List Nat → Option (Best × List Nat)
  | 0, _, _, _ => none
  | fuel + 1, c, b, tr =>
    if c < maxC then
      candLoop w E maxC delta fuel ((c + delta) % 2 ^ w) (b.update E c) (tr ++ [c])
    else some (b, tr)

/-- The loop `while (delta > 0)` with its window update
`minC = minMaxC - delta; maxC = minMaxC + delta; delta = delta >> 4;`, with fuel `fuel` for the
rounds and `ifuel` for the candidate loop of each round. -/
def searchLoop (w : Nat) (E : Nat → Nat) (ifuel : Nat) :
    Nat → Nat → Nat → Nat → Best → List Round → Option Search
  | 0, _, _, _, _, _ => none
  | fuel + 1, minC, maxC, delta, b, rs =>
    if 0 < delta then
      match candLoop w E maxC delta ifuel minC b [] with
      | none => none
      | some (b1, cs) =>
        searchLoop w E ifuel fuel ((b1.minMaxC + 2 ^ w - delta) % 2 ^ w)
          ((b1.minMaxC + delta) % 2 ^ w) (delta >>> 4) b1
          (rs ++ [⟨minC, maxC, delta, b, cs, b1⟩])
    else some ⟨b, rs⟩

/-- `magicnumber_flt`: the search on `uint32_t` from the window `[0x5F300000, 0x5F400000)` with
step `0x10000`. -/
def magicnumber_flt (fuel : Nat) (E : Nat → Nat) : Option Search :=
  searchLoop 32 E fuel fuel 0x5F300000 0x5F400000 0x10000 ⟨DBL_MAX, 0⟩ []

/-- The value `init_dbl` of `magicnumber_dbl` for the result `c32` of `magicnumber_flt`:
`sigma = 127 - c32 / (1.5 * pow(2, 23))`, `init_dbl = 1.5 * pow(2, 52) * (1023 - sigma)`. -/
def init_dbl (c32 : Nat) : Nat :=
  let sigma := subd (binary64.ofNat 127)
    (divd (binary64.ofNat c32) (muld threehalfs_d (pow_2 23)))
  muld (muld threehalfs_d (pow_2 52)) (subd (binary64.ofNat 1023) sigma)

/-- `magicnumber_dbl`: the search on `uint64_t` from the window
`[(uint64_t)init_dbl - 2^32, (uint64_t)init_dbl)` with step `2^28`. -/
def magicnumber_dbl (fuel : Nat) (E32 E64 : Nat → Nat) : Option Search :=
  match magicnumber_flt fuel E32 with
  | none => none
  | some s32 =>
    match binary64.toUInt 64 (init_dbl s32.best.minMaxC) with
    | none => none
    | some i =>
      let minC := sub64 i (2 ^ 32)
      let maxC := (minC + 2 ^ 32) % 2 ^ 64
      searchLoop 64 E64 fuel fuel minC maxC (2 ^ 28) ⟨DBL_MAX, 0⟩ []

/-! ## The rounds of the search in closed form -/

/-- Candidates of the round that follows a round with step `δ` that ended with `minMaxC = c`:
`c - δ, c - δ + δ/16, ...` (32 of them) when the window `[c - δ, c + δ)` does not wrap, none
otherwise. -/
def windowCands (w c δ : Nat) : List Nat :=
  if δ ≤ c ∧ c + δ < 2 ^ w then List.range' (c - δ) 32 (δ / 16) else []

/-- The `n` rounds with steps `16 ^ (n - 1), ..., 16, 1` that follow a round with step `16 ^ n`
that ended with `b`. -/
def laterRounds (w : Nat) (E : Nat → Nat) : Nat → Best → List Round
  | 0, _ => []
  | n + 1, b =>
    ⟨(b.minMaxC + 2 ^ w - 16 ^ (n + 1)) % 2 ^ w, (b.minMaxC + 16 ^ (n + 1)) % 2 ^ w, 16 ^ n, b,
      windowCands w b.minMaxC (16 ^ (n + 1)),
      (windowCands w b.minMaxC (16 ^ (n + 1))).foldl (Best.update E) b⟩ ::
    laterRounds w E n ((windowCands w b.minMaxC (16 ^ (n + 1))).foldl (Best.update E) b)

/-- `minMaxError` and `minMaxC` after the rounds `laterRounds w E n b`. -/
def laterBest (w : Nat) (E : Nat → Nat) : Nat → Best → Best
  | 0, b => b
  | n + 1, b =>
    laterBest w E n ((windowCands w b.minMaxC (16 ^ (n + 1))).foldl (Best.update E) b)

/-- `minMaxError` and `minMaxC` after the first round, from the window `[minC, minC + 16 * δ)`
with step `δ`. -/
def firstBest (E : Nat → Nat) (minC δ : Nat) : Best :=
  (List.range' minC 16 δ).foldl (Best.update E) ⟨DBL_MAX, 0⟩

/-- All rounds of a search from the window `[minC, minC + 16 ^ (n + 1))` with step `16 ^ n`. -/
def searchRounds (w : Nat) (E : Nat → Nat) (minC n : Nat) : List Round :=
  ⟨minC, minC + 16 ^ (n + 1), 16 ^ n, ⟨DBL_MAX, 0⟩, List.range' minC 16 (16 ^ n),
    firstBest E minC (16 ^ n)⟩ :: laterRounds w E n (firstBest E minC (16 ^ n))

/-! ## The framework program: `parser.c` -/

/-- A call either returns a value or ends the process by `exit(status)`; `stderr` holds what
the call wrote to the standard error stream, in order. -/
inductive Outcome (α : Type) where
  | ret (a : α)
  | exit (status : Nat) (stderr : List String)
deriving DecidableEq, Repr

/-- The constant `EXIT_FAILURE`. -/
def EXIT_FAILURE : Nat := 1

/-- The constant `ERANGE`. -/
def ERANGE : Nat := 34

/-- The string `usage_msg`. -/
def usage_msg : String :=
  "Usage: ./main [options] file_name      Calculate Fast Inverse Square Root of floating point numbers read from the file file_name given by the user\n" ++
  "or:    ./main [options] x1 x2 ...      Calculate Fast Inverse Square Root of an arbitrary amount of floating point numbers x1, x2, ... given by the user in terminal\n" ++
  "or:    ./main -t                       Run tests and exit\n" ++
  "or:    ./main -h                       Show help message and exit\n" ++
  "or:    ./main --help                   Show help message and exit\n" ++
  "Example: ./main -V1 1.0 100.0 caculates Fast Inverse Square Root of 1.0 and 100.0 respectively using function version 1\n"

/-- The line of the string `help_msg` on the option `-V`. -/
def help_msg_V : String :=
  "  -V X     The Fast Inverse Squareroot function version, one of \x7b0, 1, 2\x7d (default: X = 0)\n"

/-- The kernels a `Func` of the table `versions` can hold. -/
inductive Func where
  | fastInvSqrt_flt
  | fastInvSqrt_flt_V1
  | fastInvSqrt_dbl
  | fastInvSqrt_dbl_V1
deriving DecidableEq, Repr

/-- The kernel a `Func` stands for. -/
def Func.run : Func → Nat → List Nat → List Nat → Option KState
  | .fastInvSqrt_flt => InvSqrt.fastInvSqrt_flt
  | .fastInvSqrt_flt_V1 => InvSqrt.fastInvSqrt_flt_V1
  | .fastInvSqrt_dbl => InvSqrt.fastInvSqrt_dbl
  | .fastInvSqrt_dbl_V1 => InvSqrt.fastInvSqrt_dbl_V1

/-- `struct Version`. -/
structure Version where
  name : String
  fn : Func
deriving DecidableEq, Repr

/-- The look-up table `versions[][2]`. -/
def versions : List (List Version) :=
  [[⟨"0", .fastInvSqrt_flt⟩, ⟨"1", .fastInvSqrt_flt_V1⟩],
   [⟨"0", .fastInvSqrt_dbl⟩, ⟨"1", .fastInvSqrt_dbl_V1⟩]]

/-- The loop of `get_version` over the row `versions[db]`, from index `i`. -/
def get_version_loop (version_name : String) : List Version → Outcome Func
  | [] =>
    .exit EXIT_FAILURE
      ["The given function version -V" ++ version_name ++ " is invalid.\n", usage_msg]
  | ver :: rest =>
    if ver.name = version_name then .ret ver.fn else get_version_loop version_name rest

/-- `get_version`.  The index `db` is `0` or `1`; for another index the access to `versions`
is undefined (`none`). -/
def get_version (db : Nat) (version_name : String) : Option (Outcome Func) :=
  match versions.get? db with
  | none => none
  | some row => some (get_version_loop version_name row)

/-- What a call `strtof(s, &endptr)` or `strtod(s, &endptr)` does: the pattern of the value
returned, the number of characters consumed (`endptr - s`), and whether the call sets `errno`
to `ERANGE`. -/
structure Strto where
  value : Nat
  consumed : Nat
  erange : Bool
deriving DecidableEq, Repr

/-- The character `*endptr` of the C string `s` after `consumed` characters
(`NUL` at the end of the string). -/
def charAt (s : String) (consumed : Nat) : Char := s.toList.getD consumed (Char.ofNat 0)

/-- One of the two `while (optind < argc)` loops of `readTerminal`, over the remaining
arguments, for the format `F` with conversion function `strto`. -/
def readTerminal_loop (F : FloatFormat) (typeName : String) (strto : String → Strto) :
    List String → List Nat → Outcome (List Nat)
  | [], vals => .ret vals
  | arg :: rest, vals =>
    let r := strto arg
    if r.consumed = 0 ∨ charAt arg r.consumed ≠ Char.ofNat 0 then
      .exit EXIT_FAILURE [arg ++ " could not be converted to " ++ typeName ++ "\n", usage_msg]
    else if r.erange then
      .exit EXIT_FAILURE [arg ++ " over- or underflows " ++ typeName ++ "\n", usage_msg]
    else if F.le r.value 0 then
      .exit EXIT_FAILURE [arg ++ " is not positive\n", usage_msg]
    else readTerminal_loop F typeName strto rest (vals ++ [r.value])

/-- `readTerminal` on the positional arguments `args` (`argv[optind], ..., argv[argc - 1]`),
with `malloc` succeeding.  Returns the array of the patterns read. -/
def readTerminal (db : Nat) (strtof strtod : String → Strto) (args : List String) :
    Outcome (List Nat) :=
  if db = 0 then readTerminal_loop binary32 "float" strtof args []
  else readTerminal_loop binary64 "double" strtod args []

/-- One of the two `while (fgets(line, sizeof(line), file))` loops of `readFile`, over the
remaining lines as `fgets` delivers them, with the current value of `errno` (which `readFile`
does not reset).  `none` is the return value `NULL`. -/
def readFile_loop (F : FloatFormat) (strto : String → Strto) :
    List String → Nat → List Nat → Option (List Nat)
  | [], _, vals => some vals
  | line :: rest, errno, vals =>
    let r := strto line
    let errno1 := if r.erange then ERANGE else errno
    if r.consumed = 0 ∨
        (charAt line r.consumed ≠ Char.ofNat 10 ∧ charAt line r.consumed ≠ Char.ofNat 0) then
      none
    else if errno1 = ERANGE then none
    else if F.le r.value 0 then none
    else readFile_loop F strto rest errno1 (vals ++ [r.value])

/-- `readFile` on the lines of the file, with `malloc` and `fopen` succeeding and `errno` the
value of `errno` at the call. -/
def readFile (db : Nat) (strtof strtod : String → Strto) (lines : List String) (errno : Nat) :
    Option (List Nat) :=
  if db = 0 then readFile_loop binary32 strtof lines errno []
  else readFile_loop binary64 strtod lines errno []

/-! ## The sample loops of `magicnumber.c` -/

/-- The loop `for (m = 0; m < bound; m += stride)` over the samples of one candidate, on
`w`-bit unsigned integers, with fuel: `conv.x = base + m` is the sample, `relErr` gives the
pattern of `relativeError` for it, and
`maxError = relativeError > maxError ? relativeError : maxError`.  Returns the final `maxError`
and the samples in the order they were evaluated. -/
def sampleLoop (w base bound stride : Nat) (relErr : Nat → Nat) :
    Nat → Nat → Nat → List Nat → Option (Nat × List Nat)
  | 0, _, _, _ => none
  | fuel + 1, m, maxError, xs =>
    if m < bound then
      let conv_x := (base + m) % 2 ^ w
      let relativeError := relErr conv_x
      let maxError := if binary64.lt maxError relativeError then relativeError else maxError
      sampleLoop w base bound stride relErr fuel ((m + stride) % 2 ^ w) maxError
        (xs ++ [conv_x])
    else some (maxError, xs)

/-- The sample loop of `magicnumber_flt` for the candidate `c`:
`maxError = 0.0; for (uint32_t m = 0; m < (1 << 24); m++) { conv.x = 0x3F000000 + m; ... }`,
with `relErr c x` the pattern of `relativeError` for the candidate `c` and the sample `x`. -/
def samples_flt (fuel : Nat) (relErr : Nat → Nat → Nat) (c : Nat) : Option (Nat × List Nat) :=
  sampleLoop 32 0x3F000000 (1 <<< 24) 1 (relErr c) fuel 0 0 []

/-- The sample loop of `magicnumber_dbl` for the candidate `c`:
`maxError = 0.0; for (uint64_t m = 0; m < mantissa * 2; m += 1llu << 28)
{ conv.x = 0x3FE * mantissa + m; ... }` with `mantissa = 1llu << 52`. -/
def samples_dbl (fuel : Nat) (relErr : Nat → Nat → Nat) (c : Nat) : Option (Nat × List Nat) :=
  let mantissa := 1 <<< 52
  sampleLoop 64 ((0x3FE * mantissa) % 2 ^ 64) ((mantissa * 2) % 2 ^ 64) (1 <<< 28) (relErr c)
    fuel 0 0 []

/-- The value of `maxError` after the samples `xs`, from `e`. -/
def maxErrorOver (relErr : Nat → Nat) (xs : List Nat) (e : Nat) : Nat :=
  xs.foldl (fun e x => if binary64.lt e (relErr x) then relErr x else e) e

/-! ## The prior of `magicnumber_dbl` over an arbitrary arithmetic -/

/-- The two source expressions `sigma = 127 - c32 / (1.5 * pow(2, 23))` and
`init_dbl = 1.5 * pow(2, 52) * (1023 - sigma)` over an arbitrary arithmetic, `c` being the
converted result of `magicnumber_flt`. -/
def initDblWith {α : Type} (mul sub div : α → α → α) (threehalfs pow23 pow52 n127 n1023 c : α) :
    α :=
  let sigma := sub n127 (div c (mul threehalfs pow23))
  mul (mul threehalfs pow52) (sub n1023 sigma)

/-- The prior in exact rational arithmetic. -/
def init_dbl_exact (c32 : Nat) : ℚ :=
  initDblWith (· * ·) (· - ·) (· / ·) (3 / 2) (2 ^ 23) (2 ^ 52) 127 1023 (c32 : ℚ)

/-! ## The benchmark run of `main.c` and `execute` -/

/-- What a call `strtol(s, &endptr, 10)` does: the value returned (a `long`, 64 bits), the
number of characters consumed, and whether the call sets `errno` to `ERANGE`. -/
structure Strtol where
  value : Int
  consumed : Nat
  erange : Bool
deriving DecidableEq, Repr

/-- Conversion of a `long` to `int` (32 bits), as it happens when `main` passes `loop` to the
parameter `int loop` of `execute`: reduction modulo `2^32` to `[-2^31, 2^31)`. -/
def longToInt (x : Int) : Int := (x + 2 ^ 31) % 2 ^ 32 - 2 ^ 31

/-- The treatment of the argument `optarg` of `-B` in `main`, with `errno` the value of `errno`
before the call of `strtol`: the new value of `loop`, or the error exit. -/
def parse_B (strtol : String → Strtol) (optarg : String) (errno : Nat) : Outcome Int :=
  let r := strtol optarg
  let errno1 := if r.erange then ERANGE else errno
  let loop := r.value
  if r.consumed = 0 ∨ charAt optarg r.consumed ≠ Char.ofNat 0 then
    .exit EXIT_FAILURE [optarg ++ " could not be converted to long\n", usage_msg]
  else if errno1 = ERANGE then
    .exit EXIT_FAILURE [optarg ++ " over- or underflows long\n", usage_msg]
  else if loop ≤ 0 then
    .exit EXIT_FAILURE
      ["Number of iterations " ++ toString loop ++ " is not greater than 0\n", usage_msg]
  else .ret loop

/-- The loop `for (long i = 0; i < loop; i++) fun.fn_flt(n, vals, out);` of `execute`, with
fuel.  Returns the output array and the number of calls of the kernel. -/
def execute_loop (fn : Func) (n : Nat) (vals : List Nat) (loop : Int) :
    Nat → Int → List Nat → Nat → Option (List Nat × Nat)
  | 0, _, _, _ => none
  | fuel + 1, i, out, calls =>
    if i < loop then
      match fn.run n vals out with
      | none => none
      | some st => execute_loop fn n vals loop fuel (i + 1) st.out (calls + 1)
    else some (out, calls)

/-- What `execute` prints and does: the input array and the output array as printed, and the
number of calls of the kernel. -/
structure Executed where
  printedIn : List Nat
  printedOut : List Nat
  calls : Nat
deriving DecidableEq, Repr

/-- `execute`, called from `main` with the `long` value `loop`, which the call converts to the
parameter `int loop`; `malloc` succeeds and `out0` is the content of the fresh output array. -/
def execute (db : Nat) (version_name : String) (n : Nat) (vals : List Nat) (loop : Int)
    (out0 : List Nat) (fuel : Nat) : Option (Outcome Executed) :=
  match get_version db version_name with
  | none => none
  | some (.exit status stderr) => some (.exit status stderr)
  | some (.ret fn) =>
    match execute_loop fn n vals (longToInt loop) fuel 0 out0 0 with
    | none => none
    | some (out, calls) => some (.ret ⟨vals, out, calls⟩)

/-! ## The loops of `benchmarkAccuracy_flt` in `tests.c` -/

/-- The loop `for (conv.x = 0x00800000; conv.x < 0x7f800000; conv.x++)` of the scalar and the
double-Newton benchmark, from `conv.x = x`, with fuel: each iteration stores `conv.f` to
`sample[0]` and calls the kernel with `n = 1`.  Returns the array `sample` and the inputs of
the calls, in order. -/
def benchScalar_loop :
    Nat → Nat → List Nat → List (List Nat) → Option (List Nat × List (List Nat))
  | 0, _, _, _ => none
  | fuel + 1, x, sample, calls =>
    if x < 0x7f800000 then
      let sample := sample.set 0 x
      benchScalar_loop fuel ((x + 1) % 2 ^ 32) sample (calls ++ [sample.take 1])
    else some (sample, calls)

/-- The inner loop `for (size_t i = 0; i < 4; i++) { sample[i] = conv.f; conv.x++; }`. -/
def benchFill (x : Nat) (sample : List Nat) : Nat × List Nat :=
  (List.range 4).foldl (fun (p : Nat × List Nat) i => ((p.1 + 1) % 2 ^ 32, p.2.set i p.1))
    (x, sample)

/-- The loop `for (conv.x = 0x00800000; conv.x + 4 < 0x7f800000; conv.x++)` of the SIMD
benchmark, from `conv.x = x`, with fuel: each iteration fills `sample` by the inner loop and
calls the kernel with `n = 4`.  Returns the array `sample` and the inputs of the calls, in
order. -/
def benchSimd_loop :
    Nat → Nat → List Nat → List (List Nat) → Option (List Nat × List (List Nat))
  | 0, _, _, _ => none
  | fuel + 1, x, sample, calls =>
    if (x + 4) % 2 ^ 32 < 0x7f800000 then
      let p := benchFill x sample
      benchSimd_loop fuel ((p.1 + 1) % 2 ^ 32) p.2 (calls ++ [p.2.take 4])
    else some (sample, calls)

/-- The inputs that the three loops of `benchmarkAccuracy_flt` pass to `fastInvSqrt_flt_V1`,
to `fastInvSqrt_flt_DoubleNewton` and to `fastInvSqrt_flt`. -/
structure Bench where
  scalar : List (List Nat)
  doubleNewton : List (List Nat)
  simd : List (List Nat)
deriving DecidableEq, Repr

/-- `benchmarkAccuracy_flt`, with `malloc` succeeding and `sample0` the content of the fresh
array `sample` of four floats. -/
def benchmarkAccuracy_flt (fuel : Nat) (sample0 : List Nat) : Option Bench :=
  match benchScalar_loop fuel 0x00800000 sample0 [] with
  | none => none
  | some (s1, c1) =>
    match benchScalar_loop fuel 0x00800000 s1 [] with
    | none => none
    | some (s2, c2) =>
      match benchSimd_loop fuel 0x00800000 s2 [] with
      | none => none
      | some (_, c3) => some ⟨c1, c2, c3⟩

/-! ## The error measure of `magicnumber.c` -/

namespace FloatFormat

/-- IEEE-754 square root, round to nearest even.  The root of the significand is taken with
`mbits + 2` extra binary digits and a sticky digit for the remainder.  The root of a zero is
that zero, the root of a negative number is a NaN. -/
def fsqrt (F : FloatFormat) (a : Nat) : Nat :=
  if F.isNaN a then F.nanBits
  else if F.isZero a then a
  else if F.signOf a = 1 then F.nanBits
  else if F.isInf a then a
  else
    let j := F.mbits + 2
    let M := F.sigOf a * 2 ^ (F.qOf a + F.bias + F.mbits + 2 * j)
    let R := Nat.sqrt M
    F.roundPack 0 (2 * R + (if R * R = M then 0 else 1)) 0 (F.bias + F.mbits + j + 1)

/-- The function `fabs`: the sign bit is cleared. -/
def fabs (F : FloatFormat) (a : Nat) : Nat := a % 2 ^ (F.ebits + F.mbits)

/-- The magnitude of the pattern `b` is at most that of the pattern of `2 ^ K`. -/
def magLe (F : FloatFormat) (b K : Nat) : Prop := F.magOf b ≤ (K + F.bias) * 2 ^ F.mbits

end FloatFormat

/-- Conversion of a `float` to `double`; it is exact.  A NaN becomes the canonical NaN. -/
def toDouble (a : Nat) : Nat :=
  if binary32.isNaN a then binary64.nanBits
  else if binary32.isInf a then binary64.infBits (binary32.signOf a)
  else
    binary64.roundPack (binary32.signOf a) (binary32.sigOf a)
      (binary32.qOf a + (binary64.bias + binary64.mbits - (binary32.bias + binary32.mbits)))
      (binary64.bias + binary64.mbits)

/-- The literal `1.0`. -/
def one_d : Nat := 0x3FF0000000000000
/-- The literal `100.0`. -/
def hundred_d : Nat := 0x4059000000000000

/-- Body of the sample loop of `magicnumber_flt` for the candidate `c` and the sample
`conv.x = conv_x`: the pattern of `relativeError`.  The product `conv.f * 0.5L` is exact in
`long double`, and its conversion to `float` rounds `conv.f / 2` once, as the `float` product
with `0.5f` does.  `sqrt` is taken on `double`, and `reference * y - 1.0` is evaluated in
`double` after the conversion of `y`. -/
def relativeError_flt (c conv_x : Nat) : Nat :=
  let xhalf := mulf conv_x half_f
  let reference := binary64.fsqrt (toDouble conv_x)
  let conv_x := sub32 c (conv_x >>> 1)
  let y := conv_x
  let y := mulf y (subf threehalfs_f (mulf (mulf xhalf y) y))
  muld (binary64.fabs (subd (muld reference (toDouble y)) one_d)) hundred_d

/-- Body of the sample loop of `magicnumber_dbl` for the candidate `c` and the sample
`conv.x = conv_x`: the pattern of `relativeError`. -/
def relativeError_dbl (c conv_x : Nat) : Nat :=
  let xhalf := muld conv_x half_d
  let reference := binary64.fsqrt conv_x
  let conv_x := sub64 c (conv_x >>> 1)
  let y := conv_x
  let y := muld y (subd threehalfs_d (muld (muld xhalf y) y))
  muld (binary64.fabs (subd (muld reference y) one_d)) hundred_d

/-- The value of `maxError` that the sample loop of `magicnumber_flt` leaves for the
candidate `c`. -/
def maxError_flt (fuel c : Nat) : Option Nat :=
  (samples_flt fuel relativeError_flt c).map Prod.fst

/-- The value of `maxError` that the sample loop of `magicnumber_dbl` leaves for the
candidate `c`. -/
def maxError_dbl (fuel c : Nat) : Option Nat :=
  (samples_dbl fuel relativeError_dbl c).map Prod.fst

/-! ## Arrays and loops: general facts -/

theorem writeAt_length (vs : List Nat) : ∀ (l : List Nat) (j : Nat), (writeAt l j vs).length = l.length := by
  induction vs with
  | nil => intro l j; rfl
  | cons v vs ih => intro l j; simp [writeAt, ih]

theorem writeAt_getD (vs : List Nat) : ∀ (l : List Nat) (j i : Nat),
    (writeAt l j vs).getD i 0 =
      if j ≤ i ∧ i < j + vs.length ∧ i < l.length then vs.getD (i - j) 0 else l.getD i 0 := by
  induction vs with
  | nil => intro l j i; simp only [writeAt, List.length_nil]; rw [if_neg (by omega)]
  | cons v vs ih =>
    intro l j i
    simp only [writeAt, ih, List.length_set, List.length_cons]
    by_cases h1 : j + 1 ≤ i ∧ i < j + 1 + vs.length ∧ i < l.length
    · have h2 : j ≤ i ∧ i < j + (vs.length + 1) ∧ i < l.length := by omega
      rw [if_pos h1, if_pos h2]
      have : i - j = (i - (j + 1)) + 1 := by omega
      rw [this, List.getD_cons_succ]
    · rw [if_neg h1]
      by_cases h3 : i = j ∧ j < l.length
      · obtain ⟨rfl, h4⟩ := h3
        rw [if_pos (by omega)]
        simp [List.getD_eq_getElem?_getD, List.getElem?_set, h4]
      · have h2 : ¬ (j ≤ i ∧ i < j + (vs.length + 1) ∧ i < l.length) := by omega
        rw [if_neg h2]
        simp only [List.getD_eq_getElem?_getD, List.getElem?_set]
        by_cases h5 : j = i
        · subst h5
          have : l.length ≤ j := by omega
          have h6 : ¬ j < l.length := by omega
          simp [List.getElem?_eq_none this, h6]
        · simp [h5]

theorem fillOut_length (out : List Nat) (j len : Nat) (g : Nat → Nat) (vals : List Nat) :
    (fillOut out j len g vals).length = out.length := by
  simp [fillOut]

theorem fillOut_getD (out : List Nat) (j len : Nat) (g : Nat → Nat) (vals : List Nat) (i : Nat) :
    (fillOut out j len g vals).getD i 0 =
      if j ≤ i ∧ i < j + len ∧ i < out.length then g (vals.getD i 0) else out.getD i 0 := by
  unfold fillOut
  by_cases hi : i < out.length
  · simp [List.getD_eq_getElem?_getD, List.getElem?_map, List.getElem?_range hi, hi]
  · have h1 : out.length ≤ i := by omega
    have h2 : ¬ (j ≤ i ∧ i < j + len ∧ i < out.length) := by omega
    rw [if_neg h2]
    have h3 : (List.range out.length)[i]? = none := List.getElem?_eq_none (by simpa using h1)
    simp [List.getD_eq_getElem?_getD, List.getElem?_eq_none h1, h3]

theorem list_ext_getD (l1 l2 : List Nat) (hl : l1.length = l2.length)
    (h : ∀ i, i < l1.length → l1.getD i 0 = l2.getD i 0) : l1 = l2 := by
  apply List.ext_getElem hl
  intro i h1 h2
  have := h i h1
  simpa [List.getD_eq_getElem?_getD, List.getElem?_eq_getElem h1, List.getElem?_eq_getElem h2] using this

theorem fillOut_zero (out : List Nat) (j : Nat) (g : Nat → Nat) (vals : List Nat) :
    fillOut out j 0 g vals = out := by
  apply list_ext_getD _ _ (fillOut_length _ _ _ _ _)
  intro i _
  rw [fillOut_getD, if_neg (by omega)]

/-- The loop `for (; j < bound; j += w)` whose body stores `g` of the `w` input slots from `j`
on runs exactly `k` times when `bound = j + w * k`, and fills exactly the slots in between. -/
theorem forLoop_store (g : Nat → Nat) (w : Nat) (hw : 0 < w) (vals : List Nat)
    (body : Nat → KState → KState)
    (hbody : ∀ j st, body j st = st.store j ((List.range w).map fun t => g (vals.getD (j + t) 0))) :
    ∀ (k fuel j : Nat) (st : KState), j + w * k < 2 ^ 64 → k < fuel →
      forLoop (j + w * k) w body fuel j st =
        some (j + w * k, ⟨fillOut st.out j (w * k) g vals,
          st.trace ++ (List.range k).map fun t => (j + w * t, w)⟩) := by
  intro k
  induction k with
  | zero =>
    intro fuel j st _ hf
    obtain ⟨fuel, rfl⟩ : ∃ f, fuel = f + 1 := ⟨fuel - 1, by omega⟩
    simp [forLoop, fillOut_zero]
  | succ k ih =>
    intro fuel j st hj hf
    obtain ⟨fuel, rfl⟩ : ∃ f, fuel = f + 1 := ⟨fuel - 1, by omega⟩
    have hlt : j < j + w * (k + 1) := by
      have : w ≤ w * (k + 1) := Nat.le_mul_of_pos_right w (by omega)
      omega
    have hexp : w * (k + 1) = w + w * k := by ring
    have hadd : addSize j w = j + w := by
      unfold addSize
      apply Nat.mod_eq_of_lt
      have : 0 ≤ w * k := Nat.zero_le _
      omega
    have hb : j + w * (k + 1) = (j + w) + w * k := by omega
    rw [forLoop, if_pos hlt, hadd, hb, ih fuel (j + w) (body j st) (by omega) (by omega)]
    rw [hexp]
    congr 2
    refine congrArg₂ KState.mk ?_ ?_
    · apply list_ext_getD
      · simp [fillOut_length, hbody, KState.store, writeAt_length]
      · intro i _
        simp only [fillOut_getD, hbody, KState.store, writeAt_getD, writeAt_length,
          List.length_map, List.length_range]
        by_cases h1 : j + w ≤ i ∧ i < j + w + w * k ∧ i < st.out.length
        · have h4 : j ≤ i ∧ i < j + (w + w * k) ∧ i < st.out.length := by omega
          rw [if_pos h1, if_pos h4]
        · rw [if_neg h1]
          by_cases h2 : j ≤ i ∧ i < j + w ∧ i < st.out.length
          · have h4 : j ≤ i ∧ i < j + (w + w * k) ∧ i < st.out.length := by omega
            rw [if_pos h2, if_pos h4]
            have h3 : i - j < w := by omega
            have h5 : j + (i - j) = i := by omega
            simp [List.getD_eq_getElem?_getD, List.getElem?_map, List.getElem?_range h3, h5]
          · have h4 : ¬ (j ≤ i ∧ i < j + (w + w * k) ∧ i < st.out.length) := by omega
            rw [if_neg h2, if_neg h4]
    · simp only [hbody, KState.store, List.length_map, List.length_range, List.append_assoc]
      congr 1
      rw [List.range_succ_eq_map]
      simp only [List.map_cons, List.map_map, Nat.mul_zero, Nat.add_zero, List.singleton_append]
      congr 1
      apply List.map_congr_left
      intro t _
      simp only [Function.comp, Nat.succ_eq_add_one, Nat.mul_add, Nat.mul_one]
      congr 1
      omega

theorem fillOut_full (out vals : List Nat) (g : Nat → Nat) (n : Nat)
    (hv : vals.length = n) (ho : out.length = n) : fillOut out 0 n g vals = vals.map g := by
  apply list_ext_getD
  · simp [fillOut_length, hv, ho]
  · intro i hi
    rw [fillOut_length] at hi
    rw [fillOut_getD, if_pos (by omega)]
    have h1 : i < vals.length := by omega
    simp [List.getD_eq_getElem?_getD, List.getElem?_map, List.getElem?_eq_getElem h1]

/-- A kernel that is one scalar loop storing `g vals[j]` to `out[j]`. -/
theorem scalar_kernel (g : Nat → Nat) (vals out : List Nat) (n : Nat)
    (body : Nat → KState → KState)
    (hbody : ∀ j st, body j st = st.store j [g (vals.getD j 0)])
    (hn : n < 2 ^ 64) (hv : vals.length = n) (ho : out.length = n) :
    (forLoop n 1 body (n + 1) 0 ⟨out, []⟩).map Prod.snd = some ⟨vals.map g, scalarTrace n⟩ := by
  have h := forLoop_store g 1 (by decide) vals body (by intro j st; rw [hbody]; rfl) n (n + 1) 0
    ⟨out, []⟩ (by omega) (by omega)
  simp only [Nat.zero_add, Nat.one_mul, List.nil_append] at h
  rw [h]
  simp [fillOut_full out vals g n hv ho, scalarTrace]

theorem fastInvSqrt_flt_V1_run (n : Nat) (vals out : List Nat)
    (hn : n < 2 ^ 64) (hv : vals.length = n) (ho : out.length = n) :
    fastInvSqrt_flt_V1 n vals out =
      some ⟨vals.map fun x => step_flt x (bitApprox_flt x), scalarTrace n⟩ :=
  scalar_kernel _ vals out n _ (fun _ _ => rfl) hn hv ho

theorem fastInvSqrt_flt_DoubleNewton_run (n : Nat) (vals out : List Nat)
    (hn : n < 2 ^ 64) (hv : vals.length = n) (ho : out.length = n) :
    fastInvSqrt_flt_DoubleNewton n vals out =
      some ⟨vals.map fun x => step_flt x (step_flt x (bitApprox_flt x)), scalarTrace n⟩ :=
  scalar_kernel _ vals out n _ (fun _ _ => rfl) hn hv ho

theorem fastInvSqrt_dbl_V1_run (n : Nat) (vals out : List Nat)
    (hn : n < 2 ^ 64) (hv : vals.length = n) (ho : out.length = n) :
    fastInvSqrt_dbl_V1 n vals out =
      some ⟨vals.map fun x => step_dbl x (bitApprox_dbl x), scalarTrace n⟩ :=
  scalar_kernel _ vals out n _ (fun _ _ => rfl) hn hv ho

theorem fastInvSqrt_dbl_DoubleNewton_run (n : Nat) (vals out : List Nat)
    (hn : n < 2 ^ 64) (hv : vals.length = n) (ho : out.length = n) :
    fastInvSqrt_dbl_DoubleNewton n vals out =
      some ⟨vals.map fun x => step_dbl x (step_dbl x (bitApprox_dbl x)), scalarTrace n⟩ :=
  scalar_kernel _ vals out n _ (fun _ _ => rfl) hn hv ho

theorem land_mask (n a : Nat) (hn : n < 2 ^ 64) (ha : a ≤ 64) :
    n &&& (2 ^ 64 - 2 ^ a) = 2 ^ a * (n / 2 ^ a) := by
  apply Nat.eq_of_testBit_eq
  intro i
  have hm : 2 ^ 64 - 2 ^ a = 2 ^ a * (2 ^ (64 - a) - 1) := by
    rw [Nat.mul_sub, ← pow_add, Nat.mul_one]
    congr 2
    omega
  rw [Nat.testBit_and, hm, Nat.testBit_mul_pow_two, Nat.testBit_mul_pow_two,
    Nat.testBit_two_pow_sub_one, ← Nat.shiftRight_eq_div_pow, Nat.testBit_shiftRight]
  by_cases h1 : a ≤ i
  · have h2 : a + (i - a) = i := by omega
    by_cases h3 : i < 64
    · have : i - a < 64 - a := by omega
      simp [h1, h2, this]
    · have : ¬ i - a < 64 - a := by omega
      have h4 : n.testBit i = false :=
        Nat.testBit_lt_two_pow (lt_of_lt_of_le hn (Nat.pow_le_pow_right (by decide) (by omega)))
      simp [h1, h2, this, h4]
  · simp [h1]

theorem getD_lt_of_forall (vals : List Nat) (B : Nat) (hB : 0 < B) (h : ∀ x ∈ vals, x < B) (i : Nat) :
    vals.getD i 0 < B := by
  by_cases hi : i < vals.length
  · rw [List.getD_eq_getElem _ _ hi]; exact h _ (List.getElem_mem hi)
  · rw [List.getD_eq_default _ _ (by omega)]; exact hB

theorem lane32_eq (x : Nat) (hx : x < 2 ^ 32) :
    sub32 (0x5F375A86 % 2 ^ 32) ((x % 2 ^ 32) >>> 1) = bitApprox_flt x := by
  rw [Nat.mod_eq_of_lt hx]; rfl

theorem lane64_eq (x : Nat) (hx : x < 2 ^ 64) :
    sub64 (0x5FE6EB50C7B537A9 % 2 ^ 64) ((x % 2 ^ 64) >>> 1) = bitApprox_dbl x := by
  rw [Nat.mod_eq_of_lt hx]; rfl

theorem body_flt_vec_eq (vals : List Nat) (hb : ∀ x ∈ vals, x < 2 ^ 32) (j : Nat) (st : KState) :
    body_flt_vec vals j st =
      st.store j ((List.range 4).map fun t =>
        (fun x => lane_flt x (bitApprox_flt x)) (vals.getD (j + t) 0)) := by
  have h := fun i => lane32_eq _ (getD_lt_of_forall vals (2 ^ 32) (by decide) hb i)
  have hr : List.range 4 = [0, 1, 2, 3] := by decide
  simp only [body_flt_vec, _mm_store_ps, _mm_mul_ps, _mm_sub_ps, _mm_sub_epi32, _mm_srli_epi32,
    _mm_set1_ps, _mm_set1_epi32, _mm_loadu_ps, M128.map2, h, hr, List.map_cons, List.map_nil,
    Nat.add_zero, lane_flt, newtonLaneWith]

theorem body_dbl_vec_eq (vals : List Nat) (hb : ∀ x ∈ vals, x < 2 ^ 64) (j : Nat) (st : KState) :
    body_dbl_vec vals j st =
      st.store j ((List.range 2).map fun t =>
        (fun x => lane_dbl x (bitApprox_dbl x)) (vals.getD (j + t) 0)) := by
  have h := fun i => lane64_eq _ (getD_lt_of_forall vals (2 ^ 64) (by decide) hb i)
  have hr : List.range 2 = [0, 1] := by decide
  simp only [body_dbl_vec, _mm_store_pd, _mm_mul_pd, _mm_sub_pd, _mm_sub_epi64, _mm_srli_epi64,
    _mm_set1_pd, _mm_set1_epi64x, _mm_loadu_pd, M128d.map2, h, hr, List.map_cons, List.map_nil,
    Nat.add_zero, lane_dbl, newtonLaneWith]

/-- A kernel made of a vector loop of width `w = 2 ^ a` storing `gv` of each lane, followed by
a scalar loop storing `gs`. -/
theorem simd_kernel (gv gs : Nat → Nat) (a : Nat) (ha : a ≤ 64) (vals out : List Nat) (n : Nat)
    (bodyv bodys : Nat → KState → KState)
    (hv : ∀ j st, bodyv j st =
      st.store j ((List.range (2 ^ a)).map fun t => gv (vals.getD (j + t) 0)))
    (hs : ∀ j st, bodys j st = st.store j [gs (vals.getD j 0)])
    (hn : n < 2 ^ 64) (hlv : vals.length = n) (hlo : out.length = n) :
    (match forLoop (n &&& (2 ^ 64 - 2 ^ a)) (2 ^ a) bodyv (n + 1) 0 ⟨out, []⟩ with
      | none => none
      | some (j, st) => (forLoop n 1 bodys (n + 1) j st).map Prod.snd) =
    some ⟨(List.range n).map fun i =>
        if i < 2 ^ a * (n / 2 ^ a) then gv (vals.getD i 0) else gs (vals.getD i 0),
      simdTrace (2 ^ a) n⟩ := by
  have hw : 0 < 2 ^ a := Nat.two_pow_pos a
  have hdm : 2 ^ a * (n / 2 ^ a) + n % 2 ^ a = n := Nat.div_add_mod n (2 ^ a)
  have hk : n / 2 ^ a ≤ n := Nat.div_le_self _ _
  have h1 := forLoop_store gv (2 ^ a) hw vals bodyv hv (n / 2 ^ a) (n + 1) 0 ⟨out, []⟩
    (by omega) (by omega)
  simp only [Nat.zero_add, List.nil_append] at h1
  rw [land_mask n a hn ha, h1]
  simp only
  have h2 := forLoop_store gs 1 (by decide) vals bodys (by intro j st; rw [hs]; rfl)
    (n % 2 ^ a) (n + 1) (2 ^ a * (n / 2 ^ a))
    ⟨fillOut out 0 (2 ^ a * (n / 2 ^ a)) gv vals, (List.range (n / 2 ^ a)).map fun t => (2 ^ a * t, 2 ^ a)⟩
    (by omega) (by have := Nat.mod_le n (2 ^ a); omega)
  simp only [Nat.one_mul] at h2
  rw [hdm] at h2
  rw [h2]
  simp only [Option.map_some', simdTrace, Option.some.injEq]
  refine congrArg₂ KState.mk ?_ rfl
  apply list_ext_getD
  · simp [fillOut_length, hlo]
  · intro i hi
    simp only [fillOut_length] at hi
    simp only [fillOut_getD, fillOut_length, Nat.zero_le, true_and, Nat.zero_add]
    have hi2 : i < n := by omega
    have hg : ((List.range n).map fun i =>
        if i < 2 ^ a * (n / 2 ^ a) then gv (vals.getD i 0) else gs (vals.getD i 0)).getD i 0 =
        if i < 2 ^ a * (n / 2 ^ a) then gv (vals.getD i 0) else gs (vals.getD i 0) := by
      simp [List.getD_eq_getElem?_getD, List.getElem?_map, List.getElem?_range hi2]
    rw [hg]
    by_cases h3 : i < 2 ^ a * (n / 2 ^ a)
    · rw [if_neg (by omega), if_pos ⟨h3, hi⟩, if_pos h3]
    · rw [if_pos (by omega), if_neg h3]

theorem fastInvSqrt_flt_run (n : Nat) (vals out : List Nat)
    (hn : n < 2 ^ 64) (hv : vals.length = n) (ho : out.length = n)
    (hb : ∀ x ∈ vals, x < 2 ^ 32) :
    fastInvSqrt_flt n vals out =
      some ⟨(List.range n).map fun i =>
          if i < 4 * (n / 4) then lane_flt (vals.getD i 0) (bitApprox_flt (vals.getD i 0))
          else step_flt (vals.getD i 0) (bitApprox_flt (vals.getD i 0)),
        simdTrace 4 n⟩ :=
  simd_kernel (fun x => lane_flt x (bitApprox_flt x)) (fun x => step_flt x (bitApprox_flt x)) 2
    (by decide) vals out n _ _ (body_flt_vec_eq vals hb) (fun _ _ => rfl) hn hv ho

theorem fastInvSqrt_dbl_run (n : Nat) (vals out : List Nat)
    (hn : n < 2 ^ 64) (hv : vals.length = n) (ho : out.length = n)
    (hb : ∀ x ∈ vals, x < 2 ^ 64) :
    fastInvSqrt_dbl n vals out =
      some ⟨(List.range n).map fun i =>
          if i < 2 * (n / 2) then lane_dbl (vals.getD i 0) (bitApprox_dbl (vals.getD i 0))
          else step_dbl (vals.getD i 0) (bitApprox_dbl (vals.getD i 0)),
        simdTrace 2 n⟩ :=
  simd_kernel (fun x => lane_dbl x (bitApprox_dbl x)) (fun x => step_dbl x (bitApprox_dbl x)) 1
    (by decide) vals out n _ _ (body_dbl_vec_eq vals hb) (fun _ _ => rfl) hn hv ho

theorem writtenIndices_append (a b : List (Nat × Nat)) :
    writtenIndices (a ++ b) = writtenIndices a ++ writtenIndices b := by
  simp [writtenIndices]

theorem writtenIndices_blocks (w : Nat) : ∀ (k j : Nat),
    writtenIndices ((List.range k).map fun t => (j + w * t, w)) = List.range' j (w * k) := by
  intro k
  induction k with
  | zero => intro j; simp [writtenIndices]
  | succ k ih =>
    intro j
    rw [List.range_succ, List.map_append, writtenIndices_append, ih]
    simp only [List.map_cons, List.map_nil, writtenIndices, List.flatMap_cons, List.flatMap_nil,
      List.append_nil]
    rw [Nat.mul_succ, List.range'_append_1, Nat.add_comm]

theorem writtenIndices_scalarTrace (n : Nat) : writtenIndices (scalarTrace n) = List.range n := by
  have h := writtenIndices_blocks 1 n 0
  simp only [Nat.zero_add, Nat.one_mul] at h
  rw [scalarTrace, h, List.range_eq_range']

theorem writtenIndices_simdTrace (w n : Nat) : writtenIndices (simdTrace w n) = List.range n := by
  have h1 := writtenIndices_blocks w (n / w) 0
  have h2 := writtenIndices_blocks 1 (n % w) (w * (n / w))
  simp only [Nat.zero_add, Nat.one_mul] at h1 h2
  have h3 := List.range'_append_1 0 (w * (n / w)) (n % w)
  rw [Nat.zero_add, Nat.mod_add_div] at h3
  rw [simdTrace, writtenIndices_append, h1, h2, List.range_eq_range', h3]

set_option maxRecDepth 100000

/-! ## Claims -/

/-- C2: on the input `[1.0f, 4.0f, 9.0f, 16.0f]` the vector loop of `fastInvSqrt_flt` writes
`0x3EAA78CA` for `9.0f` where `fastInvSqrt_flt_V1` writes `0x3EAA78C9`, and on `[7.0, 1.0]`
`fastInvSqrt_dbl` writes `0x3FD82809A34CA0BB` for `7.0` where `fastInvSqrt_dbl_V1` writes
`0x3FD82809A34CA0BA`: the vector loops multiply `xhalf * (y * y)`, the scalar loops
`(xhalf * y) * y`. -/
theorem C2_simd_differs_from_scalar :
    (fastInvSqrt_flt 4 [0x3F800000, 0x40800000, 0x41100000, 0x41800000] [0, 0, 0, 0]).map
        KState.out = some [0x3F7F911F, 0x3EFF911F, 0x3EAA78CA, 0x3E7F911F] ∧
    (fastInvSqrt_flt_V1 4 [0x3F800000, 0x40800000, 0x41100000, 0x41800000] [0, 0, 0, 0]).map
        KState.out = some [0x3F7F911F, 0x3EFF911F, 0x3EAA78C9, 0x3E7F911F] ∧
    (fastInvSqrt_dbl 2 [0x401C000000000000, 0x3FF0000000000000] [0, 0]).map KState.out =
      some [0x3FD82809A34CA0BB, 0x3FEFF223EB08E346] ∧
    (fastInvSqrt_dbl_V1 2 [0x401C000000000000, 0x3FF0000000000000] [0, 0]).map KState.out =
      some [0x3FD82809A34CA0BA, 0x3FEFF223EB08E346] := by
  refine ⟨?_, ?_, ?_, ?_⟩ <;> decide

theorem getD_range_map (n : Nat) (f : Nat → Nat) (i : Nat) (hi : i < n) :
    ((List.range n).map f).getD i 0 = f i := by
  simp [List.getD_eq_getElem?_getD, List.getElem?_map, List.getElem?_range hi]

/-- C3: for every length `n` and input array, the output of `fastInvSqrt_flt` at each index
`i ≥ 4 * (n / 4)` equals the output of `fastInvSqrt_flt_V1` run on the one-element array
`[vals[i]]`, and the output of `fastInvSqrt_dbl` at each index `k ≥ 2 * (m / 2)` equals that of
`fastInvSqrt_dbl_V1` on `[dvals[k]]`.  For `[1.0f, 4.0f, 9.0f, 16.0f, 25.0f]` the fifth output
is the one `fastInvSqrt_flt_V1` gives for `[25.0f]`. -/
theorem C3_remainder_equals_scalar (n : Nat) (vals out : List Nat) (hn : n < 2 ^ 64)
    (hv : vals.length = n) (ho : out.length = n) (hb : ∀ x ∈ vals, x < 2 ^ 32)
    (i : Nat) (hi : 4 * (n / 4) ≤ i) (hin : i < n) (o : Nat)
    (m : Nat) (dvals dout : List Nat) (hm : m < 2 ^ 64)
    (hdv : dvals.length = m) (hdo : dout.length = m) (hdb : ∀ x ∈ dvals, x < 2 ^ 64)
    (k : Nat) (hk : 2 * (m / 2) ≤ k) (hkm : k < m) (p : Nat) :
    (∃ st st1, fastInvSqrt_flt n vals out = some st ∧
      fastInvSqrt_flt_V1 1 [vals.getD i 0] [o] = some st1 ∧
      st.out.getD i 0 = st1.out.getD 0 0) ∧
    (∃ st st1, fastInvSqrt_dbl m dvals dout = some st ∧
      fastInvSqrt_dbl_V1 1 [dvals.getD k 0] [p] = some st1 ∧
      st.out.getD k 0 = st1.out.getD 0 0) ∧
    (∃ st st1,
      fastInvSqrt_flt 5 [0x3F800000, 0x40800000, 0x41100000, 0x41800000, 0x41C80000]
        [0, 0, 0, 0, 0] = some st ∧
      fastInvSqrt_flt_V1 1 [0x41C80000] [0] = some st1 ∧
      st.out.getD 4 0 = st1.out.getD 0 0) := by
  refine ⟨⟨_, _, fastInvSqrt_flt_run n vals out hn hv ho hb,
      fastInvSqrt_flt_V1_run 1 _ _ (by decide) rfl rfl, ?_⟩,
    ⟨_, _, fastInvSqrt_dbl_run m dvals dout hm hdv hdo hdb,
      fastInvSqrt_dbl_V1_run 1 _ _ (by decide) rfl rfl, ?_⟩,
    ⟨_, _, fastInvSqrt_flt_run 5 _ _ (by decide) rfl rfl (by decide),
      fastInvSqrt_flt_V1_run 1 _ _ (by decide) rfl rfl, ?_⟩⟩
  · simp only [getD_range_map n _ i hin]
    rw [if_neg (by omega)]
    rfl
  · simp only [getD_range_map m _ k hkm]
    rw [if_neg (by omega)]
    rfl
  · simp only [getD_range_map 5 _ 4 (by decide)]
    rfl

/-- C3 at `n = 5`, index `4`, and at `m = 3`, index `2`. -/
theorem C3_remainder_equals_scalar_witness :
    ((5 : Nat) < 2 ^ 64 ∧ 4 * (5 / 4) ≤ 4 ∧ 4 < 5 ∧ 2 * (3 / 2) ≤ 2 ∧ 2 < 3) ∧
    (∃ st st1,
      fastInvSqrt_flt 5 [0x3F800000, 0x40800000, 0x41100000, 0x41800000, 0x41C80000]
        [0, 0, 0, 0, 0] = some st ∧
      fastInvSqrt_flt_V1 1
        [[0x3F800000, 0x40800000, 0x41100000, 0x41800000, 0x41C80000].getD 4 0] [7] = some st1 ∧
      st.out.getD 4 0 = st1.out.getD 0 0) ∧
    (∃ st st1,
      fastInvSqrt_dbl 3 [0x3FF0000000000000, 0x4010000000000000, 0x4022000000000000]
        [0, 0, 0] = some st ∧
      fastInvSqrt_dbl_V1 1
        [[0x3FF0000000000000, 0x4010000000000000, 0x4022000000000000].getD 2 0] [7] = some st1 ∧
      st.out.getD 2 0 = st1.out.getD 0 0) :=
  ⟨by decide,
    (C3_remainder_equals_scalar 5 [0x3F800000, 0x40800000, 0x41100000, 0x41800000, 0x41C80000]
      [0, 0, 0, 0, 0] (by decide) rfl rfl (by decide) 4 (by decide) (by decide) 7
      3 [0x3FF0000000000000, 0x4010000000000000, 0x4022000000000000] [0, 0, 0] (by decide) rfl rfl
      (by decide) 2 (by decide) (by decide) 7).1,
    (C3_remainder_equals_scalar 5 [0x3F800000, 0x40800000, 0x41100000, 0x41800000, 0x41C80000]
      [0, 0, 0, 0, 0] (by decide) rfl rfl (by decide) 4 (by decide) (by decide) 7
      3 [0x3FF0000000000000, 0x4010000000000000, 0x4022000000000000] [0, 0, 0] (by decide) rfl rfl
      (by decide) 2 (by decide) (by decide) 7).2.1⟩

/-- The two loops of a vector kernel of width `w = 2 ^ a`, one after the other. -/
theorem simd_loops (gv gs : Nat → Nat) (a : Nat) (ha : a ≤ 64) (vals out : List Nat) (n : Nat)
    (bodyv bodys : Nat → KState → KState)
    (hv : ∀ j st, bodyv j st =
      st.store j ((List.range (2 ^ a)).map fun t => gv (vals.getD (j + t) 0)))
    (hs : ∀ j st, bodys j st = st.store j [gs (vals.getD j 0)])
    (hn : n < 2 ^ 64) :
    ∃ st1 st2,
      forLoop (n &&& (2 ^ 64 - 2 ^ a)) (2 ^ a) bodyv (n + 1) 0 ⟨out, []⟩ =
        some (2 ^ a * (n / 2 ^ a), st1) ∧
      st1.trace = (List.range (n / 2 ^ a)).map (fun t => (2 ^ a * t, 2 ^ a)) ∧
      forLoop n 1 bodys (n + 1) (2 ^ a * (n / 2 ^ a)) st1 = some (n, st2) ∧
      st2.trace = st1.trace ++ (List.range (n % 2 ^ a)).map fun t => (2 ^ a * (n / 2 ^ a) + t, 1) := by
  have hw : 0 < 2 ^ a := Nat.two_pow_pos a
  have hdm : 2 ^ a * (n / 2 ^ a) + n % 2 ^ a = n := Nat.div_add_mod n (2 ^ a)
  have hk : n / 2 ^ a ≤ n := Nat.div_le_self _ _
  have h1 := forLoop_store gv (2 ^ a) hw vals bodyv hv (n / 2 ^ a) (n + 1) 0 ⟨out, []⟩
    (by omega) (by omega)
  simp only [Nat.zero_add, List.nil_append] at h1
  have h2 := forLoop_store gs 1 (by decide) vals bodys (by intro j st; rw [hs]; rfl)
    (n % 2 ^ a) (n + 1) (2 ^ a * (n / 2 ^ a))
    ⟨fillOut out 0 (2 ^ a * (n / 2 ^ a)) gv vals, (List.range (n / 2 ^ a)).map fun t => (2 ^ a * t, 2 ^ a)⟩
    (by omega) (by have := Nat.mod_le n (2 ^ a); omega)
  simp only [Nat.one_mul] at h2
  rw [hdm] at h2
  exact ⟨_, _, by rw [land_mask n a hn ha, h1], rfl, h2, rfl⟩

/-- C4: for every length `n < 2^64` the vector loop of `fastInvSqrt_flt` has bound
`n & ~3 = 4 * (n / 4)`, runs exactly `n / 4` iterations (at `j = 0, 4, 8, ...`) which write
exactly the indices below `4 * (n / 4)`, and the scalar loop then runs exactly `n % 4 < 4`
iterations, at the indices `4 * (n / 4), ..., n - 1`, from the state the vector loop left; the
state after the scalar loop is the one `fastInvSqrt_flt` returns, so the stores of the kernel
are those of the two loops.  Likewise `fastInvSqrt_dbl` with `n & ~1`, `n / 2` vector
iterations and `n % 2` scalar ones. -/
theorem C4_loop_partition (n : Nat) (vals out : List Nat) (hn : n < 2 ^ 64)
    (hb : ∀ x ∈ vals, x < 2 ^ 32) (dvals dout : List Nat) (hdb : ∀ x ∈ dvals, x < 2 ^ 64) :
    (n &&& (2 ^ 64 - 4) = 4 * (n / 4) ∧ n % 4 < 4 ∧
      ∃ st1 st2,
        forLoop (n &&& (2 ^ 64 - 4)) 4 (body_flt_vec vals) (n + 1) 0 ⟨out, []⟩ =
          some (4 * (n / 4), st1) ∧
        st1.trace = (List.range (n / 4)).map (fun t => (4 * t, 4)) ∧
        st1.trace.length = n / 4 ∧
        writtenIndices st1.trace = List.range (4 * (n / 4)) ∧
        forLoop n 1 (body_flt_rem vals) (n + 1) (4 * (n / 4)) st1 = some (n, st2) ∧
        fastInvSqrt_flt n vals out = some st2 ∧
        st2.trace = st1.trace ++ (List.range (n % 4)).map (fun t => (4 * (n / 4) + t, 1)) ∧
        (st2.trace.drop (n / 4)).length = n % 4 ∧
        writtenIndices (st2.trace.drop (n / 4)) = List.range' (4 * (n / 4)) (n % 4)) ∧
    (n &&& (2 ^ 64 - 2) = 2 * (n / 2) ∧ n % 2 < 2 ∧
      ∃ st1 st2,
        forLoop (n &&& (2 ^ 64 - 2)) 2 (body_dbl_vec dvals) (n + 1) 0 ⟨dout, []⟩ =
          some (2 * (n / 2), st1) ∧
        st1.trace = (List.range (n / 2)).map (fun t => (2 * t, 2)) ∧
        st1.trace.length = n / 2 ∧
        writtenIndices st1.trace = List.range (2 * (n / 2)) ∧
        forLoop n 1 (body_dbl_rem dvals) (n + 1) (2 * (n / 2)) st1 = some (n, st2) ∧
        fastInvSqrt_dbl n dvals dout = some st2 ∧
        st2.trace = st1.trace ++ (List.range (n % 2)).map (fun t => (2 * (n / 2) + t, 1)) ∧
        (st2.trace.drop (n / 2)).length = n % 2 ∧
        writtenIndices (st2.trace.drop (n / 2)) = List.range' (2 * (n / 2)) (n % 2)) := by
  constructor
  · obtain ⟨st1, st2, h1, h2, h3, h4⟩ := simd_loops (fun x => lane_flt x (bitApprox_flt x))
      (fun x => step_flt x (bitApprox_flt x)) 2 (by decide) vals out n _ _
      (body_flt_vec_eq vals hb) (fun _ _ => rfl) hn
    simp only [show (2 : Nat) ^ 2 = 4 from rfl] at h1 h2 h3 h4
    have hv := writtenIndices_blocks 4 (n / 4) 0
    have hs := writtenIndices_blocks 1 (n % 4) (4 * (n / 4))
    simp only [Nat.zero_add, Nat.one_mul] at hv hs
    have hd : st2.trace.drop (n / 4) =
        (List.range (n % 4)).map (fun t => (4 * (n / 4) + t, 1)) := by
      rw [h4, List.drop_left' (by simp [h2])]
    have hk : fastInvSqrt_flt n vals out = some st2 := by
      have h3' : forLoop n 1 (body_flt_rem vals) (n + 1) (4 * (n / 4)) st1 = some (n, st2) := h3
      unfold fastInvSqrt_flt
      rw [h1]
      simp only [h3', Option.map_some']
    refine ⟨land_mask n 2 hn (by decide), Nat.mod_lt _ (by decide), st1, st2, h1, h2, ?_, ?_, h3,
      hk, h4, ?_, ?_⟩
    · simp [h2]
    · rw [h2, hv, List.range_eq_range']
    · simp [hd]
    · rw [hd, hs]
  · obtain ⟨st1, st2, h1, h2, h3, h4⟩ := simd_loops (fun x => lane_dbl x (bitApprox_dbl x))
      (fun x => step_dbl x (bitApprox_dbl x)) 1 (by decide) dvals dout n _ _
      (body_dbl_vec_eq dvals hdb) (fun _ _ => rfl) hn
    simp only [show (2 : Nat) ^ 1 = 2 from rfl] at h1 h2 h3 h4
    have hv := writtenIndices_blocks 2 (n / 2) 0
    have hs := writtenIndices_blocks 1 (n % 2) (2 * (n / 2))
    simp only [Nat.zero_add, Nat.one_mul] at hv hs
    have hd : st2.trace.drop (n / 2) =
        (List.range (n % 2)).map (fun t => (2 * (n / 2) + t, 1)) := by
      rw [h4, List.drop_left' (by simp [h2])]
    have hk : fastInvSqrt_dbl n dvals dout = some st2 := by
      have h3' : forLoop n 1 (body_dbl_rem dvals) (n + 1) (2 * (n / 2)) st1 = some (n, st2) := h3
      unfold fastInvSqrt_dbl
      rw [h1]
      simp only [h3', Option.map_some']
    refine ⟨land_mask n 1 hn (by decide), Nat.mod_lt _ (by decide), st1, st2, h1, h2, ?_, ?_, h3,
      hk, h4, ?_, ?_⟩
    · simp [h2]
    · rw [h2, hv, List.range_eq_range']
    · simp [hd]
    · rw [hd, hs]

/-- C4 at `n = 7` (one vector iteration and three scalar ones for `float`, three vector
iterations and one scalar one for `double`). -/
theorem C4_loop_partition_witness :
    ((7 : Nat) < 2 ^ 64) ∧
    ((7 : Nat) &&& (2 ^ 64 - 4) = 4 * (7 / 4) ∧ 7 % 4 < 4 ∧
      ∃ st1 st2,
        forLoop (7 &&& (2 ^ 64 - 4)) 4 (body_flt_vec [1, 2, 3, 4, 5, 6, 7]) (7 + 1) 0 ⟨[0, 0, 0, 0, 0, 0, 0], []⟩ =
          some (4 * (7 / 4), st1) ∧
        st1.trace = (List.range (7 / 4)).map (fun t => (4 * t, 4)) ∧
        st1.trace.length = 7 / 4 ∧
        writtenIndices st1.trace = List.range (4 * (7 / 4)) ∧
        forLoop 7 1 (body_flt_rem [1, 2, 3, 4, 5, 6, 7]) (7 + 1) (4 * (7 / 4)) st1 = some (7, st2) ∧
        fastInvSqrt_flt 7 [1, 2, 3, 4, 5, 6, 7] [0, 0, 0, 0, 0, 0, 0] = some st2 ∧
        st2.trace = st1.trace ++ (List.range (7 % 4)).map (fun t => (4 * (7 / 4) + t, 1)) ∧
        (st2.trace.drop (7 / 4)).length = 7 % 4 ∧
        writtenIndices (st2.trace.drop (7 / 4)) = List.range' (4 * (7 / 4)) (7 % 4)) ∧
    ((7 : Nat) &&& (2 ^ 64 - 2) = 2 * (7 / 2) ∧ 7 % 2 < 2 ∧
      ∃ st1 st2,
        forLoop (7 &&& (2 ^ 64 - 2)) 2 (body_dbl_vec [1, 2, 3, 4, 5, 6, 7]) (7 + 1) 0 ⟨[0, 0, 0, 0, 0, 0, 0], []⟩ =
          some (2 * (7 / 2), st1) ∧
        st1.trace = (List.range (7 / 2)).map (fun t => (2 * t, 2)) ∧
        st1.trace.length = 7 / 2 ∧
        writtenIndices st1.trace = List.range (2 * (7 / 2)) ∧
        forLoop 7 1 (body_dbl_rem [1, 2, 3, 4, 5, 6, 7]) (7 + 1) (2 * (7 / 2)) st1 = some (7, st2) ∧
        fastInvSqrt_dbl 7 [1, 2, 3, 4, 5, 6, 7] [0, 0, 0, 0, 0, 0, 0] = some st2 ∧
        st2.trace = st1.trace ++ (List.range (7 % 2)).map (fun t => (2 * (7 / 2) + t, 1)) ∧
        (st2.trace.drop (7 / 2)).length = 7 % 2 ∧
        writtenIndices (st2.trace.drop (7 / 2)) = List.range' (2 * (7 / 2)) (7 % 2)) :=
  ⟨by decide,
    C4_loop_partition 7 [1, 2, 3, 4, 5, 6, 7] [0, 0, 0, 0, 0, 0, 0] (by decide) (by decide)
      [1, 2, 3, 4, 5, 6, 7] [0, 0, 0, 0, 0, 0, 0] (by decide)⟩

/-- Every kernel returns (with the fuel it supplies), stores to each index `0, ..., n - 1`
exactly once and in increasing order, to no other index, and keeps the length of `out`; the
value stored at `i` is computed from `vals[i]`. -/
theorem kernels_frame (n : Nat) (vals out : List Nat) (hn : n < 2 ^ 64) (hv : vals.length = n)
    (ho : out.length = n) (hb : ∀ x ∈ vals, x < 2 ^ 32) (hd : ∀ x ∈ vals, x < 2 ^ 64) :
    (∃ st, fastInvSqrt_flt_V1 n vals out = some st ∧ writtenIndices st.trace = List.range n ∧
      st.out = vals.map fun x => step_flt x (bitApprox_flt x)) ∧
    (∃ st, fastInvSqrt_flt_DoubleNewton n vals out = some st ∧
      writtenIndices st.trace = List.range n ∧
      st.out = vals.map fun x => step_flt x (step_flt x (bitApprox_flt x))) ∧
    (∃ st, fastInvSqrt_flt n vals out = some st ∧ writtenIndices st.trace = List.range n ∧
      st.out = (List.range n).map fun i =>
        if i < 4 * (n / 4) then lane_flt (vals.getD i 0) (bitApprox_flt (vals.getD i 0))
        else step_flt (vals.getD i 0) (bitApprox_flt (vals.getD i 0))) ∧
    (∃ st, fastInvSqrt_dbl_V1 n vals out = some st ∧ writtenIndices st.trace = List.range n ∧
      st.out = vals.map fun x => step_dbl x (bitApprox_dbl x)) ∧
    (∃ st, fastInvSqrt_dbl_DoubleNewton n vals out = some st ∧
      writtenIndices st.trace = List.range n ∧
      st.out = vals.map fun x => step_dbl x (step_dbl x (bitApprox_dbl x))) ∧
    (∃ st, fastInvSqrt_dbl n vals out = some st ∧ writtenIndices st.trace = List.range n ∧
      st.out = (List.range n).map fun i =>
        if i < 2 * (n / 2) then lane_dbl (vals.getD i 0) (bitApprox_dbl (vals.getD i 0))
        else step_dbl (vals.getD i 0) (bitApprox_dbl (vals.getD i 0))) :=
  ⟨⟨_, fastInvSqrt_flt_V1_run n vals out hn hv ho, writtenIndices_scalarTrace n, rfl⟩,
    ⟨_, fastInvSqrt_flt_DoubleNewton_run n vals out hn hv ho, writtenIndices_scalarTrace n, rfl⟩,
    ⟨_, fastInvSqrt_flt_run n vals out hn hv ho hb, writtenIndices_simdTrace 4 n, rfl⟩,
    ⟨_, fastInvSqrt_dbl_V1_run n vals out hn hv ho, writtenIndices_scalarTrace n, rfl⟩,
    ⟨_, fastInvSqrt_dbl_DoubleNewton_run n vals out hn hv ho, writtenIndices_scalarTrace n, rfl⟩,
    ⟨_, fastInvSqrt_dbl_run n vals out hn hv ho hd, writtenIndices_simdTrace 2 n, rfl⟩⟩

/-- C5: `fastInvSqrt_flt` writes `0x3EAA78CA` at index 2 for the input
`[1.0f, 4.0f, 9.0f, 16.0f]` and `0x3EAA78C9` at index 2 for the input `[1.0f, 4.0f, 9.0f]`,
although `vals[2] = 9.0f` in both; `fastInvSqrt_dbl` writes `0x3FD82809A34CA0BB` at index 0 for
`[7.0, 1.0]` and `0x3FD82809A34CA0BA` for `[7.0]`.  So neither vector kernel computes
`map f vals` for one fixed `f`: the value written depends on whether the element falls in the
vector loop or in the scalar remainder loop. -/
theorem C5_simd_output_depends_on_position :
    (fastInvSqrt_flt 4 [0x3F800000, 0x40800000, 0x41100000, 0x41800000] [0, 0, 0, 0]).map
        (fun st => st.out.getD 2 0) = some 0x3EAA78CA ∧
    (fastInvSqrt_flt 3 [0x3F800000, 0x40800000, 0x41100000] [0, 0, 0]).map
        (fun st => st.out.getD 2 0) = some 0x3EAA78C9 ∧
    (fastInvSqrt_dbl 2 [0x401C000000000000, 0x3FF0000000000000] [0, 0]).map
        (fun st => st.out.getD 0 0) = some 0x3FD82809A34CA0BB ∧
    (fastInvSqrt_dbl 1 [0x401C000000000000] [0]).map
        (fun st => st.out.getD 0 0) = some 0x3FD82809A34CA0BA ∧
    (¬ ∃ f : Nat → Nat, ∀ (n : Nat) (vals out : List Nat), n < 2 ^ 64 → vals.length = n →
      out.length = n → (∀ x ∈ vals, x < 2 ^ 32) →
      (fastInvSqrt_flt n vals out).map KState.out = some (vals.map f)) ∧
    (¬ ∃ f : Nat → Nat, ∀ (n : Nat) (vals out : List Nat), n < 2 ^ 64 → vals.length = n →
      out.length = n → (∀ x ∈ vals, x < 2 ^ 64) →
      (fastInvSqrt_dbl n vals out).map KState.out = some (vals.map f)) := by
  have e1 : (fastInvSqrt_flt 4 [0x3F800000, 0x40800000, 0x41100000, 0x41800000] [0, 0, 0, 0]).map
      KState.out = some [0x3F7F911F, 0x3EFF911F, 0x3EAA78CA, 0x3E7F911F] := by decide
  have e2 : (fastInvSqrt_flt 3 [0x3F800000, 0x40800000, 0x41100000] [0, 0, 0]).map
      KState.out = some [0x3F7F911F, 0x3EFF911F, 0x3EAA78C9] := by decide
  have e3 : (fastInvSqrt_dbl 2 [0x401C000000000000, 0x3FF0000000000000] [0, 0]).map
      KState.out = some [0x3FD82809A34CA0BB, 0x3FEFF223EB08E346] := by decide
  have e4 : (fastInvSqrt_dbl 1 [0x401C000000000000] [0]).map
      KState.out = some [0x3FD82809A34CA0BA] := by decide
  refine ⟨by decide, by decide, by decide, by decide, ?_, ?_⟩
  · rintro ⟨f, hf⟩
    have h1 := hf 4 [0x3F800000, 0x40800000, 0x41100000, 0x41800000] [0, 0, 0, 0] (by decide) rfl
      rfl (by decide)
    have h2 := hf 3 [0x3F800000, 0x40800000, 0x41100000] [0, 0, 0] (by decide) rfl rfl
      (by decide)
    rw [e1] at h1
    rw [e2] at h2
    simp only [List.map_cons, List.map_nil, Option.some.injEq, List.cons.injEq, and_true] at h1 h2
    have := h1.2.2.1.trans h2.2.2.symm
    exact absurd this (by decide)
  · rintro ⟨f, hf⟩
    have h1 := hf 2 [0x401C000000000000, 0x3FF0000000000000] [0, 0] (by decide) rfl rfl
      (by decide)
    have h2 := hf 1 [0x401C000000000000] [0] (by decide) rfl rfl (by decide)
    rw [e3] at h1
    rw [e4] at h2
    simp only [List.map_cons, List.map_nil, Option.some.injEq, List.cons.injEq, and_true] at h1 h2
    have := h1.1.trans h2.symm
    exact absurd this (by decide)

theorem toRat_half_f : binary32.toRat half_f = 1 / 2 := by
  have h1 : binary32.signOf half_f = 0 := by decide
  have h2 : binary32.sigOf half_f = 8388608 := by decide
  have h3 : binary32.qOf half_f = 126 := by decide
  have h4 : binary32.bias = 127 := by decide
  simp only [FloatFormat.toRat, h1, h2, h3, h4]
  norm_num [binary32]

theorem toRat_threehalfs_f : binary32.toRat threehalfs_f = 3 / 2 := by
  have h1 : binary32.signOf threehalfs_f = 0 := by decide
  have h2 : binary32.sigOf threehalfs_f = 12582912 := by decide
  have h3 : binary32.qOf threehalfs_f = 127 := by decide
  have h4 : binary32.bias = 127 := by decide
  simp only [FloatFormat.toRat, h1, h2, h3, h4]
  norm_num [binary32]

theorem toRat_half_d : binary64.toRat half_d = 1 / 2 := by
  have h1 : binary64.signOf half_d = 0 := by decide
  have h2 : binary64.sigOf half_d = 4503599627370496 := by decide
  have h3 : binary64.qOf half_d = 1022 := by decide
  have h4 : binary64.bias = 1023 := by decide
  simp only [FloatFormat.toRat, h1, h2, h3, h4]
  norm_num [binary64]

theorem toRat_threehalfs_d : binary64.toRat threehalfs_d = 3 / 2 := by
  have h1 : binary64.signOf threehalfs_d = 0 := by decide
  have h2 : binary64.sigOf threehalfs_d = 6755399441055744 := by decide
  have h3 : binary64.qOf threehalfs_d = 1023 := by decide
  have h4 : binary64.bias = 1023 := by decide
  simp only [FloatFormat.toRat, h1, h2, h3, h4]
  norm_num [binary64]

/-- C6: every one-refinement kernel writes, for the input `x`, one Newton update of the raw
estimate `y0 = bitApprox x` (`newtonStepWith` in the scalar loops, `newtonLaneWith` in the
vector loops, taken with the `float` resp. `double` operations and the constants `0.5`, `1.5`).
In exact rational arithmetic both source expressions equal `y * (3/2 - 1/2 * x * y^2)`, and a
`y` with `x * y^2 = 1` is a fixed point. -/
theorem C6_one_newton_update (x y : ℚ) (hxy : x * y ^ 2 = 1) (n : Nat) (vals out : List Nat)
    (hn : n < 2 ^ 64) (hv : vals.length = n) (ho : out.length = n)
    (hb : ∀ b ∈ vals, b < 2 ^ 32) (dvals dout : List Nat) (hdv : dvals.length = n)
    (hdo : dout.length = n) (hdb : ∀ b ∈ dvals, b < 2 ^ 64) :
    (∀ u v : ℚ, newtonStepWith (· * ·) (· - ·) (1 / 2) (3 / 2) u v =
        v * (3 / 2 - 1 / 2 * u * v ^ 2) ∧
      newtonLaneWith (· * ·) (· - ·) (1 / 2) (3 / 2) u v = v * (3 / 2 - 1 / 2 * u * v ^ 2)) ∧
    newtonStepWith (· * ·) (· - ·) (1 / 2) (3 / 2) x y = y ∧
    newtonLaneWith (· * ·) (· - ·) (1 / 2) (3 / 2) x y = y ∧
    (binary32.toRat half_f = 1 / 2 ∧ binary32.toRat threehalfs_f = 3 / 2 ∧
      binary64.toRat half_d = 1 / 2 ∧ binary64.toRat threehalfs_d = 3 / 2) ∧
    (fastInvSqrt_flt_V1 n vals out).map KState.out =
      some (vals.map fun b => newtonStepWith mulf subf half_f threehalfs_f b (bitApprox_flt b)) ∧
    (fastInvSqrt_dbl_V1 n dvals dout).map KState.out =
      some (dvals.map fun b => newtonStepWith muld subd half_d threehalfs_d b (bitApprox_dbl b)) ∧
    (fastInvSqrt_flt n vals out).map KState.out =
      some ((List.range n).map fun i =>
        if i < 4 * (n / 4) then
          newtonLaneWith mulf subf half_f threehalfs_f (vals.getD i 0)
            (bitApprox_flt (vals.getD i 0))
        else
          newtonStepWith mulf subf half_f threehalfs_f (vals.getD i 0)
            (bitApprox_flt (vals.getD i 0))) ∧
    (fastInvSqrt_dbl n dvals dout).map KState.out =
      some ((List.range n).map fun i =>
        if i < 2 * (n / 2) then
          newtonLaneWith muld subd half_d threehalfs_d (dvals.getD i 0)
            (bitApprox_dbl (dvals.getD i 0))
        else
          newtonStepWith muld subd half_d threehalfs_d (dvals.getD i 0)
            (bitApprox_dbl (dvals.getD i 0))) := by
  have hstep : ∀ u v : ℚ, newtonStepWith (· * ·) (· - ·) (1 / 2) (3 / 2) u v =
      v * (3 / 2 - 1 / 2 * u * v ^ 2) := by
    intro u v; simp only [newtonStepWith]; ring
  have hlane : ∀ u v : ℚ, newtonLaneWith (· * ·) (· - ·) (1 / 2) (3 / 2) u v =
      v * (3 / 2 - 1 / 2 * u * v ^ 2) := by
    intro u v; simp only [newtonLaneWith]; ring
  have hfix : y * (3 / 2 - 1 / 2 * x * y ^ 2) = y := by
    have : y * (3 / 2 - 1 / 2 * x * y ^ 2) = y * (3 / 2 - 1 / 2 * (x * y ^ 2)) := by ring
    rw [this, hxy]; ring
  refine ⟨fun u v => ⟨hstep u v, hlane u v⟩, (hstep x y).trans hfix, (hlane x y).trans hfix,
    ⟨toRat_half_f, toRat_threehalfs_f, toRat_half_d, toRat_threehalfs_d⟩, ?_, ?_, ?_, ?_⟩
  · rw [fastInvSqrt_flt_V1_run n vals out hn hv ho]; rfl
  · rw [fastInvSqrt_dbl_V1_run n dvals dout hn hdv hdo]; rfl
  · rw [fastInvSqrt_flt_run n vals out hn hv ho hb]; rfl
  · rw [fastInvSqrt_dbl_run n dvals dout hn hdv hdo hdb]; rfl

/-- C6 at `x = 4`, `y = 1/2` and the arrays `[4.0f, 1.0f]`, `[4.0, 1.0]`. -/
theorem C6_one_newton_update_witness :
    ((4 : ℚ) * (1 / 2) ^ 2 = 1 ∧ (2 : Nat) < 2 ^ 64) ∧
    newtonStepWith (· * ·) (· - ·) (1 / 2) (3 / 2) (4 : ℚ) (1 / 2) = 1 / 2 ∧
    (fastInvSqrt_flt_V1 2 [0x40800000, 0x3F800000] [0, 0]).map KState.out =
      some ([0x40800000, 0x3F800000].map fun b =>
        newtonStepWith mulf subf half_f threehalfs_f b (bitApprox_flt b)) :=
  ⟨⟨by norm_num, by decide⟩,
    (C6_one_newton_update 4 (1 / 2) (by norm_num) 2 [0x40800000, 0x3F800000] [0, 0] (by decide)
      rfl rfl (by decide) [0x4010000000000000, 0x3FF0000000000000] [0, 0] rfl rfl
      (by decide)).2.1,
    (C6_one_newton_update 4 (1 / 2) (by norm_num) 2 [0x40800000, 0x3F800000] [0, 0] (by decide)
      rfl rfl (by decide) [0x4010000000000000, 0x3FF0000000000000] [0, 0] rfl rfl
      (by decide)).2.2.2.2.1⟩

theorem zipWith_map_self (f : Nat → Nat → Nat) (g : Nat → Nat) (l : List Nat) :
    List.zipWith f l (l.map g) = l.map fun x => f x (g x) := by
  induction l with
  | nil => rfl
  | cons a l ih => simp [ih]

/-- C7: for every input array the two-refinement kernel writes at every index one further
Newton update `step(x, y) = y * (1.5 - (x * 0.5) * y * y)`, with the same `x`, of what the
one-refinement kernel writes there, and both start from the same raw estimate `bitApprox x`;
for `float` and for `double`. -/
theorem C7_double_newton_is_step_of_V1 (n : Nat) (vals out out' : List Nat) (hn : n < 2 ^ 64)
    (hv : vals.length = n) (ho : out.length = n) (ho' : out'.length = n) :
    (∃ st1 st2, fastInvSqrt_flt_V1 n vals out = some st1 ∧
      fastInvSqrt_flt_DoubleNewton n vals out' = some st2 ∧
      st2.out = List.zipWith step_flt vals st1.out ∧
      st1.out = vals.map (fun x => step_flt x (bitApprox_flt x)) ∧
      st2.out = vals.map (fun x => step_flt x (step_flt x (bitApprox_flt x)))) ∧
    (∃ st1 st2, fastInvSqrt_dbl_V1 n vals out = some st1 ∧
      fastInvSqrt_dbl_DoubleNewton n vals out' = some st2 ∧
      st2.out = List.zipWith step_dbl vals st1.out ∧
      st1.out = vals.map (fun x => step_dbl x (bitApprox_dbl x)) ∧
      st2.out = vals.map (fun x => step_dbl x (step_dbl x (bitApprox_dbl x)))) ∧
    (∀ x y, step_flt x y = mulf y (subf threehalfs_f (mulf (mulf (mulf x half_f) y) y))) ∧
    (∀ x y, step_dbl x y = muld y (subd threehalfs_d (muld (muld (muld x half_d) y) y))) :=
  ⟨⟨_, _, fastInvSqrt_flt_V1_run n vals out hn hv ho,
      fastInvSqrt_flt_DoubleNewton_run n vals out' hn hv ho',
      (zipWith_map_self step_flt _ vals).symm, rfl, rfl⟩,
    ⟨_, _, fastInvSqrt_dbl_V1_run n vals out hn hv ho,
      fastInvSqrt_dbl_DoubleNewton_run n vals out' hn hv ho',
      (zipWith_map_self step_dbl _ vals).symm, rfl, rfl⟩,
    fun _ _ => rfl, fun _ _ => rfl⟩

/-- C7 on the arrays `[1.0f, 4.0f, 9.0f]`. -/
theorem C7_double_newton_is_step_of_V1_witness :
    ((3 : Nat) < 2 ^ 64) ∧
    (∃ st1 st2, fastInvSqrt_flt_V1 3 [0x3F800000, 0x40800000, 0x41100000] [0, 0, 0] = some st1 ∧
      fastInvSqrt_flt_DoubleNewton 3 [0x3F800000, 0x40800000, 0x41100000] [1, 2, 3] = some st2 ∧
      st2.out = List.zipWith step_flt [0x3F800000, 0x40800000, 0x41100000] st1.out ∧
      st1.out = [0x3F800000, 0x40800000, 0x41100000].map
        (fun x => step_flt x (bitApprox_flt x)) ∧
      st2.out = [0x3F800000, 0x40800000, 0x41100000].map
        (fun x => step_flt x (step_flt x (bitApprox_flt x)))) :=
  ⟨by decide,
    (C7_double_newton_is_step_of_V1 3 [0x3F800000, 0x40800000, 0x41100000] [0, 0, 0] [1, 2, 3]
      (by decide) rfl rfl rfl).1⟩

/-! ## Rounding error analysis of the Newton updates -/

set_option maxRecDepth 1000000
set_option exponentiation.threshold 100000

namespace FloatFormat

theorem bitLen_spec : ∀ (fuel n : Nat), n ≤ fuel → 0 < n →
    2 ^ (bitLen fuel n - 1) ≤ n ∧ n < 2 ^ bitLen fuel n := by
  intro fuel
  induction fuel with
  | zero => intro n h1 h2; omega
  | succ fuel ih =>
    intro n h1 h2
    rw [bitLen, if_neg (by omega)]
    by_cases h3 : n / 2 = 0
    · have h4 : n = 1 := by omega
      subst h4
      cases fuel <;> simp [bitLen]
    · have h5 := ih (n / 2) (by omega) (by omega)
      obtain ⟨h6, h7⟩ := h5
      have h8 : 0 < bitLen fuel (n / 2) := by
        rcases Nat.eq_zero_or_pos (bitLen fuel (n / 2)) with h | h
        · rw [h] at h7; omega
        · exact h
      have e1 : bitLen fuel (n / 2) + 1 - 1 = (bitLen fuel (n / 2) - 1) + 1 := by omega
      rw [e1, pow_succ, pow_succ]
      constructor <;> omega

theorem ilog2_spec (n : Nat) (hn : 0 < n) : 2 ^ ilog2 n ≤ n ∧ n < 2 ^ (ilog2 n + 1) := by
  have h := bitLen_spec n n (le_refl _) hn
  have h8 : 0 < bitLen n n := by
    rcases Nat.eq_zero_or_pos (bitLen n n) with h' | h'
    · rw [h'] at h; omega
    · exact h'
  unfold ilog2
  have e : bitLen n n - 1 + 1 = bitLen n n := by omega
  rw [e]
  exact h

variable (F : FloatFormat)

theorem finPos_lt (b : Nat) (h : F.isFinPos b) : b < 2 ^ (F.ebits + F.mbits) := by
  unfold isFinPos at h
  have : (2 ^ F.ebits - 1) * 2 ^ F.mbits ≤ 2 ^ F.ebits * 2 ^ F.mbits :=
    Nat.mul_le_mul_right _ (Nat.sub_le _ _)
  rw [pow_add]
  omega

theorem finPos_sign (b : Nat) (h : F.isFinPos b) : F.signOf b = 0 := by
  unfold signOf
  rw [Nat.div_eq_of_lt (F.finPos_lt b h)]

theorem finPos_exp (b : Nat) (h : F.isFinPos b) :
    F.expOf b = b / 2 ^ F.mbits ∧ b / 2 ^ F.mbits < 2 ^ F.ebits - 1 := by
  unfold isFinPos at h
  have h1 : b / 2 ^ F.mbits < 2 ^ F.ebits - 1 :=
    (Nat.div_lt_iff_lt_mul (Nat.two_pow_pos _)).2 h
  refine ⟨?_, h1⟩
  unfold expOf
  exact Nat.mod_eq_of_lt (lt_of_lt_of_le h1 (Nat.sub_le _ _))

theorem finPos_not_special (b : Nat) (h : F.isFinPos b) :
    F.isNaN b = false ∧ F.isInf b = false := by
  obtain ⟨h1, h2⟩ := F.finPos_exp b h
  have h3 : F.expOf b ≠ 2 ^ F.ebits - 1 := by omega
  simp [isNaN, isInf, h3]

/-- The value of a finite pattern with sign `0`. -/
theorem toRat_eq (b : Nat) (h : F.isFinPos b) :
    F.toRat b = (F.val2 b : ℚ) / 2 ^ (F.bias + F.mbits) := by
  unfold toRat val2
  rw [F.finPos_sign b h, if_pos rfl, one_mul]
  have e : ((F.qOf b : ℤ) - F.bias - F.mbits) = (F.qOf b : ℤ) - ((F.bias + F.mbits : ℕ) : ℤ) := by
    push_cast; ring
  rw [e, zpow_sub₀ (by norm_num), zpow_natCast, zpow_natCast]
  push_cast
  ring

/-- Decomposition of `val2` through the exponent field `e = b / P` and `m = b % P`. -/
theorem val2_eq (b : Nat) (h : F.isFinPos b) :
    F.val2 b = if b / 2 ^ F.mbits = 0 then (b % 2 ^ F.mbits) * 2
      else (2 ^ F.mbits + b % 2 ^ F.mbits) * 2 ^ (b / 2 ^ F.mbits) := by
  obtain ⟨h1, _⟩ := F.finPos_exp b h
  unfold val2 sigOf qOf manOf
  rw [h1]
  by_cases h0 : b / 2 ^ F.mbits = 0
  · simp [h0]
  · have : max (b / 2 ^ F.mbits) 1 = b / 2 ^ F.mbits := by omega
    simp [h0, this]

/-- On finite patterns with sign `0` the order of the patterns is the order of the values. -/
theorem val2_mono (a b : Nat) (hb : F.isFinPos b) (hab : a ≤ b) : F.val2 a ≤ F.val2 b := by
  have ha : F.isFinPos a := lt_of_le_of_lt hab hb
  rw [F.val2_eq a ha, F.val2_eq b hb]
  have hP : 0 < 2 ^ F.mbits := Nat.two_pow_pos _
  generalize 2 ^ F.mbits = P at *
  have hma : a % P < P := Nat.mod_lt _ hP
  have hmb : b % P < P := Nat.mod_lt _ hP
  have hdiv : a / P ≤ b / P := Nat.div_le_div_right hab
  have hda := Nat.div_add_mod a (P)
  have hdb := Nat.div_add_mod b (P)
  generalize a / P = ea at *
  generalize b / P = eb at *
  generalize a % P = ma at *
  generalize b % P = mb at *
  rcases Nat.lt_or_ge (ea) (eb) with hlt | hge
  · -- smaller exponent
    have hb0 : eb ≠ 0 := by omega
    rw [if_neg hb0]
    have hbig : P * 2 ^ (eb) ≤
        (P + mb) * 2 ^ (eb) :=
      Nat.mul_le_mul_right _ (by omega)
    by_cases ha0 : ea = 0
    · rw [if_pos ha0]
      have h2 : 2 ^ 1 ≤ 2 ^ (eb) := Nat.pow_le_pow_right (by decide) (by omega)
      have h3 : P * 2 ^ 1 ≤ P * 2 ^ (eb) :=
        Nat.mul_le_mul_left _ h2
      omega
    · rw [if_neg ha0]
      have h2 : 2 ^ (ea + 1) ≤ 2 ^ (eb) :=
        Nat.pow_le_pow_right (by decide) (by omega)
      have h3 : (P + ma) * 2 ^ (ea) ≤
          (P * 2) * 2 ^ (ea) := Nat.mul_le_mul_right _ (by omega)
      have h4 : (P * 2) * 2 ^ (ea) =
          P * 2 ^ (ea + 1) := by rw [pow_succ]; ring
      have h5 : P * 2 ^ (ea + 1) ≤ P * 2 ^ (eb) :=
        Nat.mul_le_mul_left _ h2
      omega
  · -- same exponent
    have heq : ea = eb := by omega
    have hm : ma ≤ mb := by
      subst heq
      omega
    subst heq
    split
    · omega
    · exact Nat.mul_le_mul_right _ (by omega)

/-- Adding `c` to the exponent field of a normal pattern multiplies the value by `2 ^ c`. -/
theorem val2_shift (p c : Nat) (hp : 2 ^ F.mbits ≤ p) (h : F.isFinPos (p + c * 2 ^ F.mbits)) :
    F.val2 (p + c * 2 ^ F.mbits) = F.val2 p * 2 ^ c := by
  have hP : 0 < 2 ^ F.mbits := Nat.two_pow_pos _
  have hp' : F.isFinPos p := lt_of_le_of_lt (Nat.le_add_right _ _) h
  rw [F.val2_eq _ h, F.val2_eq _ hp']
  have h1 : 1 ≤ p / 2 ^ F.mbits := (Nat.one_le_div_iff hP).2 hp
  have h2 : (p + c * 2 ^ F.mbits) / 2 ^ F.mbits = p / 2 ^ F.mbits + c :=
    Nat.add_mul_div_right _ _ hP
  have h3 : (p + c * 2 ^ F.mbits) % 2 ^ F.mbits = p % 2 ^ F.mbits := Nat.add_mul_mod_self_right _ _ _
  rw [h2, h3, if_neg (by omega), if_neg (by omega), pow_add]
  ring

theorem bandOK_sound (K qloN qhiN D lo hi : Nat) (hK : F.isFinPos K) (hhi : F.isFinPos hi)
    (h : F.bandOK K qloN qhiN D lo hi = true) (b : Nat) (h1 : lo ≤ b) (h2 : b ≤ hi) :
    F.qBound K qloN qhiN D b := by
  simp only [bandOK, Bool.and_eq_true, decide_eq_true_eq] at h
  obtain ⟨hu, hl⟩ := h
  have hKb : F.isFinPos (K - b / 2) := lt_of_le_of_lt (Nat.sub_le _ _) hK
  have hKlo : F.isFinPos (K - lo / 2) := lt_of_le_of_lt (Nat.sub_le _ _) hK
  have m1 : F.val2 b ≤ F.val2 hi := F.val2_mono b hi hhi h2
  have m2 : F.val2 lo ≤ F.val2 b := F.val2_mono lo b (lt_of_le_of_lt h2 hhi) h1
  have d1 : lo / 2 ≤ b / 2 := Nat.div_le_div_right h1
  have d2 : b / 2 ≤ hi / 2 := Nat.div_le_div_right h2
  have m3 : F.val2 (K - b / 2) ≤ F.val2 (K - lo / 2) := F.val2_mono _ _ hKlo (by omega)
  have m4 : F.val2 (K - hi / 2) ≤ F.val2 (K - b / 2) := F.val2_mono _ _ hKb (by omega)
  constructor
  · refine le_trans ?_ hu
    exact Nat.mul_le_mul_right _ (Nat.mul_le_mul m1 (Nat.pow_le_pow_left m3 2))
  · refine le_trans hl ?_
    exact Nat.mul_le_mul_right _ (Nat.mul_le_mul m2 (Nat.pow_le_pow_left m4 2))

theorem bandTree_sound (K qloN qhiN D w : Nat) (hw : 0 < w) (hK : F.isFinPos K) :
    ∀ (d lo : Nat), F.isFinPos (lo + w * 2 ^ d) → F.bandTree K qloN qhiN D w d lo = true →
      ∀ b, lo ≤ b → b < lo + w * 2 ^ d → F.qBound K qloN qhiN D b := by
  intro d
  induction d with
  | zero =>
    intro lo hfin h b h1 h2
    simp only [bandTree] at h
    simp only [pow_zero, Nat.mul_one] at hfin h2
    have hhi : F.isFinPos (lo + w - 1) := by
      unfold isFinPos at hfin ⊢; omega
    exact F.bandOK_sound K qloN qhiN D lo (lo + w - 1) hK hhi h b h1 (by omega)
  | succ d ih =>
    intro lo hfin h b h1 h2
    simp only [bandTree, Bool.and_eq_true] at h
    have hexp : w * 2 ^ (d + 1) = w * 2 ^ d + w * 2 ^ d := by rw [pow_succ]; ring
    rw [hexp] at hfin h2
    by_cases hb : b < lo + w * 2 ^ d
    · have hfin' : F.isFinPos (lo + w * 2 ^ d) := by
        unfold isFinPos at hfin ⊢; omega
      exact ih lo hfin' h.1 b h1 hb
    · have hfin' : F.isFinPos (lo + w * 2 ^ d + w * 2 ^ d) := by
        unfold isFinPos at hfin ⊢; omega
      exact ih (lo + w * 2 ^ d) hfin' h.2 b (by omega) (by omega)

theorem two_pow_ebits (he : 1 ≤ F.ebits) : 2 ^ F.ebits - 1 = 2 * F.bias + 1 := by
  unfold bias
  obtain ⟨e, he'⟩ : ∃ e, F.ebits = e + 1 := ⟨F.ebits - 1, by omega⟩
  rw [he', pow_succ]
  have : 0 < 2 ^ e := Nat.two_pow_pos e
  simp only [Nat.add_sub_cancel]
  omega

theorem bias_pos (he : 2 ≤ F.ebits) : 1 ≤ F.bias := by
  unfold bias
  have : 2 ^ 1 ≤ 2 ^ (F.ebits - 1) := Nat.pow_le_pow_right (by decide) (by omega)
  omega

/-- The quantity `x * y0 ^ 2` is the same for `x` and for `4 x`: a bound checked on the
patterns of biased exponent `bias` and `bias + 1` holds for every positive normal pattern. -/
theorem qBound_periodic (K qloN qhiN D : Nat) (hm : 1 ≤ F.mbits) (he : 2 ≤ F.ebits)
    (hK1 : (F.bias + 2) * 2 ^ F.mbits ≤ K) (hK2 : F.isFinPos K)
    (hband : ∀ b, F.bias * 2 ^ F.mbits ≤ b → b < (F.bias + 2) * 2 ^ F.mbits →
      F.qBound K qloN qhiN D b)
    (b : Nat) (hb1 : 2 ^ F.mbits ≤ b) (hb2 : F.isFinPos b) : F.qBound K qloN qhiN D b := by
  have hP : 0 < 2 ^ F.mbits := Nat.two_pow_pos _
  have hPeven : 2 ^ F.mbits = 2 * 2 ^ (F.mbits - 1) := by
    obtain ⟨m, hm'⟩ : ∃ m, F.mbits = m + 1 := ⟨F.mbits - 1, by omega⟩
    rw [hm', pow_succ]; simp; ring
  have hbias := F.bias_pos he
  have hfin : (2 ^ F.ebits - 1) * 2 ^ F.mbits = 2 * (F.bias * 2 ^ F.mbits) + 2 ^ F.mbits := by
    rw [F.two_pow_ebits (by omega)]; ring
  have hK1' : F.bias * 2 ^ F.mbits + 2 * 2 ^ F.mbits ≤ K := by
    have : (F.bias + 2) * 2 ^ F.mbits = F.bias * 2 ^ F.mbits + 2 * 2 ^ F.mbits := by ring
    omega
  have hBP : 2 ^ F.mbits ≤ F.bias * 2 ^ F.mbits := Nat.le_mul_of_pos_left _ hbias
  have hb2' := hb2
  unfold isFinPos at hb2'
  rw [hfin] at hb2'
  have hE1 : 1 ≤ b / 2 ^ F.mbits := (Nat.one_le_div_iff hP).2 hb1
  have hdm := Nat.div_add_mod b (2 ^ F.mbits)
  have hM := Nat.mod_lt b hP
  by_cases hE : F.bias ≤ b / 2 ^ F.mbits
  · -- exponent at least `bias`: go down by `2 k`
    obtain ⟨k, hk⟩ : ∃ k, k = (b / 2 ^ F.mbits - F.bias) / 2 := ⟨_, rfl⟩
    have hcE : 2 * k ≤ b / 2 ^ F.mbits - F.bias := by omega
    have hcP : 2 * k * 2 ^ F.mbits ≤ b :=
      le_trans (Nat.mul_le_mul_right _ (by omega : 2 * k ≤ b / 2 ^ F.mbits))
        (Nat.div_mul_le_self b _)
    obtain ⟨b0, hb0⟩ : ∃ b0, b0 = b - 2 * k * 2 ^ F.mbits := ⟨_, rfl⟩
    have hbb0 : b = b0 + 2 * k * 2 ^ F.mbits := by omega
    have hdiv0 : b0 / 2 ^ F.mbits = b / 2 ^ F.mbits - 2 * k := by
      rw [hb0, Nat.mul_comm (2 * k), Nat.sub_mul_div _ _ _ (by rw [Nat.mul_comm]; exact hcP)]
    have hlo0 : F.bias * 2 ^ F.mbits ≤ b0 :=
      (Nat.le_div_iff_mul_le hP).1 (by omega)
    have hhi0 : b0 < (F.bias + 2) * 2 ^ F.mbits :=
      (Nat.div_lt_iff_lt_mul hP).1 (by omega)
    have hq0 := hband b0 hlo0 hhi0
    have hhalf : b / 2 = b0 / 2 + k * 2 ^ F.mbits := by
      rw [hbb0, Nat.mul_assoc, Nat.add_mul_div_left _ _ (by decide : 0 < 2)]
    have hkP : k * 2 ^ F.mbits ≤ b / 2 := by omega
    have hr : K - b0 / 2 = (K - b / 2) + k * 2 ^ F.mbits := by omega
    have hrP : 2 ^ F.mbits ≤ K - b / 2 := by omega
    have s1 : F.val2 b = F.val2 b0 * 2 ^ (2 * k) := by
      rw [hbb0]
      exact F.val2_shift b0 (2 * k) (by omega) (by rw [← hbb0]; exact hb2)
    have s2 : F.val2 (K - b0 / 2) = F.val2 (K - b / 2) * 2 ^ k := by
      rw [hr]
      exact F.val2_shift _ k hrP (by rw [← hr]; exact lt_of_le_of_lt (Nat.sub_le _ _) hK2)
    have e : F.val2 b * F.val2 (K - b / 2) ^ 2 = F.val2 b0 * F.val2 (K - b0 / 2) ^ 2 := by
      have h2k : (2 : Nat) ^ (2 * k) = (2 ^ k) ^ 2 := by rw [← pow_mul, Nat.mul_comm]
      rw [s1, s2, h2k]; ring
    unfold qBound at hq0 ⊢
    rw [e]
    exact hq0
  · -- exponent below `bias`: go up by `2 k`
    obtain ⟨k, hk⟩ : ∃ k, k = (F.bias - b / 2 ^ F.mbits + 1) / 2 := ⟨_, rfl⟩
    obtain ⟨b0, hb0⟩ : ∃ b0, b0 = b + 2 * k * 2 ^ F.mbits := ⟨_, rfl⟩
    have hdiv0 : b0 / 2 ^ F.mbits = b / 2 ^ F.mbits + 2 * k := by
      rw [hb0, Nat.add_mul_div_right _ _ hP]
    have hlo0 : F.bias * 2 ^ F.mbits ≤ b0 :=
      (Nat.le_div_iff_mul_le hP).1 (by omega)
    have hhi0 : b0 < (F.bias + 2) * 2 ^ F.mbits :=
      (Nat.div_lt_iff_lt_mul hP).1 (by omega)
    have hhi0' : b0 < F.bias * 2 ^ F.mbits + 2 * 2 ^ F.mbits := by
      have : (F.bias + 2) * 2 ^ F.mbits = F.bias * 2 ^ F.mbits + 2 * 2 ^ F.mbits := by ring
      omega
    have hq0 := hband b0 hlo0 hhi0
    have hhalf : b0 / 2 = b / 2 + k * 2 ^ F.mbits := by
      rw [hb0, Nat.mul_assoc, Nat.add_mul_div_left _ _ (by decide : 0 < 2)]
    have hr : K - b / 2 = (K - b0 / 2) + k * 2 ^ F.mbits := by omega
    have hrP : 2 ^ F.mbits ≤ K - b0 / 2 := by omega
    have hfin0 : F.isFinPos b0 := by
      unfold isFinPos; rw [hfin]; omega
    have s1 : F.val2 b0 = F.val2 b * 2 ^ (2 * k) := by
      rw [hb0]
      exact F.val2_shift b (2 * k) hb1 (by rw [← hb0]; exact hfin0)
    have s2 : F.val2 (K - b / 2) = F.val2 (K - b0 / 2) * 2 ^ k := by
      rw [hr]
      exact F.val2_shift _ k hrP (by rw [← hr]; exact lt_of_le_of_lt (Nat.sub_le _ _) hK2)
    have e : F.val2 b * F.val2 (K - b / 2) ^ 2 = F.val2 b0 * F.val2 (K - b0 / 2) ^ 2 := by
      have h2k : (2 : Nat) ^ (2 * k) = (2 ^ k) ^ 2 := by rw [← pow_mul, Nat.mul_comm]
      rw [s1, s2, h2k]; ring
    unfold qBound at hq0 ⊢
    rw [e]
    exact hq0

/-- Decoding of the pattern `t * P + sig` assembled by `roundPack`. -/
theorem val2_pack (he : 1 ≤ F.ebits) (t sig : Nat) (h1 : sig ≤ 2 * 2 ^ F.mbits)
    (h2 : t = 0 ∨ 2 ^ F.mbits ≤ sig) (h3 : t + 2 < 2 * F.bias + 1) :
    F.isFinPos (t * 2 ^ F.mbits + sig) ∧
      F.val2 (t * 2 ^ F.mbits + sig) = sig * 2 ^ (t + 1) := by
  have hP : 0 < 2 ^ F.mbits := Nat.two_pow_pos _
  have hfin : F.isFinPos (t * 2 ^ F.mbits + sig) := by
    unfold isFinPos
    rw [F.two_pow_ebits he]
    have : (t + 2) * 2 ^ F.mbits < (2 * F.bias + 1) * 2 ^ F.mbits :=
      Nat.mul_lt_mul_of_pos_right h3 hP
    have e : (t + 2) * 2 ^ F.mbits = t * 2 ^ F.mbits + 2 * 2 ^ F.mbits := by ring
    omega
  refine ⟨hfin, ?_⟩
  rw [F.val2_eq _ hfin]
  by_cases hs : sig < 2 ^ F.mbits
  · have ht : t = 0 := by omega
    subst ht
    simp only [Nat.zero_mul, Nat.zero_add]
    rw [Nat.div_eq_of_lt hs, Nat.mod_eq_of_lt hs, if_pos rfl, pow_one]
  · by_cases hs2 : sig < 2 * 2 ^ F.mbits
    · have e : t * 2 ^ F.mbits + sig = (sig - 2 ^ F.mbits) + (t + 1) * 2 ^ F.mbits := by
        have : (t + 1) * 2 ^ F.mbits = t * 2 ^ F.mbits + 2 ^ F.mbits := by ring
        omega
      have hlt : sig - 2 ^ F.mbits < 2 ^ F.mbits := by omega
      rw [e, Nat.add_mul_div_right _ _ hP, Nat.add_mul_mod_self_right, Nat.div_eq_of_lt hlt,
        Nat.mod_eq_of_lt hlt, Nat.zero_add, if_neg (by omega)]
      congr 1
      omega
    · have hs3 : sig = 2 * 2 ^ F.mbits := by omega
      have e : t * 2 ^ F.mbits + sig = 0 + (t + 2) * 2 ^ F.mbits := by
        rw [hs3]; ring
      rw [e, Nat.add_mul_div_right _ _ hP, Nat.add_mul_mod_self_right, Nat.zero_div,
        Nat.zero_mod, Nat.zero_add, if_neg (by omega), hs3, Nat.add_zero]
      rw [pow_succ (2 : Nat) (t + 1)]
      ring

theorem roundSig_near (N k T : Nat) (h : F.mbits + k ≤ T) :
    2 * (F.roundSig N k T * 2 ^ (T - (F.mbits + k))) ≤ 2 * N + 2 ^ (T - (F.mbits + k)) ∧
    2 * N ≤ 2 * (F.roundSig N k T * 2 ^ (T - (F.mbits + k))) + 2 ^ (T - (F.mbits + k)) := by
  unfold roundSig
  rw [if_pos h]
  simp only
  have hS : 0 < 2 ^ (T - (F.mbits + k)) := Nat.two_pow_pos _
  have hdm := Nat.div_add_mod N (2 ^ (T - (F.mbits + k)))
  have hr := Nat.mod_lt N hS
  generalize 2 ^ (T - (F.mbits + k)) = S at *
  generalize N % S = r at *
  generalize hq : N / S = q at *
  have e1 : (q + 1) * S = S * q + S := by ring
  have e2 : q * S = S * q := by ring
  split
  · rename_i hc
    rw [e1]
    rcases hc with hc | hc <;> omega
  · rename_i hc
    rw [e2]
    have : ¬ S < 2 * r := fun h' => hc (Or.inl h')
    omega

theorem roundSig_le (N k T : Nat) (hN : 0 < N) (hT : k + ilog2 N ≤ T) :
    F.roundSig N k T ≤ 2 * 2 ^ F.mbits := by
  have hL := (ilog2_spec N hN).2
  unfold roundSig
  split
  · rename_i h
    simp only
    have hS : 0 < 2 ^ (T - (F.mbits + k)) := Nat.two_pow_pos _
    have hq : N / 2 ^ (T - (F.mbits + k)) < 2 * 2 ^ F.mbits := by
      rw [Nat.div_lt_iff_lt_mul hS]
      have e : 2 * 2 ^ F.mbits * 2 ^ (T - (F.mbits + k)) = 2 ^ (T - k + 1) := by
        rw [Nat.mul_assoc, ← pow_add, ← pow_succ']
        congr 1; omega
      rw [e]
      exact lt_of_lt_of_le hL (Nat.pow_le_pow_right (by decide) (by omega))
    split <;> omega
  · rename_i h
    have e : 2 * 2 ^ F.mbits = 2 ^ (ilog2 N + 1) * 2 ^ (F.mbits - ilog2 N) := by
      rw [← pow_add, ← pow_succ']
      congr 1; omega
    have h1 : N * 2 ^ (F.mbits + k - T) ≤ N * 2 ^ (F.mbits - ilog2 N) :=
      Nat.mul_le_mul_left _ (Nat.pow_le_pow_right (by decide) (by omega))
    have h2 : N * 2 ^ (F.mbits - ilog2 N) ≤ 2 ^ (ilog2 N + 1) * 2 ^ (F.mbits - ilog2 N) :=
      Nat.mul_le_mul_right _ (le_of_lt hL)
    omega

theorem roundSig_ge (N k : Nat) (hN : 0 < N) :
    2 ^ F.mbits ≤ F.roundSig N k (k + ilog2 N) := by
  have hL := (ilog2_spec N hN).1
  unfold roundSig
  split
  · rename_i h
    simp only
    have hS : 0 < 2 ^ (k + ilog2 N - (F.mbits + k)) := Nat.two_pow_pos _
    have hq : 2 ^ F.mbits ≤ N / 2 ^ (k + ilog2 N - (F.mbits + k)) := by
      rw [Nat.le_div_iff_mul_le hS, ← pow_add]
      refine le_trans (Nat.pow_le_pow_right (by decide) ?_) hL
      omega
    split <;> omega
  · rename_i h
    have e : 2 ^ F.mbits = 2 ^ ilog2 N * 2 ^ (F.mbits + k - (k + ilog2 N)) := by
      rw [← pow_add]; congr 1; omega
    rw [e]
    exact Nat.mul_le_mul_right _ hL

/-- The pattern returned by `roundPack` for a positive value that does not overflow. -/
theorem roundPack_eq (he : 1 ≤ F.ebits) (N k Z : Nat) (hN : 0 < N) (hZ : F.bias ≤ Z + 1)
    (hT : max (k + ilog2 N) (Z + 1 - F.bias) ≤ Z + F.bias - 1) :
    F.roundPack 0 N k Z =
        (max (k + ilog2 N) (Z + 1 - F.bias) - (Z + 1 - F.bias)) * 2 ^ F.mbits +
          F.roundSig N k (max (k + ilog2 N) (Z + 1 - F.bias)) ∧
      F.isFinPos (F.roundPack 0 N k Z) ∧
      F.val2 (F.roundPack 0 N k Z) =
        F.roundSig N k (max (k + ilog2 N) (Z + 1 - F.bias)) *
          2 ^ (max (k + ilog2 N) (Z + 1 - F.bias) + F.bias - Z) := by
  generalize hTdef : max (k + ilog2 N) (Z + 1 - F.bias) = T at *
  have hT1 : k + ilog2 N ≤ T := by rw [← hTdef]; exact le_max_left _ _
  have hT2 : Z + 1 - F.bias ≤ T := by rw [← hTdef]; exact le_max_right _ _
  have hsig1 := F.roundSig_le N k T hN hT1
  have hsig2 : T - (Z + 1 - F.bias) = 0 ∨ 2 ^ F.mbits ≤ F.roundSig N k T := by
    by_cases h : T = Z + 1 - F.bias
    · left; omega
    · right
      have : T = k + ilog2 N := by
        rcases max_choice (k + ilog2 N) (Z + 1 - F.bias) with h' | h' <;> rw [h'] at hTdef <;>
          omega
      rw [this]
      exact F.roundSig_ge N k hN
  have hpack := F.val2_pack he (T - (Z + 1 - F.bias)) (F.roundSig N k T) hsig1 hsig2 (by omega)
  have heq : F.roundPack 0 N k Z = (T - (Z + 1 - F.bias)) * 2 ^ F.mbits + F.roundSig N k T := by
    unfold roundPack
    rw [if_neg (by omega)]
    simp only [hTdef]
    have hfin := hpack.1
    unfold isFinPos at hfin
    have hro : (if F.mbits + k ≤ T then
        if 2 ^ (T - (F.mbits + k)) < 2 * (N % 2 ^ (T - (F.mbits + k))) ∨
            2 * (N % 2 ^ (T - (F.mbits + k))) = 2 ^ (T - (F.mbits + k)) ∧
              N / 2 ^ (T - (F.mbits + k)) % 2 = 1 then
          N / 2 ^ (T - (F.mbits + k)) + 1
        else N / 2 ^ (T - (F.mbits + k))
      else N * 2 ^ (F.mbits + k - T)) = F.roundSig N k T := rfl
    rw [hro, if_neg (by omega)]
    simp [zeroBits]
  refine ⟨heq, ?_, ?_⟩
  · rw [heq]; exact hpack.1
  · rw [heq, hpack.2]
    congr 2
    omega

/-- Rounding error of `roundPack`: at most half a unit in the last place of the result. -/
theorem roundPack_err (he : 1 ≤ F.ebits) (N k Z : Nat) (hN : 0 < N) (hZ : F.bias ≤ Z + 1)
    (hT : max (k + ilog2 N) (Z + 1 - F.bias) ≤ Z + F.bias - 1) :
    |F.toRat (F.roundPack 0 N k Z) - (N : ℚ) * 2 ^ k / 2 ^ Z| ≤
      2 ^ (max (k + ilog2 N) (Z + 1 - F.bias) + F.bias - Z) / (2 * 2 ^ (F.bias + F.mbits)) := by
  obtain ⟨_, hfin, hval⟩ := F.roundPack_eq he N k Z hN hZ hT
  rw [F.toRat_eq _ hfin, hval]
  generalize hTdef : max (k + ilog2 N) (Z + 1 - F.bias) = T at *
  have hT2 : Z + 1 - F.bias ≤ T := by rw [← hTdef]; exact le_max_right _ _
  have hpZ : (0 : ℚ) < 2 ^ Z := by positivity
  have hpk : (0 : ℚ) < 2 ^ k := by positivity
  have hpB : (0 : ℚ) < 2 ^ (F.bias + F.mbits) := by positivity
  by_cases h : F.mbits + k ≤ T
  · obtain ⟨n1, n2⟩ := F.roundSig_near N k T h
    generalize F.roundSig N k T = sig at *
    have hexp : (2 : ℚ) ^ (T + F.bias - Z) * 2 ^ Z =
        2 ^ (T - (F.mbits + k)) * 2 ^ k * 2 ^ (F.bias + F.mbits) := by
      rw [← pow_add, ← pow_add, ← pow_add]
      congr 1; omega
    have q1 : (2 : ℚ) * ((sig : ℚ) * 2 ^ (T - (F.mbits + k))) ≤
        2 * N + 2 ^ (T - (F.mbits + k)) := by exact_mod_cast n1
    have q2 : (2 : ℚ) * N ≤ 2 * ((sig : ℚ) * 2 ^ (T - (F.mbits + k))) +
        2 ^ (T - (F.mbits + k)) := by exact_mod_cast n2
    generalize (2 : ℚ) ^ (T - (F.mbits + k)) = S at *
    have hE : (2 : ℚ) ^ (T + F.bias - Z) = S * 2 ^ k * 2 ^ (F.bias + F.mbits) / 2 ^ Z := by
      rw [← hexp]; field_simp
    push_cast
    rw [hE]
    have e1 : (sig : ℚ) * (S * 2 ^ k * 2 ^ (F.bias + F.mbits) / 2 ^ Z) / 2 ^ (F.bias + F.mbits) -
        (N : ℚ) * 2 ^ k / 2 ^ Z = (sig * S - N) * (2 ^ k / 2 ^ Z) := by
      field_simp; ring
    have e2 : S * 2 ^ k * 2 ^ (F.bias + F.mbits) / 2 ^ Z / (2 * 2 ^ (F.bias + F.mbits)) =
        (S / 2) * (2 ^ k / 2 ^ Z) := by
      field_simp; ring
    rw [e1, e2, abs_mul, abs_of_pos (div_pos hpk hpZ)]
    refine mul_le_mul_of_nonneg_right ?_ (le_of_lt (div_pos hpk hpZ))
    rw [abs_le]
    constructor <;> linarith
  · have hsig : F.roundSig N k T = N * 2 ^ (F.mbits + k - T) := by
      unfold roundSig; rw [if_neg h]
    rw [hsig]
    have hexp : (2 : ℚ) ^ (F.mbits + k - T) * 2 ^ (T + F.bias - Z) * 2 ^ Z =
        2 ^ k * 2 ^ (F.bias + F.mbits) := by
      rw [← pow_add, ← pow_add, ← pow_add]
      congr 1; omega
    have e1 : ((N * 2 ^ (F.mbits + k - T) * 2 ^ (T + F.bias - Z) : ℕ) : ℚ) /
        2 ^ (F.bias + F.mbits) = (N : ℚ) * 2 ^ k / 2 ^ Z := by
      push_cast
      rw [div_eq_div_iff (ne_of_gt hpB) (ne_of_gt hpZ)]
      calc (N : ℚ) * 2 ^ (F.mbits + k - T) * 2 ^ (T + F.bias - Z) * 2 ^ Z
          = N * (2 ^ (F.mbits + k - T) * 2 ^ (T + F.bias - Z) * 2 ^ Z) := by ring
        _ = N * (2 ^ k * 2 ^ (F.bias + F.mbits)) := by rw [hexp]
        _ = N * 2 ^ k * 2 ^ (F.bias + F.mbits) := by ring
    rw [e1, sub_self, abs_zero]
    positivity

/-- Relative rounding error `2 ^ -(mbits + 1)` for a value in the normal range. -/
theorem roundPack_rel (he : 2 ≤ F.ebits) (N k Z : Nat) (hZ : F.bias ≤ Z + 1)
    (hlo : (2 : ℚ) / 2 ^ F.bias ≤ (N : ℚ) * 2 ^ k / 2 ^ Z)
    (hhi : (N : ℚ) * 2 ^ k / 2 ^ Z < 2 ^ F.bias) :
    F.isFinPos (F.roundPack 0 N k Z) ∧
      |F.toRat (F.roundPack 0 N k Z) - (N : ℚ) * 2 ^ k / 2 ^ Z| ≤
        (N : ℚ) * 2 ^ k / 2 ^ Z / 2 ^ (F.mbits + 1) := by
  have hpZ : (0 : ℚ) < 2 ^ Z := by positivity
  have hpb : (0 : ℚ) < 2 ^ F.bias := by positivity
  have hN : 0 < N := by
    rcases Nat.eq_zero_or_pos N with h | h
    · subst h
      have : (0 : ℚ) < 2 / 2 ^ F.bias := by positivity
      simp at hlo
      linarith
    · exact h
  obtain ⟨hL1, hL2⟩ := ilog2_spec N hN
  have n1 : 2 * 2 ^ Z ≤ N * 2 ^ k * 2 ^ F.bias := by
    have : (2 : ℚ) * 2 ^ Z ≤ (N : ℚ) * 2 ^ k * 2 ^ F.bias := by
      rw [div_le_div_iff hpb hpZ] at hlo; linarith
    exact_mod_cast this
  have n2 : N * 2 ^ k < 2 ^ F.bias * 2 ^ Z := by
    have : (N : ℚ) * 2 ^ k < 2 ^ F.bias * 2 ^ Z := by
      rw [div_lt_iff hpZ] at hhi; exact hhi
    exact_mod_cast this
  have c1 : Z + 1 < ilog2 N + 1 + k + F.bias := by
    have h1 : N * 2 ^ k * 2 ^ F.bias < 2 ^ (ilog2 N + 1) * 2 ^ k * 2 ^ F.bias :=
      Nat.mul_lt_mul_of_pos_right (Nat.mul_lt_mul_of_pos_right hL2 (Nat.two_pow_pos _))
        (Nat.two_pow_pos _)
    have h2 : 2 ^ (Z + 1) < 2 ^ (ilog2 N + 1 + k + F.bias) := by
      have e1 : 2 ^ (Z + 1) = 2 * 2 ^ Z := by rw [pow_succ]; ring
      have e2 : 2 ^ (ilog2 N + 1 + k + F.bias) = 2 ^ (ilog2 N + 1) * 2 ^ k * 2 ^ F.bias := by
        rw [pow_add, pow_add]
      rw [e1, e2]
      exact lt_of_le_of_lt n1 h1
    exact (Nat.pow_lt_pow_iff_right (by decide)).1 h2
  have c2 : ilog2 N + k < F.bias + Z := by
    have h1 : 2 ^ ilog2 N * 2 ^ k ≤ N * 2 ^ k := Nat.mul_le_mul_right _ hL1
    have h2 : 2 ^ (ilog2 N + k) < 2 ^ (F.bias + Z) := by
      rw [pow_add, pow_add]
      exact lt_of_le_of_lt h1 n2
    exact (Nat.pow_lt_pow_iff_right (by decide)).1 h2
  have hTe : max (k + ilog2 N) (Z + 1 - F.bias) = k + ilog2 N := max_eq_left (by omega)
  have hT : max (k + ilog2 N) (Z + 1 - F.bias) ≤ Z + F.bias - 1 := by rw [hTe]; omega
  refine ⟨(F.roundPack_eq (by omega) N k Z hN hZ hT).2.1, ?_⟩
  refine le_trans (F.roundPack_err (by omega) N k Z hN hZ hT) ?_
  rw [hTe]
  have hexp : (2 : ℚ) ^ (k + ilog2 N + F.bias - Z) * 2 ^ Z * 2 ^ (F.mbits + 1) =
      2 ^ ilog2 N * 2 ^ k * (2 * 2 ^ (F.bias + F.mbits)) := by
    rw [← pow_succ', ← pow_add, ← pow_add, ← pow_add, ← pow_add]
    congr 1; omega
  have hLq : (2 : ℚ) ^ ilog2 N ≤ N := by exact_mod_cast hL1
  rw [div_div, div_le_div_iff (by positivity) (by positivity)]
  calc (2 : ℚ) ^ (k + ilog2 N + F.bias - Z) * (2 ^ Z * 2 ^ (F.mbits + 1))
      = 2 ^ (k + ilog2 N + F.bias - Z) * 2 ^ Z * 2 ^ (F.mbits + 1) := by ring
    _ = 2 ^ ilog2 N * 2 ^ k * (2 * 2 ^ (F.bias + F.mbits)) := hexp
    _ ≤ (N : ℚ) * 2 ^ k * (2 * 2 ^ (F.bias + F.mbits)) := by gcongr

/-- Relative rounding error `2 ^ -mbits` when the result may be subnormal but the value is at
least half the smallest normal number. -/
theorem roundPack_rel_sub (he : 2 ≤ F.ebits) (N k Z : Nat) (hZ : F.bias ≤ Z + 1)
    (hlo : (1 : ℚ) / 2 ^ F.bias ≤ (N : ℚ) * 2 ^ k / 2 ^ Z)
    (hhi : (N : ℚ) * 2 ^ k / 2 ^ Z < 2 ^ F.bias) :
    F.isFinPos (F.roundPack 0 N k Z) ∧
      |F.toRat (F.roundPack 0 N k Z) - (N : ℚ) * 2 ^ k / 2 ^ Z| ≤
        (N : ℚ) * 2 ^ k / 2 ^ Z / 2 ^ F.mbits := by
  have hpZ : (0 : ℚ) < 2 ^ Z := by positivity
  have hpb : (0 : ℚ) < 2 ^ F.bias := by positivity
  have hv : (0 : ℚ) < (N : ℚ) * 2 ^ k / 2 ^ Z := lt_of_lt_of_le (by positivity) hlo
  by_cases hn : (2 : ℚ) / 2 ^ F.bias ≤ (N : ℚ) * 2 ^ k / 2 ^ Z
  · obtain ⟨h1, h2⟩ := F.roundPack_rel he N k Z hZ hn hhi
    refine ⟨h1, le_trans h2 ?_⟩
    rw [pow_succ]
    apply div_le_div_of_nonneg_left (le_of_lt hv) (by positivity)
    have : (0 : ℚ) < 2 ^ F.mbits := by positivity
    linarith
  · have hN : 0 < N := by
      rcases Nat.eq_zero_or_pos N with h | h
      · subst h; simp at hv
      · exact h
    obtain ⟨hL1, hL2⟩ := ilog2_spec N hN
    have hbias := F.bias_pos he
    have n1 : N * 2 ^ k * 2 ^ F.bias < 2 * 2 ^ Z := by
      have : (N : ℚ) * 2 ^ k * 2 ^ F.bias < 2 * 2 ^ Z := by
        rw [not_le, div_lt_div_iff hpZ hpb] at hn; linarith
      exact_mod_cast this
    have c1 : ilog2 N + k + F.bias < Z + 1 := by
      have h1 : 2 ^ ilog2 N * 2 ^ k * 2 ^ F.bias ≤ N * 2 ^ k * 2 ^ F.bias :=
        Nat.mul_le_mul_right _ (Nat.mul_le_mul_right _ hL1)
      have h2 : 2 ^ (ilog2 N + k + F.bias) < 2 ^ (Z + 1) := by
        have e1 : 2 ^ (Z + 1) = 2 * 2 ^ Z := by rw [pow_succ]; ring
        have e2 : 2 ^ (ilog2 N + k + F.bias) = 2 ^ ilog2 N * 2 ^ k * 2 ^ F.bias := by
          rw [pow_add, pow_add]
        rw [e1, e2]
        exact lt_of_le_of_lt h1 n1
      exact (Nat.pow_lt_pow_iff_right (by decide)).1 h2
    have hTe : max (k + ilog2 N) (Z + 1 - F.bias) = Z + 1 - F.bias := max_eq_right (by omega)
    have hT : max (k + ilog2 N) (Z + 1 - F.bias) ≤ Z + F.bias - 1 := by rw [hTe]; omega
    refine ⟨(F.roundPack_eq (by omega) N k Z hN hZ hT).2.1, ?_⟩
    refine le_trans (F.roundPack_err (by omega) N k Z hN hZ hT) ?_
    rw [hTe]
    have e1 : Z + 1 - F.bias + F.bias - Z = 1 := by omega
    rw [e1, pow_one, pow_add]
    have e2 : (2 : ℚ) / (2 * (2 ^ F.bias * 2 ^ F.mbits)) = 1 / 2 ^ F.bias / 2 ^ F.mbits := by
      field_simp
    rw [e2]
    exact div_le_div_of_nonneg_right hlo (by positivity)

theorem fmul_eq_roundPack (a b : Nat) (ha : F.isFinPos a) (hb : F.isFinPos b) :
    F.fmul a b =
      F.roundPack 0 (F.sigOf a * F.sigOf b) (F.qOf a + F.qOf b) (2 * F.bias + 2 * F.mbits) := by
  unfold fmul
  simp [F.finPos_sign a ha, F.finPos_sign b hb, (F.finPos_not_special a ha).1,
    (F.finPos_not_special a ha).2, (F.finPos_not_special b hb).1, (F.finPos_not_special b hb).2]

theorem toRat_mul (a b : Nat) (ha : F.isFinPos a) (hb : F.isFinPos b) :
    F.toRat a * F.toRat b =
      ((F.sigOf a * F.sigOf b : ℕ) : ℚ) * 2 ^ (F.qOf a + F.qOf b) /
        2 ^ (2 * F.bias + 2 * F.mbits) := by
  rw [F.toRat_eq a ha, F.toRat_eq b hb]
  unfold val2
  have e : (2 : ℚ) ^ (2 * F.bias + 2 * F.mbits) = 2 ^ (F.bias + F.mbits) * 2 ^ (F.bias + F.mbits) := by
    rw [← pow_add]; congr 1; ring
  rw [e, pow_add]
  push_cast
  field_simp
  ring

/-- Multiplication of two finite positive values whose product is in the normal range has
relative error at most `2 ^ -(mbits + 1)`. -/
theorem fmul_spec (he : 2 ≤ F.ebits) (a b : Nat) (ha : F.isFinPos a) (hb : F.isFinPos b)
    (hlo : (2 : ℚ) / 2 ^ F.bias ≤ F.toRat a * F.toRat b)
    (hhi : F.toRat a * F.toRat b < 2 ^ F.bias) :
    F.isFinPos (F.fmul a b) ∧
      |F.toRat (F.fmul a b) - F.toRat a * F.toRat b| ≤
        F.toRat a * F.toRat b / 2 ^ (F.mbits + 1) := by
  rw [F.fmul_eq_roundPack a b ha hb]
  rw [F.toRat_mul a b ha hb] at hlo hhi ⊢
  exact F.roundPack_rel he _ _ _ (by omega) hlo hhi

/-- Multiplication whose product is at least half the smallest normal number has relative
error at most `2 ^ -mbits`. -/
theorem fmul_spec_sub (he : 2 ≤ F.ebits) (a b : Nat) (ha : F.isFinPos a) (hb : F.isFinPos b)
    (hlo : (1 : ℚ) / 2 ^ F.bias ≤ F.toRat a * F.toRat b)
    (hhi : F.toRat a * F.toRat b < 2 ^ F.bias) :
    F.isFinPos (F.fmul a b) ∧
      |F.toRat (F.fmul a b) - F.toRat a * F.toRat b| ≤
        F.toRat a * F.toRat b / 2 ^ F.mbits := by
  rw [F.fmul_eq_roundPack a b ha hb]
  rw [F.toRat_mul a b ha hb] at hlo hhi ⊢
  exact F.roundPack_rel_sub he _ _ _ (by omega) hlo hhi

theorem bias_ge_three (he : 3 ≤ F.ebits) : 3 ≤ F.bias := by
  unfold bias
  have : 2 ^ 2 ≤ 2 ^ (F.ebits - 1) := Nat.pow_le_pow_right (by decide) (by omega)
  omega

theorem halfBits_spec (he : 3 ≤ F.ebits) :
    F.isFinPos F.halfBits ∧ F.toRat F.halfBits = 1 / 2 := by
  have hP : 0 < 2 ^ F.mbits := Nat.two_pow_pos _
  have hb := F.bias_ge_three he
  have hfin : F.isFinPos F.halfBits := by
    unfold isFinPos halfBits
    rw [F.two_pow_ebits (by omega)]
    exact Nat.mul_lt_mul_of_pos_right (by omega) hP
  refine ⟨hfin, ?_⟩
  rw [F.toRat_eq _ hfin, F.val2_eq _ hfin]
  unfold halfBits
  rw [Nat.mul_div_cancel _ hP, Nat.mul_mod_left]
  rw [if_neg (by omega)]
  have e : F.bias + F.mbits = (F.bias - 1) + 1 + F.mbits := by omega
  rw [e, pow_add, pow_succ]
  push_cast
  field_simp
  ring

theorem threeHalfsBits_spec (he : 2 ≤ F.ebits) (hm : 1 ≤ F.mbits) :
    F.isFinPos F.threeHalfsBits ∧ F.signOf F.threeHalfsBits = 0 ∧
      F.val2 F.threeHalfsBits = 3 * 2 ^ (F.mbits - 1) * 2 ^ F.bias ∧
      F.toRat F.threeHalfsBits = 3 / 2 := by
  have hP : 0 < 2 ^ F.mbits := Nat.two_pow_pos _
  have hb := F.bias_pos he
  have hPe : 2 ^ F.mbits = 2 * 2 ^ (F.mbits - 1) := by
    obtain ⟨m, hm'⟩ : ∃ m, F.mbits = m + 1 := ⟨F.mbits - 1, by omega⟩
    rw [hm', pow_succ]; simp; ring
  have hH : 0 < 2 ^ (F.mbits - 1) := Nat.two_pow_pos _
  have hfin : F.isFinPos F.threeHalfsBits := by
    unfold isFinPos threeHalfsBits
    rw [F.two_pow_ebits (by omega)]
    have : (F.bias + 1) * 2 ^ F.mbits ≤ (2 * F.bias + 1) * 2 ^ F.mbits :=
      Nat.mul_le_mul_right _ (by omega)
    have e : (F.bias + 1) * 2 ^ F.mbits = F.bias * 2 ^ F.mbits + 2 ^ F.mbits := by ring
    omega
  have hval : F.val2 F.threeHalfsBits = 3 * 2 ^ (F.mbits - 1) * 2 ^ F.bias := by
    rw [F.val2_eq _ hfin]
    unfold threeHalfsBits
    have hlt : 2 ^ (F.mbits - 1) < 2 ^ F.mbits := by omega
    have e : F.bias * 2 ^ F.mbits + 2 ^ (F.mbits - 1) =
        2 ^ (F.mbits - 1) + F.bias * 2 ^ F.mbits := by ring
    rw [e, Nat.add_mul_div_right _ _ hP, Nat.add_mul_mod_self_right, Nat.div_eq_of_lt hlt,
      Nat.mod_eq_of_lt hlt, Nat.zero_add, if_neg (by omega)]
    congr 1
    omega
  refine ⟨hfin, F.finPos_sign _ hfin, hval, ?_⟩
  rw [F.toRat_eq _ hfin, hval, pow_add]
  have hPq : (2 : ℚ) ^ F.mbits = 2 * 2 ^ (F.mbits - 1) := by exact_mod_cast hPe
  rw [hPq]
  push_cast
  field_simp
  ring

/-- Fields of the negation of a finite positive pattern. -/
theorem neg_fields (t : Nat) (ht : F.isFinPos t) :
    F.neg t = t + 2 ^ (F.ebits + F.mbits) ∧ F.signOf (F.neg t) = 1 ∧
      F.expOf (F.neg t) = F.expOf t ∧ F.manOf (F.neg t) = F.manOf t := by
  have hW : 0 < 2 ^ (F.ebits + F.mbits) := Nat.two_pow_pos _
  have hP : 0 < 2 ^ F.mbits := Nat.two_pow_pos _
  have hlt := F.finPos_lt t ht
  have hneg : F.neg t = t + 2 ^ (F.ebits + F.mbits) := by
    unfold neg; rw [F.finPos_sign t ht, if_pos rfl]
  rw [hneg]
  refine ⟨rfl, ?_, ?_, ?_⟩
  · unfold signOf
    have : (t + 2 ^ (F.ebits + F.mbits)) / 2 ^ (F.ebits + F.mbits) = 1 := by
      rw [Nat.add_div_right _ hW, Nat.div_eq_of_lt hlt]
    rw [this]
  · unfold expOf
    have e : t + 2 ^ (F.ebits + F.mbits) = t + 2 ^ F.ebits * 2 ^ F.mbits := by rw [pow_add]
    rw [e, Nat.add_mul_div_right _ _ hP, Nat.add_mod_right]
  · unfold manOf
    have e : t + 2 ^ (F.ebits + F.mbits) = t + 2 ^ F.ebits * 2 ^ F.mbits := by rw [pow_add]
    rw [e, Nat.add_mul_mod_self_right]

theorem sig_mul_pow_q (a em : Nat) (h : em ≤ F.qOf a) :
    F.sigOf a * 2 ^ (F.qOf a - em) * 2 ^ em = F.val2 a := by
  unfold val2
  rw [Nat.mul_assoc, ← pow_add]
  congr 2
  omega

/-- The subtraction `1.5 - t` for a finite positive `t < 1.5` whose result is in the normal
range has relative error at most `2 ^ -(mbits + 1)`. -/
theorem fsub_threeHalfs_spec (he : 2 ≤ F.ebits) (hm : 1 ≤ F.mbits) (t : Nat)
    (ht : F.isFinPos t) (hlt : F.toRat t < 3 / 2)
    (hlo : (2 : ℚ) / 2 ^ F.bias ≤ 3 / 2 - F.toRat t) :
    F.isFinPos (F.fsub F.threeHalfsBits t) ∧
      |F.toRat (F.fsub F.threeHalfsBits t) - (3 / 2 - F.toRat t)| ≤
        (3 / 2 - F.toRat t) / 2 ^ (F.mbits + 1) := by
  obtain ⟨hth1, hth2, hth3, hth4⟩ := F.threeHalfsBits_spec he hm
  obtain ⟨hn1, hn2, hn3, hn4⟩ := F.neg_fields t ht
  have hsig : F.sigOf (F.neg t) = F.sigOf t := by unfold sigOf; rw [hn3, hn4]
  have hq : F.qOf (F.neg t) = F.qOf t := by unfold qOf; rw [hn3]
  have hspec_t := F.finPos_not_special t ht
  have hspec_th := F.finPos_not_special _ hth1
  have hnan : F.isNaN (F.neg t) = false := by
    have := hspec_t.1; unfold isNaN at this ⊢; rw [hn3, hn4]; exact this
  have hinf : F.isInf (F.neg t) = false := by
    have := hspec_t.2; unfold isInf at this ⊢; rw [hn3, hn4]; exact this
  have hpB : (0 : ℚ) < 2 ^ (F.bias + F.mbits) := by positivity
  -- the aligned significands
  obtain ⟨em, hem⟩ : ∃ em, em = min (F.qOf F.threeHalfsBits) (F.qOf t) := ⟨_, rfl⟩
  have hA := F.sig_mul_pow_q F.threeHalfsBits em (by rw [hem]; exact min_le_left _ _)
  have hB := F.sig_mul_pow_q t em (by rw [hem]; exact min_le_right _ _)
  have hvlt : F.val2 t < F.val2 F.threeHalfsBits := by
    have h1 : F.toRat t < F.toRat F.threeHalfsBits := by rw [hth4]; exact hlt
    rw [F.toRat_eq t ht, F.toRat_eq _ hth1, div_lt_div_right hpB] at h1
    exact_mod_cast h1
  have hBA : F.sigOf t * 2 ^ (F.qOf t - em) <
      F.sigOf F.threeHalfsBits * 2 ^ (F.qOf F.threeHalfsBits - em) := by
    rw [← hA, ← hB] at hvlt
    exact Nat.lt_of_mul_lt_mul_right hvlt
  have heq : F.fsub F.threeHalfsBits t =
      F.roundPack 0 (F.sigOf F.threeHalfsBits * 2 ^ (F.qOf F.threeHalfsBits - em) -
        F.sigOf t * 2 ^ (F.qOf t - em)) em (F.bias + F.mbits) := by
    unfold fsub fadd
    simp only [hspec_t.1, hspec_th.1, hspec_th.2, hnan, hinf, hth2, hn2, hsig, hq,
      Bool.false_eq_true, if_false, Bool.or_self, ← hem]
    rw [if_neg (by decide), if_pos hBA]
  have hv : (3 : ℚ) / 2 - F.toRat t =
      ((F.sigOf F.threeHalfsBits * 2 ^ (F.qOf F.threeHalfsBits - em) -
        F.sigOf t * 2 ^ (F.qOf t - em) : ℕ) : ℚ) * 2 ^ em / 2 ^ (F.bias + F.mbits) := by
    rw [← hth4, F.toRat_eq t ht, F.toRat_eq _ hth1, ← hA, ← hB, Nat.cast_sub (le_of_lt hBA)]
    push_cast
    ring
  rw [heq]
  rw [hv] at hlo ⊢
  refine F.roundPack_rel he _ _ _ (by omega) hlo ?_
  rw [← hv]
  have hb := F.bias_pos he
  have h2 : (2 : ℚ) ^ 1 ≤ 2 ^ F.bias := pow_le_pow_right₀ (by norm_num) hb
  have h0 : 0 ≤ F.toRat t := by
    rw [F.toRat_eq t ht]; positivity
  linarith

theorem abs_le_rel {r v d c : ℚ} (h : |r - v| ≤ v / d) (hc : 1 / d = c) :
    v * (1 - c) ≤ r ∧ r ≤ v * (1 + c) := by
  rw [div_eq_mul_one_div, hc, abs_le] at h
  constructor <;> linarith only [h.1, h.2]

set_option maxHeartbeats 4000000 in
/-- Floating point Newton update against the exact one: with `q = x * y ^ 2` between `1/2`
and `3/2` and `e = 2 ^ -(mbits + 1)`, the result `y1` is finite and
`y * (3/2 - q/2 * (1+2e)(1+e)^2) * (1-e)^2 ≤ y1 ≤ y * (3/2 - q/2 * (1-2e)(1-e)^2) * (1+e)^2`. -/
theorem stepF_bounds (he : 4 ≤ F.ebits) (hm : 4 ≤ F.mbits) (x y : Nat)
    (hx : F.isFinPos x) (hy : F.isFinPos y)
    (hX1 : (2 : ℚ) / 2 ^ F.bias ≤ F.toRat x)
    (hq1 : 1 / 2 ≤ F.toRat x * F.toRat y ^ 2) (hq2 : F.toRat x * F.toRat y ^ 2 ≤ 3 / 2) :
    F.isFinPos (F.stepF x y) ∧
      F.toRat y * ((3 / 2 - F.toRat x * F.toRat y ^ 2 / 2 *
          ((1 + 2 * (1 / 2 ^ (F.mbits + 1))) * (1 + 1 / 2 ^ (F.mbits + 1)) ^ 2)) *
          (1 - 1 / 2 ^ (F.mbits + 1)) ^ 2) ≤ F.toRat (F.stepF x y) ∧
      F.toRat (F.stepF x y) ≤ F.toRat y * ((3 / 2 - F.toRat x * F.toRat y ^ 2 / 2 *
          ((1 - 2 * (1 / 2 ^ (F.mbits + 1))) * (1 - 1 / 2 ^ (F.mbits + 1)) ^ 2)) *
          (1 + 1 / 2 ^ (F.mbits + 1)) ^ 2) := by
  -- notation
  obtain ⟨X, hXdef⟩ : ∃ X, X = F.toRat x := ⟨_, rfl⟩
  obtain ⟨Y, hYdef⟩ : ∃ Y, Y = F.toRat y := ⟨_, rfl⟩
  obtain ⟨e, hedef⟩ : ∃ e : ℚ, 1 / 2 ^ (F.mbits + 1) = e := ⟨_, rfl⟩
  obtain ⟨B, hBdef⟩ : ∃ B : ℚ, 2 ^ F.bias = B := ⟨_, rfl⟩
  rw [← hXdef] at hX1 hq1 hq2 ⊢
  rw [← hYdef] at hq1 hq2 ⊢
  rw [hBdef] at hX1
  rw [hedef]
  have hbias : 7 ≤ F.bias := by
    unfold bias
    have : 2 ^ 3 ≤ 2 ^ (F.ebits - 1) := Nat.pow_le_pow_right (by decide) (by omega)
    omega
  have hB : (128 : ℚ) ≤ B := by
    rw [← hBdef]
    calc (128 : ℚ) = 2 ^ 7 := by norm_num
      _ ≤ 2 ^ F.bias := pow_le_pow_right₀ (by norm_num) hbias
  have hB0 : (0 : ℚ) < B := lt_of_lt_of_le (by norm_num) hB
  have he0 : 0 < e := by rw [← hedef]; positivity
  have he1 : e ≤ 1 / 32 := by
    rw [← hedef]
    have : (32 : ℚ) ≤ 2 ^ (F.mbits + 1) := by
      calc (32 : ℚ) = 2 ^ 5 := by norm_num
        _ ≤ 2 ^ (F.mbits + 1) := pow_le_pow_right₀ (by norm_num) (by omega)
    exact div_le_div_of_nonneg_left (by norm_num) (by norm_num) this
  have h2e : (1 : ℚ) / 2 ^ F.mbits = 2 * e := by
    rw [← hedef, pow_succ]; field_simp
  have hX0 : 0 < X := lt_of_lt_of_le (by positivity) hX1
  have hY0' : 0 ≤ Y := by rw [hYdef, F.toRat_eq y hy]; positivity
  have hY0 : 0 < Y := by
    rcases eq_or_lt_of_le hY0' with h | h
    · rw [← h] at hq1; norm_num at hq1
    · exact h
  have hX2 : X < 2 * B := by
    rw [hXdef, F.toRat_eq x hx, ← hBdef]
    have h1 : F.val2 x < 2 ^ (F.mbits + 1) * 2 ^ (2 * F.bias) := by
      obtain ⟨h3, h4⟩ := F.finPos_exp x hx
      rw [F.two_pow_ebits (by omega)] at h4
      unfold val2 sigOf qOf manOf
      rw [h3]
      have hm' : x % 2 ^ F.mbits < 2 ^ F.mbits := Nat.mod_lt _ (Nat.two_pow_pos _)
      have hs : (if x / 2 ^ F.mbits = 0 then x % 2 ^ F.mbits
          else 2 ^ F.mbits + x % 2 ^ F.mbits) < 2 ^ (F.mbits + 1) := by
        rw [pow_succ]; split <;> omega
      have hq : 2 ^ max (x / 2 ^ F.mbits) 1 ≤ 2 ^ (2 * F.bias) :=
        Nat.pow_le_pow_right (by decide) (by omega)
      calc _ < 2 ^ (F.mbits + 1) * 2 ^ max (x / 2 ^ F.mbits) 1 :=
            Nat.mul_lt_mul_of_pos_right hs (Nat.two_pow_pos _)
        _ ≤ 2 ^ (F.mbits + 1) * 2 ^ (2 * F.bias) := Nat.mul_le_mul_left _ hq
    have h2 : (F.val2 x : ℚ) < 2 ^ (F.mbits + 1) * 2 ^ (2 * F.bias) := by exact_mod_cast h1
    rw [div_lt_iff (by positivity)]
    calc (F.val2 x : ℚ) < 2 ^ (F.mbits + 1) * 2 ^ (2 * F.bias) := h2
      _ = 2 * 2 ^ F.bias * 2 ^ (F.bias + F.mbits) := by
          rw [pow_succ, two_mul, pow_add, pow_add]; ring
  -- magnitudes of `y` and `x * y`
  have hYlo : 4 / B ≤ Y := by
    by_contra hc
    rw [not_le] at hc
    have h1 : Y ^ 2 < (4 / B) ^ 2 := pow_lt_pow_left hc hY0' (by norm_num)
    have h2 : X * Y ^ 2 < 2 * B * (4 / B) ^ 2 := by
      calc X * Y ^ 2 ≤ X * (4 / B) ^ 2 := by
            apply mul_le_mul_of_nonneg_left (le_of_lt h1) (le_of_lt hX0)
        _ < 2 * B * (4 / B) ^ 2 := by
            apply mul_lt_mul_of_pos_right hX2 (by positivity)
    have h3 : 2 * B * (4 / B) ^ 2 = 32 / B := by field_simp; ring
    have h4 : 32 / B ≤ 1 / 4 := by rw [div_le_iff hB0]; linarith only [hB]
    linarith only [h2, h3, h4, hq1]
  have hYhi : Y < B / 2 := by
    by_contra hc
    rw [not_lt] at hc
    have h1 : (B / 2) ^ 2 ≤ Y ^ 2 := pow_le_pow_left (by positivity) hc 2
    have h2 : 2 / B * (B / 2) ^ 2 ≤ X * Y ^ 2 :=
      mul_le_mul hX1 h1 (by positivity) (le_of_lt hX0)
    have h3 : 2 / B * (B / 2) ^ 2 = B / 2 := by field_simp; ring
    linarith only [h2, h3, hq2, hB]
  have hXY0 : 0 < X * Y := mul_pos hX0 hY0
  have hXYsq : (X * Y) ^ 2 = X * (X * Y ^ 2) := by ring
  have hXYlo : 8 / B ≤ X * Y := by
    by_contra hc
    rw [not_le] at hc
    have h1 : (X * Y) ^ 2 < (8 / B) ^ 2 := pow_lt_pow_left hc (le_of_lt hXY0) (by norm_num)
    have h2 : 2 / B * (1 / 2) ≤ X * (X * Y ^ 2) :=
      mul_le_mul hX1 hq1 (by norm_num) (le_of_lt hX0)
    have h3 : (8 / B) ^ 2 = (64 / B) * (1 / B) := by field_simp; ring
    have h4 : 64 / B ≤ 1 / 2 := by rw [div_le_iff hB0]; linarith only [hB]
    have h5 : (64 / B) * (1 / B) ≤ 1 / 2 * (1 / B) :=
      mul_le_mul_of_nonneg_right h4 (by positivity)
    have h6 : 2 / B * (1 / 2) = 1 / B := by field_simp; ring
    have h7 : (0 : ℚ) < 1 / B := by positivity
    have h8 : 1 / 2 * (1 / B) < 1 / B := by linarith only [h7]
    linarith only [h1, h2, h3, h5, h6, h8, hXYsq]
  have hXYhi : X * Y < B / 2 := by
    by_contra hc
    rw [not_lt] at hc
    have h1 : (B / 2) ^ 2 ≤ (X * Y) ^ 2 := pow_le_pow_left (by positivity) hc 2
    have h2 : X * (X * Y ^ 2) < 2 * B * (3 / 2) := by
      calc X * (X * Y ^ 2) ≤ X * (3 / 2) := mul_le_mul_of_nonneg_left hq2 (le_of_lt hX0)
        _ < 2 * B * (3 / 2) := mul_lt_mul_of_pos_right hX2 (by norm_num)
    have h3 : (B / 2) ^ 2 = B * (B / 4) := by ring
    have h4 : B * 32 ≤ B * (B / 4) :=
      mul_le_mul_of_nonneg_left (by linarith only [hB]) (le_of_lt hB0)
    linarith only [h1, h2, h3, h4, hXYsq, hB0]
  -- step 1 : xh = x * 0.5
  obtain ⟨hhalf1, hhalf2⟩ := F.halfBits_spec (by omega)
  have s1 := F.fmul_spec_sub (by omega) x F.halfBits hx hhalf1
    (by rw [← hXdef, hhalf2, hBdef]
        have : 1 / B = 2 / B * (1 / 2) := by ring
        rw [this]; exact mul_le_mul_of_nonneg_right hX1 (by norm_num))
    (by rw [← hXdef, hhalf2, hBdef]; linarith only [hX2])
  rw [← hXdef, hhalf2] at s1
  obtain ⟨f1, s1⟩ := s1
  obtain ⟨XH, hXH⟩ : ∃ XH, XH = F.toRat (F.fmul x F.halfBits) := ⟨_, rfl⟩
  rw [← hXH] at s1
  obtain ⟨a1, b1⟩ := abs_le_rel s1 h2e
  have hXh0 : (0 : ℚ) < X * (1 / 2) := by positivity
  have k1 : X * (1 / 2) * (1 / 2) ≤ X * (1 / 2) * (1 - 2 * e) :=
    mul_le_mul_of_nonneg_left (by linarith only [he1]) (le_of_lt hXh0)
  have k2 : X * (1 / 2) * (1 + 2 * e) ≤ X * (1 / 2) * (9 / 8) :=
    mul_le_mul_of_nonneg_left (by linarith only [he1]) (le_of_lt hXh0)
  have hXHlo : X * (1 / 4) ≤ XH := by linarith only [k1, a1]
  have hXHhi : XH ≤ X * (9 / 16) := by linarith only [k2, b1]
  have hXH0 : 0 < XH := by linarith only [hXHlo, hX0]
  have h1me : (0 : ℚ) ≤ 1 - e := by linarith only [he1]
  have h1pe : (0 : ℚ) ≤ 1 + e := by linarith only [he0]
  -- step 2 : t1 = xh * y
  have hv2lo : X * Y * (1 / 4) ≤ XH * Y := by
    have := mul_le_mul_of_nonneg_right hXHlo (le_of_lt hY0); linarith only [this]
  have hv2hi : XH * Y ≤ X * Y * (9 / 16) := by
    have := mul_le_mul_of_nonneg_right hXHhi (le_of_lt hY0); linarith only [this]
  have s2 := F.fmul_spec (by omega) _ y f1 hy
    (by rw [← hXH, ← hYdef, hBdef]
        have : 2 / B = 8 / B * (1 / 4) := by ring
        rw [this]; linarith only [hv2lo, hXYlo])
    (by rw [← hXH, ← hYdef, hBdef]; linarith only [hv2hi, hXYhi, hXY0])
  rw [← hXH, ← hYdef] at s2
  obtain ⟨f2, s2⟩ := s2
  obtain ⟨T1, hT1⟩ : ∃ T1, T1 = F.toRat (F.fmul (F.fmul x F.halfBits) y) := ⟨_, rfl⟩
  rw [← hT1] at s2
  obtain ⟨a2, b2⟩ := abs_le_rel s2 hedef
  have hXHY0 : 0 < XH * Y := mul_pos hXH0 hY0
  have hT10 : 0 < T1 := lt_of_lt_of_le (mul_pos hXHY0 (by linarith only [he1])) a2
  -- step 3 : t2 = t1 * y
  have c3lo : X * Y ^ 2 / 2 * ((1 - 2 * e) * (1 - e) ^ 2) ≤ T1 * Y * (1 - e) := by
    have h0 := mul_le_mul_of_nonneg_right a1 (le_of_lt hY0)
    have h0' := mul_le_mul_of_nonneg_right h0 h1me
    have h1 : X * (1 / 2) * (1 - 2 * e) * Y * (1 - e) ≤ T1 := le_trans h0' a2
    have h2 := mul_le_mul_of_nonneg_right h1 (le_of_lt hY0)
    have h3 := mul_le_mul_of_nonneg_right h2 h1me
    calc X * Y ^ 2 / 2 * ((1 - 2 * e) * (1 - e) ^ 2)
        = X * (1 / 2) * (1 - 2 * e) * Y * (1 - e) * Y * (1 - e) := by ring
      _ ≤ T1 * Y * (1 - e) := h3
  have c3hi : T1 * Y * (1 + e) ≤ X * Y ^ 2 / 2 * ((1 + 2 * e) * (1 + e) ^ 2) := by
    have h0 := mul_le_mul_of_nonneg_right b1 (le_of_lt hY0)
    have h0' := mul_le_mul_of_nonneg_right h0 h1pe
    have h1 : T1 ≤ X * (1 / 2) * (1 + 2 * e) * Y * (1 + e) := le_trans b2 h0'
    have h2 := mul_le_mul_of_nonneg_right h1 (le_of_lt hY0)
    have h3 := mul_le_mul_of_nonneg_right h2 h1pe
    calc T1 * Y * (1 + e) ≤ X * (1 / 2) * (1 + 2 * e) * Y * (1 + e) * Y * (1 + e) := h3
      _ = X * Y ^ 2 / 2 * ((1 + 2 * e) * (1 + e) ^ 2) := by ring
  have hAlo : (3 : ℚ) / 4 ≤ (1 - 2 * e) * (1 - e) ^ 2 := by
    have h1 : (15 : ℚ) / 16 ≤ 1 - 2 * e := by linarith only [he1]
    have h2 : (31 : ℚ) / 32 ≤ 1 - e := by linarith only [he1]
    have h3 : (31 : ℚ) / 32 * (31 / 32) ≤ (1 - e) * (1 - e) :=
      mul_le_mul h2 h2 (by norm_num) h1me
    have h4 : (15 : ℚ) / 16 * (31 / 32 * (31 / 32)) ≤ (1 - 2 * e) * ((1 - e) * (1 - e)) :=
      mul_le_mul h1 h3 (by norm_num) (by linarith only [he1])
    have h5 : (1 - 2 * e) * (1 - e) ^ 2 = (1 - 2 * e) * ((1 - e) * (1 - e)) := by ring
    have : (3 : ℚ) / 4 ≤ 15 / 16 * (31 / 32 * (31 / 32)) := by norm_num
    linarith only [h4, h5, this]
  have hAhi : (1 + 2 * e) * (1 + e) ^ 2 ≤ 5 / 4 := by
    have h1 : 1 + 2 * e ≤ (17 : ℚ) / 16 := by linarith only [he1]
    have h2 : 1 + e ≤ (33 : ℚ) / 32 := by linarith only [he1]
    have h3 : (1 + e) * (1 + e) ≤ (33 : ℚ) / 32 * (33 / 32) :=
      mul_le_mul h2 h2 h1pe (by norm_num)
    have h4 : (1 + 2 * e) * ((1 + e) * (1 + e)) ≤ (17 : ℚ) / 16 * (33 / 32 * (33 / 32)) :=
      mul_le_mul h1 h3 (mul_nonneg h1pe h1pe) (by norm_num)
    have h5 : (1 + 2 * e) * (1 + e) ^ 2 = (1 + 2 * e) * ((1 + e) * (1 + e)) := by ring
    have : (17 : ℚ) / 16 * (33 / 32 * (33 / 32)) ≤ 5 / 4 := by norm_num
    linarith only [h4, h5, this]
  have hq0 : 0 < X * Y ^ 2 := by linarith only [hq1]
  have hv3lo : (3 : ℚ) / 16 ≤ T1 * Y * (1 - e) := by
    have h1 : (1 : ℚ) / 2 / 2 * (3 / 4) ≤ X * Y ^ 2 / 2 * ((1 - 2 * e) * (1 - e) ^ 2) :=
      mul_le_mul (by linarith only [hq1]) hAlo (by norm_num) (by linarith only [hq0])
    have : (3 : ℚ) / 16 = 1 / 2 / 2 * (3 / 4) := by norm_num
    linarith only [h1, this, c3lo]
  have hv3hi : T1 * Y * (1 + e) ≤ 15 / 16 := by
    have h1 : X * Y ^ 2 / 2 * ((1 + 2 * e) * (1 + e) ^ 2) ≤ (3 : ℚ) / 2 / 2 * (5 / 4) :=
      mul_le_mul (by linarith only [hq2]) hAhi
        (mul_nonneg (by linarith only [he0]) (sq_nonneg _)) (by norm_num)
    have : (3 : ℚ) / 2 / 2 * (5 / 4) = 15 / 16 := by norm_num
    linarith only [h1, this, c3hi]
  have hT1Y0 : 0 < T1 * Y := mul_pos hT10 hY0
  have hT1Ylo : (3 : ℚ) / 16 ≤ T1 * Y := by
    have : T1 * Y * (1 - e) ≤ T1 * Y * 1 :=
      mul_le_mul_of_nonneg_left (by linarith only [he0]) (le_of_lt hT1Y0)
    linarith only [this, hv3lo]
  have hT1Yhi : T1 * Y ≤ 15 / 16 := by
    have : T1 * Y * 1 ≤ T1 * Y * (1 + e) :=
      mul_le_mul_of_nonneg_left (by linarith only [he0]) (le_of_lt hT1Y0)
    linarith only [this, hv3hi]
  have s3 := F.fmul_spec (by omega) _ y f2 hy
    (by rw [← hT1, ← hYdef, hBdef]
        have h1 : 2 / B ≤ 3 / 16 := by rw [div_le_iff hB0]; linarith only [hB]
        linarith only [h1, hT1Ylo])
    (by rw [← hT1, ← hYdef, hBdef]; linarith only [hT1Yhi, hB])
  rw [← hT1, ← hYdef] at s3
  obtain ⟨f3, s3⟩ := s3
  obtain ⟨T2, hT2⟩ : ∃ T2, T2 = F.toRat (F.fmul (F.fmul (F.fmul x F.halfBits) y) y) := ⟨_, rfl⟩
  rw [← hT2] at s3
  obtain ⟨a3, b3⟩ := abs_le_rel s3 hedef
  have hT2lo : X * Y ^ 2 / 2 * ((1 - 2 * e) * (1 - e) ^ 2) ≤ T2 := le_trans c3lo a3
  have hT2hi : T2 ≤ X * Y ^ 2 / 2 * ((1 + 2 * e) * (1 + e) ^ 2) := le_trans b3 c3hi
  have hT2a : T2 ≤ 15 / 16 := le_trans b3 hv3hi
  have hT2b : (3 : ℚ) / 16 ≤ T2 := le_trans hv3lo a3
  -- step 4 : d = 1.5 - t2
  have s4 := F.fsub_threeHalfs_spec (by omega) (by omega) _ f3
    (by rw [← hT2]; linarith only [hT2a])
    (by rw [← hT2, hBdef]
        have h1 : 2 / B ≤ 1 / 16 := by rw [div_le_iff hB0]; linarith only [hB]
        linarith only [h1, hT2a])
  rw [← hT2] at s4
  obtain ⟨f4, s4⟩ := s4
  obtain ⟨D, hD⟩ : ∃ D, D = F.toRat (F.fsub F.threeHalfsBits
      (F.fmul (F.fmul (F.fmul x F.halfBits) y) y)) := ⟨_, rfl⟩
  rw [← hD] at s4
  obtain ⟨a4, b4⟩ := abs_le_rel s4 hedef
  have hV0 : (9 : ℚ) / 16 ≤ 3 / 2 - T2 := by linarith only [hT2a]
  have hV1 : 3 / 2 - T2 ≤ (21 : ℚ) / 16 := by linarith only [hT2b]
  have hDlo : (1 : ℚ) / 2 ≤ D := by
    have h1 : (9 : ℚ) / 16 * (31 / 32) ≤ (3 / 2 - T2) * (1 - e) :=
      mul_le_mul hV0 (by linarith only [he1]) (by norm_num) (by linarith only [hV0])
    have : (1 : ℚ) / 2 ≤ 9 / 16 * (31 / 32) := by norm_num
    linarith only [h1, this, a4]
  have hDhi : D ≤ 3 / 2 := by
    have h1 : (3 / 2 - T2) * (1 + e) ≤ (21 : ℚ) / 16 * (33 / 32) :=
      mul_le_mul hV1 (by linarith only [he1]) h1pe (by norm_num)
    have : (21 : ℚ) / 16 * (33 / 32) ≤ 3 / 2 := by norm_num
    linarith only [h1, this, b4]
  -- step 5 : y1 = y * d
  have hYDlo : 4 / B * (1 / 2) ≤ Y * D := mul_le_mul hYlo hDlo (by norm_num) (le_of_lt hY0)
  have hYDhi : Y * D ≤ B / 2 * (3 / 2) :=
    mul_le_mul (le_of_lt hYhi) hDhi (by linarith only [hDlo]) (by linarith only [hB0])
  have s5 := F.fmul_spec (by omega) y _ hy f4
    (by rw [← hD, ← hYdef, hBdef]
        have h1 : 2 / B = 4 / B * (1 / 2) := by ring
        rw [h1]; exact hYDlo)
    (by rw [← hD, ← hYdef, hBdef]; linarith only [hYDhi, hB0])
  rw [← hD, ← hYdef] at s5
  obtain ⟨f5, s5⟩ := s5
  have hstep : F.stepF x y = F.fmul y (F.fsub F.threeHalfsBits
      (F.fmul (F.fmul (F.fmul x F.halfBits) y) y)) := rfl
  rw [← hstep] at s5 f5
  obtain ⟨Y1, hY1⟩ : ∃ Y1, Y1 = F.toRat (F.stepF x y) := ⟨_, rfl⟩
  rw [← hY1] at s5
  obtain ⟨a5, b5⟩ := abs_le_rel s5 hedef
  rw [← hY1]
  refine ⟨f5, ?_, ?_⟩
  · -- lower bound
    have h1 : (3 / 2 - X * Y ^ 2 / 2 * ((1 + 2 * e) * (1 + e) ^ 2)) * (1 - e) ≤ D :=
      le_trans (mul_le_mul_of_nonneg_right (by linarith only [hT2hi]) h1me) a4
    have h2 : Y * ((3 / 2 - X * Y ^ 2 / 2 * ((1 + 2 * e) * (1 + e) ^ 2)) * (1 - e)) ≤ Y * D :=
      mul_le_mul_of_nonneg_left h1 (le_of_lt hY0)
    have h3 := mul_le_mul_of_nonneg_right h2 h1me
    calc Y * ((3 / 2 - X * Y ^ 2 / 2 * ((1 + 2 * e) * (1 + e) ^ 2)) * (1 - e) ^ 2)
        = Y * ((3 / 2 - X * Y ^ 2 / 2 * ((1 + 2 * e) * (1 + e) ^ 2)) * (1 - e)) * (1 - e) := by
          ring
      _ ≤ Y * D * (1 - e) := h3
      _ ≤ Y1 := a5
  · -- upper bound
    have h1 : D ≤ (3 / 2 - X * Y ^ 2 / 2 * ((1 - 2 * e) * (1 - e) ^ 2)) * (1 + e) :=
      le_trans b4 (mul_le_mul_of_nonneg_right (by linarith only [hT2lo]) h1pe)
    have h2 : Y * D ≤ Y * ((3 / 2 - X * Y ^ 2 / 2 * ((1 - 2 * e) * (1 - e) ^ 2)) * (1 + e)) :=
      mul_le_mul_of_nonneg_left h1 (le_of_lt hY0)
    have h3 := mul_le_mul_of_nonneg_right h2 h1pe
    calc Y1 ≤ Y * D * (1 + e) := b5
      _ ≤ Y * ((3 / 2 - X * Y ^ 2 / 2 * ((1 - 2 * e) * (1 - e) ^ 2)) * (1 + e)) * (1 + e) := h3
      _ = Y * ((3 / 2 - X * Y ^ 2 / 2 * ((1 - 2 * e) * (1 - e) ^ 2)) * (1 + e) ^ 2) := by ring

end FloatFormat

/-- Perturbation of the exact Newton update `u (3 - u^2) / 2` by the five roundings of the
floating point update, for `0 ≤ e ≤ 2^-24` and `0.96 ≤ u ≤ 1.04`. -/
theorem newton_perturb (u e : ℝ) (he0 : 0 ≤ e) (he1 : e ≤ 1 / 2 ^ 24) (hu1 : 96 / 100 ≤ u)
    (hu2 : u ≤ 104 / 100) :
    u * (3 - u ^ 2) / 2 - 9 / 2 * e ≤
        u * ((3 / 2 - u ^ 2 / 2 * ((1 + 2 * e) * (1 + e) ^ 2)) * (1 - e) ^ 2) ∧
      u * ((3 / 2 - u ^ 2 / 2 * ((1 - 2 * e) * (1 - e) ^ 2)) * (1 + e) ^ 2) ≤
        u * (3 - u ^ 2) / 2 + 9 / 2 * e := by
  have he2 : e ≤ 1 / 1000 := le_trans he1 (by norm_num)
  have hee : e * e ≤ e * (1 / 1000) := mul_le_mul_of_nonneg_left he2 he0
  have hee0 : 0 ≤ e * e := mul_nonneg he0 he0
  have hu0 : 0 ≤ u := by linarith only [hu1]
  have huu : u * u ≤ 104 / 100 * (104 / 100) := mul_le_mul hu2 hu2 hu0 (by norm_num)
  have hu3 : u ^ 3 ≤ 9 / 8 := by
    have h1 : u * u ≤ 104 / 100 * (104 / 100) := mul_le_mul hu2 hu2 hu0 (by norm_num)
    have h2 : u * u * u ≤ 104 / 100 * (104 / 100) * (104 / 100) :=
      mul_le_mul h1 hu2 hu0 (by norm_num)
    have : u ^ 3 = u * u * u := by ring
    rw [this]; linarith only [h2]
  have hu30 : 0 ≤ u ^ 3 := by positivity
  have hP1 : u * (3 - u ^ 2) / 2 ≤ 1 := by
    have e : 1 - u * (3 - u ^ 2) / 2 = (1 - u) ^ 2 * (u + 2) / 2 := by ring
    have : 0 ≤ (1 - u) ^ 2 * (u + 2) := mul_nonneg (sq_nonneg _) (by linarith only [hu0])
    linarith only [e, this]
  have hP0 : 0 ≤ u * (3 - u ^ 2) / 2 := by
    have : 0 ≤ u * (3 - u ^ 2) := mul_nonneg hu0 (by rw [sq]; linarith only [huu])
    linarith only [this]
  -- a = A - 1, b = 1 - B for the lower bound
  have hA : (1 + 2 * e) * (1 + e) ^ 2 = 1 + (4 * e + 5 * (e * e) + 2 * (e * e) * e) := by ring
  have hB : (1 - e) ^ 2 = 1 - (2 * e - e * e) := by ring
  have hA' : (1 - 2 * e) * (1 - e) ^ 2 = 1 - (4 * e - 5 * (e * e) + 2 * (e * e) * e) := by ring
  have hB' : (1 + e) ^ 2 = 1 + (2 * e + e * e) := by ring
  have heee : 0 ≤ e * e * e := mul_nonneg hee0 he0
  have heee1 : e * e * e ≤ e * e * (1 / 1000) := mul_le_mul_of_nonneg_left he2 hee0
  constructor
  · obtain ⟨a, ha⟩ : ∃ a, a = 4 * e + 5 * (e * e) + 2 * (e * e) * e := ⟨_, rfl⟩
    obtain ⟨b, hb⟩ : ∃ b, b = 2 * e - e * e := ⟨_, rfl⟩
    rw [hA, hB, ← ha, ← hb]
    have ha0 : 0 ≤ a := by rw [ha]; linarith only [he0, hee0, heee]
    have ha1 : a ≤ 401 / 100 * e := by rw [ha]; linarith only [hee, heee1, he0, hee0]
    have hb0 : 0 ≤ b := by rw [hb]; linarith only [hee, he0]
    have hb1 : b ≤ 2 * e := by rw [hb]; linarith only [hee0]
    have hb2 : b ≤ 1 := by linarith only [hb1, he2]
    have e1 : u * ((3 / 2 - u ^ 2 / 2 * (1 + a)) * (1 - b)) =
        u * (3 - u ^ 2) / 2 - (u * (3 - u ^ 2) / 2 * b + u ^ 3 * a / 2 * (1 - b)) := by ring
    rw [e1]
    have t1 : u * (3 - u ^ 2) / 2 * b ≤ 1 * (2 * e) := mul_le_mul hP1 hb1 hb0 (by norm_num)
    have t2 : u ^ 3 * a ≤ 9 / 8 * (401 / 100 * e) := mul_le_mul hu3 ha1 ha0 (by norm_num)
    have t3 : u ^ 3 * a / 2 * (1 - b) ≤ u ^ 3 * a / 2 * 1 :=
      mul_le_mul_of_nonneg_left (by linarith only [hb0]) (by positivity)
    linarith only [t1, t2, t3, he0]
  · obtain ⟨a, ha⟩ : ∃ a, a = 4 * e - 5 * (e * e) + 2 * (e * e) * e := ⟨_, rfl⟩
    obtain ⟨b, hb⟩ : ∃ b, b = 2 * e + e * e := ⟨_, rfl⟩
    rw [hA', hB', ← ha, ← hb]
    have ha0 : 0 ≤ a := by rw [ha]; linarith only [hee, heee, he0]
    have ha1 : a ≤ 4 * e := by rw [ha]; linarith only [heee1, hee0]
    have hb0 : 0 ≤ b := by rw [hb]; linarith only [he0, hee0]
    have hb1 : b ≤ 2001 / 1000 * e := by rw [hb]; linarith only [hee]
    have hb2 : b ≤ 1 / 100 := by linarith only [hb1, he2]
    have e1 : u * ((3 / 2 - u ^ 2 / 2 * (1 - a)) * (1 + b)) =
        u * (3 - u ^ 2) / 2 + (u * (3 - u ^ 2) / 2 * b + u ^ 3 * a / 2 * (1 + b)) := by ring
    rw [e1]
    have t1 : u * (3 - u ^ 2) / 2 * b ≤ 1 * (2001 / 1000 * e) :=
      mul_le_mul hP1 hb1 hb0 (by norm_num)
    have t2 : u ^ 3 * a ≤ 9 / 8 * (4 * e) := mul_le_mul hu3 ha1 ha0 (by norm_num)
    have t3 : u ^ 3 * a / 2 * (1 + b) ≤ 9 / 8 * (4 * e) / 2 * (101 / 100) :=
      mul_le_mul (by linarith only [t2]) (by linarith only [hb2]) (by linarith only [hb0])
        (by positivity)
    linarith only [t1, t3, he0]

/-- The exact Newton update in terms of `u = y * sqrt x`. -/
theorem newton_exact (u : ℝ) : 1 - u * (3 - u ^ 2) / 2 = (1 - u) ^ 2 * (u + 2) / 2 := by ring

/-- `(1 - u)^2 (u + 2)` on an interval around `1` is largest at an endpoint. -/
theorem newton_gap_le (lo hi u : ℝ) (hlo0 : 0 ≤ lo) (hlo1 : lo ≤ 1) (hhi : 1 ≤ hi)
    (h1 : lo ≤ u) (h2 : u ≤ hi) :
    (1 - u) ^ 2 * (u + 2) ≤ max ((1 - lo) ^ 2 * (lo + 2)) ((1 - hi) ^ 2 * (hi + 2)) := by
  rcases le_total u 1 with h | h
  · refine le_trans ?_ (le_max_left _ _)
    have e : (1 - lo) ^ 2 * (lo + 2) - (1 - u) ^ 2 * (u + 2) =
        (u - lo) * (3 - (lo ^ 2 + lo * u + u ^ 2)) := by ring
    have hu0 : 0 ≤ u := le_trans hlo0 h1
    have k1 : lo * lo ≤ 1 * 1 := mul_le_mul hlo1 hlo1 hlo0 (by norm_num)
    have k2 : lo * u ≤ 1 * 1 := mul_le_mul hlo1 h hu0 (by norm_num)
    have k3 : u * u ≤ 1 * 1 := mul_le_mul h h hu0 (by norm_num)
    have h3 : lo ^ 2 + lo * u + u ^ 2 ≤ 3 := by rw [sq, sq]; linarith only [k1, k2, k3]
    have := mul_nonneg (sub_nonneg.2 h1) (sub_nonneg.2 h3)
    linarith only [e, this]
  · refine le_trans ?_ (le_max_right _ _)
    have e : (1 - hi) ^ 2 * (hi + 2) - (1 - u) ^ 2 * (u + 2) =
        (hi - u) * ((hi ^ 2 + hi * u + u ^ 2) - 3) := by ring
    have k1 : 1 * 1 ≤ hi * hi := mul_le_mul hhi hhi (by norm_num) (le_trans (by norm_num) hhi)
    have k2 : 1 * 1 ≤ hi * u := mul_le_mul hhi h (by norm_num) (le_trans (by norm_num) hhi)
    have k3 : 1 * 1 ≤ u * u := mul_le_mul h h (by norm_num) (le_trans (by norm_num) h)
    have h3 : 3 ≤ hi ^ 2 + hi * u + u ^ 2 := by rw [sq, sq]; linarith only [k1, k2, k3]
    have := mul_nonneg (sub_nonneg.2 h2) (sub_nonneg.2 h3)
    linarith only [e, this]

/-- Relative error against `1 / sqrt x` in terms of `u = y * sqrt x`. -/
theorem relErr_eq (X Y : ℝ) (hX : 0 < X) :
    |Y - 1 / Real.sqrt X| / (1 / Real.sqrt X) = |Y * Real.sqrt X - 1| := by
  have hs : 0 < Real.sqrt X := Real.sqrt_pos.2 hX
  rw [div_div_eq_mul_div, div_one]
  have : Y * Real.sqrt X - 1 = (Y - 1 / Real.sqrt X) * Real.sqrt X := by
    field_simp
  rw [this, abs_mul, abs_of_pos hs]

namespace FloatFormat

variable (F : FloatFormat)

/-- From the integer bound `qBound` to `ulo / Dn ≤ y0 * sqrt x ≤ uhi / Dn`. -/
theorem u_of_qBound (K ulo uhi Dn b : Nat) (hDn : 0 < Dn) (hb : F.isFinPos b)
    (hr : F.isFinPos (K - b / 2))
    (h : F.qBound K (ulo ^ 2) (uhi ^ 2) (Dn ^ 2) b) :
    (ulo : ℝ) / Dn ≤ (F.toRat (K - b / 2) : ℝ) * Real.sqrt (F.toRat b : ℝ) ∧
      (F.toRat (K - b / 2) : ℝ) * Real.sqrt (F.toRat b : ℝ) ≤ (uhi : ℝ) / Dn := by
  obtain ⟨h1, h2⟩ := h
  have hX0 : (0 : ℝ) ≤ (F.toRat b : ℝ) := by
    rw [F.toRat_eq b hb]; push_cast; positivity
  have hY0 : (0 : ℝ) ≤ (F.toRat (K - b / 2) : ℝ) := by
    rw [F.toRat_eq _ hr]; push_cast; positivity
  have hu0 : 0 ≤ (F.toRat (K - b / 2) : ℝ) * Real.sqrt (F.toRat b : ℝ) :=
    mul_nonneg hY0 (Real.sqrt_nonneg _)
  have hsq : ((F.toRat (K - b / 2) : ℝ) * Real.sqrt (F.toRat b : ℝ)) ^ 2 =
      (F.val2 b : ℝ) * (F.val2 (K - b / 2) : ℝ) ^ 2 / 2 ^ (3 * (F.bias + F.mbits)) := by
    rw [mul_pow, Real.sq_sqrt hX0, F.toRat_eq b hb, F.toRat_eq _ hr]
    push_cast
    have : (2 : ℝ) ^ (3 * (F.bias + F.mbits)) =
        2 ^ (F.bias + F.mbits) * 2 ^ (F.bias + F.mbits) * 2 ^ (F.bias + F.mbits) := by
      rw [← pow_add, ← pow_add]; congr 1; ring
    rw [this]
    field_simp
    ring
  have hD : (0 : ℝ) < (Dn : ℝ) := by exact_mod_cast hDn
  have hp : (0 : ℝ) < 2 ^ (3 * (F.bias + F.mbits)) := by positivity
  have r1 : (F.val2 b : ℝ) * (F.val2 (K - b / 2) : ℝ) ^ 2 * (Dn : ℝ) ^ 2 ≤
      (uhi : ℝ) ^ 2 * 2 ^ (3 * (F.bias + F.mbits)) := by exact_mod_cast h1
  have r2 : (ulo : ℝ) ^ 2 * 2 ^ (3 * (F.bias + F.mbits)) ≤
      (F.val2 b : ℝ) * (F.val2 (K - b / 2) : ℝ) ^ 2 * (Dn : ℝ) ^ 2 := by exact_mod_cast h2
  constructor
  · by_contra hc
    rw [not_le] at hc
    have h3 := pow_lt_pow_left hc hu0 (by norm_num : 2 ≠ 0)
    rw [hsq, div_pow, div_lt_div_iff hp (by positivity)] at h3
    linarith
  · by_contra hc
    rw [not_le] at hc
    have h3 := pow_lt_pow_left hc (by positivity) (by norm_num : 2 ≠ 0)
    rw [hsq, div_pow, div_lt_div_iff (by positivity) hp] at h3
    linarith

/-- One floating point Newton update in terms of `u = y * sqrt x`: the result `u1` satisfies
`|u1 - u (3 - u^2) / 2| ≤ 4.5 * 2^-24`. -/
theorem stepF_real (he : 4 ≤ F.ebits) (hm : 23 ≤ F.mbits) (x y : Nat)
    (hx : F.isFinPos x) (hy : F.isFinPos y) (hX1 : (2 : ℚ) / 2 ^ F.bias ≤ F.toRat x)
    (hu1 : 96 / 100 ≤ (F.toRat y : ℝ) * Real.sqrt (F.toRat x : ℝ))
    (hu2 : (F.toRat y : ℝ) * Real.sqrt (F.toRat x : ℝ) ≤ 104 / 100) :
    F.isFinPos (F.stepF x y) ∧
      (F.toRat y : ℝ) * Real.sqrt (F.toRat x : ℝ) *
          (3 - ((F.toRat y : ℝ) * Real.sqrt (F.toRat x : ℝ)) ^ 2) / 2 - 9 / 2 / 2 ^ 24 ≤
        (F.toRat (F.stepF x y) : ℝ) * Real.sqrt (F.toRat x : ℝ) ∧
      (F.toRat (F.stepF x y) : ℝ) * Real.sqrt (F.toRat x : ℝ) ≤
        (F.toRat y : ℝ) * Real.sqrt (F.toRat x : ℝ) *
          (3 - ((F.toRat y : ℝ) * Real.sqrt (F.toRat x : ℝ)) ^ 2) / 2 + 9 / 2 / 2 ^ 24 := by
  have hX0q : (0 : ℚ) < F.toRat x := lt_of_lt_of_le (by positivity) hX1
  have hX0 : (0 : ℝ) < (F.toRat x : ℝ) := by exact_mod_cast hX0q
  obtain ⟨s, hs⟩ : ∃ s, s = Real.sqrt (F.toRat x : ℝ) := ⟨_, rfl⟩
  have hs0 : 0 < s := by rw [hs]; exact Real.sqrt_pos.2 hX0
  have hss : s ^ 2 = (F.toRat x : ℝ) := by rw [hs]; exact Real.sq_sqrt (le_of_lt hX0)
  rw [← hs] at hu1 hu2 ⊢
  obtain ⟨u, hu⟩ : ∃ u, u = (F.toRat y : ℝ) * s := ⟨_, rfl⟩
  rw [← hu] at hu1 hu2 ⊢
  have hqu : ((F.toRat x * F.toRat y ^ 2 : ℚ) : ℝ) = u ^ 2 := by
    push_cast; rw [hu, ← hss]; ring
  have hq1 : (1 : ℚ) / 2 ≤ F.toRat x * F.toRat y ^ 2 := by
    have : ((1 / 2 : ℚ) : ℝ) ≤ ((F.toRat x * F.toRat y ^ 2 : ℚ) : ℝ) := by
      rw [hqu]; push_cast; nlinarith
    exact_mod_cast this
  have hq2 : F.toRat x * F.toRat y ^ 2 ≤ (3 : ℚ) / 2 := by
    have : ((F.toRat x * F.toRat y ^ 2 : ℚ) : ℝ) ≤ ((3 / 2 : ℚ) : ℝ) := by
      rw [hqu]; push_cast; nlinarith
    exact_mod_cast this
  obtain ⟨f1, lo, hi⟩ := F.stepF_bounds he (by omega) x y hx hy hX1 hq1 hq2
  obtain ⟨e, hedef⟩ : ∃ e : ℝ, e = 1 / 2 ^ (F.mbits + 1) := ⟨_, rfl⟩
  have he0 : 0 ≤ e := by rw [hedef]; positivity
  have he1 : e ≤ 1 / 2 ^ 24 := by
    rw [hedef]
    exact div_le_div_of_nonneg_left (by norm_num) (by positivity)
      (pow_le_pow_right₀ (by norm_num) (by omega))
  have lo' : (F.toRat y : ℝ) * ((3 / 2 - (F.toRat x : ℝ) * (F.toRat y : ℝ) ^ 2 / 2 *
      ((1 + 2 * e) * (1 + e) ^ 2)) * (1 - e) ^ 2) ≤ (F.toRat (F.stepF x y) : ℝ) := by
    have h : ((_ : ℚ) : ℝ) ≤ ((_ : ℚ) : ℝ) := Rat.cast_le.2 lo
    push_cast at h
    rw [hedef]; exact h
  have hi' : (F.toRat (F.stepF x y) : ℝ) ≤ (F.toRat y : ℝ) *
      ((3 / 2 - (F.toRat x : ℝ) * (F.toRat y : ℝ) ^ 2 / 2 *
      ((1 - 2 * e) * (1 - e) ^ 2)) * (1 + e) ^ 2) := by
    have h : ((_ : ℚ) : ℝ) ≤ ((_ : ℚ) : ℝ) := Rat.cast_le.2 hi
    push_cast at h
    rw [hedef]; exact h
  have hq' : (F.toRat x : ℝ) * (F.toRat y : ℝ) ^ 2 = u ^ 2 := by
    rw [← hqu]; push_cast; ring
  rw [hq'] at lo' hi'
  obtain ⟨p1, p2⟩ := newton_perturb u e he0 he1 hu1 hu2
  have lo2 := mul_le_mul_of_nonneg_right lo' (le_of_lt hs0)
  have hi2 := mul_le_mul_of_nonneg_right hi' (le_of_lt hs0)
  have e3 : (F.toRat y : ℝ) * ((3 / 2 - u ^ 2 / 2 * ((1 + 2 * e) * (1 + e) ^ 2)) * (1 - e) ^ 2) * s
      = u * ((3 / 2 - u ^ 2 / 2 * ((1 + 2 * e) * (1 + e) ^ 2)) * (1 - e) ^ 2) := by
    rw [hu]; ring
  have e4 : (F.toRat y : ℝ) * ((3 / 2 - u ^ 2 / 2 * ((1 - 2 * e) * (1 - e) ^ 2)) * (1 + e) ^ 2) * s
      = u * ((3 / 2 - u ^ 2 / 2 * ((1 - 2 * e) * (1 - e) ^ 2)) * (1 + e) ^ 2) := by
    rw [hu]; ring
  rw [e3] at lo2
  rw [e4] at hi2
  have he9 : 9 / 2 * e ≤ 9 / 2 / 2 ^ 24 := by
    have := mul_le_mul_of_nonneg_left he1 (by norm_num : (0 : ℝ) ≤ 9 / 2)
    calc 9 / 2 * e ≤ 9 / 2 * (1 / 2 ^ 24) := this
      _ = 9 / 2 / 2 ^ 24 := by ring
  refine ⟨f1, ?_, ?_⟩
  · linarith
  · linarith

theorem posNormal_toRat_ge (b : Nat) (h1 : 2 ^ F.mbits ≤ b)
    (h2 : F.isFinPos b) : (2 : ℚ) / 2 ^ F.bias ≤ F.toRat b := by
  have hP : 0 < 2 ^ F.mbits := Nat.two_pow_pos _
  have hE : 1 ≤ b / 2 ^ F.mbits := (Nat.one_le_div_iff hP).2 h1
  have hv : 2 ^ F.mbits * 2 ^ 1 ≤ F.val2 b := by
    rw [F.val2_eq b h2, if_neg (by omega)]
    exact Nat.mul_le_mul (Nat.le_add_right _ _) (Nat.pow_le_pow_right (by decide) hE)
  have hvq : (2 : ℚ) ^ F.mbits * 2 ^ 1 ≤ (F.val2 b : ℚ) := by exact_mod_cast hv
  rw [F.toRat_eq b h2, div_le_div_iff (by positivity) (by positivity), pow_add]
  calc (2 : ℚ) * (2 ^ F.bias * 2 ^ F.mbits) = 2 ^ F.mbits * 2 ^ 1 * 2 ^ F.bias := by ring
    _ ≤ (F.val2 b : ℚ) * 2 ^ F.bias := mul_le_mul_of_nonneg_right hvq (by positivity)

set_option maxHeartbeats 2000000 in
/-- Two floating point Newton updates from an estimate `y0` with
`0.965513 ≤ y0 * sqrt x ≤ 1.034173`: with `u_i = y_i * sqrt x`, `|u1 - 1| ≤ 0.0017720`,
`|u2 - 1| ≤ 0.000005`, and each update loses at most `2.7e-7` against the previous error. -/
theorem two_steps_real (he : 4 ≤ F.ebits) (hm : 23 ≤ F.mbits) (x y0 : Nat)
    (hx : F.isFinPos x) (hy : F.isFinPos y0) (hX1 : (2 : ℚ) / 2 ^ F.bias ≤ F.toRat x)
    (hu1 : 965513 / 1000000 ≤ (F.toRat y0 : ℝ) * Real.sqrt (F.toRat x : ℝ))
    (hu2 : (F.toRat y0 : ℝ) * Real.sqrt (F.toRat x : ℝ) ≤ 1034173 / 1000000) :
    |(F.toRat (F.stepF x y0) : ℝ) * Real.sqrt (F.toRat x : ℝ) - 1| ≤ 17720 / 10000000 ∧
    |(F.toRat (F.stepF x (F.stepF x y0)) : ℝ) * Real.sqrt (F.toRat x : ℝ) - 1| ≤
      5 / 1000000 ∧
    |(F.toRat (F.stepF x y0) : ℝ) * Real.sqrt (F.toRat x : ℝ) - 1| ≤
      |(F.toRat y0 : ℝ) * Real.sqrt (F.toRat x : ℝ) - 1| + 27 / 100000000 ∧
    |(F.toRat (F.stepF x (F.stepF x y0)) : ℝ) * Real.sqrt (F.toRat x : ℝ) - 1| ≤
      |(F.toRat (F.stepF x y0) : ℝ) * Real.sqrt (F.toRat x : ℝ) - 1| + 27 / 100000000 := by
  obtain ⟨f1, a1, b1⟩ := F.stepF_real he hm x y0 hx hy hX1 (le_trans (by norm_num) hu1)
    (le_trans hu2 (by norm_num))
  obtain ⟨u0, hu0⟩ : ∃ u, u = (F.toRat y0 : ℝ) * Real.sqrt (F.toRat x : ℝ) := ⟨_, rfl⟩
  obtain ⟨u1, hu1d⟩ : ∃ u, u = (F.toRat (F.stepF x y0) : ℝ) * Real.sqrt (F.toRat x : ℝ) :=
    ⟨_, rfl⟩
  rw [← hu0] at hu1 hu2 a1 b1 ⊢
  rw [← hu1d] at a1 b1 ⊢
  have hrho : (9 : ℝ) / 2 / 2 ^ 24 ≤ 27 / 100000000 := by norm_num
  -- first update
  have g0 := newton_gap_le (965513 / 1000000) (1034173 / 1000000) u0 (by norm_num)
    (by norm_num) (by norm_num) hu1 hu2
  have g0' : (1 - u0) ^ 2 * (u0 + 2) ≤ 2 * (17717 / 10000000) :=
    le_trans g0 (max_le (by norm_num) (by norm_num))
  have x0 := newton_exact u0
  have gn0 : 0 ≤ (1 - u0) ^ 2 * (u0 + 2) := mul_nonneg (sq_nonneg _) (by linarith only [hu1])
  have c1lo : 1 - 17717 / 10000000 - 27 / 100000000 ≤ u1 := by
    linarith only [a1, x0, g0', hrho]
  have c1hi : u1 ≤ 1 + 27 / 100000000 := by linarith only [b1, x0, gn0, hrho]
  obtain ⟨f2, a2, b2⟩ := F.stepF_real he hm x (F.stepF x y0) hx f1 hX1
    (by rw [← hu1d]; linarith only [c1lo]) (by rw [← hu1d]; linarith only [c1hi])
  obtain ⟨u2, hu2d⟩ : ∃ u, u =
      (F.toRat (F.stepF x (F.stepF x y0)) : ℝ) * Real.sqrt (F.toRat x : ℝ) := ⟨_, rfl⟩
  rw [← hu1d] at a2 b2
  rw [← hu2d] at a2 b2 ⊢
  -- second update
  have g1 := newton_gap_le (1 - 17717 / 10000000 - 27 / 100000000) (1 + 27 / 100000000) u1
    (by norm_num) (by norm_num) (by norm_num) c1lo c1hi
  have g1' : (1 - u1) ^ 2 * (u1 + 2) ≤ 2 * (4723 / 1000000000) :=
    le_trans g1 (max_le (by norm_num) (by norm_num))
  have x1 := newton_exact u1
  have gn1 : 0 ≤ (1 - u1) ^ 2 * (u1 + 2) := mul_nonneg (sq_nonneg _) (by linarith only [c1lo])
  -- the update does not increase the error, up to rounding
  have m0 : (1 - u0) ^ 2 * (u0 + 2) / 2 ≤ |u0 - 1| := by
    have h1 : |u0 - 1| ≤ 4 / 100 := by rw [abs_le]; constructor <;> linarith only [hu1, hu2]
    have h2 : (1 - u0) ^ 2 = |u0 - 1| * |u0 - 1| := by
      rw [abs_mul_abs_self]; ring
    have h3 : |u0 - 1| * ((u0 + 2) / 2) ≤ 4 / 100 * (2 : ℝ) :=
      mul_le_mul h1 (by linarith only [hu2]) (by linarith only [hu1]) (by norm_num)
    have h4 : |u0 - 1| * (|u0 - 1| * ((u0 + 2) / 2)) ≤ |u0 - 1| * 1 :=
      mul_le_mul_of_nonneg_left (by linarith only [h3]) (abs_nonneg _)
    calc (1 - u0) ^ 2 * (u0 + 2) / 2 = |u0 - 1| * (|u0 - 1| * ((u0 + 2) / 2)) := by
          rw [h2]; ring
      _ ≤ |u0 - 1| * 1 := h4
      _ = |u0 - 1| := mul_one _
  have m1 : (1 - u1) ^ 2 * (u1 + 2) / 2 ≤ |u1 - 1| := by
    have h1 : |u1 - 1| ≤ 4 / 100 := by rw [abs_le]; constructor <;> linarith only [c1lo, c1hi]
    have h2 : (1 - u1) ^ 2 = |u1 - 1| * |u1 - 1| := by
      rw [abs_mul_abs_self]; ring
    have h3 : |u1 - 1| * ((u1 + 2) / 2) ≤ 4 / 100 * (2 : ℝ) :=
      mul_le_mul h1 (by linarith only [c1hi]) (by linarith only [c1lo]) (by norm_num)
    have h4 : |u1 - 1| * (|u1 - 1| * ((u1 + 2) / 2)) ≤ |u1 - 1| * 1 :=
      mul_le_mul_of_nonneg_left (by linarith only [h3]) (abs_nonneg _)
    calc (1 - u1) ^ 2 * (u1 + 2) / 2 = |u1 - 1| * (|u1 - 1| * ((u1 + 2) / 2)) := by
          rw [h2]; ring
      _ ≤ |u1 - 1| * 1 := h4
      _ = |u1 - 1| := mul_one _
  have n0 := abs_nonneg (u0 - 1)
  have n1 := abs_nonneg (u1 - 1)
  refine ⟨?_, ?_, ?_, ?_⟩
  · rw [abs_le]; constructor <;> linarith only [c1lo, c1hi]
  · rw [abs_le]; constructor
    · linarith only [a2, x1, g1', hrho]
    · linarith only [b2, x1, gn1, hrho]
  · rw [abs_le]; constructor
    · linarith only [a1, x0, m0, hrho]
    · linarith only [b1, x0, gn0, hrho, n0]
  · rw [abs_le]; constructor
    · linarith only [a2, x1, m1, hrho]
    · linarith only [b2, x1, gn1, hrho, n1]

/-- The raw estimate `y0 = K - (b >> 1)` of every positive normal `b` has
`0.965513 ≤ y0 * sqrt x ≤ 1.034173`, given the check of one period in `2 ^ d` blocks of `w`. -/
theorem raw_u_all (he : 4 ≤ F.ebits) (hm : 1 ≤ F.mbits) (K w d : Nat) (hw : 0 < w)
    (hwc : w * 2 ^ d = 2 * 2 ^ F.mbits) (hK1 : (F.bias + 2) * 2 ^ F.mbits ≤ K) (hK2 : F.isFinPos K)
    (hband : F.bandTree K (965513 ^ 2) (1034173 ^ 2) (1000000 ^ 2) w d (F.bias * 2 ^ F.mbits)
      = true)
    (b : Nat) (hb1 : 2 ^ F.mbits ≤ b) (hb2 : F.isFinPos b) :
    F.isFinPos (K - b / 2) ∧
    (965513 : ℝ) / 1000000 ≤ (F.toRat (K - b / 2) : ℝ) * Real.sqrt (F.toRat b : ℝ) ∧
      (F.toRat (K - b / 2) : ℝ) * Real.sqrt (F.toRat b : ℝ) ≤ (1034173 : ℝ) / 1000000 := by
  have hbias := F.bias_ge_three (by omega)
  have hfin : F.isFinPos (F.bias * 2 ^ F.mbits + w * 2 ^ d) := by
    unfold isFinPos
    rw [hwc, F.two_pow_ebits (by omega)]
    have e : (2 * F.bias + 1) * 2 ^ F.mbits =
        F.bias * 2 ^ F.mbits + 2 * 2 ^ F.mbits + (F.bias - 1) * 2 ^ F.mbits := by
      have : 2 * F.bias + 1 = F.bias + 2 + (F.bias - 1) := by omega
      rw [this]; ring
    have : 0 < (F.bias - 1) * 2 ^ F.mbits := Nat.mul_pos (by omega) (Nat.two_pow_pos _)
    omega
  have h1 := F.bandTree_sound K (965513 ^ 2) (1034173 ^ 2) (1000000 ^ 2) w hw hK2 d
    (F.bias * 2 ^ F.mbits) hfin hband
  have h2 := F.qBound_periodic K (965513 ^ 2) (1034173 ^ 2) (1000000 ^ 2) hm (by omega) hK1 hK2
    (fun b' hlo hhi => h1 b' hlo (by
      rw [hwc]
      have : (F.bias + 2) * 2 ^ F.mbits = F.bias * 2 ^ F.mbits + 2 * 2 ^ F.mbits := by ring
      omega)) b hb1 hb2
  have hr : F.isFinPos (K - b / 2) := lt_of_le_of_lt (Nat.sub_le _ _) hK2
  refine ⟨hr, ?_⟩
  have := F.u_of_qBound K 965513 1034173 1000000 b (by decide) hb2 hr h2
  simpa using this

end FloatFormat

theorem band_flt :
    binary32.bandTree 0x5F375A86 (965513 ^ 2) (1034173 ^ 2) (1000000 ^ 2) 4096 12
      (binary32.bias * 2 ^ binary32.mbits) = true := by
  decide

theorem band_dbl :
    binary64.bandTree 0x5FE6EB50C7B537A9 (965513 ^ 2) (1034173 ^ 2) (1000000 ^ 2) (2 ^ 41) 12
      (binary64.bias * 2 ^ binary64.mbits) = true := by
  decide

theorem step_flt_eq (x y : Nat) : step_flt x y = binary32.stepF x y := by
  have h1 : half_f = binary32.halfBits := by decide
  have h2 : threehalfs_f = binary32.threeHalfsBits := by decide
  unfold step_flt newtonStepWith FloatFormat.stepF mulf subf
  rw [h1, h2]

theorem step_dbl_eq (x y : Nat) : step_dbl x y = binary64.stepF x y := by
  have h1 : half_d = binary64.halfBits := by decide
  have h2 : threehalfs_d = binary64.threeHalfsBits := by decide
  unfold step_dbl newtonStepWith FloatFormat.stepF muld subd
  rw [h1, h2]

theorem bitApprox_flt_eq (b : Nat) (h : b < 0x7F800000) :
    bitApprox_flt b = 0x5F375A86 - b / 2 := by
  simp only [bitApprox_flt, sub32, Nat.shiftRight_eq_div_pow, pow_one]
  omega

theorem bitApprox_dbl_eq (b : Nat) (h : b < 0x7FF0000000000000) :
    bitApprox_dbl b = 0x5FE6EB50C7B537A9 - b / 2 := by
  simp only [bitApprox_dbl, sub64, Nat.shiftRight_eq_div_pow, pow_one]
  omega

theorem getD_map_lt (g : Nat → Nat) (l : List Nat) (i : Nat) (hi : i < l.length) :
    (l.map g).getD i 0 = g (l.getD i 0) := by
  simp [List.getD_eq_getElem?_getD, List.getElem?_map, List.getElem?_eq_getElem hi]

theorem getD_mem_lt (l : List Nat) (i : Nat) (hi : i < l.length) : l.getD i 0 ∈ l := by
  rw [List.getD_eq_getElem _ _ hi]
  exact List.getElem_mem hi

namespace FloatFormat

variable (F : FloatFormat)

/-- Relative errors of the raw estimate `y0 = K - (x >> 1)` and of one and two floating point
Newton updates of it, against `r = 1 / sqrt x`, for every positive normal `x`. -/
theorem refine_errors (he : 4 ≤ F.ebits) (hm : 23 ≤ F.mbits) (K w d : Nat) (hw : 0 < w)
    (hwc : w * 2 ^ d = 2 * 2 ^ F.mbits) (hK1 : (F.bias + 2) * 2 ^ F.mbits ≤ K) (hK2 : F.isFinPos K)
    (hband : F.bandTree K (965513 ^ 2) (1034173 ^ 2) (1000000 ^ 2) w d (F.bias * 2 ^ F.mbits)
      = true)
    (x : Nat) (hb1 : 2 ^ F.mbits ≤ x) (hb2 : F.isFinPos x)
    (r : ℝ) (hr : r = 1 / Real.sqrt (F.toRat x : ℝ)) :
    |(F.toRat (F.stepF x (K - x / 2)) : ℝ) - r| / r ≤ 2 / 1000 ∧
    |(F.toRat (F.stepF x (F.stepF x (K - x / 2))) : ℝ) - r| / r ≤ 5 / 1000000 ∧
    |(F.toRat (F.stepF x (K - x / 2)) : ℝ) - r| / r ≤
      |(F.toRat (K - x / 2) : ℝ) - r| / r + 27 / 100000000 ∧
    |(F.toRat (F.stepF x (F.stepF x (K - x / 2))) : ℝ) - r| / r ≤
      |(F.toRat (F.stepF x (K - x / 2)) : ℝ) - r| / r + 27 / 100000000 := by
  obtain ⟨hy, hu1, hu2⟩ := F.raw_u_all he (by omega) K w d hw hwc hK1 hK2 hband x hb1 hb2
  have hX1 := F.posNormal_toRat_ge x hb1 hb2
  have hX0q : (0 : ℚ) < F.toRat x := lt_of_lt_of_le (by positivity) hX1
  have hX0 : (0 : ℝ) < (F.toRat x : ℝ) := by exact_mod_cast hX0q
  obtain ⟨t1, t2, t3, t4⟩ := F.two_steps_real he hm x (K - x / 2) hb2 hy hX1 hu1 hu2
  subst hr
  rw [relErr_eq _ _ hX0, relErr_eq _ _ hX0, relErr_eq _ _ hX0]
  exact ⟨le_trans t1 (by norm_num), t2, t3, t4⟩

end FloatFormat

/-- The error bounds of `refine_errors` for `float` and the constant `0x5F375A86`. -/
theorem errors_flt (x : Nat) (h1 : 0x00800000 ≤ x) (h2 : x < 0x7F800000)
    (r : ℝ) (hr : r = 1 / Real.sqrt (binary32.toRat x : ℝ)) :
    |(binary32.toRat (step_flt x (bitApprox_flt x)) : ℝ) - r| / r ≤ 2 / 1000 ∧
    |(binary32.toRat (step_flt x (step_flt x (bitApprox_flt x))) : ℝ) - r| / r ≤ 5 / 1000000 ∧
    |(binary32.toRat (step_flt x (bitApprox_flt x)) : ℝ) - r| / r ≤
      |(binary32.toRat (bitApprox_flt x) : ℝ) - r| / r + 27 / 100000000 ∧
    |(binary32.toRat (step_flt x (step_flt x (bitApprox_flt x))) : ℝ) - r| / r ≤
      |(binary32.toRat (step_flt x (bitApprox_flt x)) : ℝ) - r| / r + 27 / 100000000 := by
  rw [bitApprox_flt_eq x h2]
  simp only [step_flt_eq]
  exact binary32.refine_errors (by decide) (by decide) 0x5F375A86 4096 12 (by decide) (by decide)
    (by decide) (by unfold FloatFormat.isFinPos; decide) band_flt x h1 h2 r hr

/-- The error bounds of `refine_errors` for `double` and the constant `0x5FE6EB50C7B537A9`. -/
theorem errors_dbl (x : Nat) (h1 : 0x0010000000000000 ≤ x) (h2 : x < 0x7FF0000000000000)
    (r : ℝ) (hr : r = 1 / Real.sqrt (binary64.toRat x : ℝ)) :
    |(binary64.toRat (step_dbl x (bitApprox_dbl x)) : ℝ) - r| / r ≤ 2 / 1000 ∧
    |(binary64.toRat (step_dbl x (step_dbl x (bitApprox_dbl x))) : ℝ) - r| / r ≤ 5 / 1000000 ∧
    |(binary64.toRat (step_dbl x (bitApprox_dbl x)) : ℝ) - r| / r ≤
      |(binary64.toRat (bitApprox_dbl x) : ℝ) - r| / r + 27 / 100000000 ∧
    |(binary64.toRat (step_dbl x (step_dbl x (bitApprox_dbl x))) : ℝ) - r| / r ≤
      |(binary64.toRat (step_dbl x (bitApprox_dbl x)) : ℝ) - r| / r + 27 / 100000000 := by
  rw [bitApprox_dbl_eq x h2]
  simp only [step_dbl_eq]
  exact binary64.refine_errors (by decide) (by decide) 0x5FE6EB50C7B537A9 (2 ^ 41) 12 (by decide)
    (by decide) (by decide) (by unfold FloatFormat.isFinPos; decide) band_dbl x h1 h2 r hr

/-- Decoding of a positive finite pattern from its two integer fields. -/
theorem toRat_pos (F : FloatFormat) (b s q : Nat) (h1 : F.signOf b = 0) (h2 : F.sigOf b = s)
    (h3 : F.qOf b = q) : F.toRat b = (s : ℚ) * 2 ^ ((q : ℤ) - F.bias - F.mbits) := by
  simp only [FloatFormat.toRat, h1, h2, h3, if_true, one_mul]

/-- If `ya * sqrt x ≥ 1` and `(ya + yb) * sqrt x < 2` then `ya` is closer to `1 / sqrt x`
than `yb`, relatively. -/
theorem err_lt_of_straddle (X Ya Yb : ℚ) (hX : 0 < X) (hYa : 0 < Ya) (hYb : 0 < Yb)
    (h1 : 1 ≤ Ya ^ 2 * X) (h2 : (Ya + Yb) ^ 2 * X < 4) :
    ∃ r : ℝ, r = 1 / Real.sqrt (X : ℝ) ∧ |(Ya : ℝ) - r| / r < |(Yb : ℝ) - r| / r := by
  refine ⟨_, rfl, ?_⟩
  have hX0 : (0 : ℝ) < (X : ℝ) := by exact_mod_cast hX
  have ha0 : (0 : ℝ) < (Ya : ℝ) := by exact_mod_cast hYa
  have hb0 : (0 : ℝ) < (Yb : ℝ) := by exact_mod_cast hYb
  rw [relErr_eq _ _ hX0, relErr_eq _ _ hX0]
  obtain ⟨s, hs⟩ : ∃ s, s = Real.sqrt (X : ℝ) := ⟨_, rfl⟩
  have hs0 : 0 < s := by rw [hs]; exact Real.sqrt_pos.2 hX0
  have hss : s ^ 2 = (X : ℝ) := by rw [hs]; exact Real.sq_sqrt (le_of_lt hX0)
  rw [← hs]
  have r1 : (1 : ℝ) ≤ (Ya : ℝ) ^ 2 * (X : ℝ) := by exact_mod_cast h1
  have r2 : ((Ya : ℝ) + (Yb : ℝ)) ^ 2 * (X : ℝ) < 4 := by exact_mod_cast h2
  have ua : 1 ≤ (Ya : ℝ) * s := by
    by_contra hc
    rw [not_le] at hc
    have h0 : 0 ≤ (Ya : ℝ) * s := le_of_lt (mul_pos ha0 hs0)
    have : (Ya : ℝ) * s * ((Ya : ℝ) * s) < 1 * 1 := mul_lt_mul'' hc hc h0 h0
    have e : (Ya : ℝ) ^ 2 * (X : ℝ) = (Ya : ℝ) * s * ((Ya : ℝ) * s) := by rw [← hss]; ring
    linarith only [this, e, r1]
  have uab : ((Ya : ℝ) + (Yb : ℝ)) * s < 2 := by
    by_contra hc
    rw [not_lt] at hc
    have : (2 : ℝ) * 2 ≤ ((Ya : ℝ) + (Yb : ℝ)) * s * (((Ya : ℝ) + (Yb : ℝ)) * s) :=
      mul_le_mul hc hc (by norm_num) (le_trans (by norm_num) hc)
    have e : ((Ya : ℝ) + (Yb : ℝ)) ^ 2 * (X : ℝ) =
        ((Ya : ℝ) + (Yb : ℝ)) * s * (((Ya : ℝ) + (Yb : ℝ)) * s) := by rw [← hss]; ring
    linarith only [this, e, r2]
  have e2 : ((Ya : ℝ) + (Yb : ℝ)) * s = (Ya : ℝ) * s + (Yb : ℝ) * s := by ring
  rw [abs_of_nonneg (by linarith only [ua]), abs_of_neg (by linarith only [ua, uab, e2])]
  linarith only [uab, e2]

/-! ## Claims on accuracy -/

/-- C8: for every array of positive, finite, normal single precision inputs (bit patterns in
`[0x00800000, 0x7F800000)`), `fastInvSqrt_flt_V1` returns, and each output `y` has
`|y - r| / r ≤ 2 / 1000` (0.2 percent), where `r = 1 / sqrt x` for the input `x` at the same
index. -/
theorem C8_one_refinement_error (n : Nat) (vals out : List Nat) (hn : n < 2 ^ 64)
    (hv : vals.length = n) (ho : out.length = n)
    (hx : ∀ x ∈ vals, 0x00800000 ≤ x ∧ x < 0x7F800000) :
    ∃ st, fastInvSqrt_flt_V1 n vals out = some st ∧ st.out.length = n ∧
      ∀ i, i < n → ∀ r : ℝ, r = 1 / Real.sqrt (binary32.toRat (vals.getD i 0) : ℝ) →
        |(binary32.toRat (st.out.getD i 0) : ℝ) - r| / r ≤ 2 / 1000 := by
  refine ⟨_, fastInvSqrt_flt_V1_run n vals out hn hv ho, by simp [hv], ?_⟩
  intro i hi r hr
  have hm := hx _ (getD_mem_lt vals i (by omega))
  simp only [getD_map_lt _ vals i (by omega)]
  exact (errors_flt _ hm.1 hm.2 r hr).1

/-- C8 at the inputs `4.0f`, `0.1f` and the smallest positive normal `float`. -/
theorem C8_one_refinement_error_witness :
    ((3 : Nat) < 2 ^ 64 ∧ ∀ x ∈ [0x40800000, 0x3DCCCCCD, 0x00800000],
      0x00800000 ≤ x ∧ x < 0x7F800000) ∧
    ∃ st, fastInvSqrt_flt_V1 3 [0x40800000, 0x3DCCCCCD, 0x00800000] [0, 0, 0] = some st ∧
      st.out.length = 3 ∧
      ∀ i, i < 3 → ∀ r : ℝ,
        r = 1 / Real.sqrt
          (binary32.toRat ([0x40800000, 0x3DCCCCCD, 0x00800000].getD i 0) : ℝ) →
        |(binary32.toRat (st.out.getD i 0) : ℝ) - r| / r ≤ 2 / 1000 :=
  ⟨by decide,
    C8_one_refinement_error 3 [0x40800000, 0x3DCCCCCD, 0x00800000] [0, 0, 0] (by decide) rfl rfl
      (by decide)⟩

/-- For `x = s ^ 2` the reference value `1 / sqrt x` is `1 / s`. -/
theorem inv_sqrt_square (X s : ℚ) (hs : 0 < s) (hX : X = s ^ 2) :
    1 / Real.sqrt (X : ℝ) = ((1 / s : ℚ) : ℝ) := by
  have hs0 : (0 : ℝ) ≤ (s : ℝ) := by exact_mod_cast le_of_lt hs
  rw [hX]
  push_cast
  rw [Real.sqrt_sq hs0]

/-- C9, counterexample: on `[1.0f, 4.0f, 9.0f, 16.0f]` `fastInvSqrt_flt_DoubleNewton` writes
`0x3F7FFFB7, 0x3EFFFFB7, 0x3EAAAA95, 0x3E7FFFB7`, and on `[1.0]`
`fastInvSqrt_dbl_DoubleNewton` writes `0x3FEFFFF70034CCBB`; the relative error of each of
these against `1 / sqrt x` is above `10^-7` (10^-5 percent): it is `73 / 2^24`, about
`4.35e-6`, for `1.0f`. -/
theorem C9_two_refinements_exceed_stated_bound :
    (fastInvSqrt_flt_DoubleNewton 4 [0x3F800000, 0x40800000, 0x41100000, 0x41800000]
        [0, 0, 0, 0]).map KState.out =
      some [0x3F7FFFB7, 0x3EFFFFB7, 0x3EAAAA95, 0x3E7FFFB7] ∧
    (∃ r : ℝ, r = 1 / Real.sqrt (binary32.toRat 0x3F800000 : ℝ) ∧ r = 1 ∧
      |(binary32.toRat 0x3F7FFFB7 : ℝ) - r| / r = 73 / 2 ^ 24 ∧
      1 / 10 ^ 7 < |(binary32.toRat 0x3F7FFFB7 : ℝ) - r| / r) ∧
    (∃ r : ℝ, r = 1 / Real.sqrt (binary32.toRat 0x40800000 : ℝ) ∧ r = 1 / 2 ∧
      1 / 10 ^ 7 < |(binary32.toRat 0x3EFFFFB7 : ℝ) - r| / r) ∧
    (∃ r : ℝ, r = 1 / Real.sqrt (binary32.toRat 0x41100000 : ℝ) ∧ r = 1 / 3 ∧
      1 / 10 ^ 7 < |(binary32.toRat 0x3EAAAA95 : ℝ) - r| / r) ∧
    (∃ r : ℝ, r = 1 / Real.sqrt (binary32.toRat 0x41800000 : ℝ) ∧ r = 1 / 4 ∧
      1 / 10 ^ 7 < |(binary32.toRat 0x3E7FFFB7 : ℝ) - r| / r) ∧
    (fastInvSqrt_dbl_DoubleNewton 1 [0x3FF0000000000000] [0]).map KState.out =
      some [0x3FEFFFF70034CCBB] ∧
    (∃ r : ℝ, r = 1 / Real.sqrt (binary64.toRat 0x3FF0000000000000 : ℝ) ∧ r = 1 ∧
      1 / 10 ^ 7 < |(binary64.toRat 0x3FEFFFF70034CCBB : ℝ) - r| / r) := by
  have x1 : binary32.toRat 0x3F800000 = 1 := by
    rw [toRat_pos binary32 _ 0x800000 127 (by decide) (by decide) (by decide)]
    norm_num [binary32, FloatFormat.bias]
  have x4 : binary32.toRat 0x40800000 = 4 := by
    rw [toRat_pos binary32 _ 0x800000 129 (by decide) (by decide) (by decide)]
    norm_num [binary32, FloatFormat.bias]
  have x9 : binary32.toRat 0x41100000 = 9 := by
    rw [toRat_pos binary32 _ 0x900000 130 (by decide) (by decide) (by decide)]
    norm_num [binary32, FloatFormat.bias]
  have x16 : binary32.toRat 0x41800000 = 16 := by
    rw [toRat_pos binary32 _ 0x800000 131 (by decide) (by decide) (by decide)]
    norm_num [binary32, FloatFormat.bias]
  have y1 : binary32.toRat 0x3F7FFFB7 = 0xFFFFB7 / 2 ^ 24 := by
    rw [toRat_pos binary32 _ 0xFFFFB7 126 (by decide) (by decide) (by decide)]
    norm_num [binary32, FloatFormat.bias]
  have y4 : binary32.toRat 0x3EFFFFB7 = 0xFFFFB7 / 2 ^ 25 := by
    rw [toRat_pos binary32 _ 0xFFFFB7 125 (by decide) (by decide) (by decide)]
    norm_num [binary32, FloatFormat.bias]
  have y9 : binary32.toRat 0x3EAAAA95 = 0xAAAA95 / 2 ^ 25 := by
    rw [toRat_pos binary32 _ 0xAAAA95 125 (by decide) (by decide) (by decide)]
    norm_num [binary32, FloatFormat.bias]
  have y16 : binary32.toRat 0x3E7FFFB7 = 0xFFFFB7 / 2 ^ 26 := by
    rw [toRat_pos binary32 _ 0xFFFFB7 124 (by decide) (by decide) (by decide)]
    norm_num [binary32, FloatFormat.bias]
  have xd : binary64.toRat 0x3FF0000000000000 = 1 := by
    rw [toRat_pos binary64 _ 0x10000000000000 1023 (by decide) (by decide) (by decide)]
    norm_num [binary64, FloatFormat.bias]
  have yd : binary64.toRat 0x3FEFFFF70034CCBB = 0x1FFFF70034CCBB / 2 ^ 53 := by
    rw [toRat_pos binary64 _ 0x1FFFF70034CCBB 1022 (by decide) (by decide) (by decide)]
    norm_num [binary64, FloatFormat.bias]
  have r1 := inv_sqrt_square (binary32.toRat 0x3F800000) 1 (by norm_num) (by rw [x1]; norm_num)
  have r4 := inv_sqrt_square (binary32.toRat 0x40800000) 2 (by norm_num) (by rw [x4]; norm_num)
  have r9 := inv_sqrt_square (binary32.toRat 0x41100000) 3 (by norm_num) (by rw [x9]; norm_num)
  have r16 := inv_sqrt_square (binary32.toRat 0x41800000) 4 (by norm_num) (by rw [x16]; norm_num)
  have rd := inv_sqrt_square (binary64.toRat 0x3FF0000000000000) 1 (by norm_num)
    (by rw [xd]; norm_num)
  refine ⟨by decide, ⟨_, rfl, ?_, ?_, ?_⟩, ⟨_, rfl, ?_, ?_⟩, ⟨_, rfl, ?_, ?_⟩, ⟨_, rfl, ?_, ?_⟩,
    by decide, ⟨_, rfl, ?_, ?_⟩⟩
  · rw [r1]; norm_num
  · rw [r1, y1]; push_cast; rw [abs_of_neg (by norm_num)]; norm_num
  · rw [r1, y1]; push_cast; rw [abs_of_neg (by norm_num)]; norm_num
  · rw [r4]; norm_num
  · rw [r4, y4]; push_cast; rw [abs_of_neg (by norm_num)]; norm_num
  · rw [r9]; norm_num
  · rw [r9, y9]; push_cast; rw [abs_of_neg (by norm_num)]; norm_num
  · rw [r16]; norm_num
  · rw [r16, y16]; push_cast; rw [abs_of_neg (by norm_num)]; norm_num
  · rw [rd]; norm_num
  · rw [rd, yd]; push_cast; rw [abs_of_neg (by norm_num)]; norm_num

/-- C9, amended: for every array of positive, finite, normal inputs
`fastInvSqrt_flt_DoubleNewton` and `fastInvSqrt_dbl_DoubleNewton` return, and each output `y`
has `|y - r| / r ≤ 5 / 10^6` (5 * 10^-4 percent) where `r = 1 / sqrt x` for the input at the
same index; in particular the four outputs for `[1.0f, 4.0f, 9.0f, 16.0f]` are within that
bound of `1`, `1/2`, `1/3`, `1/4`. -/
theorem C9_two_refinement_error :
    (∀ (n : Nat) (vals out : List Nat), n < 2 ^ 64 → vals.length = n → out.length = n →
      (∀ x ∈ vals, 0x00800000 ≤ x ∧ x < 0x7F800000) →
      ∃ st, fastInvSqrt_flt_DoubleNewton n vals out = some st ∧ st.out.length = n ∧
        ∀ i, i < n → ∀ r : ℝ, r = 1 / Real.sqrt (binary32.toRat (vals.getD i 0) : ℝ) →
          |(binary32.toRat (st.out.getD i 0) : ℝ) - r| / r ≤ 5 / 1000000) ∧
    (∀ (n : Nat) (vals out : List Nat), n < 2 ^ 64 → vals.length = n → out.length = n →
      (∀ x ∈ vals, 0x0010000000000000 ≤ x ∧ x < 0x7FF0000000000000) →
      ∃ st, fastInvSqrt_dbl_DoubleNewton n vals out = some st ∧ st.out.length = n ∧
        ∀ i, i < n → ∀ r : ℝ, r = 1 / Real.sqrt (binary64.toRat (vals.getD i 0) : ℝ) →
          |(binary64.toRat (st.out.getD i 0) : ℝ) - r| / r ≤ 5 / 1000000) ∧
    (∃ y0 y1 y2 y3,
      (fastInvSqrt_flt_DoubleNewton 4 [0x3F800000, 0x40800000, 0x41100000, 0x41800000]
        [0, 0, 0, 0]).map KState.out = some [y0, y1, y2, y3] ∧
      |binary32.toRat y0 - 1| / 1 ≤ 5 / 1000000 ∧
      |binary32.toRat y1 - 1 / 2| / (1 / 2) ≤ 5 / 1000000 ∧
      |binary32.toRat y2 - 1 / 3| / (1 / 3) ≤ 5 / 1000000 ∧
      |binary32.toRat y3 - 1 / 4| / (1 / 4) ≤ 5 / 1000000) := by
  refine ⟨?_, ?_, ?_⟩
  · intro n vals out hn hv ho hx
    refine ⟨_, fastInvSqrt_flt_DoubleNewton_run n vals out hn hv ho, by simp [hv], ?_⟩
    intro i hi r hr
    have hm := hx _ (getD_mem_lt vals i (by omega))
    simp only [getD_map_lt _ vals i (by omega)]
    exact (errors_flt _ hm.1 hm.2 r hr).2.1
  · intro n vals out hn hv ho hx
    refine ⟨_, fastInvSqrt_dbl_DoubleNewton_run n vals out hn hv ho, by simp [hv], ?_⟩
    intro i hi r hr
    have hm := hx _ (getD_mem_lt vals i (by omega))
    simp only [getD_map_lt _ vals i (by omega)]
    exact (errors_dbl _ hm.1 hm.2 r hr).2.1
  · have y1 : binary32.toRat 0x3F7FFFB7 = 0xFFFFB7 / 2 ^ 24 := by
      rw [toRat_pos binary32 _ 0xFFFFB7 126 (by decide) (by decide) (by decide)]
      norm_num [binary32, FloatFormat.bias]
    have y4 : binary32.toRat 0x3EFFFFB7 = 0xFFFFB7 / 2 ^ 25 := by
      rw [toRat_pos binary32 _ 0xFFFFB7 125 (by decide) (by decide) (by decide)]
      norm_num [binary32, FloatFormat.bias]
    have y9 : binary32.toRat 0x3EAAAA95 = 0xAAAA95 / 2 ^ 25 := by
      rw [toRat_pos binary32 _ 0xAAAA95 125 (by decide) (by decide) (by decide)]
      norm_num [binary32, FloatFormat.bias]
    have y16 : binary32.toRat 0x3E7FFFB7 = 0xFFFFB7 / 2 ^ 26 := by
      rw [toRat_pos binary32 _ 0xFFFFB7 124 (by decide) (by decide) (by decide)]
      norm_num [binary32, FloatFormat.bias]
    refine ⟨0x3F7FFFB7, 0x3EFFFFB7, 0x3EAAAA95, 0x3E7FFFB7, by decide, ?_, ?_, ?_, ?_⟩
    · rw [y1, abs_of_neg (by norm_num)]; norm_num
    · rw [y4, abs_of_neg (by norm_num)]; norm_num
    · rw [y9, abs_of_neg (by norm_num)]; norm_num
    · rw [y16, abs_of_neg (by norm_num)]; norm_num

/-- C9 (amended) at `[1.0f, 2.0f]` and at `[1.0, 7.0]`. -/
theorem C9_two_refinement_error_witness :
    ((2 : Nat) < 2 ^ 64 ∧ (∀ x ∈ [0x3F800000, 0x40000000], 0x00800000 ≤ x ∧ x < 0x7F800000) ∧
      ∀ x ∈ [0x3FF0000000000000, 0x401C000000000000],
        0x0010000000000000 ≤ x ∧ x < 0x7FF0000000000000) ∧
    (∃ st, fastInvSqrt_flt_DoubleNewton 2 [0x3F800000, 0x40000000] [0, 0] = some st ∧
      st.out.length = 2 ∧
      ∀ i, i < 2 → ∀ r : ℝ,
        r = 1 / Real.sqrt (binary32.toRat ([0x3F800000, 0x40000000].getD i 0) : ℝ) →
        |(binary32.toRat (st.out.getD i 0) : ℝ) - r| / r ≤ 5 / 1000000) ∧
    (∃ st, fastInvSqrt_dbl_DoubleNewton 2 [0x3FF0000000000000, 0x401C000000000000] [0, 0] =
        some st ∧ st.out.length = 2 ∧
      ∀ i, i < 2 → ∀ r : ℝ,
        r = 1 / Real.sqrt
          (binary64.toRat ([0x3FF0000000000000, 0x401C000000000000].getD i 0) : ℝ) →
        |(binary64.toRat (st.out.getD i 0) : ℝ) - r| / r ≤ 5 / 1000000) :=
  ⟨by decide,
    C9_two_refinement_error.1 2 [0x3F800000, 0x40000000] [0, 0] (by decide) rfl rfl (by decide),
    C9_two_refinement_error.2.1 2 [0x3FF0000000000000, 0x401C000000000000] [0, 0] (by decide)
      rfl rfl (by decide)⟩

/-- C10, counterexample: for `x = 0x3F967351` (about `1.17539`) the raw estimate is
`0x3F6C20DE` and `fastInvSqrt_flt_V1` writes `0x3F6C20DD`, whose relative error against
`1 / sqrt x` is larger than that of the raw estimate; for `x = 0x3F9667A3` `fastInvSqrt_flt_V1`
writes `0x3F6C2A09` and `fastInvSqrt_flt_DoubleNewton` writes `0x3F6C2A08`, whose relative error
is larger than that of the one-refinement result. -/
theorem C10_refinement_can_increase_error :
    bitApprox_flt 0x3F967351 = 0x3F6C20DE ∧
    (fastInvSqrt_flt_V1 1 [0x3F967351] [0]).map KState.out = some [0x3F6C20DD] ∧
    (∃ r : ℝ, r = 1 / Real.sqrt (binary32.toRat 0x3F967351 : ℝ) ∧
      |(binary32.toRat 0x3F6C20DE : ℝ) - r| / r < |(binary32.toRat 0x3F6C20DD : ℝ) - r| / r) ∧
    (fastInvSqrt_flt_V1 1 [0x3F9667A3] [0]).map KState.out = some [0x3F6C2A09] ∧
    (fastInvSqrt_flt_DoubleNewton 1 [0x3F9667A3] [0]).map KState.out = some [0x3F6C2A08] ∧
    (∃ r : ℝ, r = 1 / Real.sqrt (binary32.toRat 0x3F9667A3 : ℝ) ∧
      |(binary32.toRat 0x3F6C2A09 : ℝ) - r| / r < |(binary32.toRat 0x3F6C2A08 : ℝ) - r| / r) := by
  have xa : binary32.toRat 0x3F967351 = 0x967351 / 2 ^ 23 := by
    rw [toRat_pos binary32 _ 0x967351 127 (by decide) (by decide) (by decide)]
    norm_num [binary32, FloatFormat.bias]
  have ya0 : binary32.toRat 0x3F6C20DE = 0xEC20DE / 2 ^ 24 := by
    rw [toRat_pos binary32 _ 0xEC20DE 126 (by decide) (by decide) (by decide)]
    norm_num [binary32, FloatFormat.bias]
  have ya1 : binary32.toRat 0x3F6C20DD = 0xEC20DD / 2 ^ 24 := by
    rw [toRat_pos binary32 _ 0xEC20DD 126 (by decide) (by decide) (by decide)]
    norm_num [binary32, FloatFormat.bias]
  have xb : binary32.toRat 0x3F9667A3 = 0x9667A3 / 2 ^ 23 := by
    rw [toRat_pos binary32 _ 0x9667A3 127 (by decide) (by decide) (by decide)]
    norm_num [binary32, FloatFormat.bias]
  have yb1 : binary32.toRat 0x3F6C2A09 = 0xEC2A09 / 2 ^ 24 := by
    rw [toRat_pos binary32 _ 0xEC2A09 126 (by decide) (by decide) (by decide)]
    norm_num [binary32, FloatFormat.bias]
  have yb2 : binary32.toRat 0x3F6C2A08 = 0xEC2A08 / 2 ^ 24 := by
    rw [toRat_pos binary32 _ 0xEC2A08 126 (by decide) (by decide) (by decide)]
    norm_num [binary32, FloatFormat.bias]
  refine ⟨by decide, by decide, ?_, by decide, by decide, ?_⟩
  · exact err_lt_of_straddle _ _ _ (by rw [xa]; norm_num) (by rw [ya0]; norm_num)
      (by rw [ya1]; norm_num) (by rw [xa, ya0]; norm_num) (by rw [xa, ya0, ya1]; norm_num)
  · exact err_lt_of_straddle _ _ _ (by rw [xb]; norm_num) (by rw [yb1]; norm_num)
      (by rw [yb2]; norm_num) (by rw [xb, yb1]; norm_num) (by rw [xb, yb1, yb2]; norm_num)

/-- C10, amended: for every array of positive, finite, normal inputs, single or double
precision, the one-refinement and two-refinement kernels return, and with `r = 1 / sqrt x` for
the input `x` at an index, `y0` the raw bit-approximation estimate of `x`, `y1` the output of
the `_V1` kernel and `y2` the output of the `_DoubleNewton` kernel at that index:
`|y1 - r| / r ≤ |y0 - r| / r + 2.7e-7` and `|y2 - r| / r ≤ |y1 - r| / r + 2.7e-7`. -/
theorem C10_refinement_error_allowance :
    (∀ (n : Nat) (vals out : List Nat), n < 2 ^ 64 → vals.length = n → out.length = n →
      (∀ x ∈ vals, 0x00800000 ≤ x ∧ x < 0x7F800000) →
      ∃ s1 s2, fastInvSqrt_flt_V1 n vals out = some s1 ∧
        fastInvSqrt_flt_DoubleNewton n vals out = some s2 ∧
        ∀ i, i < n → ∀ r : ℝ, r = 1 / Real.sqrt (binary32.toRat (vals.getD i 0) : ℝ) →
          |(binary32.toRat (s1.out.getD i 0) : ℝ) - r| / r ≤
            |(binary32.toRat (bitApprox_flt (vals.getD i 0)) : ℝ) - r| / r + 27 / 100000000 ∧
          |(binary32.toRat (s2.out.getD i 0) : ℝ) - r| / r ≤
            |(binary32.toRat (s1.out.getD i 0) : ℝ) - r| / r + 27 / 100000000) ∧
    (∀ (n : Nat) (vals out : List Nat), n < 2 ^ 64 → vals.length = n → out.length = n →
      (∀ x ∈ vals, 0x0010000000000000 ≤ x ∧ x < 0x7FF0000000000000) →
      ∃ s1 s2, fastInvSqrt_dbl_V1 n vals out = some s1 ∧
        fastInvSqrt_dbl_DoubleNewton n vals out = some s2 ∧
        ∀ i, i < n → ∀ r : ℝ, r = 1 / Real.sqrt (binary64.toRat (vals.getD i 0) : ℝ) →
          |(binary64.toRat (s1.out.getD i 0) : ℝ) - r| / r ≤
            |(binary64.toRat (bitApprox_dbl (vals.getD i 0)) : ℝ) - r| / r + 27 / 100000000 ∧
          |(binary64.toRat (s2.out.getD i 0) : ℝ) - r| / r ≤
            |(binary64.toRat (s1.out.getD i 0) : ℝ) - r| / r + 27 / 100000000) := by
  refine ⟨?_, ?_⟩
  · intro n vals out hn hv ho hx
    refine ⟨_, _, fastInvSqrt_flt_V1_run n vals out hn hv ho,
      fastInvSqrt_flt_DoubleNewton_run n vals out hn hv ho, ?_⟩
    intro i hi r hr
    have hm := hx _ (getD_mem_lt vals i (by omega))
    simp only [getD_map_lt _ vals i (by omega)]
    exact (errors_flt _ hm.1 hm.2 r hr).2.2
  · intro n vals out hn hv ho hx
    refine ⟨_, _, fastInvSqrt_dbl_V1_run n vals out hn hv ho,
      fastInvSqrt_dbl_DoubleNewton_run n vals out hn hv ho, ?_⟩
    intro i hi r hr
    have hm := hx _ (getD_mem_lt vals i (by omega))
    simp only [getD_map_lt _ vals i (by omega)]
    exact (errors_dbl _ hm.1 hm.2 r hr).2.2

/-- C10 (amended) at the two inputs of the counterexample and at `[1.0, 7.0]`. -/
theorem C10_refinement_error_allowance_witness :
    ((2 : Nat) < 2 ^ 64 ∧ (∀ x ∈ [0x3F967351, 0x3F9667A3], 0x00800000 ≤ x ∧ x < 0x7F800000) ∧
      ∀ x ∈ [0x3FF0000000000000, 0x401C000000000000],
        0x0010000000000000 ≤ x ∧ x < 0x7FF0000000000000) ∧
    (∃ s1 s2, fastInvSqrt_flt_V1 2 [0x3F967351, 0x3F9667A3] [0, 0] = some s1 ∧
      fastInvSqrt_flt_DoubleNewton 2 [0x3F967351, 0x3F9667A3] [0, 0] = some s2 ∧
      ∀ i, i < 2 → ∀ r : ℝ,
        r = 1 / Real.sqrt (binary32.toRat ([0x3F967351, 0x3F9667A3].getD i 0) : ℝ) →
        |(binary32.toRat (s1.out.getD i 0) : ℝ) - r| / r ≤
          |(binary32.toRat (bitApprox_flt ([0x3F967351, 0x3F9667A3].getD i 0)) : ℝ) - r| / r +
            27 / 100000000 ∧
        |(binary32.toRat (s2.out.getD i 0) : ℝ) - r| / r ≤
          |(binary32.toRat (s1.out.getD i 0) : ℝ) - r| / r + 27 / 100000000) ∧
    (∃ s1 s2, fastInvSqrt_dbl_V1 2 [0x3FF0000000000000, 0x401C000000000000] [0, 0] = some s1 ∧
      fastInvSqrt_dbl_DoubleNewton 2 [0x3FF0000000000000, 0x401C000000000000] [0, 0] =
        some s2 ∧
      ∀ i, i < 2 → ∀ r : ℝ,
        r = 1 / Real.sqrt
          (binary64.toRat ([0x3FF0000000000000, 0x401C000000000000].getD i 0) : ℝ) →
        |(binary64.toRat (s1.out.getD i 0) : ℝ) - r| / r ≤
          |(binary64.toRat (bitApprox_dbl
            ([0x3FF0000000000000, 0x401C000000000000].getD i 0)) : ℝ) - r| / r +
            27 / 100000000 ∧
        |(binary64.toRat (s2.out.getD i 0) : ℝ) - r| / r ≤
          |(binary64.toRat (s1.out.getD i 0) : ℝ) - r| / r + 27 / 100000000) :=
  ⟨by decide,
    C10_refinement_error_allowance.1 2 [0x3F967351, 0x3F9667A3] [0, 0] (by decide) rfl rfl
      (by decide),
    C10_refinement_error_allowance.2 2 [0x3FF0000000000000, 0x401C000000000000] [0, 0]
      (by decide) rfl rfl (by decide)⟩

/-- C11: for the single input `4.0f` (pattern `0x40800000`) the one-refinement kernel
`fastInvSqrt_flt_V1` starts from the raw pattern `0x5F375A86 - 0x20400000 = 0x3EF75A86`
(`0x20400000` being `0x40800000 >> 1`) and writes `0x3EFF911F`, whose value `y` has
`|y - 1/2| / (1/2) ≤ 2 / 1000` (0.2 percent). -/
theorem C11_exact_square_scenario :
    (0x40800000 : Nat) >>> 1 = 0x20400000 ∧
    (0x5F375A86 : Nat) - 0x20400000 = 0x3EF75A86 ∧
    bitApprox_flt 0x40800000 = 0x3EF75A86 ∧
    (fastInvSqrt_flt_V1 1 [0x40800000] [0]).map KState.out =
      some [step_flt 0x40800000 0x3EF75A86] ∧
    step_flt 0x40800000 0x3EF75A86 = 0x3EFF911F ∧
    binary32.toRat 0x40800000 = 4 ∧
    |binary32.toRat 0x3EFF911F - 1 / 2| / (1 / 2) ≤ 2 / 1000 := by
  have y : binary32.toRat 0x3EFF911F = 0xFF911F / 2 ^ 25 := by
    rw [toRat_pos binary32 _ 0xFF911F 125 (by decide) (by decide) (by decide)]
    norm_num [binary32, FloatFormat.bias]
  have x : binary32.toRat 0x40800000 = 4 := by
    rw [toRat_pos binary32 _ 0x800000 129 (by decide) (by decide) (by decide)]
    norm_num [binary32, FloatFormat.bias]
  refine ⟨by decide, by decide, by decide, by decide, by decide, x, ?_⟩
  rw [y, abs_of_neg (by norm_num)]
  norm_num

/-! ## Facts on the comparisons -/

namespace FloatFormat

variable (F : FloatFormat)

theorem cmp_lt_iff (a b : Nat) :
    F.lt a b = true ↔ F.isNaN a = false ∧ F.isNaN b = false ∧ F.ordKey a < F.ordKey b := by
  simp [lt, and_assoc]

theorem cmp_le_iff (a b : Nat) :
    F.le a b = true ↔ F.isNaN a = false ∧ F.isNaN b = false ∧ F.ordKey a ≤ F.ordKey b := by
  simp [le, and_assoc]

theorem cmp_lt_irrefl (a : Nat) : F.lt a a = false := by
  simp [lt]

theorem cmp_le_refl (a : Nat) (h : F.isNaN a = false) : F.le a a = true := by
  simp [le, h]

theorem cmp_lt_trans {a b c : Nat} (h1 : F.lt a b = true) (h2 : F.lt b c = true) :
    F.lt a c = true := by
  rw [cmp_lt_iff] at *
  exact ⟨h1.1, h2.2.1, by omega⟩

theorem cmp_le_trans {a b c : Nat} (h1 : F.le a b = true) (h2 : F.le b c = true) :
    F.le a c = true := by
  rw [cmp_le_iff] at *
  exact ⟨h1.1, h2.2.1, by omega⟩

theorem cmp_lt_of_le_of_lt {a b c : Nat} (h1 : F.le a b = true) (h2 : F.lt b c = true) :
    F.lt a c = true := by
  rw [cmp_le_iff] at h1
  rw [cmp_lt_iff] at *
  exact ⟨h1.1, h2.2.1, by omega⟩

theorem cmp_lt_of_lt_of_le {a b c : Nat} (h1 : F.lt a b = true) (h2 : F.le b c = true) :
    F.lt a c = true := by
  rw [cmp_le_iff] at h2
  rw [cmp_lt_iff] at *
  exact ⟨h1.1, h2.2.1, by omega⟩

theorem cmp_le_of_lt {a b : Nat} (h : F.lt a b = true) : F.le a b = true := by
  rw [cmp_lt_iff] at h
  rw [cmp_le_iff]
  exact ⟨h.1, h.2.1, by omega⟩

/-- For operands that are not NaNs, `a <= b` holds exactly when `b < a` does not. -/
theorem cmp_le_of_not_lt {a b : Nat} (ha : F.isNaN a = false) (hb : F.isNaN b = false)
    (h : F.lt b a = false) : F.le a b = true := by
  rw [cmp_le_iff]
  refine ⟨ha, hb, ?_⟩
  by_contra hc
  have : F.lt b a = true := (F.cmp_lt_iff b a).2 ⟨hb, ha, by omega⟩
  rw [h] at this
  exact absurd this (by decide)

theorem cmp_not_le_of_lt {a b : Nat} (h : F.lt a b = true) : F.le b a = false := by
  rw [cmp_lt_iff] at h
  cases hc : F.le b a
  · rfl
  · rw [cmp_le_iff] at hc
    omega

theorem cmp_lt_notNaN {a b : Nat} (h : F.lt a b = true) :
    F.isNaN a = false ∧ F.isNaN b = false := by
  rw [cmp_lt_iff] at h
  exact ⟨h.1, h.2.1⟩

end FloatFormat

/-! ## One scan of candidates -/

theorem update_cases (E : Nat → Nat) (b : Best) (c : Nat) :
    (binary64.lt (E c) b.minMaxError = true ∧ b.update E c = ⟨E c, c⟩) ∨
    (binary64.lt (E c) b.minMaxError = false ∧ b.update E c = b) := by
  unfold Best.update
  cases h : binary64.lt (E c) b.minMaxError
  · right; exact ⟨rfl, by simp⟩
  · left; exact ⟨rfl, by simp⟩

/-- A scan does not raise `minMaxError`, and `minMaxError` stays a number. -/
theorem scan_le (E : Nat → Nat) (cs : List Nat) :
    ∀ b : Best, binary64.isNaN b.minMaxError = false →
      binary64.le (cs.foldl (Best.update E) b).minMaxError b.minMaxError = true ∧
      binary64.isNaN (cs.foldl (Best.update E) b).minMaxError = false := by
  induction cs with
  | nil => intro b hb; exact ⟨binary64.cmp_le_refl _ hb, hb⟩
  | cons c cs ih =>
    intro b hb
    rw [List.foldl_cons]
    rcases update_cases E b c with ⟨h, e⟩ | ⟨_, e⟩
    · rw [e]
      have hn := (binary64.cmp_lt_notNaN h).1
      obtain ⟨i1, i2⟩ := ih ⟨E c, c⟩ hn
      exact ⟨binary64.cmp_le_trans i1 (binary64.cmp_le_of_lt h), i2⟩
    · rw [e]; exact ih b hb

/-- After a scan no candidate of the scan has an error below `minMaxError`. -/
theorem scan_min (E : Nat → Nat) (cs : List Nat) :
    ∀ b : Best, binary64.isNaN b.minMaxError = false →
      ∀ c ∈ cs, binary64.lt (E c) (cs.foldl (Best.update E) b).minMaxError = false := by
  induction cs with
  | nil => intro b _ c hc; cases hc
  | cons c0 cs ih =>
    intro b hb c hc
    rw [List.foldl_cons]
    have hb' : binary64.isNaN (b.update E c0).minMaxError = false := by
      rcases update_cases E b c0 with ⟨h, e⟩ | ⟨_, e⟩
      · rw [e]; exact (binary64.cmp_lt_notNaN h).1
      · rw [e]; exact hb
    rcases List.mem_cons.1 hc with e | e
    · subst e
      have h1 : binary64.lt (E c) (b.update E c).minMaxError = false := by
        rcases update_cases E b c with ⟨_, e⟩ | ⟨h, e⟩
        · rw [e]; exact binary64.cmp_lt_irrefl _
        · rw [e]; exact h
      cases h2 : binary64.lt (E c) (cs.foldl (Best.update E) (b.update E c)).minMaxError
      · rfl
      · have := binary64.cmp_lt_of_lt_of_le h2 (scan_le E cs _ hb').1
        rw [h1] at this
        exact absurd this (by decide)
    · exact ih _ hb' c e

/-- Outcome of a scan from `b`: either no candidate is below `b.minMaxError` and `b` is kept,
or the result is the first candidate, in scan order, whose error is the least of the scan, and
this error is below `b.minMaxError`. -/
theorem scan_cases (E : Nat → Nat) (cs : List Nat) :
    ∀ b : Best,
      ((∀ c ∈ cs, binary64.lt (E c) b.minMaxError = false) ∧
        cs.foldl (Best.update E) b = b) ∨
      ((∃ c ∈ cs, binary64.lt (E c) b.minMaxError = true) ∧
        (cs.foldl (Best.update E) b).minMaxError = E (cs.foldl (Best.update E) b).minMaxC ∧
        binary64.lt (cs.foldl (Best.update E) b).minMaxError b.minMaxError = true ∧
        ∃ pre post, cs = pre ++ (cs.foldl (Best.update E) b).minMaxC :: post ∧
          ∀ c ∈ pre, binary64.le (E c) (cs.foldl (Best.update E) b).minMaxError = false) := by
  induction cs with
  | nil => intro b; left; exact ⟨fun c hc => (by cases hc), rfl⟩
  | cons c0 cs ih =>
    intro b
    rw [List.foldl_cons]
    rcases update_cases E b c0 with ⟨h, e⟩ | ⟨h, e⟩
    · right
      rw [e]
      refine ⟨⟨c0, List.mem_cons_self _ _, h⟩, ?_⟩
      rcases ih ⟨E c0, c0⟩ with ⟨_, k⟩ | ⟨_, k1, k2, pre, post, k3, k4⟩
      · rw [k]
        exact ⟨rfl, h, [], cs, rfl, fun c hc => by cases hc⟩
      · refine ⟨k1, binary64.cmp_lt_trans k2 h, c0 :: pre, post, by rw [List.cons_append, ← k3], ?_⟩
        intro c hc
        rcases List.mem_cons.1 hc with x | x
        · subst x; exact binary64.cmp_not_le_of_lt k2
        · exact k4 c x
    · rw [e]
      rcases ih b with ⟨k0, k⟩ | ⟨k0, k1, k2, pre, post, k3, k4⟩
      · left
        refine ⟨?_, k⟩
        intro c hc
        rcases List.mem_cons.1 hc with x | x
        · subst x; exact h
        · exact k0 c x
      · right
        obtain ⟨c1, hc1, hc1'⟩ := k0
        refine ⟨⟨c1, List.mem_cons_of_mem _ hc1, hc1'⟩, k1, k2, c0 :: pre, post,
          by rw [List.cons_append, ← k3], ?_⟩
        intro c hc
        rcases List.mem_cons.1 hc with x | x
        · subst x
          cases hle : binary64.le (E c) (cs.foldl (Best.update E) b).minMaxError
          · rfl
          · have := binary64.cmp_lt_of_le_of_lt hle k2
            rw [h] at this
            exact absurd this (by decide)
        · exact k4 c x

/-- A scan that starts with an accepted candidate ends with one. -/
theorem scan_accepted (E : Nat → Nat) (cs : List Nat) (b : Best)
    (h : b.minMaxError = E b.minMaxC) :
    (cs.foldl (Best.update E) b).minMaxError = E (cs.foldl (Best.update E) b).minMaxC := by
  rcases scan_cases E cs b with ⟨_, k⟩ | ⟨_, k, _⟩
  · rw [k]; exact h
  · exact k

/-- The result of a scan is the start or one of the candidates. -/
theorem scan_mem (E : Nat → Nat) (cs : List Nat) (b : Best) :
    cs.foldl (Best.update E) b = b ∨ (cs.foldl (Best.update E) b).minMaxC ∈ cs := by
  rcases scan_cases E cs b with ⟨_, k⟩ | ⟨_, _, _, pre, post, k, _⟩
  · left; exact k
  · right
    have : (cs.foldl (Best.update E) b).minMaxC ∈
        pre ++ (cs.foldl (Best.update E) b).minMaxC :: post := by simp
    rw [← k] at this
    exact this

/-- A scan of candidates with errors below `DBL_MAX`, from the initial `minMaxError`, ends
with one of the candidates. -/
theorem scan_first (E : Nat → Nat) (cs : List Nat) (hE : ∀ c, binary64.lt (E c) DBL_MAX = true)
    (hcs : cs ≠ []) :
    (cs.foldl (Best.update E) ⟨DBL_MAX, 0⟩).minMaxC ∈ cs ∧
    (cs.foldl (Best.update E) ⟨DBL_MAX, 0⟩).minMaxError =
      E (cs.foldl (Best.update E) ⟨DBL_MAX, 0⟩).minMaxC := by
  rcases scan_cases E cs ⟨DBL_MAX, 0⟩ with ⟨k0, _⟩ | ⟨_, k1, _, pre, post, k3, _⟩
  · obtain ⟨c, rest, e⟩ := List.exists_cons_of_ne_nil hcs
    have := k0 c (by rw [e]; exact List.mem_cons_self _ _)
    rw [hE c] at this
    exact absurd this (by decide)
  · refine ⟨?_, k1⟩
    have : (cs.foldl (Best.update E) ⟨DBL_MAX, 0⟩).minMaxC ∈
        pre ++ (cs.foldl (Best.update E) ⟨DBL_MAX, 0⟩).minMaxC :: post := by simp
    rw [← k3] at this
    exact this

/-! ## The loops of the search -/

/-- The candidate loop from `c` with `c + k * delta = maxC`: it runs for the `k` candidates
`c, c + delta, ...`, none of the increments wraps, and it ends. -/
theorem candLoop_range (w : Nat) (E : Nat → Nat) (maxC delta : Nat) (hd : 0 < delta)
    (hm : maxC < 2 ^ w) :
    ∀ (k fuel c : Nat) (b : Best) (tr : List Nat), c + k * delta = maxC → k < fuel →
      candLoop w E maxC delta fuel c b tr =
        some ((List.range' c k delta).foldl (Best.update E) b, tr ++ List.range' c k delta) := by
  intro k
  induction k with
  | zero =>
    intro fuel c b tr hc hf
    obtain ⟨f, rfl⟩ : ∃ f, fuel = f + 1 := ⟨fuel - 1, by omega⟩
    have : ¬ c < maxC := by omega
    simp [candLoop, this]
  | succ k ih =>
    intro fuel c b tr hc hf
    obtain ⟨f, rfl⟩ : ∃ f, fuel = f + 1 := ⟨fuel - 1, by omega⟩
    have e : (k + 1) * delta = k * delta + delta := by ring
    have h1 : c < maxC := by omega
    have h2 : (c + delta) % 2 ^ w = c + delta := by
      apply Nat.mod_eq_of_lt
      have : 0 ≤ k * delta := Nat.zero_le _
      omega
    unfold candLoop
    rw [if_pos h1, h2, ih f (c + delta) _ _ (by omega) (by omega)]
    simp [List.range'_succ]

/-- The candidate loop with an empty window ends at once. -/
theorem candLoop_empty (w : Nat) (E : Nat → Nat) (maxC delta fuel c : Nat) (b : Best)
    (tr : List Nat) (hc : maxC ≤ c) (hf : 0 < fuel) :
    candLoop w E maxC delta fuel c b tr = some (b, tr) := by
  obtain ⟨f, rfl⟩ : ∃ f, fuel = f + 1 := ⟨fuel - 1, by omega⟩
  have : ¬ c < maxC := by omega
  simp [candLoop, this]

/-- The window `[c - δ, c + δ)` in arithmetic modulo `W`: either it does not wrap, or its
upper end is not above its lower end. -/
theorem window_mod (W c δ : Nat) (hc : c < W) (hδ : 2 * δ < W) :
    (δ ≤ c ∧ c + δ < W ∧ (c + W - δ) % W = c - δ ∧ (c + δ) % W = c + δ) ∨
    (¬ (δ ≤ c ∧ c + δ < W) ∧ (c + δ) % W ≤ (c + W - δ) % W) := by
  by_cases h1 : δ ≤ c
  · have e1 : (c + W - δ) % W = c - δ := by
      have : c + W - δ = (c - δ) + W := by omega
      rw [this, Nat.add_mod_right, Nat.mod_eq_of_lt (by omega)]
    by_cases h2 : c + δ < W
    · left
      exact ⟨h1, h2, e1, Nat.mod_eq_of_lt h2⟩
    · right
      refine ⟨fun h => h2 h.2, ?_⟩
      have e2 : (c + δ) % W = c + δ - W := by
        rw [Nat.mod_eq_sub_mod (by omega), Nat.mod_eq_of_lt (by omega)]
      rw [e1, e2]
      omega
  · right
    refine ⟨fun h => h1 h.1, ?_⟩
    rw [Nat.mod_eq_of_lt (show c + W - δ < W by omega), Nat.mod_eq_of_lt (show c + δ < W by omega)]
    omega

theorem pow16_pos (n : Nat) : 0 < 16 ^ n := pow_pos (by decide) n

theorem pow16_succ (n : Nat) : 16 ^ (n + 1) = 16 * 16 ^ n := by rw [pow_succ, Nat.mul_comm]

theorem pow16_shift (n : Nat) : 16 ^ (n + 1) >>> 4 = 16 ^ n := by
  rw [Nat.shiftRight_eq_div_pow, pow16_succ]
  exact Nat.mul_div_cancel_left _ (by decide)

theorem one_shift : (16 : Nat) ^ 0 >>> 4 = 0 := by decide

/-- Members of a window: the 32 grid points `c - δ + i * (δ / 16)`. -/
theorem mem_windowCands (w c n x : Nat) :
    x ∈ windowCands w c (16 ^ (n + 1)) ↔
      16 ^ (n + 1) ≤ c ∧ c + 16 ^ (n + 1) < 2 ^ w ∧
        ∃ i, i < 32 ∧ x = c - 16 ^ (n + 1) + 16 ^ n * i := by
  unfold windowCands
  have hq : 16 ^ (n + 1) / 16 = 16 ^ n := by
    rw [pow16_succ]; exact Nat.mul_div_cancel_left _ (by decide)
  by_cases h : 16 ^ (n + 1) ≤ c ∧ c + 16 ^ (n + 1) < 2 ^ w
  · rw [if_pos h, hq, List.mem_range']
    constructor
    · rintro ⟨i, hi, e⟩; exact ⟨h.1, h.2, i, hi, e⟩
    · rintro ⟨_, _, i, hi, e⟩; exact ⟨i, hi, e⟩
  · rw [if_neg h]
    constructor
    · intro hx; cases hx
    · rintro ⟨h1, h2, _⟩; exact absurd ⟨h1, h2⟩ h

/-- The candidate loop of a round after the first: it visits `windowCands`. -/
theorem candLoop_window (w : Nat) (E : Nat → Nat) (n ifuel : Nat) (b b0 : Best)
    (hf : 33 ≤ ifuel) (hc : b0.minMaxC < 2 ^ w) (hw : 2 * 16 ^ (n + 1) < 2 ^ w) :
    candLoop w E ((b0.minMaxC + 16 ^ (n + 1)) % 2 ^ w) (16 ^ n) ifuel
        ((b0.minMaxC + 2 ^ w - 16 ^ (n + 1)) % 2 ^ w) b [] =
      some ((windowCands w b0.minMaxC (16 ^ (n + 1))).foldl (Best.update E) b,
        windowCands w b0.minMaxC (16 ^ (n + 1))) := by
  have hq : 16 ^ (n + 1) / 16 = 16 ^ n := by
    rw [pow16_succ]; exact Nat.mul_div_cancel_left _ (by decide)
  rcases window_mod (2 ^ w) b0.minMaxC (16 ^ (n + 1)) hc hw with ⟨h1, h2, e1, e2⟩ | ⟨h1, h2⟩
  · rw [e1, e2]
    unfold windowCands
    rw [if_pos ⟨h1, h2⟩, hq]
    have := candLoop_range w E (b0.minMaxC + 16 ^ (n + 1)) (16 ^ n) (pow16_pos n) h2 32 ifuel
      (b0.minMaxC - 16 ^ (n + 1)) b []
      (by have := pow16_succ n; omega) (by omega)
    simpa using this
  · unfold windowCands
    rw [if_neg h1]
    exact candLoop_empty w E _ _ ifuel _ b [] h2 (by omega)

/-- The result of a scan of a window is a value of the type. -/
theorem scan_window_lt (w : Nat) (E : Nat → Nat) (n : Nat) (b : Best)
    (hc : b.minMaxC < 2 ^ w) :
    ((windowCands w b.minMaxC (16 ^ (n + 1))).foldl (Best.update E) b).minMaxC < 2 ^ w := by
  rcases scan_mem E (windowCands w b.minMaxC (16 ^ (n + 1))) b with h | h
  · rw [h]; exact hc
  · rw [mem_windowCands] at h
    obtain ⟨h1, h2, i, hi, e⟩ := h
    rw [e]
    have := pow16_succ n
    have := pow16_pos n
    generalize 16 ^ (n + 1) = D at *
    generalize 16 ^ n = d at *
    subst D
    have : d * i ≤ d * 31 := Nat.mul_le_mul_left _ (by omega)
    omega

/-- The rounds after the first: the loop `while (delta > 0)`, entered with step `16 ^ n` and
the window around `b.minMaxC`, runs the `n + 1` rounds `laterRounds` and returns. -/
theorem searchLoop_later (w : Nat) (E : Nat → Nat) (ifuel : Nat) (hf : 33 ≤ ifuel) :
    ∀ (n fuel : Nat) (b : Best) (rs : List Round), n + 2 ≤ fuel → b.minMaxC < 2 ^ w →
      2 * 16 ^ (n + 1) < 2 ^ w →
      searchLoop w E ifuel fuel ((b.minMaxC + 2 ^ w - 16 ^ (n + 1)) % 2 ^ w)
          ((b.minMaxC + 16 ^ (n + 1)) % 2 ^ w) (16 ^ n) b rs =
        some ⟨laterBest w E (n + 1) b, rs ++ laterRounds w E (n + 1) b⟩ := by
  intro n
  induction n with
  | zero =>
    intro fuel b rs hfu hc hw
    obtain ⟨f, rfl⟩ : ∃ f, fuel = f + 2 := ⟨fuel - 2, by omega⟩
    unfold searchLoop
    rw [if_pos (pow16_pos 0), candLoop_window w E 0 ifuel b b hf hc hw]
    simp only [one_shift]
    unfold searchLoop
    simp [laterBest, laterRounds]
  | succ n ih =>
    intro fuel b rs hfu hc hw
    obtain ⟨f, rfl⟩ : ∃ f, fuel = f + 1 := ⟨fuel - 1, by omega⟩
    unfold searchLoop
    rw [if_pos (pow16_pos _), candLoop_window w E (n + 1) ifuel b b hf hc hw]
    simp only [pow16_shift]
    have hw' : 2 * 16 ^ (n + 1) < 2 ^ w := by
      have := pow16_succ (n + 1); omega
    rw [ih f _ _ (by omega) (scan_window_lt w E (n + 1) b hc) hw']
    simp [laterBest, laterRounds]

/-- The whole search from the window `[minC, minC + 16 ^ (n + 1))` with step `16 ^ n`: it runs
the `n + 1` rounds `searchRounds` and returns, for every fuel from `33` on. -/
theorem searchLoop_run (w : Nat) (E : Nat → Nat) (minC n fuel ifuel : Nat) (hf : 33 ≤ ifuel)
    (hfu : n + 2 ≤ fuel) (hm : minC + 16 ^ (n + 1) < 2 ^ w) :
    searchLoop w E ifuel fuel minC (minC + 16 ^ (n + 1)) (16 ^ n) ⟨DBL_MAX, 0⟩ [] =
      some ⟨laterBest w E n (firstBest E minC (16 ^ n)), searchRounds w E minC n⟩ := by
  obtain ⟨f, rfl⟩ : ∃ f, fuel = f + 1 := ⟨fuel - 1, by omega⟩
  have h16 := pow16_succ n
  have hp := pow16_pos n
  have h1 := candLoop_range w E (minC + 16 ^ (n + 1)) (16 ^ n) hp hm 16 ifuel minC
    ⟨DBL_MAX, 0⟩ [] (by omega) (by omega)
  unfold searchLoop
  rw [if_pos hp, h1]
  simp only [List.nil_append]
  have hb : (firstBest E minC (16 ^ n)).minMaxC < 2 ^ w := by
    unfold firstBest
    rcases scan_mem E (List.range' minC 16 (16 ^ n)) ⟨DBL_MAX, 0⟩ with h | h
    · rw [h]; exact pow_pos (by decide) w
    · rw [List.mem_range'] at h
      obtain ⟨i, hi, e⟩ := h
      rw [e]
      have : 16 ^ n * i ≤ 16 ^ n * 15 := Nat.mul_le_mul_left _ (by omega)
      omega
  cases n with
  | zero =>
    obtain ⟨g, rfl⟩ : ∃ g, f = g + 1 := ⟨f - 1, by omega⟩
    simp only [one_shift]
    unfold searchLoop
    simp [searchRounds, laterRounds, laterBest, firstBest]
  | succ n =>
    simp only [pow16_shift]
    have := searchLoop_later w E ifuel hf n f (firstBest E minC (16 ^ (n + 1)))
      [⟨minC, minC + 16 ^ (n + 1 + 1), 16 ^ (n + 1), ⟨DBL_MAX, 0⟩,
        List.range' minC 16 (16 ^ (n + 1)), firstBest E minC (16 ^ (n + 1))⟩]
      (by omega) hb (by omega)
    unfold firstBest at this ⊢
    rw [this]
    simp [searchRounds, firstBest]

/-! ## The rounds in closed form: structure -/

theorem laterRounds_succ (w : Nat) (E : Nat → Nat) (n : Nat) (b : Best) :
    laterRounds w E (n + 1) b =
      ⟨(b.minMaxC + 2 ^ w - 16 ^ (n + 1)) % 2 ^ w, (b.minMaxC + 16 ^ (n + 1)) % 2 ^ w, 16 ^ n, b,
        windowCands w b.minMaxC (16 ^ (n + 1)),
        (windowCands w b.minMaxC (16 ^ (n + 1))).foldl (Best.update E) b⟩ ::
      laterRounds w E n ((windowCands w b.minMaxC (16 ^ (n + 1))).foldl (Best.update E) b) :=
  rfl

theorem laterBest_succ (w : Nat) (E : Nat → Nat) (n : Nat) (b : Best) :
    laterBest w E (n + 1) b =
      laterBest w E n ((windowCands w b.minMaxC (16 ^ (n + 1))).foldl (Best.update E) b) :=
  rfl

/-- Steps of the later rounds. -/
theorem laterRounds_delta (w : Nat) (E : Nat → Nat) :
    ∀ (n : Nat) (b : Best),
      (laterRounds w E n b).map Round.delta = (List.range n).reverse.map fun k => 16 ^ k := by
  intro n
  induction n with
  | zero => intro b; rfl
  | succ n ih =>
    intro b
    rw [laterRounds_succ, List.map_cons, ih, List.range_succ, List.reverse_append]
    rfl

/-- Each later round, seen alone: its step is a power of 16, its window is taken around the
`minMaxC` of its start, and its end is the scan of its candidates from its start. -/
theorem laterRounds_local (w : Nat) (E : Nat → Nat) :
    ∀ (n : Nat) (b : Best), ∀ r ∈ laterRounds w E n b, ∃ k, k < n ∧ r.delta = 16 ^ k ∧
      r.minC = (r.start.minMaxC + 2 ^ w - 16 ^ (k + 1)) % 2 ^ w ∧
      r.maxC = (r.start.minMaxC + 16 ^ (k + 1)) % 2 ^ w ∧
      r.cands = windowCands w r.start.minMaxC (16 ^ (k + 1)) ∧
      r.best = r.cands.foldl (Best.update E) r.start := by
  intro n
  induction n with
  | zero => intro b r hr; cases hr
  | succ n ih =>
    intro b r hr
    rw [laterRounds_succ] at hr
    rcases List.mem_cons.1 hr with e | e
    · subst e
      exact ⟨n, by omega, rfl, rfl, rfl, rfl, rfl⟩
    · obtain ⟨k, hk, h⟩ := ih _ r e
      exact ⟨k, by omega, h⟩

/-- Consecutive later rounds: the next round starts from the end of the round, with a
sixteenth of the step. -/
theorem laterRounds_chain (w : Nat) (E : Nat → Nat) :
    ∀ (n : Nat) (b : Best),
      List.Chain' (fun r r' : Round => r'.start = r.best ∧ r.delta = 16 * r'.delta)
        (laterRounds w E n b) ∧
      ∀ r ∈ (laterRounds w E n b).head?, r.start = b ∧ 16 * r.delta = 16 ^ n := by
  intro n
  induction n with
  | zero => intro b; exact ⟨List.chain'_nil, fun r hr => by cases hr⟩
  | succ n ih =>
    intro b
    rw [laterRounds_succ]
    obtain ⟨i1, i2⟩ := ih ((windowCands w b.minMaxC (16 ^ (n + 1))).foldl (Best.update E) b)
    constructor
    · rw [List.chain'_cons']
      refine ⟨?_, i1⟩
      intro r' hr'
      obtain ⟨h1, h2⟩ := i2 r' hr'
      exact ⟨h1, h2.symm⟩
    · intro r hr
      simp only [List.head?_cons, Option.mem_def, Option.some.injEq] at hr
      subst hr
      exact ⟨rfl, (pow16_succ n).symm⟩

/-- The result of the later rounds is the end of the last of them. -/
theorem laterRounds_last (w : Nat) (E : Nat → Nat) :
    ∀ (n : Nat) (b : Best), ∀ r ∈ (laterRounds w E n b).getLast?,
      r.best = laterBest w E n b ∧ r.delta = 1 := by
  intro n
  induction n with
  | zero => intro b r hr; cases hr
  | succ n ih =>
    intro b r hr
    rw [laterRounds_succ] at hr
    rw [laterBest_succ]
    cases n with
    | zero =>
      simp only [laterRounds, List.getLast?_singleton, Option.mem_def,
        Option.some.injEq] at hr
      subst hr
      exact ⟨rfl, rfl⟩
    | succ m =>
      rw [laterRounds_succ, List.getLast?_cons_cons, ← laterRounds_succ] at hr
      exact ih _ r hr

/-! ## The rounds in closed form: the best error -/

/-- Along the later rounds `minMaxError` stays a number and never rises, and the result is not
above the end of any round. -/
theorem laterRounds_le (w : Nat) (E : Nat → Nat) :
    ∀ (n : Nat) (b : Best), binary64.isNaN b.minMaxError = false →
      (binary64.isNaN (laterBest w E n b).minMaxError = false ∧
        binary64.le (laterBest w E n b).minMaxError b.minMaxError = true) ∧
      ∀ r ∈ laterRounds w E n b,
        binary64.isNaN r.start.minMaxError = false ∧
        binary64.le r.best.minMaxError r.start.minMaxError = true ∧
        binary64.le (laterBest w E n b).minMaxError r.best.minMaxError = true := by
  intro n
  induction n with
  | zero =>
    intro b hb
    exact ⟨⟨hb, binary64.cmp_le_refl _ hb⟩, fun r hr => by cases hr⟩
  | succ n ih =>
    intro b hb
    rw [laterRounds_succ, laterBest_succ]
    obtain ⟨s1, s2⟩ := scan_le E (windowCands w b.minMaxC (16 ^ (n + 1))) b hb
    obtain ⟨⟨i1, i2⟩, i3⟩ := ih _ s2
    refine ⟨⟨i1, binary64.cmp_le_trans i2 s1⟩, ?_⟩
    intro r hr
    rcases List.mem_cons.1 hr with e | e
    · subst e
      exact ⟨hb, s1, i2⟩
    · exact i3 r e

/-- An accepted candidate at the start gives one at the end. -/
theorem laterBest_accepted (w : Nat) (E : Nat → Nat) :
    ∀ (n : Nat) (b : Best), b.minMaxError = E b.minMaxC →
      (laterBest w E n b).minMaxError = E (laterBest w E n b).minMaxC := by
  intro n
  induction n with
  | zero => intro b hb; exact hb
  | succ n ih =>
    intro b hb
    rw [laterBest_succ]
    exact ih _ (scan_accepted E _ b hb)

/-! ## The rounds in closed form: the windows -/

/-- The window of a later round around an incumbent `c` with `2 * 16 ^ (n + 1) ≤ c` and
`c + 16 ^ (n + 1) < 2 ^ w`: the incumbent is a candidate and the end of the round is a
candidate, again with room for the next window. -/
theorem window_step (w : Nat) (E : Nat → Nat) (n : Nat) (b : Best)
    (h1 : 2 * 16 ^ (n + 1) ≤ b.minMaxC) (h2 : b.minMaxC + 16 ^ (n + 1) < 2 ^ w) :
    b.minMaxC ∈ windowCands w b.minMaxC (16 ^ (n + 1)) ∧
    ((windowCands w b.minMaxC (16 ^ (n + 1))).foldl (Best.update E) b).minMaxC ∈
      windowCands w b.minMaxC (16 ^ (n + 1)) ∧
    2 * 16 ^ n ≤ ((windowCands w b.minMaxC (16 ^ (n + 1))).foldl (Best.update E) b).minMaxC ∧
    ((windowCands w b.minMaxC (16 ^ (n + 1))).foldl (Best.update E) b).minMaxC + 16 ^ n <
      2 ^ w := by
  have h16 := pow16_succ n
  have hp := pow16_pos n
  have hin : b.minMaxC ∈ windowCands w b.minMaxC (16 ^ (n + 1)) := by
    rw [mem_windowCands]
    exact ⟨by omega, h2, 16, by decide, by omega⟩
  have hmem : ((windowCands w b.minMaxC (16 ^ (n + 1))).foldl (Best.update E) b).minMaxC ∈
      windowCands w b.minMaxC (16 ^ (n + 1)) := by
    rcases scan_mem E (windowCands w b.minMaxC (16 ^ (n + 1))) b with h | h
    · rw [h]; exact hin
    · exact h
  refine ⟨hin, hmem, ?_⟩
  rw [mem_windowCands] at hmem
  obtain ⟨_, _, i, hi, e⟩ := hmem
  rw [e]
  generalize 16 ^ (n + 1) = D at *
  generalize 16 ^ n = d at *
  subst D
  have : d * i ≤ d * 31 := Nat.mul_le_mul_left _ (by omega)
  constructor <;> omega

/-- The later rounds from an incumbent with room for its window: every window is
`[c - δ, c + δ)` around the incumbent `c` of the round, without wrap; its candidates are the
grid points of the window; the incumbent and the end of the round are among them. -/
theorem laterRounds_window (w : Nat) (E : Nat → Nat) :
    ∀ (n : Nat) (b : Best), 2 * 16 ^ n ≤ b.minMaxC → b.minMaxC + 16 ^ n < 2 ^ w →
      ∀ r ∈ laterRounds w E n b,
        r.minC + 16 * r.delta = r.start.minMaxC ∧ r.maxC = r.start.minMaxC + 16 * r.delta ∧
        r.maxC < 2 ^ w ∧
        (∀ c, c ∈ r.cands ↔ ∃ i, i < 32 ∧ c = r.minC + r.delta * i) ∧
        r.start.minMaxC ∈ r.cands ∧ r.best.minMaxC ∈ r.cands := by
  intro n
  induction n with
  | zero => intro b _ _ r hr; cases hr
  | succ n ih =>
    intro b h1 h2 r hr
    rw [laterRounds_succ] at hr
    obtain ⟨k1, k2, k3, k4⟩ := window_step w E n b h1 h2
    rcases List.mem_cons.1 hr with e | e
    · subst e
      have h16 := pow16_succ n
      have hm1 : (b.minMaxC + 2 ^ w - 16 ^ (n + 1)) % 2 ^ w = b.minMaxC - 16 ^ (n + 1) := by
        have : b.minMaxC + 2 ^ w - 16 ^ (n + 1) = (b.minMaxC - 16 ^ (n + 1)) + 2 ^ w := by
          omega
        rw [this, Nat.add_mod_right, Nat.mod_eq_of_lt (by omega)]
      have hm2 : (b.minMaxC + 16 ^ (n + 1)) % 2 ^ w = b.minMaxC + 16 ^ (n + 1) :=
        Nat.mod_eq_of_lt h2
      refine ⟨?_, ?_, ?_, ?_, k1, k2⟩
      · show (b.minMaxC + 2 ^ w - 16 ^ (n + 1)) % 2 ^ w + 16 * 16 ^ n = b.minMaxC
        rw [hm1]; omega
      · show (b.minMaxC + 16 ^ (n + 1)) % 2 ^ w = b.minMaxC + 16 * 16 ^ n
        rw [hm2]; omega
      · show (b.minMaxC + 16 ^ (n + 1)) % 2 ^ w < 2 ^ w
        rw [hm2]; exact h2
      · intro c
        show c ∈ windowCands w b.minMaxC (16 ^ (n + 1)) ↔
          ∃ i, i < 32 ∧ c = (b.minMaxC + 2 ^ w - 16 ^ (n + 1)) % 2 ^ w + 16 ^ n * i
        rw [mem_windowCands, hm1]
        constructor
        · rintro ⟨_, _, i, hi, e⟩; exact ⟨i, hi, e⟩
        · rintro ⟨i, hi, e⟩; exact ⟨by omega, h2, i, hi, e⟩
    · exact ih _ k3 k4 r e

/-- Every candidate of the later rounds, and their result `c`, lies within
`15 * b + 16 ≤ 15 * c + 16 ^ (n + 1)` and `c < b + 16 ^ n` of the incumbent `b` they start
from; a candidate can only exist if `b` is not `0`. -/
theorem laterRounds_bounds (w : Nat) (E : Nat → Nat) :
    ∀ (n : Nat) (b : Best),
      (15 * b.minMaxC + 16 ≤ 15 * (laterBest w E n b).minMaxC + 16 ^ (n + 1) ∧
        (laterBest w E n b).minMaxC < b.minMaxC + 16 ^ n) ∧
      ∀ r ∈ laterRounds w E n b, ∀ c ∈ r.cands,
        15 * b.minMaxC + 16 ≤ 15 * c + 16 ^ (n + 1) ∧ c < b.minMaxC + 16 ^ n ∧
          0 < b.minMaxC := by
  intro n
  induction n with
  | zero =>
    intro b
    exact ⟨⟨by simp [laterBest], by simp [laterBest]⟩, fun r hr => by cases hr⟩
  | succ n ih =>
    intro b
    rw [laterRounds_succ, laterBest_succ]
    have h16 := pow16_succ n
    have h16' := pow16_succ (n + 1)
    have hp := pow16_pos n
    obtain ⟨⟨i1, i2⟩, i3⟩ :=
      ih ((windowCands w b.minMaxC (16 ^ (n + 1))).foldl (Best.update E) b)
    have hcand : ∀ c ∈ windowCands w b.minMaxC (16 ^ (n + 1)),
        15 * b.minMaxC + 16 * 16 ^ n ≤ 15 * c + 16 ^ (n + 1 + 1) ∧
          c + 16 ^ n ≤ b.minMaxC + 16 ^ (n + 1) ∧ 0 < b.minMaxC := by
      intro c hc
      rw [mem_windowCands] at hc
      obtain ⟨k1, k2, i, hi, e⟩ := hc
      have : 16 ^ n * i ≤ 16 ^ n * 31 := Nat.mul_le_mul_left _ (by omega)
      generalize 16 ^ (n + 1 + 1) = D2 at *
      generalize 16 ^ (n + 1) = D at *
      generalize 16 ^ n = d at *
      generalize d * i = di at *
      subst D2 D
      refine ⟨?_, ?_, ?_⟩ <;> omega
    have hb1 : 15 * b.minMaxC + 16 * 16 ^ n ≤
        15 * ((windowCands w b.minMaxC (16 ^ (n + 1))).foldl (Best.update E) b).minMaxC +
          16 ^ (n + 1 + 1) ∧
        ((windowCands w b.minMaxC (16 ^ (n + 1))).foldl (Best.update E) b).minMaxC + 16 ^ n ≤
          b.minMaxC + 16 ^ (n + 1) := by
      rcases scan_mem E (windowCands w b.minMaxC (16 ^ (n + 1))) b with h | h
      · rw [h]; constructor <;> omega
      · exact ⟨(hcand _ h).1, (hcand _ h).2.1⟩
    refine ⟨⟨by omega, by omega⟩, ?_⟩
    intro r hr c hc
    rcases List.mem_cons.1 hr with e | e
    · subst e
      have := hcand c hc
      refine ⟨by omega, by omega, this.2.2⟩
    · obtain ⟨j1, j2, j3⟩ := i3 r e c hc
      refine ⟨by omega, by omega, ?_⟩
      rcases scan_mem E (windowCands w b.minMaxC (16 ^ (n + 1))) b with h | h
      · rw [h] at j3; exact j3
      · exact (hcand _ h).2.2

/-- No increment of a candidate of the later rounds wraps. -/
theorem laterRounds_nowrap (w : Nat) (E : Nat → Nat) :
    ∀ (n : Nat) (b : Best), ∀ r ∈ laterRounds w E n b,
      r.delta >>> 4 < r.delta ∧ r.cands.length ≤ 32 ∧ ∀ c ∈ r.cands, c + r.delta < 2 ^ w := by
  intro n b r hr
  obtain ⟨k, _, h1, _, _, h4, _⟩ := laterRounds_local w E n b r hr
  rw [h1, h4]
  have hp := pow16_pos k
  have h16 := pow16_succ k
  refine ⟨?_, ?_, ?_⟩
  · rw [Nat.shiftRight_eq_div_pow]
    exact Nat.div_lt_self hp (by decide)
  · unfold windowCands
    split <;> simp
  · intro c hc
    rw [mem_windowCands] at hc
    obtain ⟨k1, k2, i, hi, e⟩ := hc
    have : 16 ^ k * i ≤ 16 ^ k * 31 := Nat.mul_le_mul_left _ (by omega)
    omega

/-! ## Rounding error of subtraction, division and conversion -/

namespace FloatFormat

variable (F : FloatFormat)

/-- Subtraction of a smaller positive number: the result is the rounded difference. -/
theorem fsub_pos_spec (he : 2 ≤ F.ebits) (a t : Nat) (ha : F.isFinPos a) (ht : F.isFinPos t)
    (hlt : F.toRat t < F.toRat a) (hlo : (2 : ℚ) / 2 ^ F.bias ≤ F.toRat a - F.toRat t)
    (hhi : F.toRat a < 2 ^ F.bias) :
    F.isFinPos (F.fsub a t) ∧
      |F.toRat (F.fsub a t) - (F.toRat a - F.toRat t)| ≤
        (F.toRat a - F.toRat t) / 2 ^ (F.mbits + 1) := by
  have hth2 := F.finPos_sign a ha
  obtain ⟨hn1, hn2, hn3, hn4⟩ := F.neg_fields t ht
  have hsig : F.sigOf (F.neg t) = F.sigOf t := by unfold sigOf; rw [hn3, hn4]
  have hq : F.qOf (F.neg t) = F.qOf t := by unfold qOf; rw [hn3]
  have hspec_t := F.finPos_not_special t ht
  have hspec_a := F.finPos_not_special a ha
  have hnan : F.isNaN (F.neg t) = false := by
    have := hspec_t.1; unfold isNaN at this ⊢; rw [hn3, hn4]; exact this
  have hinf : F.isInf (F.neg t) = false := by
    have := hspec_t.2; unfold isInf at this ⊢; rw [hn3, hn4]; exact this
  have hpB : (0 : ℚ) < 2 ^ (F.bias + F.mbits) := by positivity
  obtain ⟨em, hem⟩ : ∃ em, em = min (F.qOf a) (F.qOf t) := ⟨_, rfl⟩
  have hA := F.sig_mul_pow_q a em (by rw [hem]; exact min_le_left _ _)
  have hB := F.sig_mul_pow_q t em (by rw [hem]; exact min_le_right _ _)
  have hvlt : F.val2 t < F.val2 a := by
    have h1 := hlt
    rw [F.toRat_eq t ht, F.toRat_eq a ha, div_lt_div_right hpB] at h1
    exact_mod_cast h1
  have hBA : F.sigOf t * 2 ^ (F.qOf t - em) < F.sigOf a * 2 ^ (F.qOf a - em) := by
    rw [← hA, ← hB] at hvlt
    exact Nat.lt_of_mul_lt_mul_right hvlt
  have heq : F.fsub a t =
      F.roundPack 0 (F.sigOf a * 2 ^ (F.qOf a - em) - F.sigOf t * 2 ^ (F.qOf t - em)) em
        (F.bias + F.mbits) := by
    unfold fsub fadd
    simp only [hspec_t.1, hspec_a.1, hspec_a.2, hnan, hinf, hth2, hn2, hsig, hq,
      Bool.false_eq_true, if_false, Bool.or_self, ← hem]
    rw [if_neg (by decide), if_pos hBA]
  have hv : F.toRat a - F.toRat t =
      ((F.sigOf a * 2 ^ (F.qOf a - em) - F.sigOf t * 2 ^ (F.qOf t - em) : ℕ) : ℚ) * 2 ^ em /
        2 ^ (F.bias + F.mbits) := by
    rw [F.toRat_eq t ht, F.toRat_eq a ha, ← hA, ← hB, Nat.cast_sub (le_of_lt hBA)]
    push_cast
    ring
  rw [heq]
  rw [hv] at hlo ⊢
  refine F.roundPack_rel he _ _ _ (by omega) hlo ?_
  rw [← hv]
  have h0 : 0 ≤ F.toRat t := by
    rw [F.toRat_eq t ht]; positivity
  linarith only [h0, hhi]

/-- Conversion of an integer in the normal range: the result is the rounded integer. -/
theorem ofNat_spec (he : 2 ≤ F.ebits) (n : Nat) (h1 : 1 ≤ n) (h2 : (n : ℚ) < 2 ^ F.bias) :
    F.isFinPos (F.ofNat n) ∧ |F.toRat (F.ofNat n) - n| ≤ (n : ℚ) / 2 ^ (F.mbits + 1) := by
  have hb := F.bias_pos he
  have e : (n : ℚ) = (n : ℚ) * 2 ^ (F.bias + F.mbits) / 2 ^ (F.bias + F.mbits) := by
    field_simp
  unfold ofNat
  have hlo : (2 : ℚ) / 2 ^ F.bias ≤ (n : ℚ) := by
    have h3 : (2 : ℚ) ^ 1 ≤ 2 ^ F.bias := pow_le_pow_right₀ (by norm_num) hb
    have h4 : (2 : ℚ) / 2 ^ F.bias ≤ 1 := by
      rw [div_le_one (by positivity)]; simpa using h3
    have h5 : (1 : ℚ) ≤ n := by exact_mod_cast h1
    linarith only [h4, h5]
  have := F.roundPack_rel he n (F.bias + F.mbits) (F.bias + F.mbits) (by omega)
    (by rw [← e]; exact hlo) (by rw [← e]; exact h2)
  rw [← e] at this
  exact this

theorem sigOf_lt (b : Nat) : F.sigOf b < 2 * 2 ^ F.mbits := by
  unfold sigOf manOf
  have : b % 2 ^ F.mbits < 2 ^ F.mbits := Nat.mod_lt _ (Nat.two_pow_pos _)
  split <;> omega

theorem isZero_false (b : Nat) (h : 0 < F.sigOf b) : F.isZero b = false := by
  unfold sigOf at h
  unfold isZero
  by_cases h1 : F.expOf b = 0
  · rw [if_pos h1] at h
    have : F.manOf b ≠ 0 := by omega
    simp [h1, this]
  · simp [h1]

theorem fdiv_eq_roundPack (a b : Nat) (ha : F.isFinPos a) (hb : F.isFinPos b)
    (hB : 0 < F.sigOf b) :
    F.fdiv a b =
      F.roundPack 0
        (2 * (F.sigOf a * 2 ^ (2 * F.mbits + 3) / F.sigOf b) +
          (if F.sigOf a * 2 ^ (2 * F.mbits + 3) % F.sigOf b = 0 then 0 else 1))
        (F.qOf a + F.bias) (F.qOf b + (2 * F.mbits + 3) + 1 + F.bias) := by
  unfold fdiv
  simp only [(F.finPos_not_special a ha).1, (F.finPos_not_special a ha).2,
    (F.finPos_not_special b hb).1, (F.finPos_not_special b hb).2, F.isZero_false b hB,
    F.finPos_sign a ha, F.finPos_sign b hb, Bool.or_self, Bool.false_eq_true, if_false]

/-- Division of positive numbers with the quotient well inside the normal range: the result
is within `2 ^ -mbits` of the quotient, relatively. -/
theorem fdiv_spec (he : 2 ≤ F.ebits) (a b : Nat) (ha : F.isFinPos a) (hb : F.isFinPos b)
    (hA : 0 < F.sigOf a) (hB : 0 < F.sigOf b)
    (hlo : (4 : ℚ) / 2 ^ F.bias ≤ F.toRat a / F.toRat b)
    (hhi : 2 * (F.toRat a / F.toRat b) ≤ 2 ^ F.bias) :
    F.isFinPos (F.fdiv a b) ∧
      |F.toRat (F.fdiv a b) - F.toRat a / F.toRat b| ≤
        F.toRat a / F.toRat b / 2 ^ F.mbits := by
  rw [F.fdiv_eq_roundPack a b ha hb hB]
  generalize hAd : F.sigOf a = A at hA ⊢
  generalize hBd : F.sigOf b = B at hB ⊢
  generalize hsh : 2 * F.mbits + 3 = sh
  obtain ⟨N, hN⟩ : ∃ N, N = 2 * (A * 2 ^ sh / B) + (if A * 2 ^ sh % B = 0 then 0 else 1) :=
    ⟨_, rfl⟩
  rw [← hN]
  -- integer facts on the quotient
  have hdm := Nat.div_add_mod (A * 2 ^ sh) B
  have hR : A * 2 ^ sh % B < B := Nat.mod_lt _ hB
  have n1 : N * B ≤ 2 * (A * 2 ^ sh) + B := by
    rw [hN, Nat.add_mul]
    have e : 2 * (A * 2 ^ sh / B) * B = 2 * (B * (A * 2 ^ sh / B)) := by ring
    rw [e]
    split
    · omega
    · omega
  have n2 : 2 * (A * 2 ^ sh) ≤ N * B + B := by
    rw [hN, Nat.add_mul]
    have e : 2 * (A * 2 ^ sh / B) * B = 2 * (B * (A * 2 ^ sh / B)) := by ring
    rw [e]
    split
    · omega
    · omega
  have hBlt : B < 2 * 2 ^ F.mbits := by rw [← hBd]; exact F.sigOf_lt b
  -- the same in rationals
  have hBq : (0 : ℚ) < (B : ℚ) := by exact_mod_cast hB
  have hAq : (1 : ℚ) ≤ (A : ℚ) := by exact_mod_cast hA
  obtain ⟨xs, hxs⟩ : ∃ xs : ℚ, xs = 2 * ((A : ℚ) * 2 ^ sh) / B := ⟨_, rfl⟩
  have q1 : (N : ℚ) ≤ xs + 1 := by
    have : ((N * B : ℕ) : ℚ) ≤ ((2 * (A * 2 ^ sh) + B : ℕ) : ℚ) := by exact_mod_cast n1
    push_cast at this
    rw [hxs, div_add_one (ne_of_gt hBq), le_div_iff₀ hBq]
    exact this
  have q2 : xs ≤ (N : ℚ) + 1 := by
    have : ((2 * (A * 2 ^ sh) : ℕ) : ℚ) ≤ ((N * B + B : ℕ) : ℚ) := by exact_mod_cast n2
    push_cast at this
    rw [hxs, div_le_iff₀ hBq]
    linarith only [this]
  have q3 : (8 : ℚ) * 2 ^ F.mbits ≤ xs := by
    rw [hxs, le_div_iff₀ hBq]
    have b1 : (B : ℚ) ≤ 2 * 2 ^ F.mbits := by exact_mod_cast le_of_lt hBlt
    have e : (2 : ℚ) ^ sh = 8 * 2 ^ F.mbits * 2 ^ F.mbits := by
      rw [← hsh, pow_add, two_mul, pow_add]; norm_num; ring
    rw [e]
    have p : (0 : ℚ) < 2 ^ F.mbits := by positivity
    have : 8 * 2 ^ F.mbits * (B : ℚ) ≤ 8 * 2 ^ F.mbits * (2 * 2 ^ F.mbits) :=
      mul_le_mul_of_nonneg_left b1 (by positivity)
    have : 2 * (1 * (8 * 2 ^ F.mbits * 2 ^ F.mbits)) ≤
        2 * ((A : ℚ) * (8 * 2 ^ F.mbits * 2 ^ F.mbits)) :=
      mul_le_mul_of_nonneg_left (mul_le_mul_of_nonneg_right hAq (by positivity)) (by norm_num)
    linarith
  -- the quotient in terms of `xs`
  obtain ⟨x, hx⟩ : ∃ x : ℚ, x = F.toRat a / F.toRat b := ⟨_, rfl⟩
  rw [← hx] at hlo hhi ⊢
  obtain ⟨s, hs⟩ : ∃ s : ℚ, s = 2 ^ (F.qOf a + F.bias) / 2 ^ (F.qOf b + sh + 1 + F.bias) :=
    ⟨_, rfl⟩
  have hs0 : 0 < s := by rw [hs]; positivity
  have hxe : x = xs * s := by
    rw [hx, hxs, hs, F.toRat_eq a ha, F.toRat_eq b hb]
    unfold val2
    rw [hAd, hBd]
    push_cast
    have p1 : (2 : ℚ) ^ (F.qOf a + F.bias) = 2 ^ F.qOf a * 2 ^ F.bias := pow_add _ _ _
    have p2 : (2 : ℚ) ^ (F.qOf b + sh + 1 + F.bias) =
        2 ^ F.qOf b * 2 ^ sh * 2 * 2 ^ F.bias := by
      rw [pow_add, pow_add, pow_add, pow_one]
    rw [p1, p2]
    field_simp
    ring
  have hve : (N : ℚ) * 2 ^ (F.qOf a + F.bias) / 2 ^ (F.qOf b + sh + 1 + F.bias) = N * s := by
    rw [hs]; ring
  have hm0 : (0 : ℚ) < 2 ^ F.mbits := by positivity
  have hxs0 : 0 < xs := lt_of_lt_of_le (by positivity) q3
  obtain ⟨M, hM⟩ : ∃ M : ℚ, M = 2 ^ F.mbits := ⟨_, rfl⟩
  have hM1 : (1 : ℚ) ≤ M := by rw [hM]; exact one_le_pow₀ (by norm_num)
  have hM0 : (0 : ℚ) < M := lt_of_lt_of_le (by norm_num) hM1
  rw [← hM] at q3 ⊢
  have hx0 : 0 < x := by rw [hxe]; exact mul_pos hxs0 hs0
  have hsx : s * (8 * M) ≤ x := by
    rw [hxe, mul_comm]; exact mul_le_mul_of_nonneg_right q3 (le_of_lt hs0)
  have hsu : 8 * s ≤ x / M := by
    rw [le_div_iff₀ hM0]; linarith only [hsx]
  have hu0 : x / M ≤ x := div_le_self (le_of_lt hx0) hM1
  have hNs1 : (N : ℚ) * s ≤ x + s := by
    have := mul_le_mul_of_nonneg_right q1 (le_of_lt hs0)
    rw [hxe]; linarith only [this]
  have hNs2 : x ≤ (N : ℚ) * s + s := by
    have := mul_le_mul_of_nonneg_right q2 (le_of_lt hs0)
    rw [hxe]; linarith only [this]
  have hpos : (0 : ℚ) ≤ 4 / 2 ^ F.bias := by positivity
  have hβ : (2 : ℚ) / 2 ^ F.bias = 4 / 2 ^ F.bias / 2 := by ring
  have hr := F.roundPack_rel he N (F.qOf a + F.bias) (F.qOf b + sh + 1 + F.bias) (by omega)
    (by rw [hve, hβ]; linarith only [hlo, hNs2, hsu, hu0, hpos])
    (by rw [hve]; linarith only [hhi, hNs1, hsu, hu0, hx0])
  rw [hve] at hr
  refine ⟨hr.1, ?_⟩
  have h2M : (2 : ℚ) ^ (F.mbits + 1) = 2 * M := by rw [hM, pow_succ]; ring
  have hr2 := hr.2
  rw [h2M] at hr2
  have k0 : (N : ℚ) * s / (2 * M) = (N : ℚ) * s / M / 2 := by ring
  rw [k0] at hr2
  have k1 : (N : ℚ) * s / M ≤ (x + s) / M :=
    div_le_div_of_nonneg_right hNs1 (le_of_lt hM0)
  have k2 : (x + s) / M = x / M + s / M := add_div _ _ _
  have k3 : s / M ≤ s := div_le_self (le_of_lt hs0) hM1
  rw [abs_le] at hr2 ⊢
  constructor
  · linarith only [hr2.1, k1, k2, k3, hsu, hNs2, hs0]
  · linarith only [hr2.2, k1, k2, k3, hsu, hNs1, hs0]

theorem toRat_nonneg (b : Nat) (hb : F.isFinPos b) : 0 ≤ F.toRat b := by
  rw [F.toRat_eq b hb]; positivity

/-- A positive value has a nonzero significand. -/
theorem sigOf_pos (b : Nat) (hb : F.isFinPos b) (h : 0 < F.toRat b) : 0 < F.sigOf b := by
  rw [F.toRat_eq b hb] at h
  by_contra hc
  have h0 : F.sigOf b = 0 := by omega
  unfold val2 at h
  rw [h0] at h
  simp at h

/-- Truncation of a positive finite value below `2 ^ w`. -/
theorem toUInt_spec (w b : Nat) (hb : F.isFinPos b) (lo hi : Nat) (h1 : (lo : ℚ) ≤ F.toRat b)
    (h2 : F.toRat b < hi) (hw : hi ≤ 2 ^ w) :
    ∃ i, F.toUInt w b = some i ∧ lo ≤ i ∧ i < hi := by
  have hp : 0 < 2 ^ (F.bias + F.mbits) := Nat.two_pow_pos _
  have hpq : (0 : ℚ) < 2 ^ (F.bias + F.mbits) := by positivity
  rw [F.toRat_eq b hb] at h1 h2
  rw [le_div_iff₀ hpq] at h1
  rw [div_lt_iff hpq] at h2
  have n1 : lo * 2 ^ (F.bias + F.mbits) ≤ F.val2 b := by exact_mod_cast h1
  have n2 : F.val2 b < hi * 2 ^ (F.bias + F.mbits) := by exact_mod_cast h2
  have d1 : lo ≤ F.val2 b / 2 ^ (F.bias + F.mbits) := (Nat.le_div_iff_mul_le hp).2 n1
  have d2 : F.val2 b / 2 ^ (F.bias + F.mbits) < hi := (Nat.div_lt_iff_lt_mul hp).2 n2
  refine ⟨F.val2 b / 2 ^ (F.bias + F.mbits), ?_, d1, d2⟩
  unfold toUInt
  simp only [(F.finPos_not_special b hb).1, (F.finPos_not_special b hb).2, F.finPos_sign b hb,
    Bool.or_self, Bool.false_eq_true, if_false, if_true]
  unfold val2 at d2 ⊢
  rw [if_pos (lt_of_lt_of_le d2 hw)]

end FloatFormat

/-! ## The initial window of `magicnumber_dbl` -/

set_option maxHeartbeats 1000000 in
/-- For every result `c32 < 0x5F400000` of `magicnumber_flt`, `init_dbl` is a finite number
and `(uint64_t)init_dbl` is defined and lies in `[2 ^ 62, 0x6000000000000400]`. -/
theorem init_dbl_bounds (c32 : Nat) (hc : c32 < 0x5F400000) :
    ∃ i, binary64.toUInt 64 (init_dbl c32) = some i ∧ 2 ^ 62 ≤ i ∧
      i < 0x6000000000000401 := by
  rcases Nat.eq_zero_or_pos c32 with h0 | h0
  · subst h0
    exact ⟨6052837899185946624, by decide, by decide, by decide⟩
  have hbias : binary64.bias = 1023 := by decide
  have hmb : binary64.mbits = 52 := rfl
  have he : 2 ≤ binary64.ebits := by decide
  -- the constants
  have c127 : binary64.ofNat 127 = 0x405FC00000000000 := by decide
  have c1023 : binary64.ofNat 1023 = 0x408FF80000000000 := by decide
  have cD : muld threehalfs_d (pow_2 23) = 0x4168000000000000 := by decide
  have cK : muld threehalfs_d (pow_2 52) = 0x4338000000000000 := by decide
  have f127 : binary64.isFinPos 0x405FC00000000000 := by unfold FloatFormat.isFinPos; decide
  have f1023 : binary64.isFinPos 0x408FF80000000000 := by unfold FloatFormat.isFinPos; decide
  have fD : binary64.isFinPos 0x4168000000000000 := by unfold FloatFormat.isFinPos; decide
  have fK : binary64.isFinPos 0x4338000000000000 := by unfold FloatFormat.isFinPos; decide
  have v127 : binary64.toRat 0x405FC00000000000 = 127 := by
    rw [toRat_pos binary64 _ 0x1FC00000000000 1029 (by decide) (by decide) (by decide)]
    norm_num [hbias, hmb]
  have v1023 : binary64.toRat 0x408FF80000000000 = 1023 := by
    rw [toRat_pos binary64 _ 0x1FF80000000000 1032 (by decide) (by decide) (by decide)]
    norm_num [hbias, hmb]
  have vD : binary64.toRat 0x4168000000000000 = 12582912 := by
    rw [toRat_pos binary64 _ 0x18000000000000 1046 (by decide) (by decide) (by decide)]
    norm_num [hbias, hmb]
  have vK : binary64.toRat 0x4338000000000000 = 6755399441055744 := by
    rw [toRat_pos binary64 _ 0x18000000000000 1075 (by decide) (by decide) (by decide)]
    norm_num [hbias, hmb]
  have sD : 0 < binary64.sigOf 0x4168000000000000 := by decide
  have hB : (2 : ℚ) ^ binary64.bias = 2 ^ 1023 := by rw [hbias]
  have hBig : (2 : ℚ) ^ 40 ≤ 2 ^ 1023 := pow_le_pow_right₀ (by norm_num) (by norm_num)
  have hBig' : (1 : ℚ) / 2 ^ 1023 ≤ 1 / 2 ^ 40 :=
    one_div_le_one_div_of_le (by positivity) hBig
  obtain ⟨β, hβ⟩ : ∃ β : ℚ, β = 1 / 2 ^ 1023 := ⟨_, rfl⟩
  have hβ0 : 0 < β := by rw [hβ]; positivity
  have hβ1 : β ≤ 1 / 2 ^ 40 := by rw [hβ]; exact hBig'
  have e2 : (2 : ℚ) / 2 ^ 1023 = 2 * β := by rw [hβ]; ring
  have e4 : (4 : ℚ) / 2 ^ 1023 = 4 * β := by rw [hβ]; ring
  have hc1 : (1 : ℚ) ≤ (c32 : ℚ) := by exact_mod_cast h0
  have hc2 : (c32 : ℚ) ≤ 1598029823 := by
    have : c32 ≤ 1598029823 := by omega
    exact_mod_cast this
  -- a = (double) c32
  obtain ⟨fa, ea⟩ := binary64.ofNat_spec he c32 h0
    (by rw [hB]; exact lt_of_le_of_lt hc2 (lt_of_lt_of_le (by norm_num) hBig))
  rw [hmb, abs_le] at ea
  obtain ⟨A, hA⟩ : ∃ A, A = binary64.toRat (binary64.ofNat c32) := ⟨_, rfl⟩
  rw [← hA] at ea
  have ε1 : (c32 : ℚ) / 2 ^ (52 + 1) ≤ (c32 : ℚ) / 2 ^ 53 := le_refl _
  have hcε : (c32 : ℚ) / 2 ^ (52 + 1) ≤ 1 / 4 := by
    rw [div_le_iff₀ (by positivity)]
    have : (1598029823 : ℚ) ≤ 1 / 4 * 2 ^ (52 + 1) := by norm_num
    linarith only [hc2, this]
  have hA1 : (3 : ℚ) / 4 ≤ A := by linarith only [ea.1, hcε, hc1]
  have hA2 : A ≤ 1598029823 + 1 / 4 := by linarith only [ea.2, hcε, hc2]
  have sa : 0 < binary64.sigOf (binary64.ofNat c32) :=
    binary64.sigOf_pos _ fa (by rw [← hA]; linarith only [hA1])
  -- q = a / (1.5 * pow(2, 23))
  have hx1 : (3 : ℚ) / 4 / 12582912 ≤ A / 12582912 :=
    div_le_div_of_nonneg_right hA1 (by norm_num)
  have hx2 : A / 12582912 ≤ (1598029823 + 1 / 4) / 12582912 :=
    div_le_div_of_nonneg_right hA2 (by norm_num)
  obtain ⟨fq, eq⟩ := binary64.fdiv_spec he _ _ fa fD sa sD
    (by rw [← hA, vD, hB, e4]
        have : (3 : ℚ) / 4 / 12582912 ≥ 4 * (1 / 2 ^ 40) := by norm_num
        linarith only [hx1, this, hβ1])
    (by rw [← hA, vD, hB]
        have : 2 * ((1598029823 + 1 / 4 : ℚ) / 12582912) ≤ 2 ^ 40 := by norm_num
        linarith only [hx2, this, hBig])
  rw [← hA, vD, hmb, abs_le] at eq
  obtain ⟨Q, hQ⟩ : ∃ Q, Q = binary64.toRat (binary64.fdiv (binary64.ofNat c32)
      0x4168000000000000) := ⟨_, rfl⟩
  rw [← hQ] at eq
  obtain ⟨x, hx⟩ : ∃ x : ℚ, x = A / 12582912 := ⟨_, rfl⟩
  rw [← hx] at eq hx1 hx2
  have hxε : x / 2 ^ 52 ≤ 1 / 2 ^ 44 := by
    rw [div_le_iff₀ (by positivity)]
    have : ((1598029823 + 1 / 4 : ℚ)) / 12582912 ≤ 1 / 2 ^ 44 * 2 ^ 52 := by norm_num
    linarith only [hx2, this]
  have hQ0 : 0 ≤ Q := by rw [hQ]; exact binary64.toRat_nonneg _ fq
  have hQ2 : Q ≤ 127 - 1 / 2 ^ 25 := by
    have : ((1598029823 + 1 / 4 : ℚ)) / 12582912 + 1 / 2 ^ 44 ≤ 127 - 1 / 2 ^ 25 := by norm_num
    linarith only [eq.2, hxε, hx2, this]
  -- sigma = 127 - q
  obtain ⟨fs, es⟩ := binary64.fsub_pos_spec he _ _ f127 fq
    (by rw [v127, ← hQ]; linarith only [hQ2])
    (by rw [v127, ← hQ, hB, e2]
        have : (2 : ℚ) * (1 / 2 ^ 40) ≤ 1 / 2 ^ 25 := by norm_num
        linarith only [hQ2, this, hβ1])
    (by rw [v127, hB]; exact lt_of_lt_of_le (by norm_num) hBig)
  rw [v127, ← hQ, hmb, abs_le] at es
  obtain ⟨S, hS⟩ : ∃ S, S = binary64.toRat (binary64.fsub 0x405FC00000000000
      (binary64.fdiv (binary64.ofNat c32) 0x4168000000000000)) := ⟨_, rfl⟩
  rw [← hS] at es
  have hSε : (127 - Q) / 2 ^ (52 + 1) ≤ 1 := by
    rw [div_le_iff₀ (by positivity)]
    have : (127 : ℚ) ≤ 1 * 2 ^ (52 + 1) := by norm_num
    linarith only [hQ0, this]
  have hS0 : 0 ≤ S := by rw [hS]; exact binary64.toRat_nonneg _ fs
  have hS2 : S ≤ 128 := by linarith only [es.2, hSε, hQ0]
  -- 1023 - sigma
  obtain ⟨ft, et⟩ := binary64.fsub_pos_spec he _ _ f1023 fs
    (by rw [v1023, ← hS]; linarith only [hS2])
    (by rw [v1023, ← hS, hB, e2]; linarith only [hS2, hβ1])
    (by rw [v1023, hB]; exact lt_of_lt_of_le (by norm_num) hBig)
  rw [v1023, ← hS, hmb, abs_le] at et
  obtain ⟨T, hT⟩ : ∃ T, T = binary64.toRat (binary64.fsub 0x408FF80000000000
      (binary64.fsub 0x405FC00000000000
        (binary64.fdiv (binary64.ofNat c32) 0x4168000000000000))) := ⟨_, rfl⟩
  rw [← hT] at et
  have hTε : (1023 - S) / 2 ^ (52 + 1) ≤ 1 := by
    rw [div_le_iff₀ (by positivity)]
    have : (1023 : ℚ) ≤ 1 * 2 ^ (52 + 1) := by norm_num
    linarith only [hS0, this]
  have hT1 : 894 ≤ T := by linarith only [et.1, hTε, hS2]
  have hT2 : T ≤ 1024 := by linarith only [et.2, hTε, hS0]
  -- init_dbl = 1.5 * pow(2, 52) * (1023 - sigma)
  have hKT1 : (6755399441055744 : ℚ) * 894 ≤ 6755399441055744 * T :=
    mul_le_mul_of_nonneg_left hT1 (by norm_num)
  have hKT2 : (6755399441055744 : ℚ) * T ≤ 6755399441055744 * 1024 :=
    mul_le_mul_of_nonneg_left hT2 (by norm_num)
  obtain ⟨fi, ei⟩ := binary64.fmul_spec he _ _ fK ft
    (by rw [vK, ← hT, hB, e2]; linarith only [hKT1, hβ1])
    (by rw [vK, ← hT, hB]
        have : (6755399441055744 : ℚ) * 1024 < 2 ^ 1023 :=
          lt_of_lt_of_le (by norm_num) (pow_le_pow_right₀ (by norm_num) (by norm_num) :
            (2 : ℚ) ^ 63 ≤ 2 ^ 1023)
        linarith only [hKT2, this])
  rw [vK, ← hT, hmb, abs_le] at ei
  have hIε : (6755399441055744 : ℚ) * T / 2 ^ (52 + 1) ≤ 1024 := by
    rw [div_le_iff₀ (by positivity)]
    have : (6755399441055744 : ℚ) * 1024 ≤ 1024 * 2 ^ (52 + 1) := by norm_num
    linarith only [hKT2, this]
  have hinit : init_dbl c32 = binary64.fmul 0x4338000000000000
      (binary64.fsub 0x408FF80000000000 (binary64.fsub 0x405FC00000000000
        (binary64.fdiv (binary64.ofNat c32) 0x4168000000000000))) := by
    unfold init_dbl
    simp only [cK, cD, c127, c1023]
    rfl
  rw [hinit]
  have := binary64.toUInt_spec 64 _ fi (2 ^ 62) 0x6000000000000401
    (by push_cast; linarith only [ei.1, hIε, hKT1])
    (by push_cast; linarith only [ei.2, hIε, hKT2])
    (by norm_num)
  exact this
/-- For every result `c32 < 0x5F400000` of `magicnumber_flt`, `init_dbl` is a finite number
and `(uint64_t)init_dbl` is defined and lies in `[2 ^ 62, 2 ^ 63)`. -/
theorem init_dbl_range (c32 : Nat) (hc : c32 < 0x5F400000) :
    ∃ i, binary64.toUInt 64 (init_dbl c32) = some i ∧ 2 ^ 62 ≤ i ∧ i < 2 ^ 63 := by
  obtain ⟨i, h1, h2, h3⟩ := init_dbl_bounds c32 hc
  exact ⟨i, h1, h2, by omega⟩

/-! ## The two searches -/

theorem firstBest_cases (E : Nat → Nat) (minC δ : Nat) :
    firstBest E minC δ = ⟨DBL_MAX, 0⟩ ∨
      ∃ i, i < 16 ∧ (firstBest E minC δ).minMaxC = minC + δ * i := by
  unfold firstBest
  rcases scan_mem E (List.range' minC 16 δ) ⟨DBL_MAX, 0⟩ with h | h
  · left; exact h
  · right
    rw [List.mem_range'] at h
    exact h

theorem DBL_MAX_notNaN : binary64.isNaN DBL_MAX = false := by decide

/-- `magicnumber_flt` returns, for every fuel from `33` on: its rounds are `searchRounds`. -/
theorem magicnumber_flt_run (E : Nat → Nat) (fuel : Nat) (hf : 33 ≤ fuel) :
    magicnumber_flt fuel E =
      some ⟨laterBest 32 E 4 (firstBest E 0x5F300000 (16 ^ 4)),
        searchRounds 32 E 0x5F300000 4⟩ := by
  have := searchLoop_run 32 E 0x5F300000 4 fuel fuel hf (by omega) (by decide)
  exact this

/-- The result of `magicnumber_flt` is below `0x5F400000`. -/
theorem magicnumber_flt_lt (E : Nat → Nat) :
    (laterBest 32 E 4 (firstBest E 0x5F300000 (16 ^ 4))).minMaxC < 0x5F400000 := by
  have h := (laterRounds_bounds 32 E 4 (firstBest E 0x5F300000 (16 ^ 4))).1.2
  rcases firstBest_cases E 0x5F300000 (16 ^ 4) with e | ⟨i, hi, e⟩
  · rw [e] at h ⊢
    simp only at h
    omega
  · rw [e] at h
    omega

/-- `magicnumber_dbl` returns, for every fuel from `33` on: `(uint64_t)init_dbl` is a number
`i` in `[2 ^ 62, 2 ^ 63)` and the rounds are `searchRounds` from `i - 2 ^ 32`. -/
theorem magicnumber_dbl_run (E32 E64 : Nat → Nat) (fuel : Nat) (hf : 33 ≤ fuel) :
    ∃ i, 2 ^ 62 ≤ i ∧ i < 2 ^ 63 ∧
      magicnumber_dbl fuel E32 E64 =
        some ⟨laterBest 64 E64 7 (firstBest E64 (i - 2 ^ 32) (16 ^ 7)),
          searchRounds 64 E64 (i - 2 ^ 32) 7⟩ := by
  obtain ⟨i, h1, h2, h3⟩ := init_dbl_range _ (magicnumber_flt_lt E32)
  refine ⟨i, h2, h3, ?_⟩
  unfold magicnumber_dbl
  rw [magicnumber_flt_run E32 fuel hf]
  simp only [h1]
  have e1 : sub64 i (2 ^ 32) = i - 2 ^ 32 := by
    unfold sub64
    omega
  have e2 : (i - 2 ^ 32 + 2 ^ 32) % 2 ^ 64 = i - 2 ^ 32 + 16 ^ (7 + 1) := by
    omega
  rw [e1, e2]
  have := searchLoop_run 64 E64 (i - 2 ^ 32) 7 fuel fuel hf (by omega) (by omega)
  exact this

/-! ## Properties of a whole search -/

theorem firstBest_notNaN (E : Nat → Nat) (minC δ : Nat) :
    binary64.isNaN (firstBest E minC δ).minMaxError = false ∧
      binary64.le (firstBest E minC δ).minMaxError DBL_MAX = true :=
  ⟨(scan_le E _ ⟨DBL_MAX, 0⟩ DBL_MAX_notNaN).2, (scan_le E _ ⟨DBL_MAX, 0⟩ DBL_MAX_notNaN).1⟩

/-- With errors below `DBL_MAX`, the first round ends with one of its candidates. -/
theorem firstBest_accepted (E : Nat → Nat) (hE : ∀ c, binary64.lt (E c) DBL_MAX = true)
    (minC δ : Nat) :
    (∃ i, i < 16 ∧ (firstBest E minC δ).minMaxC = minC + δ * i) ∧
      (firstBest E minC δ).minMaxError = E (firstBest E minC δ).minMaxC := by
  have h := scan_first E (List.range' minC 16 δ) hE (by simp [List.range'])
  rw [List.mem_range'] at h
  exact h

theorem mem_searchRounds (w : Nat) (E : Nat → Nat) (minC n : Nat) (r : Round) :
    r ∈ searchRounds w E minC n ↔
      r = ⟨minC, minC + 16 ^ (n + 1), 16 ^ n, ⟨DBL_MAX, 0⟩, List.range' minC 16 (16 ^ n),
        firstBest E minC (16 ^ n)⟩ ∨ r ∈ laterRounds w E n (firstBest E minC (16 ^ n)) := by
  unfold searchRounds
  exact List.mem_cons

/-- Steps of the rounds of a search. -/
theorem searchRounds_delta (w : Nat) (E : Nat → Nat) (minC n : Nat) :
    (searchRounds w E minC n).map Round.delta =
      (List.range (n + 1)).reverse.map fun k => 16 ^ k := by
  unfold searchRounds
  rw [List.map_cons, laterRounds_delta, List.range_succ, List.reverse_append]
  rfl

/-- No round of a search wraps a candidate, and every step is larger than the next. -/
theorem searchRounds_nowrap (w : Nat) (E : Nat → Nat) (minC n : Nat)
    (hm : minC + 16 ^ (n + 1) < 2 ^ w) :
    ∀ r ∈ searchRounds w E minC n,
      r.delta >>> 4 < r.delta ∧ r.cands.length ≤ 32 ∧ ∀ c ∈ r.cands, c + r.delta < 2 ^ w := by
  intro r hr
  rcases (mem_searchRounds w E minC n r).1 hr with e | e
  · subst e
    have hp := pow16_pos n
    have h16 := pow16_succ n
    refine ⟨?_, by simp, ?_⟩
    · show 16 ^ n >>> 4 < 16 ^ n
      rw [Nat.shiftRight_eq_div_pow]
      exact Nat.div_lt_self hp (by decide)
    · intro c hc
      show c + 16 ^ n < 2 ^ w
      have hc' : c ∈ List.range' minC 16 (16 ^ n) := hc
      rw [List.mem_range'] at hc'
      obtain ⟨i, hi, e⟩ := hc'
      have : 16 ^ n * i ≤ 16 ^ n * 15 := Nat.mul_le_mul_left _ (by omega)
      omega
  · exact laterRounds_nowrap w E n _ r e

/-- Each round of a search ends with the scan of its candidates from its start, and its start
has a number as `minMaxError`. -/
theorem searchRounds_scan (w : Nat) (E : Nat → Nat) (minC n : Nat) :
    ∀ r ∈ searchRounds w E minC n,
      r.best = r.cands.foldl (Best.update E) r.start ∧
        binary64.isNaN r.start.minMaxError = false := by
  intro r hr
  rcases (mem_searchRounds w E minC n r).1 hr with e | e
  · subst e
    exact ⟨rfl, DBL_MAX_notNaN⟩
  · obtain ⟨k, _, _, _, _, _, h⟩ := laterRounds_local w E n _ r e
    exact ⟨h, ((laterRounds_le w E n _ (firstBest_notNaN E minC (16 ^ n)).1).2 r e).1⟩

/-- Consecutive rounds of a search: the next round starts from the end of the round. -/
theorem searchRounds_chain (w : Nat) (E : Nat → Nat) (minC n : Nat) :
    List.Chain' (fun r r' : Round => r'.start = r.best ∧ r.delta = 16 * r'.delta)
        (searchRounds w E minC n) ∧
      ∀ r ∈ (searchRounds w E minC n).head?, r.start = ⟨DBL_MAX, 0⟩ := by
  unfold searchRounds
  obtain ⟨i1, i2⟩ := laterRounds_chain w E n (firstBest E minC (16 ^ n))
  constructor
  · rw [List.chain'_cons']
    refine ⟨?_, i1⟩
    intro r' hr'
    obtain ⟨h1, h2⟩ := i2 r' hr'
    exact ⟨h1, h2.symm⟩
  · intro r hr
    simp only [List.head?_cons, Option.mem_def, Option.some.injEq] at hr
    subst hr
    rfl

/-- The result of a search with at least two rounds is the end of its last round, which has
step `1`. -/
theorem searchRounds_last (w : Nat) (E : Nat → Nat) (minC n : Nat) (hn : 1 ≤ n) :
    ∀ r ∈ (searchRounds w E minC n).getLast?,
      r.best = laterBest w E n (firstBest E minC (16 ^ n)) ∧ r.delta = 1 ∧
        r ∈ laterRounds w E n (firstBest E minC (16 ^ n)) := by
  obtain ⟨m, rfl⟩ : ∃ m, n = m + 1 := ⟨n - 1, by omega⟩
  intro r hr
  unfold searchRounds at hr
  rw [laterRounds_succ, List.getLast?_cons_cons, ← laterRounds_succ] at hr
  exact ⟨(laterRounds_last w E (m + 1) _ r hr).1, (laterRounds_last w E (m + 1) _ r hr).2,
    List.mem_of_mem_getLast? hr⟩

/-- The best error does not rise from a round to the next. -/
theorem searchRounds_mono (w : Nat) (E : Nat → Nat) (minC n : Nat) :
    List.Chain' (fun r r' : Round =>
        binary64.le r'.best.minMaxError r.best.minMaxError = true)
      (searchRounds w E minC n) := by
  have hc := (searchRounds_chain w E minC n).1
  rw [List.Chain'.iff_mem] at hc
  refine hc.imp ?_
  rintro r r' ⟨_, hr', hs, _⟩
  have h1 := searchRounds_scan w E minC n r' hr'
  rw [← hs]
  rw [h1.1]
  exact (scan_le E r'.cands r'.start h1.2).1

/-- With errors below `DBL_MAX`: the result of a search is an accepted candidate, and its
error is not above the error of any candidate of any round. -/
theorem searchRounds_min (w : Nat) (E : Nat → Nat) (hE : ∀ c, binary64.lt (E c) DBL_MAX = true)
    (minC n : Nat) :
    (laterBest w E n (firstBest E minC (16 ^ n))).minMaxError =
        E (laterBest w E n (firstBest E minC (16 ^ n))).minMaxC ∧
      ∀ r ∈ searchRounds w E minC n, ∀ c ∈ r.cands,
        binary64.le (laterBest w E n (firstBest E minC (16 ^ n))).minMaxError (E c) = true := by
  obtain ⟨f1, f2⟩ := firstBest_notNaN E minC (16 ^ n)
  obtain ⟨⟨l1, l2⟩, l3⟩ := laterRounds_le w E n _ f1
  refine ⟨laterBest_accepted w E n _ (firstBest_accepted E hE minC (16 ^ n)).2, ?_⟩
  intro r hr c hc
  have hs := searchRounds_scan w E minC n r hr
  have hmin := scan_min E r.cands r.start hs.2 c hc
  rw [← hs.1] at hmin
  have hEc := (binary64.cmp_lt_notNaN (hE c)).1
  have hb : binary64.isNaN r.best.minMaxError = false := by
    rw [hs.1]; exact (scan_le E r.cands r.start hs.2).2
  have h1 : binary64.le r.best.minMaxError (E c) = true :=
    binary64.cmp_le_of_not_lt hb hEc hmin
  refine binary64.cmp_le_trans ?_ h1
  rcases (mem_searchRounds w E minC n r).1 hr with e | e
  · subst e; exact l2
  · exact (l3 r e).2.2

/-- With errors below `DBL_MAX` and room for the windows: every later window is
`[c - δ, c + δ)` around the incumbent `c` left by the round before, with a sixteenth of its
step `δ`, its candidates are its grid points, and the incumbent is one of them. -/
theorem searchRounds_window (w : Nat) (E : Nat → Nat)
    (hE : ∀ c, binary64.lt (E c) DBL_MAX = true) (minC n : Nat)
    (h1 : 2 * 16 ^ n ≤ minC) (hm : minC + 16 ^ (n + 1) < 2 ^ w) :
    List.Chain' (fun r r' : Round =>
        r'.minC + r.delta = r.best.minMaxC ∧ r'.maxC = r.best.minMaxC + r.delta ∧
        r'.delta = r.delta / 16 ∧ r.best.minMaxC ∈ r'.cands ∧
        ∀ c, c ∈ r'.cands ↔ ∃ i, i < 32 ∧ c = r'.minC + r'.delta * i)
      (searchRounds w E minC n) ∧
    ∀ r ∈ laterRounds w E n (firstBest E minC (16 ^ n)),
      r.maxC = r.minC + 32 * r.delta ∧ r.best.minMaxC ∈ r.cands ∧
        ∀ c, c ∈ r.cands ↔ ∃ i, i < 32 ∧ c = r.minC + r.delta * i := by
  obtain ⟨⟨i, hi, e⟩, _⟩ := firstBest_accepted E hE minC (16 ^ n)
  have h16 := pow16_succ n
  have hw := laterRounds_window w E n (firstBest E minC (16 ^ n))
    (by rw [e]; omega)
    (by rw [e]
        have : 16 ^ n * i ≤ 16 ^ n * 15 := Nat.mul_le_mul_left _ (by omega)
        omega)
  constructor
  · have hc := (searchRounds_chain w E minC n).1
    rw [List.Chain'.iff_mem] at hc
    refine hc.imp ?_
    rintro r r' ⟨_, hr', hs, hd⟩
    have hl : r' ∈ laterRounds w E n (firstBest E minC (16 ^ n)) := by
      rcases (mem_searchRounds w E minC n r').1 hr' with e' | e'
      · rw [e'] at hs
        have hd' : r.delta = 16 * 16 ^ n := by rw [hd, e']
        rw [e'] at hd
        -- the first round follows no round: its step is the largest
        exfalso
        have := (searchRounds_chain w E minC n).1
        have hdl := searchRounds_delta w E minC n
        have hmem : r.delta ∈ (searchRounds w E minC n).map Round.delta :=
          List.mem_map_of_mem _ (by assumption)
        rw [hdl, List.mem_map] at hmem
        obtain ⟨k, hk, ek⟩ := hmem
        rw [List.mem_reverse, List.mem_range] at hk
        have : 16 ^ k ≤ 16 ^ n := Nat.pow_le_pow_right (by decide) (by omega)
        have hp := pow16_pos n
        omega
      · exact e'
    obtain ⟨w1, w2, _, w4, w5, _⟩ := hw r' hl
    rw [hs] at w1 w2 w5
    refine ⟨by omega, by omega, ?_, w5, w4⟩
    rw [hd]; exact (Nat.mul_div_cancel_left _ (by decide)).symm
  · intro r hr
    obtain ⟨w1, w2, _, w4, _, w6⟩ := hw r hr
    exact ⟨by omega, w6, w4⟩

/-! ## Further properties of a whole search -/

/-- Number of rounds of a search. -/
theorem searchRounds_length (w : Nat) (E : Nat → Nat) (minC n : Nat) :
    (searchRounds w E minC n).length = n + 1 := by
  have := congrArg List.length (searchRounds_delta w E minC n)
  simpa using this

/-- Later rounds from the initial `minMaxC = 0` have no candidate and keep it. -/
theorem laterBest_zero (w : Nat) (E : Nat → Nat) :
    ∀ (n : Nat) (b : Best), b.minMaxC = 0 → laterBest w E n b = b := by
  intro n
  induction n with
  | zero => intro b _; rfl
  | succ n ih =>
    intro b hb
    have hw : windowCands w b.minMaxC (16 ^ (n + 1)) = [] := by
      unfold windowCands
      have := pow16_pos (n + 1)
      rw [if_neg (by omega)]
    rw [laterBest_succ, hw]
    exact ih b hb

/-! ## Claims on the calibration search -/

/-- C12: for every error function and every fuel from `33` on, `magicnumber_flt` and
`magicnumber_dbl` return.  The steps of the rounds are `0x10000, 0x1000, 0x100, 0x10, 1` for
`magicnumber_flt` (5 rounds, `⌈log16 0x10000⌉ + 1`) and `2^28, 2^24, ..., 2^4, 1` for
`magicnumber_dbl` (8 rounds, `⌈log16 2^28⌉ + 1`); in every round `step >> 4 < step`, the
candidate loop runs for at most 32 candidates, and no increment `c += delta` of a candidate
wraps around. -/
theorem C12_search_terminates (E32 E64 : Nat → Nat) (fuel : Nat) (hf : 33 ≤ fuel) :
    (∃ s, magicnumber_flt fuel E32 = some s ∧
      s.rounds.map Round.delta = [0x10000, 0x1000, 0x100, 0x10, 1] ∧
      s.rounds.length = Nat.clog 16 0x10000 + 1 ∧ s.rounds.length = 5 ∧
      ∀ r ∈ s.rounds, r.delta >>> 4 < r.delta ∧ r.cands.length ≤ 32 ∧
        ∀ c ∈ r.cands, c + r.delta < 2 ^ 32) ∧
    (∃ s, magicnumber_dbl fuel E32 E64 = some s ∧
      s.rounds.map Round.delta =
        [2 ^ 28, 2 ^ 24, 2 ^ 20, 2 ^ 16, 2 ^ 12, 2 ^ 8, 2 ^ 4, 1] ∧
      s.rounds.length = Nat.clog 16 (2 ^ 28) + 1 ∧ s.rounds.length = 8 ∧
      ∀ r ∈ s.rounds, r.delta >>> 4 < r.delta ∧ r.cands.length ≤ 32 ∧
        ∀ c ∈ r.cands, c + r.delta < 2 ^ 64) := by
  have c1 : Nat.clog 16 0x10000 = 4 := by
    have : (0x10000 : Nat) = 16 ^ 4 := by norm_num
    rw [this, Nat.clog_pow 16 4 (by decide)]
  have c2 : Nat.clog 16 (2 ^ 28) = 7 := by
    have : (2 ^ 28 : Nat) = 16 ^ 7 := by norm_num
    rw [this, Nat.clog_pow 16 7 (by decide)]
  constructor
  · refine ⟨_, magicnumber_flt_run E32 fuel hf, ?_, ?_, ?_, ?_⟩
    · exact (searchRounds_delta 32 E32 0x5F300000 4).trans (by decide)
    · rw [c1]; exact searchRounds_length 32 E32 0x5F300000 4
    · exact searchRounds_length 32 E32 0x5F300000 4
    · exact searchRounds_nowrap 32 E32 0x5F300000 4 (by decide)
  · obtain ⟨i, h1, h2, hrun⟩ := magicnumber_dbl_run E32 E64 fuel hf
    refine ⟨_, hrun, ?_, ?_, ?_, ?_⟩
    · exact (searchRounds_delta 64 E64 (i - 2 ^ 32) 7).trans (by decide)
    · rw [c2]; exact searchRounds_length 64 E64 (i - 2 ^ 32) 7
    · exact searchRounds_length 64 E64 (i - 2 ^ 32) 7
    · exact searchRounds_nowrap 64 E64 (i - 2 ^ 32) 7 (by omega)

/-- C12 at fuel `33` and the error functions `c ↦ c` (the error grows with the candidate). -/
theorem C12_search_terminates_witness :
    (∃ s, magicnumber_flt 33 (fun c => c) = some s ∧
      s.rounds.map Round.delta = [0x10000, 0x1000, 0x100, 0x10, 1] ∧
      s.rounds.length = Nat.clog 16 0x10000 + 1 ∧ s.rounds.length = 5 ∧
      ∀ r ∈ s.rounds, r.delta >>> 4 < r.delta ∧ r.cands.length ≤ 32 ∧
        ∀ c ∈ r.cands, c + r.delta < 2 ^ 32) ∧
    (∃ s, magicnumber_dbl 33 (fun c => c) (fun c => c) = some s ∧
      s.rounds.map Round.delta =
        [2 ^ 28, 2 ^ 24, 2 ^ 20, 2 ^ 16, 2 ^ 12, 2 ^ 8, 2 ^ 4, 1] ∧
      s.rounds.length = Nat.clog 16 (2 ^ 28) + 1 ∧ s.rounds.length = 8 ∧
      ∀ r ∈ s.rounds, r.delta >>> 4 < r.delta ∧ r.cands.length ≤ 32 ∧
        ∀ c ∈ r.cands, c + r.delta < 2 ^ 64) :=
  C12_search_terminates (fun c => c) (fun c => c) 33 (by decide)

/-- C13: for every error function, in `magicnumber_flt` and in `magicnumber_dbl` the value of
`minMaxError` at the end of a round is `<=` its value at the end of the round before (and the
value returned is the one at the end of the last round). -/
theorem C13_best_error_non_increasing (E32 E64 : Nat → Nat) (fuel : Nat) (hf : 33 ≤ fuel) :
    (∃ s, magicnumber_flt fuel E32 = some s ∧ s.rounds.length = 5 ∧
      List.Chain' (fun r r' : Round =>
        binary64.le r'.best.minMaxError r.best.minMaxError = true) s.rounds ∧
      ∀ r ∈ s.rounds.getLast?, s.best = r.best) ∧
    (∃ s, magicnumber_dbl fuel E32 E64 = some s ∧ s.rounds.length = 8 ∧
      List.Chain' (fun r r' : Round =>
        binary64.le r'.best.minMaxError r.best.minMaxError = true) s.rounds ∧
      ∀ r ∈ s.rounds.getLast?, s.best = r.best) := by
  constructor
  · refine ⟨_, magicnumber_flt_run E32 fuel hf, ?_, ?_, ?_⟩
    · exact searchRounds_length 32 E32 0x5F300000 4
    · exact searchRounds_mono 32 E32 0x5F300000 4
    · intro r hr
      dsimp only at hr ⊢
      exact ((searchRounds_last 32 E32 0x5F300000 4 (by decide) r hr).1).symm
  · obtain ⟨i, h1, h2, hrun⟩ := magicnumber_dbl_run E32 E64 fuel hf
    refine ⟨_, hrun, ?_, ?_, ?_⟩
    · exact searchRounds_length 64 E64 (i - 2 ^ 32) 7
    · exact searchRounds_mono 64 E64 (i - 2 ^ 32) 7
    · intro r hr
      dsimp only at hr ⊢
      exact ((searchRounds_last 64 E64 (i - 2 ^ 32) 7 (by decide) r hr).1).symm

/-- C13 at fuel `33` and the error functions `c ↦ c`. -/
theorem C13_best_error_non_increasing_witness :
    (∃ s, magicnumber_flt 33 (fun c => c) = some s ∧ s.rounds.length = 5 ∧
      List.Chain' (fun r r' : Round =>
        binary64.le r'.best.minMaxError r.best.minMaxError = true) s.rounds ∧
      ∀ r ∈ s.rounds.getLast?, s.best = r.best) ∧
    (∃ s, magicnumber_dbl 33 (fun c => c) (fun c => c) = some s ∧ s.rounds.length = 8 ∧
      List.Chain' (fun r r' : Round =>
        binary64.le r'.best.minMaxError r.best.minMaxError = true) s.rounds ∧
      ∀ r ∈ s.rounds.getLast?, s.best = r.best) :=
  C13_best_error_non_increasing (fun c => c) (fun c => c) 33 (by decide)

/-- The last round of a search with errors below `DBL_MAX` and room for the windows: its
step is `1`, the result of the search is its end and one of its candidates, and the error of
the result is not above the error of any integer of its window. -/
theorem searchRounds_final (w : Nat) (E : Nat → Nat)
    (hE : ∀ c, binary64.lt (E c) DBL_MAX = true) (minC n : Nat) (hn : 1 ≤ n)
    (h1 : 2 * 16 ^ n ≤ minC) (hm : minC + 16 ^ (n + 1) < 2 ^ w) :
    ∀ r ∈ (searchRounds w E minC n).getLast?,
      r.delta = 1 ∧ laterBest w E n (firstBest E minC (16 ^ n)) = r.best ∧
      (laterBest w E n (firstBest E minC (16 ^ n))).minMaxC ∈ r.cands ∧
      (laterBest w E n (firstBest E minC (16 ^ n))).minMaxError =
        E (laterBest w E n (firstBest E minC (16 ^ n))).minMaxC ∧
      ∀ c, r.minC ≤ c → c < r.maxC →
        binary64.le (laterBest w E n (firstBest E minC (16 ^ n))).minMaxError (E c) = true := by
  intro r hr
  obtain ⟨hb, hd, hl⟩ := searchRounds_last w E minC n hn r hr
  obtain ⟨hmax, hin, hc⟩ := (searchRounds_window w E hE minC n h1 hm).2 r hl
  obtain ⟨hacc, hle⟩ := searchRounds_min w E hE minC n
  refine ⟨hd, hb.symm, ?_, hacc, ?_⟩
  · rw [← hb]; exact hin
  · intro c hc1 hc2
    refine hle r (List.mem_of_mem_getLast? hr) c ((hc c).2 ⟨c - r.minC, ?_, ?_⟩)
    · rw [hmax, hd] at hc2; omega
    · rw [hd]; omega

/-- The first round and the later rounds of `magicnumber_flt`: every candidate lies in
`[0x5F300000 - 0x11110, 0x5F400000)`, and so does the result unless it is the initial
`(DBL_MAX, 0)`, which it is not when a candidate of the first round has an error below
`DBL_MAX`. -/
theorem searchRounds_flt_range (E : Nat → Nat) :
    (∀ r ∈ searchRounds 32 E 0x5F300000 4, ∀ c ∈ r.cands,
      0x5F300000 - 0x11110 ≤ c ∧ c < 0x5F400000) ∧
    (laterBest 32 E 4 (firstBest E 0x5F300000 (16 ^ 4)) = ⟨DBL_MAX, 0⟩ ∨
      (0x5F300000 - 0x11110 ≤ (laterBest 32 E 4 (firstBest E 0x5F300000 (16 ^ 4))).minMaxC ∧
        (laterBest 32 E 4 (firstBest E 0x5F300000 (16 ^ 4))).minMaxC < 0x5F400000)) ∧
    ((∃ i, i < 16 ∧ binary64.lt (E (0x5F300000 + 0x10000 * i)) DBL_MAX = true) →
      0x5F300000 - 0x11110 ≤ (laterBest 32 E 4 (firstBest E 0x5F300000 (16 ^ 4))).minMaxC ∧
        (laterBest 32 E 4 (firstBest E 0x5F300000 (16 ^ 4))).minMaxC < 0x5F400000) := by
  obtain ⟨⟨hb1, hb2⟩, hc⟩ := laterRounds_bounds 32 E 4 (firstBest E 0x5F300000 (16 ^ 4))
  have hgrid : (∃ i, i < 16 ∧ (firstBest E 0x5F300000 (16 ^ 4)).minMaxC =
      0x5F300000 + 16 ^ 4 * i) →
      0x5F300000 - 0x11110 ≤ (laterBest 32 E 4 (firstBest E 0x5F300000 (16 ^ 4))).minMaxC ∧
        (laterBest 32 E 4 (firstBest E 0x5F300000 (16 ^ 4))).minMaxC < 0x5F400000 := by
    rintro ⟨i, hi, e⟩
    omega
  refine ⟨?_, ?_, ?_⟩
  · intro r hr c hcr
    rcases (mem_searchRounds 32 E 0x5F300000 4 r).1 hr with e | e
    · subst e
      obtain ⟨i, hi, e⟩ := List.mem_range'.1 hcr
      omega
    · obtain ⟨k1, k2, k3⟩ := hc r e c hcr
      rcases firstBest_cases E 0x5F300000 (16 ^ 4) with h | ⟨i, hi, h⟩
      · rw [h] at k3
        exact absurd k3 (Nat.lt_irrefl 0)
      · omega
  · rcases firstBest_cases E 0x5F300000 (16 ^ 4) with h | h
    · left
      rw [h]
      exact laterBest_zero 32 E 4 _ rfl
    · right
      exact hgrid h
  · rintro ⟨i, hi, hlt⟩
    apply hgrid
    rcases scan_cases E (List.range' 0x5F300000 16 (16 ^ 4)) ⟨DBL_MAX, 0⟩ with h | h
    · have := h.1 (0x5F300000 + 0x10000 * i) (List.mem_range'.2 ⟨i, hi, by norm_num⟩)
      rw [hlt] at this
      exact absurd this (by decide)
    · obtain ⟨_, _, _, pre, post, h4, _⟩ := h
      have hm : (firstBest E 0x5F300000 (16 ^ 4)).minMaxC ∈
          pre ++ (firstBest E 0x5F300000 (16 ^ 4)).minMaxC :: post :=
        List.mem_append_right _ (List.mem_cons_self _ _)
      unfold firstBest at hm ⊢
      rw [← h4] at hm
      exact List.mem_range'.1 hm

/-! ## Claims on the framework program -/

/-- Every version name other than `"0"` and `"1"` ends `get_version` with the error message
and `exit(EXIT_FAILURE)`, for floats and for doubles. -/
theorem get_version_other (db : Nat) (version_name : String) (hdb : db < 2)
    (h0 : version_name ≠ "0") (h1 : version_name ≠ "1") :
    get_version db version_name = some (.exit EXIT_FAILURE
      ["The given function version -V" ++ version_name ++ " is invalid.\n", usage_msg]) := by
  have e0 : ¬ ("0" = version_name) := fun h => h0 h.symm
  have e1 : ¬ ("1" = version_name) := fun h => h1 h.symm
  rcases Nat.lt_succ_iff_lt_or_eq.1 hdb with h | h
  · have : db = 0 := by omega
    subst this
    simp [get_version, versions, get_version_loop, e0, e1]
  · subst h
    simp [get_version, versions, get_version_loop, e0, e1]

/-- C18: `get_version` returns `fastInvSqrt_flt` (the SIMD kernel) for `"0"` and
`fastInvSqrt_flt_V1` (the scalar one-refinement kernel) for `"1"`, and the `double` kernels
likewise for `db = 1`; but for the version name `"2"`, which `help_msg` lists as valid
(`one of {0, 1, 2}`), it writes `The given function version -V2 is invalid.` and the usage
text to `stderr` and exits with `EXIT_FAILURE`, for `db = 0` and for `db = 1`: the table
`versions` has the two entries `"0"` and `"1"` per type only. -/
theorem C18_version_2_is_rejected :
    get_version 0 "0" = some (.ret .fastInvSqrt_flt) ∧
    get_version 0 "1" = some (.ret .fastInvSqrt_flt_V1) ∧
    get_version 1 "0" = some (.ret .fastInvSqrt_dbl) ∧
    get_version 1 "1" = some (.ret .fastInvSqrt_dbl_V1) ∧
    Func.run .fastInvSqrt_flt = fastInvSqrt_flt ∧
    Func.run .fastInvSqrt_flt_V1 = fastInvSqrt_flt_V1 ∧
    Func.run .fastInvSqrt_dbl = fastInvSqrt_dbl ∧
    Func.run .fastInvSqrt_dbl_V1 = fastInvSqrt_dbl_V1 ∧
    help_msg_V =
      "  -V X     The Fast Inverse Squareroot function version, one of \x7b0, 1, 2\x7d (default: X = 0)\n" ∧
    get_version 0 "2" = some (.exit EXIT_FAILURE
      ["The given function version -V2 is invalid.\n", usage_msg]) ∧
    get_version 1 "2" = some (.exit EXIT_FAILURE
      ["The given function version -V2 is invalid.\n", usage_msg]) ∧
    (versions.map fun row => row.map Version.name) = [["0", "1"], ["0", "1"]] := by
  refine ⟨rfl, rfl, rfl, rfl, rfl, rfl, rfl, rfl, rfl, ?_, ?_, rfl⟩
  · exact get_version_other 0 "2" (by decide) (by decide) (by decide)
  · exact get_version_other 1 "2" (by decide) (by decide) (by decide)

/-! ## The input readers -/

/-- `x <= 0` is false for a NaN. -/
theorem le_nan_left (F : FloatFormat) (v z : Nat) (h : F.isNaN v = true) : F.le v z = false := by
  simp [FloatFormat.le, h]

/-- `0 < x` is false for a NaN. -/
theorem lt_nan_right (F : FloatFormat) (v z : Nat) (h : F.isNaN v = true) :
    F.lt z v = false := by
  simp [FloatFormat.lt, h]

/-- The loop of `readTerminal` returns the values of all arguments when each argument is
consumed to its end, without range error, and its value is not `<= 0`. -/
theorem readTerminal_loop_accepts (F : FloatFormat) (typeName : String)
    (strto : String → Strto) (args : List String) :
    ∀ vals : List Nat,
    (∀ a ∈ args, (strto a).consumed ≠ 0 ∧ charAt a (strto a).consumed = Char.ofNat 0 ∧
      (strto a).erange = false ∧ F.le (strto a).value 0 = false) →
    readTerminal_loop F typeName strto args vals =
      .ret (vals ++ args.map fun a => (strto a).value) := by
  induction args with
  | nil => intro vals _; simp [readTerminal_loop]
  | cons a rest ih =>
    intro vals h
    obtain ⟨h1, h2, h3, h4⟩ := h a (List.mem_cons_self _ _)
    unfold readTerminal_loop
    simp only [h1, h2, h3, h4, ne_eq, not_true_eq_false, or_self, if_false, Bool.false_eq_true]
    rw [ih _ (fun b hb => h b (List.mem_cons_of_mem _ hb))]
    simp

/-- The loop of `readFile` returns the values of all lines when `errno` is not `ERANGE`, each
line is consumed up to a newline or its end, without range error, and its value is not
`<= 0`. -/
theorem readFile_loop_accepts (F : FloatFormat) (strto : String → Strto)
    (lines : List String) (errno : Nat) (he : errno ≠ ERANGE) :
    ∀ vals : List Nat,
    (∀ a ∈ lines, (strto a).consumed ≠ 0 ∧
      (charAt a (strto a).consumed = Char.ofNat 10 ∨
        charAt a (strto a).consumed = Char.ofNat 0) ∧
      (strto a).erange = false ∧ F.le (strto a).value 0 = false) →
    readFile_loop F strto lines errno vals =
      some (vals ++ lines.map fun a => (strto a).value) := by
  induction lines with
  | nil => intro vals _; simp [readFile_loop]
  | cons a rest ih =>
    intro vals h
    obtain ⟨h1, h2, h3, h4⟩ := h a (List.mem_cons_self _ _)
    unfold readFile_loop
    have h2' : ¬ (charAt a (strto a).consumed ≠ Char.ofNat 10 ∧
        charAt a (strto a).consumed ≠ Char.ofNat 0) := by
      rintro ⟨x, y⟩; rcases h2 with h2 | h2
      · exact x h2
      · exact y h2
    simp only [h1, h2', h3, h4, he, ne_eq, not_true_eq_false, or_self, if_false,
      Bool.false_eq_true]
    rw [ih _ (fun b hb => h b (List.mem_cons_of_mem _ hb))]
    simp

/-- The loop of `readTerminal` ends the process with `EXIT_FAILURE` when an argument has no
numeric prefix, has characters after the number, raises a range error, or has a value
`<= 0`. -/
theorem readTerminal_loop_rejects (F : FloatFormat) (typeName : String)
    (strto : String → Strto) (args : List String) :
    ∀ vals : List Nat,
    (∃ a ∈ args, (strto a).consumed = 0 ∨ charAt a (strto a).consumed ≠ Char.ofNat 0 ∨
      (strto a).erange = true ∨ F.le (strto a).value 0 = true) →
    ∃ msgs, readTerminal_loop F typeName strto args vals = .exit EXIT_FAILURE msgs := by
  induction args with
  | nil => intro vals h; obtain ⟨a, ha, _⟩ := h; cases ha
  | cons a rest ih =>
    intro vals h
    unfold readTerminal_loop
    by_cases c1 : (strto a).consumed = 0 ∨ charAt a (strto a).consumed ≠ Char.ofNat 0
    · exact ⟨_, by simp only [c1, if_true]; rfl⟩
    · by_cases c2 : (strto a).erange = true
      · exact ⟨_, by simp only [c1, c2, if_true, if_false]; rfl⟩
      · by_cases c3 : F.le (strto a).value 0 = true
        · exact ⟨_, by simp only [c1, c2, c3, if_true, if_false]; rfl⟩
        · simp only [c1, c2, c3, if_false]
          apply ih
          obtain ⟨b, hb, hb'⟩ := h
          rcases List.mem_cons.1 hb with e | e
          · subst e
            rcases hb' with x | x | x | x
            · exact absurd (Or.inl x) c1
            · exact absurd (Or.inr x) c1
            · exact absurd x c2
            · exact absurd x c3
          · exact ⟨b, e, hb'⟩

/-- The loop of `readFile` returns `NULL` when a line has no numeric prefix, has characters
other than a newline after the number, raises a range error, or has a value `<= 0`. -/
theorem readFile_loop_rejects (F : FloatFormat) (strto : String → Strto)
    (lines : List String) :
    ∀ (errno : Nat) (vals : List Nat),
    (∃ a ∈ lines, (strto a).consumed = 0 ∨
      (charAt a (strto a).consumed ≠ Char.ofNat 10 ∧
        charAt a (strto a).consumed ≠ Char.ofNat 0) ∨
      (strto a).erange = true ∨ F.le (strto a).value 0 = true) →
    readFile_loop F strto lines errno vals = none := by
  induction lines with
  | nil => intro errno vals h; obtain ⟨a, ha, _⟩ := h; cases ha
  | cons a rest ih =>
    intro errno vals h
    unfold readFile_loop
    by_cases c1 : (strto a).consumed = 0 ∨
        (charAt a (strto a).consumed ≠ Char.ofNat 10 ∧
          charAt a (strto a).consumed ≠ Char.ofNat 0)
    · simp only [c1, if_true]
    · by_cases c2 : (if (strto a).erange = true then ERANGE else errno) = ERANGE
      · simp only [c1, c2, if_true, if_false]
      · by_cases c3 : F.le (strto a).value 0 = true
        · simp only [c1, c2, c3, if_true, if_false]
        · simp only [c1, c2, c3, if_false]
          apply ih
          obtain ⟨b, hb, hb'⟩ := h
          rcases List.mem_cons.1 hb with e | e
          · subst e
            rcases hb' with x | x | x | x
            · exact absurd (Or.inl x) c1
            · exact absurd (Or.inr x) c1
            · exact absurd (by simp only [x, if_true]) c2
            · exact absurd x c3
          · exact ⟨b, e, hb'⟩

/-- Every value of an array that the loop of `readTerminal` returns is not `<= 0`: it is
`> 0` or a NaN. -/
theorem readTerminal_loop_values (F : FloatFormat) (typeName : String)
    (strto : String → Strto) (args : List String) :
    ∀ vals out : List Nat, readTerminal_loop F typeName strto args vals = .ret out →
      ∃ new, out = vals ++ new ∧ ∀ v ∈ new, F.le v 0 = false := by
  induction args with
  | nil =>
    intro vals out h
    simp only [readTerminal_loop, Outcome.ret.injEq] at h
    exact ⟨[], by simp [h], by simp⟩
  | cons a rest ih =>
    intro vals out h
    unfold readTerminal_loop at h
    by_cases c1 : (strto a).consumed = 0 ∨ charAt a (strto a).consumed ≠ Char.ofNat 0
    · simp only [c1, if_true] at h; cases h
    · by_cases c2 : (strto a).erange = true
      · simp only [c1, c2, if_true, if_false] at h; cases h
      · by_cases c3 : F.le (strto a).value 0 = true
        · simp only [c1, c2, c3, if_true, if_false] at h; cases h
        · simp only [c1, c2, c3, if_false] at h
          obtain ⟨new, e, hn⟩ := ih _ _ h
          refine ⟨(strto a).value :: new, by simp [e], ?_⟩
          intro v hv
          rcases List.mem_cons.1 hv with x | x
          · subst x; simpa using c3
          · exact hn v x

/-- Every value of an array that the loop of `readFile` returns is not `<= 0`: it is `> 0` or
a NaN. -/
theorem readFile_loop_values (F : FloatFormat) (strto : String → Strto)
    (lines : List String) :
    ∀ (errno : Nat) (vals out : List Nat), readFile_loop F strto lines errno vals = some out →
      ∃ new, out = vals ++ new ∧ ∀ v ∈ new, F.le v 0 = false := by
  induction lines with
  | nil =>
    intro errno vals out h
    simp only [readFile_loop, Option.some.injEq] at h
    exact ⟨[], by simp [h], by simp⟩
  | cons a rest ih =>
    intro errno vals out h
    unfold readFile_loop at h
    by_cases c1 : (strto a).consumed = 0 ∨
        (charAt a (strto a).consumed ≠ Char.ofNat 10 ∧
          charAt a (strto a).consumed ≠ Char.ofNat 0)
    · simp only [c1, if_true] at h; cases h
    · by_cases c2 : (if (strto a).erange = true then ERANGE else errno) = ERANGE
      · simp only [c1, c2, if_true, if_false] at h; cases h
      · by_cases c3 : F.le (strto a).value 0 = true
        · simp only [c1, c2, c3, if_true, if_false] at h; cases h
        · simp only [c1, c2, c3, if_false] at h
          obtain ⟨new, e, hn⟩ := ih _ _ _ h
          refine ⟨(strto a).value :: new, by simp [e], ?_⟩
          intro v hv
          rcases List.mem_cons.1 hv with x | x
          · subst x; simpa using c3
          · exact hn v x

/-- C19, as stated, fails: the argument `inf` and the line `inf\n`, which `strtof` and `strtod`
consume to the end without range error and convert to `+infinity`, pass all three checks of
the readers; `readTerminal` returns, and `readFile` returns a non-`NULL` array, holding
`+infinity`. -/
theorem C19_inf_literal_is_accepted :
    binary32.isInf 0x7F800000 = true ∧ binary64.isInf 0x7FF0000000000000 = true ∧
    readTerminal 0 (fun _ => ⟨0x7F800000, 3, false⟩)
      (fun _ => ⟨0x7FF0000000000000, 3, false⟩) ["inf"] = .ret [0x7F800000] ∧
    readTerminal 1 (fun _ => ⟨0x7F800000, 3, false⟩)
      (fun _ => ⟨0x7FF0000000000000, 3, false⟩) ["inf"] = .ret [0x7FF0000000000000] ∧
    readFile 0 (fun _ => ⟨0x7F800000, 3, false⟩)
      (fun _ => ⟨0x7FF0000000000000, 3, false⟩) ["inf\n"] 0 = some [0x7F800000] ∧
    readFile 1 (fun _ => ⟨0x7F800000, 3, false⟩)
      (fun _ => ⟨0x7FF0000000000000, 3, false⟩) ["inf\n"] 0 = some [0x7FF0000000000000] := by
  decide

/-- C19, amended: the readers reject every argument or line on which `strtof` / `strtod`
reports a range error (as for a number that overflows to `+infinity`) or that converts to
`-infinity`: `readTerminal` exits with `EXIT_FAILURE`, `readFile` returns `NULL`.  When every
argument or line is consumed to its end (or to the newline) without range error and converts
to `+infinity`, the readers return the array of these values. -/
theorem C19_range_error_rejected_inf_accepted (strtof strtod : String → Strto)
    (args lines : List String) (errno : Nat) :
    ((∃ a ∈ args, (strtof a).erange = true ∨ (strtof a).value = 0xFF800000) →
      ∃ msgs, readTerminal 0 strtof strtod args = .exit EXIT_FAILURE msgs) ∧
    ((∃ a ∈ args, (strtod a).erange = true ∨ (strtod a).value = 0xFFF0000000000000) →
      ∃ msgs, readTerminal 1 strtof strtod args = .exit EXIT_FAILURE msgs) ∧
    ((∃ a ∈ lines, (strtof a).erange = true ∨ (strtof a).value = 0xFF800000) →
      readFile 0 strtof strtod lines errno = none) ∧
    ((∃ a ∈ lines, (strtod a).erange = true ∨ (strtod a).value = 0xFFF0000000000000) →
      readFile 1 strtof strtod lines errno = none) ∧
    ((∀ a ∈ args, (strtof a).consumed ≠ 0 ∧ charAt a (strtof a).consumed = Char.ofNat 0 ∧
        (strtof a).erange = false ∧ (strtof a).value = 0x7F800000) →
      readTerminal 0 strtof strtod args = .ret (args.map fun _ => 0x7F800000)) ∧
    ((∀ a ∈ args, (strtod a).consumed ≠ 0 ∧ charAt a (strtod a).consumed = Char.ofNat 0 ∧
        (strtod a).erange = false ∧ (strtod a).value = 0x7FF0000000000000) →
      readTerminal 1 strtof strtod args = .ret (args.map fun _ => 0x7FF0000000000000)) ∧
    (errno ≠ ERANGE →
      (∀ a ∈ lines, (strtof a).consumed ≠ 0 ∧
        (charAt a (strtof a).consumed = Char.ofNat 10 ∨
          charAt a (strtof a).consumed = Char.ofNat 0) ∧
        (strtof a).erange = false ∧ (strtof a).value = 0x7F800000) →
      readFile 0 strtof strtod lines errno = some (lines.map fun _ => 0x7F800000)) ∧
    (errno ≠ ERANGE →
      (∀ a ∈ lines, (strtod a).consumed ≠ 0 ∧
        (charAt a (strtod a).consumed = Char.ofNat 10 ∨
          charAt a (strtod a).consumed = Char.ofNat 0) ∧
        (strtod a).erange = false ∧ (strtod a).value = 0x7FF0000000000000) →
      readFile 1 strtof strtod lines errno = some (lines.map fun _ => 0x7FF0000000000000)) := by
  have n32 : binary32.le 0xFF800000 0 = true := by decide
  have n64 : binary64.le 0xFFF0000000000000 0 = true := by decide
  have p32 : binary32.le 0x7F800000 0 = false := by decide
  have p64 : binary64.le 0x7FF0000000000000 0 = false := by decide
  refine ⟨?_, ?_, ?_, ?_, ?_, ?_, ?_, ?_⟩
  · rintro ⟨a, ha, h⟩
    have := readTerminal_loop_rejects binary32 "float" strtof args []
      ⟨a, ha, h.elim (fun x => Or.inr (Or.inr (Or.inl x)))
        (fun x => Or.inr (Or.inr (Or.inr (by rw [x]; exact n32))))⟩
    simpa [readTerminal] using this
  · rintro ⟨a, ha, h⟩
    have := readTerminal_loop_rejects binary64 "double" strtod args []
      ⟨a, ha, h.elim (fun x => Or.inr (Or.inr (Or.inl x)))
        (fun x => Or.inr (Or.inr (Or.inr (by rw [x]; exact n64))))⟩
    simpa [readTerminal] using this
  · rintro ⟨a, ha, h⟩
    have := readFile_loop_rejects binary32 strtof lines errno []
      ⟨a, ha, h.elim (fun x => Or.inr (Or.inr (Or.inl x)))
        (fun x => Or.inr (Or.inr (Or.inr (by rw [x]; exact n32))))⟩
    simpa [readFile] using this
  · rintro ⟨a, ha, h⟩
    have := readFile_loop_rejects binary64 strtod lines errno []
      ⟨a, ha, h.elim (fun x => Or.inr (Or.inr (Or.inl x)))
        (fun x => Or.inr (Or.inr (Or.inr (by rw [x]; exact n64))))⟩
    simpa [readFile] using this
  · intro h
    have := readTerminal_loop_accepts binary32 "float" strtof args []
      (fun a ha => ⟨(h a ha).1, (h a ha).2.1, (h a ha).2.2.1, by rw [(h a ha).2.2.2]; exact p32⟩)
    rw [List.map_congr_left (fun a ha => (h a ha).2.2.2)] at this
    simpa [readTerminal] using this
  · intro h
    have := readTerminal_loop_accepts binary64 "double" strtod args []
      (fun a ha => ⟨(h a ha).1, (h a ha).2.1, (h a ha).2.2.1, by rw [(h a ha).2.2.2]; exact p64⟩)
    rw [List.map_congr_left (fun a ha => (h a ha).2.2.2)] at this
    simpa [readTerminal] using this
  · intro he h
    have := readFile_loop_accepts binary32 strtof lines errno he []
      (fun a ha => ⟨(h a ha).1, (h a ha).2.1, (h a ha).2.2.1, by rw [(h a ha).2.2.2]; exact p32⟩)
    rw [List.map_congr_left (fun a ha => (h a ha).2.2.2)] at this
    simpa [readFile] using this
  · intro he h
    have := readFile_loop_accepts binary64 strtod lines errno he []
      (fun a ha => ⟨(h a ha).1, (h a ha).2.1, (h a ha).2.2.1, by rw [(h a ha).2.2.2]; exact p64⟩)
    rw [List.map_congr_left (fun a ha => (h a ha).2.2.2)] at this
    simpa [readFile] using this

/-- C19 (amended) at conversion functions that report a range error for `1e999` and convert
`inf`, `infinity` to `+infinity`: the arguments `inf`, `1e999` are rejected, the arguments
`inf`, `inf` and the lines `inf\n`, `inf` are accepted. -/
theorem C19_range_error_rejected_inf_accepted_witness :
    (∃ msgs, readTerminal 0
      (fun s => if s = "1e999" then ⟨0x7F800000, 5, true⟩ else ⟨0x7F800000, 3, false⟩)
      (fun s => if s = "1e999" then ⟨0x7FF0000000000000, 5, true⟩
        else ⟨0x7FF0000000000000, 3, false⟩) ["inf", "1e999"] = .exit EXIT_FAILURE msgs) ∧
    readTerminal 1
      (fun s => if s = "1e999" then ⟨0x7F800000, 5, true⟩ else ⟨0x7F800000, 3, false⟩)
      (fun s => if s = "1e999" then ⟨0x7FF0000000000000, 5, true⟩
        else ⟨0x7FF0000000000000, 3, false⟩) ["inf", "inf"] =
      .ret (["inf", "inf"].map fun _ => 0x7FF0000000000000) ∧
    readFile 0
      (fun s => if s = "1e999" then ⟨0x7F800000, 5, true⟩ else ⟨0x7F800000, 3, false⟩)
      (fun s => if s = "1e999" then ⟨0x7FF0000000000000, 5, true⟩
        else ⟨0x7FF0000000000000, 3, false⟩) ["inf\n", "inf"] 0 =
      some (["inf\n", "inf"].map fun _ => 0x7F800000) :=
  ⟨(C19_range_error_rejected_inf_accepted
      (fun s => if s = "1e999" then ⟨0x7F800000, 5, true⟩ else ⟨0x7F800000, 3, false⟩)
      (fun s => if s = "1e999" then ⟨0x7FF0000000000000, 5, true⟩
        else ⟨0x7FF0000000000000, 3, false⟩) ["inf", "1e999"] [] 0).1
      ⟨"1e999", by decide, Or.inl (by decide)⟩,
    (C19_range_error_rejected_inf_accepted
      (fun s => if s = "1e999" then ⟨0x7F800000, 5, true⟩ else ⟨0x7F800000, 3, false⟩)
      (fun s => if s = "1e999" then ⟨0x7FF0000000000000, 5, true⟩
        else ⟨0x7FF0000000000000, 3, false⟩) ["inf", "inf"] [] 0).2.2.2.2.2.1 (by decide),
    (C19_range_error_rejected_inf_accepted
      (fun s => if s = "1e999" then ⟨0x7F800000, 5, true⟩ else ⟨0x7F800000, 3, false⟩)
      (fun s => if s = "1e999" then ⟨0x7FF0000000000000, 5, true⟩
        else ⟨0x7FF0000000000000, 3, false⟩) [] ["inf\n", "inf"] 0).2.2.2.2.2.2.1
      (by decide) (by decide)⟩

/-- C20: the readers do reject an argument or line with no numeric prefix, with characters
after the number, or with a value `<= 0` (`readTerminal_loop_rejects`,
`readFile_loop_rejects`), but an array that reaches the kernels need not have every element
`> 0`: an argument or line that converts to a NaN passes the check `xi <= 0.0L`, so the
readers return the array of these NaNs, none of which is `> 0`. -/
theorem C20_nan_element_reaches_kernels (strtof strtod : String → Strto)
    (args lines : List String) (errno : Nat) (he : errno ≠ ERANGE)
    (haf : ∀ a ∈ args, (strtof a).consumed ≠ 0 ∧
      charAt a (strtof a).consumed = Char.ofNat 0 ∧ (strtof a).erange = false ∧
      binary32.isNaN (strtof a).value = true)
    (hld : ∀ a ∈ lines, (strtod a).consumed ≠ 0 ∧
      (charAt a (strtod a).consumed = Char.ofNat 10 ∨
        charAt a (strtod a).consumed = Char.ofNat 0) ∧ (strtod a).erange = false ∧
      binary64.isNaN (strtod a).value = true) :
    (∃ vals, readTerminal 0 strtof strtod args = .ret vals ∧ vals.length = args.length ∧
      ∀ v ∈ vals, binary32.lt 0 v = false) ∧
    (∃ vals, readFile 1 strtof strtod lines errno = some vals ∧
      vals.length = lines.length ∧ ∀ v ∈ vals, binary64.lt 0 v = false) := by
  constructor
  · refine ⟨args.map fun a => (strtof a).value, ?_, by simp, ?_⟩
    · have := readTerminal_loop_accepts binary32 "float" strtof args []
        (fun a ha => ⟨(haf a ha).1, (haf a ha).2.1, (haf a ha).2.2.1,
          le_nan_left _ _ _ (haf a ha).2.2.2⟩)
      simpa [readTerminal] using this
    · intro v hv
      obtain ⟨a, ha, e⟩ := List.mem_map.1 hv
      subst e
      exact lt_nan_right _ _ _ (haf a ha).2.2.2
  · refine ⟨lines.map fun a => (strtod a).value, ?_, by simp, ?_⟩
    · have := readFile_loop_accepts binary64 strtod lines errno he []
        (fun a ha => ⟨(hld a ha).1, (hld a ha).2.1, (hld a ha).2.2.1,
          le_nan_left _ _ _ (hld a ha).2.2.2⟩)
      simpa [readFile] using this
    · intro v hv
      obtain ⟨a, ha, e⟩ := List.mem_map.1 hv
      subst e
      exact lt_nan_right _ _ _ (hld a ha).2.2.2

/-- C20 at the argument `nan` and the lines `nan\n`, `NaN`. -/
theorem C20_nan_element_reaches_kernels_witness :
    (∃ vals, readTerminal 0 (fun _ => ⟨0x7FC00000, 3, false⟩)
        (fun _ => ⟨0x7FF8000000000000, 3, false⟩) ["nan"] = .ret vals ∧
      vals.length = ["nan"].length ∧ ∀ v ∈ vals, binary32.lt 0 v = false) ∧
    (∃ vals, readFile 1 (fun _ => ⟨0x7FC00000, 3, false⟩)
        (fun _ => ⟨0x7FF8000000000000, 3, false⟩) ["nan\n", "NaN"] 0 = some vals ∧
      vals.length = ["nan\n", "NaN"].length ∧ ∀ v ∈ vals, binary64.lt 0 v = false) :=
  C20_nan_element_reaches_kernels (fun _ => ⟨0x7FC00000, 3, false⟩)
    (fun _ => ⟨0x7FF8000000000000, 3, false⟩) ["nan"] ["nan\n", "NaN"] 0 (by decide)
    (by decide) (by decide)

/-! ## Claims on the raw estimate -/

/-- C27: for every positive, finite, normal `float` pattern `b`
(`0x00800000 ≤ b ≤ 0x7F7FFFFF`) the subtraction `0x5F375A86 - (b >> 1)` does not wrap, and its
result lies in `[0x1F775A87, 0x5EF75A86]`, has sign `0` and a biased exponent between `0x3E`
and `0xBD`, so it is positive, finite and normal; for every positive normal `double` pattern
the result of `0x5FE6EB50C7B537A9 - (b >> 1)` does not wrap and is positive, finite and
normal. -/
theorem C27_raw_estimate_is_normal :
    (∀ b, 0x00800000 ≤ b → b ≤ 0x7F7FFFFF →
      b >>> 1 ≤ 0x5F375A86 ∧ bitApprox_flt b = 0x5F375A86 - (b >>> 1) ∧
      0x1F775A87 ≤ bitApprox_flt b ∧ bitApprox_flt b ≤ 0x5EF75A86 ∧
      binary32.signOf (bitApprox_flt b) = 0 ∧
      0x3E ≤ binary32.expOf (bitApprox_flt b) ∧ binary32.expOf (bitApprox_flt b) ≤ 0xBD ∧
      binary32.isPosNormal (bitApprox_flt b) = true) ∧
    (∀ b, 0x0010000000000000 ≤ b → b ≤ 0x7FEFFFFFFFFFFFFF →
      b >>> 1 ≤ 0x5FE6EB50C7B537A9 ∧ bitApprox_dbl b = 0x5FE6EB50C7B537A9 - (b >>> 1) ∧
      0x1FEEEB50C7B537AA ≤ bitApprox_dbl b ∧ bitApprox_dbl b ≤ 0x5FDEEB50C7B537A9 ∧
      binary64.signOf (bitApprox_dbl b) = 0 ∧
      0x1FE ≤ binary64.expOf (bitApprox_dbl b) ∧ binary64.expOf (bitApprox_dbl b) ≤ 0x5FD ∧
      binary64.isPosNormal (bitApprox_dbl b) = true) := by
  constructor
  · intro b h1 h2
    have hs : b >>> 1 = b / 2 := by rw [Nat.shiftRight_eq_div_pow, pow_one]
    have e : bitApprox_flt b = 0x5F375A86 - b / 2 := by
      unfold bitApprox_flt sub32
      rw [hs]
      omega
    refine ⟨by omega, by rw [e, hs], by omega, by omega, ?_, ?_, ?_, ?_⟩
    · rw [e]
      simp only [FloatFormat.signOf, binary32]
      norm_num; omega
    · rw [e]
      simp only [FloatFormat.expOf, binary32]
      norm_num; omega
    · rw [e]
      simp only [FloatFormat.expOf, binary32]
      norm_num; omega
    · rw [e]
      simp only [FloatFormat.isPosNormal, binary32, Bool.and_eq_true, decide_eq_true_eq]
      norm_num; omega
  · intro b h1 h2
    have hs : b >>> 1 = b / 2 := by rw [Nat.shiftRight_eq_div_pow, pow_one]
    have e : bitApprox_dbl b = 0x5FE6EB50C7B537A9 - b / 2 := by
      unfold bitApprox_dbl sub64
      rw [hs]
      omega
    refine ⟨by omega, by rw [e, hs], by omega, by omega, ?_, ?_, ?_, ?_⟩
    · rw [e]
      simp only [FloatFormat.signOf, binary64]
      norm_num; omega
    · rw [e]
      simp only [FloatFormat.expOf, binary64]
      norm_num; omega
    · rw [e]
      simp only [FloatFormat.expOf, binary64]
      norm_num; omega
    · rw [e]
      simp only [FloatFormat.isPosNormal, binary64, Bool.and_eq_true, decide_eq_true_eq]
      norm_num; omega

/-- Instance of C27 at the patterns of `1.0f` and `1.0`. -/
theorem C27_raw_estimate_is_normal_witness :
    (0x3F800000 >>> 1 ≤ 0x5F375A86 ∧
      binary32.isPosNormal (bitApprox_flt 0x3F800000) = true) ∧
    (0x3FF0000000000000 >>> 1 ≤ 0x5FE6EB50C7B537A9 ∧
      binary64.isPosNormal (bitApprox_dbl 0x3FF0000000000000) = true) :=
  ⟨⟨(C27_raw_estimate_is_normal.1 0x3F800000 (by decide) (by decide)).1,
      (C27_raw_estimate_is_normal.1 0x3F800000 (by decide) (by decide)).2.2.2.2.2.2.2⟩,
    ⟨(C27_raw_estimate_is_normal.2 0x3FF0000000000000 (by decide) (by decide)).1,
      (C27_raw_estimate_is_normal.2 0x3FF0000000000000 (by decide) (by decide)).2.2.2.2.2.2.2⟩⟩

/-- C29: for `uint32_t` patterns `b1 ≤ b2 < 2^31` (the non-negative floats) the raw estimate
of `b2` is not above the raw estimate of `b1`, and neither subtraction wraps; the same holds
for `uint64_t` patterns below `2^63` with the constant `0x5FE6EB50C7B537A9`. -/
theorem C29_raw_estimate_antitone :
    (∀ b1 b2, b1 ≤ b2 → b2 < 2 ^ 31 →
      bitApprox_flt b2 ≤ bitApprox_flt b1 ∧
      bitApprox_flt b1 = 0x5F375A86 - (b1 >>> 1) ∧
      bitApprox_flt b2 = 0x5F375A86 - (b2 >>> 1) ∧ b2 >>> 1 ≤ 0x5F375A86) ∧
    (∀ b1 b2, b1 ≤ b2 → b2 < 2 ^ 63 →
      bitApprox_dbl b2 ≤ bitApprox_dbl b1 ∧
      bitApprox_dbl b1 = 0x5FE6EB50C7B537A9 - (b1 >>> 1) ∧
      bitApprox_dbl b2 = 0x5FE6EB50C7B537A9 - (b2 >>> 1) ∧
      b2 >>> 1 ≤ 0x5FE6EB50C7B537A9) := by
  constructor
  · intro b1 b2 h1 h2
    have hs1 : b1 >>> 1 = b1 / 2 := by rw [Nat.shiftRight_eq_div_pow, pow_one]
    have hs2 : b2 >>> 1 = b2 / 2 := by rw [Nat.shiftRight_eq_div_pow, pow_one]
    unfold bitApprox_flt sub32
    rw [hs1, hs2]
    omega
  · intro b1 b2 h1 h2
    have hs1 : b1 >>> 1 = b1 / 2 := by rw [Nat.shiftRight_eq_div_pow, pow_one]
    have hs2 : b2 >>> 1 = b2 / 2 := by rw [Nat.shiftRight_eq_div_pow, pow_one]
    unfold bitApprox_dbl sub64
    rw [hs1, hs2]
    omega

/-- Instance of C29 at the patterns of `1.0` and `4.0`, single and double precision. -/
theorem C29_raw_estimate_antitone_witness :
    bitApprox_flt 0x40800000 ≤ bitApprox_flt 0x3F800000 ∧
    bitApprox_dbl 0x4010000000000000 ≤ bitApprox_dbl 0x3FF0000000000000 :=
  ⟨(C29_raw_estimate_antitone.1 0x3F800000 0x40800000 (by decide) (by decide)).1,
    (C29_raw_estimate_antitone.2 0x3FF0000000000000 0x4010000000000000 (by decide)
      (by decide)).1⟩

/-! ## Scaling by powers of two -/

namespace FloatFormat

variable (F : FloatFormat)

/-- The significand selected by `roundSig` depends on `T - k` only. -/
theorem roundSig_shift (N k T d : Nat) : F.roundSig N (k + d) (T + d) = F.roundSig N k T := by
  unfold roundSig
  have e1 : (F.mbits + (k + d) ≤ T + d) ↔ (F.mbits + k ≤ T) := by omega
  have e2 : T + d - (F.mbits + (k + d)) = T - (F.mbits + k) := by omega
  have e3 : F.mbits + (k + d) - (T + d) = F.mbits + k - T := by omega
  simp only [e1, e2, e3]

/-- Multiplying a value of the normal range by `2 ^ d`, without overflow, adds `d` to the
exponent field of the rounded result; the result for the smaller value is a normal number. -/
theorem roundPack_scale (he : 2 ≤ F.ebits) (N k d Z : Nat) (hZ : F.bias ≤ Z + 1)
    (hlo : (2 : ℚ) / 2 ^ F.bias ≤ (N : ℚ) * 2 ^ k / 2 ^ Z)
    (hhi : (N : ℚ) * 2 ^ (k + d) / 2 ^ Z < 2 ^ F.bias) :
    F.roundPack 0 N (k + d) Z = F.roundPack 0 N k Z + d * 2 ^ F.mbits ∧
      2 ^ F.mbits ≤ F.roundPack 0 N k Z ∧ F.isFinPos (F.roundPack 0 N (k + d) Z) := by
  have hpZ : (0 : ℚ) < 2 ^ Z := by positivity
  have hpb : (0 : ℚ) < 2 ^ F.bias := by positivity
  have hN : 0 < N := by
    rcases Nat.eq_zero_or_pos N with h | h
    · subst h
      have : (0 : ℚ) < 2 / 2 ^ F.bias := by positivity
      simp at hlo
      linarith only [this, hlo]
    · exact h
  obtain ⟨hL1, hL2⟩ := ilog2_spec N hN
  have n1 : 2 * 2 ^ Z ≤ N * 2 ^ k * 2 ^ F.bias := by
    have : (2 : ℚ) * 2 ^ Z ≤ (N : ℚ) * 2 ^ k * 2 ^ F.bias := by
      rw [div_le_div_iff hpb hpZ] at hlo; linarith only [hlo]
    exact_mod_cast this
  have n2 : N * 2 ^ (k + d) < 2 ^ F.bias * 2 ^ Z := by
    have : (N : ℚ) * 2 ^ (k + d) < 2 ^ F.bias * 2 ^ Z := by
      rw [div_lt_iff hpZ] at hhi; exact hhi
    exact_mod_cast this
  have c1 : Z + 1 < ilog2 N + 1 + k + F.bias := by
    have h1 : N * 2 ^ k * 2 ^ F.bias < 2 ^ (ilog2 N + 1) * 2 ^ k * 2 ^ F.bias :=
      Nat.mul_lt_mul_of_pos_right (Nat.mul_lt_mul_of_pos_right hL2 (Nat.two_pow_pos _))
        (Nat.two_pow_pos _)
    have h2 : 2 ^ (Z + 1) < 2 ^ (ilog2 N + 1 + k + F.bias) := by
      have e1 : 2 ^ (Z + 1) = 2 * 2 ^ Z := by rw [pow_succ]; ring
      have e2 : 2 ^ (ilog2 N + 1 + k + F.bias) = 2 ^ (ilog2 N + 1) * 2 ^ k * 2 ^ F.bias := by
        rw [pow_add, pow_add]
      rw [e1, e2]
      exact lt_of_le_of_lt n1 h1
    exact (Nat.pow_lt_pow_iff_right (by decide)).1 h2
  have c2 : ilog2 N + (k + d) < F.bias + Z := by
    have h1 : 2 ^ ilog2 N * 2 ^ (k + d) ≤ N * 2 ^ (k + d) := Nat.mul_le_mul_right _ hL1
    have h2 : 2 ^ (ilog2 N + (k + d)) < 2 ^ (F.bias + Z) := by
      rw [pow_add, pow_add (a := 2) F.bias Z]
      exact lt_of_le_of_lt h1 n2
    exact (Nat.pow_lt_pow_iff_right (by decide)).1 h2
  have hTe : max (k + ilog2 N) (Z + 1 - F.bias) = k + ilog2 N := max_eq_left (by omega)
  have hTe' : max (k + d + ilog2 N) (Z + 1 - F.bias) = k + ilog2 N + d := by
    rw [max_eq_left (by omega)]; omega
  have hT : max (k + ilog2 N) (Z + 1 - F.bias) ≤ Z + F.bias - 1 := by rw [hTe]; omega
  have hT' : max (k + d + ilog2 N) (Z + 1 - F.bias) ≤ Z + F.bias - 1 := by rw [hTe']; omega
  obtain ⟨p1, _, _⟩ := F.roundPack_eq (by omega) N k Z hN hZ hT
  obtain ⟨p2, f2, _⟩ := F.roundPack_eq (by omega) N (k + d) Z hN hZ hT'
  rw [hTe] at p1
  rw [hTe', F.roundSig_shift] at p2
  refine ⟨?_, ?_, f2⟩
  · rw [p1, p2]
    have : k + ilog2 N + d - (Z + 1 - F.bias) = k + ilog2 N - (Z + 1 - F.bias) + d := by omega
    rw [this]
    ring
  · rw [p1]
    exact le_trans (F.roundSig_ge N k hN) (Nat.le_add_left _ _)

/-- Fields of a normal pattern after adding `c` to its exponent field. -/
theorem shift_fields (p c : Nat) (hp : 2 ^ F.mbits ≤ p) (h : F.isFinPos (p + c * 2 ^ F.mbits)) :
    F.isFinPos p ∧ F.sigOf (p + c * 2 ^ F.mbits) = F.sigOf p ∧
      F.qOf (p + c * 2 ^ F.mbits) = F.qOf p + c := by
  have hP : 0 < 2 ^ F.mbits := Nat.two_pow_pos _
  have hfp : F.isFinPos p := lt_of_le_of_lt (Nat.le_add_right _ _) h
  obtain ⟨e1, _⟩ := F.finPos_exp p hfp
  obtain ⟨e2, _⟩ := F.finPos_exp _ h
  have hd : (p + c * 2 ^ F.mbits) / 2 ^ F.mbits = p / 2 ^ F.mbits + c :=
    Nat.add_mul_div_right _ _ hP
  have hmod : (p + c * 2 ^ F.mbits) % 2 ^ F.mbits = p % 2 ^ F.mbits :=
    Nat.add_mul_mod_self_right _ _ _
  have h1 : 1 ≤ p / 2 ^ F.mbits := (Nat.one_le_div_iff hP).2 hp
  refine ⟨hfp, ?_, ?_⟩
  · unfold sigOf manOf
    rw [e1, e2, hd, hmod, if_neg (by omega), if_neg (by omega)]
  · unfold qOf
    rw [e1, e2, hd]
    omega

/-- Multiplication of operands with the same significands and a sum of exponents larger by
`d`: when the smaller product is in the normal range and the larger one does not overflow,
the results differ by `d` in the exponent field. -/
theorem fmul_scale (he : 2 ≤ F.ebits) (a b a' b' d : Nat) (ha : F.isFinPos a)
    (hb : F.isFinPos b) (ha' : F.isFinPos a') (hb' : F.isFinPos b')
    (hsa : F.sigOf a' = F.sigOf a) (hsb : F.sigOf b' = F.sigOf b)
    (hq : F.qOf a' + F.qOf b' = F.qOf a + F.qOf b + d)
    (hlo : (2 : ℚ) / 2 ^ F.bias ≤ F.toRat a * F.toRat b)
    (hhi : F.toRat a' * F.toRat b' < 2 ^ F.bias) :
    F.fmul a' b' = F.fmul a b + d * 2 ^ F.mbits ∧ 2 ^ F.mbits ≤ F.fmul a b ∧
      F.isFinPos (F.fmul a' b') := by
  rw [F.fmul_eq_roundPack a b ha hb, F.fmul_eq_roundPack a' b' ha' hb', hsa, hsb, hq]
  rw [F.toRat_mul a b ha hb] at hlo
  rw [F.toRat_mul a' b' ha' hb', hsa, hsb, hq] at hhi
  exact F.roundPack_scale he _ _ d _ (by omega) hlo hhi

end FloatFormat

namespace FloatFormat

variable (F : FloatFormat)

/-- The operands of the four multiplications and of the subtraction of one Newton update, for
`q = x * y ^ 2` between `1/2` and `3/2`: all are finite and positive, and the three products
that are rounded to normal numbers are in the normal range. -/
theorem stepF_chain (he : 4 ≤ F.ebits) (hm : 4 ≤ F.mbits) (x y : Nat)
    (hx : F.isFinPos x) (hy : F.isFinPos y)
    (hX1 : (2 : ℚ) / 2 ^ F.bias ≤ F.toRat x)
    (hq1 : 1 / 2 ≤ F.toRat x * F.toRat y ^ 2) (hq2 : F.toRat x * F.toRat y ^ 2 ≤ 3 / 2) :
    F.toRat x < 2 * 2 ^ F.bias ∧
    F.isFinPos (F.fmul x F.halfBits) ∧
    (2 : ℚ) / 2 ^ F.bias ≤ F.toRat (F.fmul x F.halfBits) * F.toRat y ∧
    F.toRat (F.fmul x F.halfBits) * F.toRat y < 2 ^ F.bias ∧
    F.isFinPos (F.fmul (F.fmul x F.halfBits) y) ∧
    (2 : ℚ) / 2 ^ F.bias ≤ F.toRat (F.fmul (F.fmul x F.halfBits) y) * F.toRat y ∧
    F.toRat (F.fmul (F.fmul x F.halfBits) y) * F.toRat y < 2 ^ F.bias ∧
    F.isFinPos (F.fmul (F.fmul (F.fmul x F.halfBits) y) y) ∧
    F.isFinPos (F.fsub F.threeHalfsBits (F.fmul (F.fmul (F.fmul x F.halfBits) y) y)) ∧
    (2 : ℚ) / 2 ^ F.bias ≤
      F.toRat y * F.toRat (F.fsub F.threeHalfsBits (F.fmul (F.fmul (F.fmul x F.halfBits) y) y)) ∧
    F.toRat y * F.toRat (F.fsub F.threeHalfsBits (F.fmul (F.fmul (F.fmul x F.halfBits) y) y)) <
      2 ^ F.bias := by
  -- notation
  obtain ⟨X, hXdef⟩ : ∃ X, X = F.toRat x := ⟨_, rfl⟩
  obtain ⟨Y, hYdef⟩ : ∃ Y, Y = F.toRat y := ⟨_, rfl⟩
  obtain ⟨e, hedef⟩ : ∃ e : ℚ, 1 / 2 ^ (F.mbits + 1) = e := ⟨_, rfl⟩
  obtain ⟨B, hBdef⟩ : ∃ B : ℚ, 2 ^ F.bias = B := ⟨_, rfl⟩
  rw [← hXdef] at hX1 hq1 hq2
  rw [← hYdef] at hq1 hq2
  rw [hBdef] at hX1
  have hbias : 7 ≤ F.bias := by
    unfold bias
    have : 2 ^ 3 ≤ 2 ^ (F.ebits - 1) := Nat.pow_le_pow_right (by decide) (by omega)
    omega
  have hB : (128 : ℚ) ≤ B := by
    rw [← hBdef]
    calc (128 : ℚ) = 2 ^ 7 := by norm_num
      _ ≤ 2 ^ F.bias := pow_le_pow_right₀ (by norm_num) hbias
  have hB0 : (0 : ℚ) < B := lt_of_lt_of_le (by norm_num) hB
  have he0 : 0 < e := by rw [← hedef]; positivity
  have he1 : e ≤ 1 / 32 := by
    rw [← hedef]
    have : (32 : ℚ) ≤ 2 ^ (F.mbits + 1) := by
      calc (32 : ℚ) = 2 ^ 5 := by norm_num
        _ ≤ 2 ^ (F.mbits + 1) := pow_le_pow_right₀ (by norm_num) (by omega)
    exact div_le_div_of_nonneg_left (by norm_num) (by norm_num) this
  have h2e : (1 : ℚ) / 2 ^ F.mbits = 2 * e := by
    rw [← hedef, pow_succ]; field_simp
  have hX0 : 0 < X := lt_of_lt_of_le (by positivity) hX1
  have hY0' : 0 ≤ Y := by rw [hYdef, F.toRat_eq y hy]; positivity
  have hY0 : 0 < Y := by
    rcases eq_or_lt_of_le hY0' with h | h
    · rw [← h] at hq1; norm_num at hq1
    · exact h
  have hX2 : X < 2 * B := by
    rw [hXdef, F.toRat_eq x hx, ← hBdef]
    have h1 : F.val2 x < 2 ^ (F.mbits + 1) * 2 ^ (2 * F.bias) := by
      obtain ⟨h3, h4⟩ := F.finPos_exp x hx
      rw [F.two_pow_ebits (by omega)] at h4
      unfold val2 sigOf qOf manOf
      rw [h3]
      have hm' : x % 2 ^ F.mbits < 2 ^ F.mbits := Nat.mod_lt _ (Nat.two_pow_pos _)
      have hs : (if x / 2 ^ F.mbits = 0 then x % 2 ^ F.mbits
          else 2 ^ F.mbits + x % 2 ^ F.mbits) < 2 ^ (F.mbits + 1) := by
        rw [pow_succ]; split <;> omega
      have hq : 2 ^ max (x / 2 ^ F.mbits) 1 ≤ 2 ^ (2 * F.bias) :=
        Nat.pow_le_pow_right (by decide) (by omega)
      calc _ < 2 ^ (F.mbits + 1) * 2 ^ max (x / 2 ^ F.mbits) 1 :=
            Nat.mul_lt_mul_of_pos_right hs (Nat.two_pow_pos _)
        _ ≤ 2 ^ (F.mbits + 1) * 2 ^ (2 * F.bias) := Nat.mul_le_mul_left _ hq
    have h2 : (F.val2 x : ℚ) < 2 ^ (F.mbits + 1) * 2 ^ (2 * F.bias) := by exact_mod_cast h1
    rw [div_lt_iff (by positivity)]
    calc (F.val2 x : ℚ) < 2 ^ (F.mbits + 1) * 2 ^ (2 * F.bias) := h2
      _ = 2 * 2 ^ F.bias * 2 ^ (F.bias + F.mbits) := by
          rw [pow_succ, two_mul, pow_add, pow_add]; ring
  -- magnitudes of `y` and `x * y`
  have hYlo : 4 / B ≤ Y := by
    by_contra hc
    rw [not_le] at hc
    have h1 : Y ^ 2 < (4 / B) ^ 2 := pow_lt_pow_left hc hY0' (by norm_num)
    have h2 : X * Y ^ 2 < 2 * B * (4 / B) ^ 2 := by
      calc X * Y ^ 2 ≤ X * (4 / B) ^ 2 := by
            apply mul_le_mul_of_nonneg_left (le_of_lt h1) (le_of_lt hX0)
        _ < 2 * B * (4 / B) ^ 2 := by
            apply mul_lt_mul_of_pos_right hX2 (by positivity)
    have h3 : 2 * B * (4 / B) ^ 2 = 32 / B := by field_simp; ring
    have h4 : 32 / B ≤ 1 / 4 := by rw [div_le_iff hB0]; linarith only [hB]
    linarith only [h2, h3, h4, hq1]
  have hYhi : Y < B / 2 := by
    by_contra hc
    rw [not_lt] at hc
    have h1 : (B / 2) ^ 2 ≤ Y ^ 2 := pow_le_pow_left (by positivity) hc 2
    have h2 : 2 / B * (B / 2) ^ 2 ≤ X * Y ^ 2 :=
      mul_le_mul hX1 h1 (by positivity) (le_of_lt hX0)
    have h3 : 2 / B * (B / 2) ^ 2 = B / 2 := by field_simp; ring
    linarith only [h2, h3, hq2, hB]
  have hXY0 : 0 < X * Y := mul_pos hX0 hY0
  have hXYsq : (X * Y) ^ 2 = X * (X * Y ^ 2) := by ring
  have hXYlo : 8 / B ≤ X * Y := by
    by_contra hc
    rw [not_le] at hc
    have h1 : (X * Y) ^ 2 < (8 / B) ^ 2 := pow_lt_pow_left hc (le_of_lt hXY0) (by norm_num)
    have h2 : 2 / B * (1 / 2) ≤ X * (X * Y ^ 2) :=
      mul_le_mul hX1 hq1 (by norm_num) (le_of_lt hX0)
    have h3 : (8 / B) ^ 2 = (64 / B) * (1 / B) := by field_simp; ring
    have h4 : 64 / B ≤ 1 / 2 := by rw [div_le_iff hB0]; linarith only [hB]
    have h5 : (64 / B) * (1 / B) ≤ 1 / 2 * (1 / B) :=
      mul_le_mul_of_nonneg_right h4 (by positivity)
    have h6 : 2 / B * (1 / 2) = 1 / B := by field_simp; ring
    have h7 : (0 : ℚ) < 1 / B := by positivity
    have h8 : 1 / 2 * (1 / B) < 1 / B := by linarith only [h7]
    linarith only [h1, h2, h3, h5, h6, h8, hXYsq]
  have hXYhi : X * Y < B / 2 := by
    by_contra hc
    rw [not_lt] at hc
    have h1 : (B / 2) ^ 2 ≤ (X * Y) ^ 2 := pow_le_pow_left (by positivity) hc 2
    have h2 : X * (X * Y ^ 2) < 2 * B * (3 / 2) := by
      calc X * (X * Y ^ 2) ≤ X * (3 / 2) := mul_le_mul_of_nonneg_left hq2 (le_of_lt hX0)
        _ < 2 * B * (3 / 2) := mul_lt_mul_of_pos_right hX2 (by norm_num)
    have h3 : (B / 2) ^ 2 = B * (B / 4) := by ring
    have h4 : B * 32 ≤ B * (B / 4) :=
      mul_le_mul_of_nonneg_left (by linarith only [hB]) (le_of_lt hB0)
    linarith only [h1, h2, h3, h4, hXYsq, hB0]
  -- step 1 : xh = x * 0.5
  obtain ⟨hhalf1, hhalf2⟩ := F.halfBits_spec (by omega)
  have s1 := F.fmul_spec_sub (by omega) x F.halfBits hx hhalf1
    (by rw [← hXdef, hhalf2, hBdef]
        have : 1 / B = 2 / B * (1 / 2) := by ring
        rw [this]; exact mul_le_mul_of_nonneg_right hX1 (by norm_num))
    (by rw [← hXdef, hhalf2, hBdef]; linarith only [hX2])
  rw [← hXdef, hhalf2] at s1
  obtain ⟨f1, s1⟩ := s1
  obtain ⟨XH, hXH⟩ : ∃ XH, XH = F.toRat (F.fmul x F.halfBits) := ⟨_, rfl⟩
  rw [← hXH] at s1
  obtain ⟨a1, b1⟩ := abs_le_rel s1 h2e
  have hXh0 : (0 : ℚ) < X * (1 / 2) := by positivity
  have k1 : X * (1 / 2) * (1 / 2) ≤ X * (1 / 2) * (1 - 2 * e) :=
    mul_le_mul_of_nonneg_left (by linarith only [he1]) (le_of_lt hXh0)
  have k2 : X * (1 / 2) * (1 + 2 * e) ≤ X * (1 / 2) * (9 / 8) :=
    mul_le_mul_of_nonneg_left (by linarith only [he1]) (le_of_lt hXh0)
  have hXHlo : X * (1 / 4) ≤ XH := by linarith only [k1, a1]
  have hXHhi : XH ≤ X * (9 / 16) := by linarith only [k2, b1]
  have hXH0 : 0 < XH := by linarith only [hXHlo, hX0]
  have h1me : (0 : ℚ) ≤ 1 - e := by linarith only [he1]
  have h1pe : (0 : ℚ) ≤ 1 + e := by linarith only [he0]
  -- step 2 : t1 = xh * y
  have hv2lo : X * Y * (1 / 4) ≤ XH * Y := by
    have := mul_le_mul_of_nonneg_right hXHlo (le_of_lt hY0); linarith only [this]
  have hv2hi : XH * Y ≤ X * Y * (9 / 16) := by
    have := mul_le_mul_of_nonneg_right hXHhi (le_of_lt hY0); linarith only [this]
  have s2 := F.fmul_spec (by omega) _ y f1 hy
    (by rw [← hXH, ← hYdef, hBdef]
        have : 2 / B = 8 / B * (1 / 4) := by ring
        rw [this]; linarith only [hv2lo, hXYlo])
    (by rw [← hXH, ← hYdef, hBdef]; linarith only [hv2hi, hXYhi, hXY0])
  rw [← hXH, ← hYdef] at s2
  obtain ⟨f2, s2⟩ := s2
  obtain ⟨T1, hT1⟩ : ∃ T1, T1 = F.toRat (F.fmul (F.fmul x F.halfBits) y) := ⟨_, rfl⟩
  rw [← hT1] at s2
  obtain ⟨a2, b2⟩ := abs_le_rel s2 hedef
  have hXHY0 : 0 < XH * Y := mul_pos hXH0 hY0
  have hT10 : 0 < T1 := lt_of_lt_of_le (mul_pos hXHY0 (by linarith only [he1])) a2
  -- step 3 : t2 = t1 * y
  have c3lo : X * Y ^ 2 / 2 * ((1 - 2 * e) * (1 - e) ^ 2) ≤ T1 * Y * (1 - e) := by
    have h0 := mul_le_mul_of_nonneg_right a1 (le_of_lt hY0)
    have h0' := mul_le_mul_of_nonneg_right h0 h1me
    have h1 : X * (1 / 2) * (1 - 2 * e) * Y * (1 - e) ≤ T1 := le_trans h0' a2
    have h2 := mul_le_mul_of_nonneg_right h1 (le_of_lt hY0)
    have h3 := mul_le_mul_of_nonneg_right h2 h1me
    calc X * Y ^ 2 / 2 * ((1 - 2 * e) * (1 - e) ^ 2)
        = X * (1 / 2) * (1 - 2 * e) * Y * (1 - e) * Y * (1 - e) := by ring
      _ ≤ T1 * Y * (1 - e) := h3
  have c3hi : T1 * Y * (1 + e) ≤ X * Y ^ 2 / 2 * ((1 + 2 * e) * (1 + e) ^ 2) := by
    have h0 := mul_le_mul_of_nonneg_right b1 (le_of_lt hY0)
    have h0' := mul_le_mul_of_nonneg_right h0 h1pe
    have h1 : T1 ≤ X * (1 / 2) * (1 + 2 * e) * Y * (1 + e) := le_trans b2 h0'
    have h2 := mul_le_mul_of_nonneg_right h1 (le_of_lt hY0)
    have h3 := mul_le_mul_of_nonneg_right h2 h1pe
    calc T1 * Y * (1 + e) ≤ X * (1 / 2) * (1 + 2 * e) * Y * (1 + e) * Y * (1 + e) := h3
      _ = X * Y ^ 2 / 2 * ((1 + 2 * e) * (1 + e) ^ 2) := by ring
  have hAlo : (3 : ℚ) / 4 ≤ (1 - 2 * e) * (1 - e) ^ 2 := by
    have h1 : (15 : ℚ) / 16 ≤ 1 - 2 * e := by linarith only [he1]
    have h2 : (31 : ℚ) / 32 ≤ 1 - e := by linarith only [he1]
    have h3 : (31 : ℚ) / 32 * (31 / 32) ≤ (1 - e) * (1 - e) :=
      mul_le_mul h2 h2 (by norm_num) h1me
    have h4 : (15 : ℚ) / 16 * (31 / 32 * (31 / 32)) ≤ (1 - 2 * e) * ((1 - e) * (1 - e)) :=
      mul_le_mul h1 h3 (by norm_num) (by linarith only [he1])
    have h5 : (1 - 2 * e) * (1 - e) ^ 2 = (1 - 2 * e) * ((1 - e) * (1 - e)) := by ring
    have : (3 : ℚ) / 4 ≤ 15 / 16 * (31 / 32 * (31 / 32)) := by norm_num
    linarith only [h4, h5, this]
  have hAhi : (1 + 2 * e) * (1 + e) ^ 2 ≤ 5 / 4 := by
    have h1 : 1 + 2 * e ≤ (17 : ℚ) / 16 := by linarith only [he1]
    have h2 : 1 + e ≤ (33 : ℚ) / 32 := by linarith only [he1]
    have h3 : (1 + e) * (1 + e) ≤ (33 : ℚ) / 32 * (33 / 32) :=
      mul_le_mul h2 h2 h1pe (by norm_num)
    have h4 : (1 + 2 * e) * ((1 + e) * (1 + e)) ≤ (17 : ℚ) / 16 * (33 / 32 * (33 / 32)) :=
      mul_le_mul h1 h3 (mul_nonneg h1pe h1pe) (by norm_num)
    have h5 : (1 + 2 * e) * (1 + e) ^ 2 = (1 + 2 * e) * ((1 + e) * (1 + e)) := by ring
    have : (17 : ℚ) / 16 * (33 / 32 * (33 / 32)) ≤ 5 / 4 := by norm_num
    linarith only [h4, h5, this]
  have hq0 : 0 < X * Y ^ 2 := by linarith only [hq1]
  have hv3lo : (3 : ℚ) / 16 ≤ T1 * Y * (1 - e) := by
    have h1 : (1 : ℚ) / 2 / 2 * (3 / 4) ≤ X * Y ^ 2 / 2 * ((1 - 2 * e) * (1 - e) ^ 2) :=
      mul_le_mul (by linarith only [hq1]) hAlo (by norm_num) (by linarith only [hq0])
    have : (3 : ℚ) / 16 = 1 / 2 / 2 * (3 / 4) := by norm_num
    linarith only [h1, this, c3lo]
  have hv3hi : T1 * Y * (1 + e) ≤ 15 / 16 := by
    have h1 : X * Y ^ 2 / 2 * ((1 + 2 * e) * (1 + e) ^ 2) ≤ (3 : ℚ) / 2 / 2 * (5 / 4) :=
      mul_le_mul (by linarith only [hq2]) hAhi
        (mul_nonneg (by linarith only [he0]) (sq_nonneg _)) (by norm_num)
    have : (3 : ℚ) / 2 / 2 * (5 / 4) = 15 / 16 := by norm_num
    linarith only [h1, this, c3hi]
  have hT1Y0 : 0 < T1 * Y := mul_pos hT10 hY0
  have hT1Ylo : (3 : ℚ) / 16 ≤ T1 * Y := by
    have : T1 * Y * (1 - e) ≤ T1 * Y * 1 :=
      mul_le_mul_of_nonneg_left (by linarith only [he0]) (le_of_lt hT1Y0)
    linarith only [this, hv3lo]
  have hT1Yhi : T1 * Y ≤ 15 / 16 := by
    have : T1 * Y * 1 ≤ T1 * Y * (1 + e) :=
      mul_le_mul_of_nonneg_left (by linarith only [he0]) (le_of_lt hT1Y0)
    linarith only [this, hv3hi]
  have s3 := F.fmul_spec (by omega) _ y f2 hy
    (by rw [← hT1, ← hYdef, hBdef]
        have h1 : 2 / B ≤ 3 / 16 := by rw [div_le_iff hB0]; linarith only [hB]
        linarith only [h1, hT1Ylo])
    (by rw [← hT1, ← hYdef, hBdef]; linarith only [hT1Yhi, hB])
  rw [← hT1, ← hYdef] at s3
  obtain ⟨f3, s3⟩ := s3
  obtain ⟨T2, hT2⟩ : ∃ T2, T2 = F.toRat (F.fmul (F.fmul (F.fmul x F.halfBits) y) y) := ⟨_, rfl⟩
  rw [← hT2] at s3
  obtain ⟨a3, b3⟩ := abs_le_rel s3 hedef
  have hT2lo : X * Y ^ 2 / 2 * ((1 - 2 * e) * (1 - e) ^ 2) ≤ T2 := le_trans c3lo a3
  have hT2hi : T2 ≤ X * Y ^ 2 / 2 * ((1 + 2 * e) * (1 + e) ^ 2) := le_trans b3 c3hi
  have hT2a : T2 ≤ 15 / 16 := le_trans b3 hv3hi
  have hT2b : (3 : ℚ) / 16 ≤ T2 := le_trans hv3lo a3
  -- step 4 : d = 1.5 - t2
  have s4 := F.fsub_threeHalfs_spec (by omega) (by omega) _ f3
    (by rw [← hT2]; linarith only [hT2a])
    (by rw [← hT2, hBdef]
        have h1 : 2 / B ≤ 1 / 16 := by rw [div_le_iff hB0]; linarith only [hB]
        linarith only [h1, hT2a])
  rw [← hT2] at s4
  obtain ⟨f4, s4⟩ := s4
  obtain ⟨D, hD⟩ : ∃ D, D = F.toRat (F.fsub F.threeHalfsBits
      (F.fmul (F.fmul (F.fmul x F.halfBits) y) y)) := ⟨_, rfl⟩
  rw [← hD] at s4
  obtain ⟨a4, b4⟩ := abs_le_rel s4 hedef
  have hV0 : (9 : ℚ) / 16 ≤ 3 / 2 - T2 := by linarith only [hT2a]
  have hV1 : 3 / 2 - T2 ≤ (21 : ℚ) / 16 := by linarith only [hT2b]
  have hDlo : (1 : ℚ) / 2 ≤ D := by
    have h1 : (9 : ℚ) / 16 * (31 / 32) ≤ (3 / 2 - T2) * (1 - e) :=
      mul_le_mul hV0 (by linarith only [he1]) (by norm_num) (by linarith only [hV0])
    have : (1 : ℚ) / 2 ≤ 9 / 16 * (31 / 32) := by norm_num
    linarith only [h1, this, a4]
  have hDhi : D ≤ 3 / 2 := by
    have h1 : (3 / 2 - T2) * (1 + e) ≤ (21 : ℚ) / 16 * (33 / 32) :=
      mul_le_mul hV1 (by linarith only [he1]) h1pe (by norm_num)
    have : (21 : ℚ) / 16 * (33 / 32) ≤ 3 / 2 := by norm_num
    linarith only [h1, this, b4]
  -- step 5 : y1 = y * d
  have hYDlo : 4 / B * (1 / 2) ≤ Y * D := mul_le_mul hYlo hDlo (by norm_num) (le_of_lt hY0)
  have hYDhi : Y * D ≤ B / 2 * (3 / 2) :=
    mul_le_mul (le_of_lt hYhi) hDhi (by linarith only [hDlo]) (by linarith only [hB0])
  have g2lo : 2 / B ≤ XH * Y := by
    have : 2 / B = 8 / B * (1 / 4) := by ring
    rw [this]; linarith only [hv2lo, hXYlo]
  have g2hi : XH * Y < B := by linarith only [hv2hi, hXYhi, hXY0]
  have g3lo : 2 / B ≤ T1 * Y := by
    have h1 : 2 / B ≤ 3 / 16 := by rw [div_le_iff hB0]; linarith only [hB]
    linarith only [h1, hT1Ylo]
  have g3hi : T1 * Y < B := by linarith only [hT1Yhi, hB]
  have g5lo : 2 / B ≤ Y * D := by
    have h1 : 2 / B = 4 / B * (1 / 2) := by ring
    rw [h1]; exact hYDlo
  have g5hi : Y * D < B := by linarith only [hYDhi, hB0]
  subst hXdef hYdef hXH hT1 hT2 hD hBdef
  exact ⟨hX2, f1, g2lo, g2hi, f2, g3lo, g3hi, f3, f4, g5lo, g5hi⟩

end FloatFormat

namespace FloatFormat

variable (F : FloatFormat)

/-- A pattern with biased exponent at least `2` has a value of at least twice the smallest
normal number. -/
theorem toRat_ge_of_exp_two (x : Nat) (h1 : 2 * 2 ^ F.mbits ≤ x) (h2 : F.isFinPos x) :
    (4 : ℚ) / 2 ^ F.bias ≤ F.toRat x := by
  have hP : 0 < 2 ^ F.mbits := Nat.two_pow_pos _
  have e : x = x - 2 ^ F.mbits + 1 * 2 ^ F.mbits := by omega
  have hp : 2 ^ F.mbits ≤ x - 2 ^ F.mbits := by omega
  have hfp : F.isFinPos (x - 2 ^ F.mbits) := lt_of_le_of_lt (Nat.sub_le _ _) h2
  have hv := F.val2_shift (x - 2 ^ F.mbits) 1 hp (by rw [← e]; exact h2)
  rw [← e] at hv
  have hlow := F.posNormal_toRat_ge (x - 2 ^ F.mbits) hp hfp
  rw [F.toRat_eq _ hfp] at hlow
  rw [F.toRat_eq x h2, hv]
  push_cast
  have : (4 : ℚ) / 2 ^ F.bias = 2 / 2 ^ F.bias * 2 := by ring
  rw [this, mul_div_right_comm]
  have h0 : (0 : ℚ) ≤ 2 := by norm_num
  have := mul_le_mul_of_nonneg_right hlow h0
  simpa using this

/-- One Newton update for `4 x` and the halved estimate: when `x` has a biased exponent of at
least `2` and `q = x * y ^ 2` is between `1/2` and `3/2`, every intermediate result for
`(4 x, y / 2)` is the one for `(x, y)` with a shifted exponent field, and the update of
`(x, y)` is the update of `(4 x, y / 2)` with the exponent field raised by `1`. -/
theorem stepF_shift (he : 4 ≤ F.ebits) (hm : 4 ≤ F.mbits) (x Y : Nat)
    (hx1 : 2 * 2 ^ F.mbits ≤ x) (hX : F.isFinPos (x + 2 * 2 ^ F.mbits))
    (hY1 : 2 ^ F.mbits ≤ Y) (hy : F.isFinPos (Y + 1 * 2 ^ F.mbits))
    (hq1 : 1 / 2 ≤ F.toRat x * F.toRat (Y + 1 * 2 ^ F.mbits) ^ 2)
    (hq2 : F.toRat x * F.toRat (Y + 1 * 2 ^ F.mbits) ^ 2 ≤ 3 / 2)
    (hQ1 : 1 / 2 ≤ F.toRat (x + 2 * 2 ^ F.mbits) * F.toRat Y ^ 2)
    (hQ2 : F.toRat (x + 2 * 2 ^ F.mbits) * F.toRat Y ^ 2 ≤ 3 / 2) :
    F.stepF x (Y + 1 * 2 ^ F.mbits) = F.stepF (x + 2 * 2 ^ F.mbits) Y + 1 * 2 ^ F.mbits ∧
      2 ^ F.mbits ≤ F.stepF (x + 2 * 2 ^ F.mbits) Y ∧
      F.isFinPos (F.stepF x (Y + 1 * 2 ^ F.mbits)) := by
  have hP : 0 < 2 ^ F.mbits := Nat.two_pow_pos _
  obtain ⟨hx, sX, qX⟩ := F.shift_fields x 2 (by omega) hX
  obtain ⟨hYf, sy, qy⟩ := F.shift_fields Y 1 hY1 hy
  obtain ⟨hhalf1, hhalf2⟩ := F.halfBits_spec (by omega)
  have hx4 := F.toRat_ge_of_exp_two x hx1 hx
  have c := F.stepF_chain he hm x (Y + 1 * 2 ^ F.mbits) hx hy
    (F.posNormal_toRat_ge x (by omega) hx) hq1 hq2
  have C := F.stepF_chain he hm (x + 2 * 2 ^ F.mbits) Y hX hYf
    (F.posNormal_toRat_ge _ (by omega) hX) hQ1 hQ2
  obtain ⟨_, c1, c2, _, c4, c5, _, c7, c8, _, c10⟩ := c
  unfold stepF
  obtain ⟨C0, C1, _, C3, C4, _, C6, C7, C8, C9, _⟩ := C
  -- xhalf
  obtain ⟨m1, n1, _⟩ := F.fmul_scale (by omega) x F.halfBits (x + 2 * 2 ^ F.mbits) F.halfBits 2
    hx hhalf1 hX hhalf1 sX rfl (by omega)
    (by rw [hhalf2]; linarith only [hx4, show (2 : ℚ) / 2 ^ F.bias = 4 / 2 ^ F.bias * (1 / 2)
          by ring])
    (by rw [hhalf2]; linarith only [C0])
  rw [m1] at C1 C3 C4 C6 C7 C8 C9 ⊢
  obtain ⟨_, sXH, qXH⟩ := F.shift_fields (F.fmul x F.halfBits) 2 n1 C1
  -- xhalf * y
  obtain ⟨m2, n2, _⟩ := F.fmul_scale (by omega) (F.fmul x F.halfBits) (Y + 1 * 2 ^ F.mbits)
    (F.fmul x F.halfBits + 2 * 2 ^ F.mbits) Y 1 c1 hy C1 hYf sXH sy.symm (by omega) c2 C3
  rw [m2] at C4 C6 C7 C8 C9 ⊢
  obtain ⟨_, sT1, qT1⟩ := F.shift_fields (F.fmul (F.fmul x F.halfBits) (Y + 1 * 2 ^ F.mbits)) 1
    n2 C4
  -- (xhalf * y) * y
  obtain ⟨m3, _, _⟩ := F.fmul_scale (by omega)
    (F.fmul (F.fmul x F.halfBits) (Y + 1 * 2 ^ F.mbits)) (Y + 1 * 2 ^ F.mbits)
    (F.fmul (F.fmul x F.halfBits) (Y + 1 * 2 ^ F.mbits) + 1 * 2 ^ F.mbits) Y 0 c4 hy C4 hYf
    sT1 sy.symm (by omega) c5 C6
  rw [Nat.zero_mul, Nat.add_zero] at m3
  rw [m3] at C7 C8 C9 ⊢
  -- y * (1.5 - t)
  obtain ⟨m4, n4, f4⟩ := F.fmul_scale (by omega) Y
    (F.fsub F.threeHalfsBits
      (F.fmul (F.fmul (F.fmul x F.halfBits) (Y + 1 * 2 ^ F.mbits)) (Y + 1 * 2 ^ F.mbits)))
    (Y + 1 * 2 ^ F.mbits)
    (F.fsub F.threeHalfsBits
      (F.fmul (F.fmul (F.fmul x F.halfBits) (Y + 1 * 2 ^ F.mbits)) (Y + 1 * 2 ^ F.mbits)))
    1 hYf C8 hy c8 sy rfl (by omega) C9 c10
  exact ⟨m4, n4, f4⟩

end FloatFormat

namespace FloatFormat

variable (F : FloatFormat)

/-- Adding `c` to the exponent field of a normal pattern multiplies its value by `2 ^ c`. -/
theorem toRat_shift (p c : Nat) (hp : 2 ^ F.mbits ≤ p) (h : F.isFinPos (p + c * 2 ^ F.mbits)) :
    F.toRat (p + c * 2 ^ F.mbits) = F.toRat p * 2 ^ c := by
  have hfp : F.isFinPos p := lt_of_le_of_lt (Nat.le_add_right _ _) h
  rw [F.toRat_eq _ h, F.toRat_eq p hfp, F.val2_shift p c hp h]
  push_cast
  ring

/-- The bound on `x * y0 ^ 2` for every positive normal pattern, given the check of one period
in `2 ^ d` blocks of `w`. -/
theorem raw_qBound_all (he : 4 ≤ F.ebits) (hm : 1 ≤ F.mbits) (K w d : Nat) (hw : 0 < w)
    (hwc : w * 2 ^ d = 2 * 2 ^ F.mbits) (hK1 : (F.bias + 2) * 2 ^ F.mbits ≤ K) (hK2 : F.isFinPos K)
    (hband : F.bandTree K (965513 ^ 2) (1034173 ^ 2) (1000000 ^ 2) w d (F.bias * 2 ^ F.mbits)
      = true)
    (b : Nat) (hb1 : 2 ^ F.mbits ≤ b) (hb2 : F.isFinPos b) :
    F.qBound K (965513 ^ 2) (1034173 ^ 2) (1000000 ^ 2) b := by
  have hbias := F.bias_ge_three (by omega)
  have hfin : F.isFinPos (F.bias * 2 ^ F.mbits + w * 2 ^ d) := by
    unfold isFinPos
    rw [hwc, F.two_pow_ebits (by omega)]
    have e : (2 * F.bias + 1) * 2 ^ F.mbits =
        F.bias * 2 ^ F.mbits + 2 * 2 ^ F.mbits + (F.bias - 1) * 2 ^ F.mbits := by
      have : 2 * F.bias + 1 = F.bias + 2 + (F.bias - 1) := by omega
      rw [this]; ring
    have : 0 < (F.bias - 1) * 2 ^ F.mbits := Nat.mul_pos (by omega) (Nat.two_pow_pos _)
    omega
  have h1 := F.bandTree_sound K (965513 ^ 2) (1034173 ^ 2) (1000000 ^ 2) w hw hK2 d
    (F.bias * 2 ^ F.mbits) hfin hband
  exact F.qBound_periodic K (965513 ^ 2) (1034173 ^ 2) (1000000 ^ 2) hm (by omega) hK1 hK2
    (fun b' hlo hhi => h1 b' hlo (by
      rw [hwc]
      have : (F.bias + 2) * 2 ^ F.mbits = F.bias * 2 ^ F.mbits + 2 * 2 ^ F.mbits := by ring
      omega)) b hb1 hb2

/-- From the integer bound `qBound` to `1/2 ≤ x * y0 ^ 2 ≤ 3/2`. -/
theorem qBound_rat (K b : Nat) (hb : F.isFinPos b) (hr : F.isFinPos (K - b / 2))
    (h : F.qBound K (965513 ^ 2) (1034173 ^ 2) (1000000 ^ 2) b) :
    1 / 2 ≤ F.toRat b * F.toRat (K - b / 2) ^ 2 ∧
      F.toRat b * F.toRat (K - b / 2) ^ 2 ≤ 3 / 2 := by
  obtain ⟨h1, h2⟩ := h
  rw [F.toRat_eq b hb, F.toRat_eq _ hr]
  obtain ⟨P, hP⟩ : ∃ P : ℚ, P = 2 ^ (F.bias + F.mbits) := ⟨_, rfl⟩
  have hP0 : 0 < P := by rw [hP]; positivity
  have e3 : ((2 ^ (3 * (F.bias + F.mbits)) : ℕ) : ℚ) = P ^ 3 := by
    rw [hP]; push_cast; rw [← pow_mul]; congr 1; ring
  obtain ⟨V, hV⟩ : ∃ V : ℚ, V = (F.val2 b : ℚ) * (F.val2 (K - b / 2) : ℚ) ^ 2 := ⟨_, rfl⟩
  have q1 : V * 1000000 ^ 2 ≤ 1034173 ^ 2 * P ^ 3 := by
    rw [hV, ← e3]; exact_mod_cast h1
  have q2 : (965513 : ℚ) ^ 2 * P ^ 3 ≤ V * 1000000 ^ 2 := by
    rw [hV, ← e3]; exact_mod_cast h2
  rw [← hP]
  have e : (F.val2 b : ℚ) / P * ((F.val2 (K - b / 2) : ℚ) / P) ^ 2 = V / P ^ 3 := by
    have hc : P * P ^ 2 = P ^ 3 := by ring
    rw [hV, div_pow, div_mul_div_comm, hc]
  rw [e]
  have hP3 : 0 < P ^ 3 := by positivity
  constructor
  · rw [le_div_iff₀ hP3]
    have : (1 : ℚ) / 2 * P ^ 3 * 1000000 ^ 2 ≤ 965513 ^ 2 * P ^ 3 := by
      have : (1 : ℚ) / 2 * 1000000 ^ 2 ≤ 965513 ^ 2 := by norm_num
      nlinarith only [this, hP3]
    nlinarith only [this, q2]
  · rw [div_le_iff₀ hP3]
    have : (1034173 : ℚ) ^ 2 * P ^ 3 ≤ 3 / 2 * P ^ 3 * 1000000 ^ 2 := by
      have : (1034173 : ℚ) ^ 2 ≤ 3 / 2 * 1000000 ^ 2 := by norm_num
      nlinarith only [this, hP3]
    nlinarith only [this, q1]

/-- Periodicity of the raw estimate: `K - (b + 2 P) / 2` is `K - b / 2` with the exponent field
lowered by `1`, so the estimate for `4 x` is half the estimate for `x`. -/
theorem raw_shift (he : 2 ≤ F.ebits) (K : Nat) (hK1 : (F.bias + 2) * 2 ^ F.mbits ≤ K)
    (hK2 : F.isFinPos K) (b : Nat) (hb2 : F.isFinPos (b + 2 * 2 ^ F.mbits)) :
    K - (b + 2 * 2 ^ F.mbits) / 2 + 1 * 2 ^ F.mbits = K - b / 2 ∧
      2 ^ F.mbits ≤ K - (b + 2 * 2 ^ F.mbits) / 2 ∧ F.isFinPos (K - b / 2) ∧
      F.toRat (K - b / 2) = F.toRat (K - (b + 2 * 2 ^ F.mbits) / 2) * 2 := by
  have hP : 0 < 2 ^ F.mbits := Nat.two_pow_pos _
  have hb2' := hb2
  unfold isFinPos at hb2'
  rw [F.two_pow_ebits (by omega)] at hb2'
  have e1 : (2 * F.bias + 1) * 2 ^ F.mbits = 2 * (F.bias * 2 ^ F.mbits) + 2 ^ F.mbits := by ring
  have e2 : (F.bias + 2) * 2 ^ F.mbits = F.bias * 2 ^ F.mbits + 2 * 2 ^ F.mbits := by ring
  have e3 : (b + 2 * 2 ^ F.mbits) / 2 = b / 2 + 2 ^ F.mbits := by omega
  have hr : F.isFinPos (K - b / 2) := lt_of_le_of_lt (Nat.sub_le _ _) hK2
  have hs : K - (b + 2 * 2 ^ F.mbits) / 2 + 1 * 2 ^ F.mbits = K - b / 2 := by omega
  have hn : 2 ^ F.mbits ≤ K - (b + 2 * 2 ^ F.mbits) / 2 := by omega
  refine ⟨hs, hn, hr, ?_⟩
  have := F.toRat_shift (K - (b + 2 * 2 ^ F.mbits) / 2) 1 hn (by rw [hs]; exact hr)
  rw [hs] at this
  rw [this, pow_one]

/-- Periodicity of the refined estimate: for a pattern `b` with biased exponent at least `2`
the Newton update of the raw estimate of `b + 2 P` (the value `4 x`) is the one of `b` with the
exponent field lowered by `1`, and has half its value. -/
theorem refine_shift (he : 4 ≤ F.ebits) (hm : 4 ≤ F.mbits) (K w d : Nat) (hw : 0 < w)
    (hwc : w * 2 ^ d = 2 * 2 ^ F.mbits) (hK1 : (F.bias + 2) * 2 ^ F.mbits ≤ K) (hK2 : F.isFinPos K)
    (hband : F.bandTree K (965513 ^ 2) (1034173 ^ 2) (1000000 ^ 2) w d (F.bias * 2 ^ F.mbits)
      = true)
    (b : Nat) (hb1 : 2 * 2 ^ F.mbits ≤ b) (hb2 : F.isFinPos (b + 2 * 2 ^ F.mbits)) :
    F.stepF (b + 2 * 2 ^ F.mbits) (K - (b + 2 * 2 ^ F.mbits) / 2) + 1 * 2 ^ F.mbits =
        F.stepF b (K - b / 2) ∧
      2 ^ F.mbits ≤ F.stepF (b + 2 * 2 ^ F.mbits) (K - (b + 2 * 2 ^ F.mbits) / 2) ∧
      F.isFinPos (F.stepF b (K - b / 2)) ∧
      F.toRat (F.stepF b (K - b / 2)) =
        F.toRat (F.stepF (b + 2 * 2 ^ F.mbits) (K - (b + 2 * 2 ^ F.mbits) / 2)) * 2 := by
  have hP : 0 < 2 ^ F.mbits := Nat.two_pow_pos _
  obtain ⟨hs, hn, hr, _⟩ := F.raw_shift (by omega) K hK1 hK2 b hb2
  have hfb : F.isFinPos b := lt_of_le_of_lt (Nat.le_add_right _ _) hb2
  have hrX : F.isFinPos (K - (b + 2 * 2 ^ F.mbits) / 2) :=
    lt_of_le_of_lt (Nat.sub_le _ _) hK2
  have q := F.qBound_rat K b hfb hr
    (F.raw_qBound_all he (by omega) K w d hw hwc hK1 hK2 hband b (by omega) hfb)
  have Q := F.qBound_rat K _ hb2 hrX
    (F.raw_qBound_all he (by omega) K w d hw hwc hK1 hK2 hband _ (by omega) hb2)
  rw [← hs] at q
  obtain ⟨m, n, f⟩ := F.stepF_shift he hm b (K - (b + 2 * 2 ^ F.mbits) / 2) hb1 hb2 hn
    (by rw [hs]; exact hr) q.1 q.2 Q.1 Q.2
  rw [hs] at m f
  refine ⟨m.symm, n, f, ?_⟩
  have := F.toRat_shift _ 1 n (by rw [← m]; exact f)
  rw [← m] at this
  rw [this, pow_one]

end FloatFormat

/-- Halving the estimate and the reference leaves the relative error unchanged. -/
theorem relErr_halve (y r : ℝ) : |y - r| / r = |y * 2 - r * 2| / (r * 2) := by
  rw [← sub_mul, abs_mul, abs_of_pos (by norm_num : (0 : ℝ) < 2)]
  rw [mul_div_mul_right _ _ (by norm_num : (2 : ℝ) ≠ 0)]

/-- The reference value `1 / sqrt x` for `4 x` is half the one for `x`. -/
theorem inv_sqrt_four (X : ℝ) : 1 / Real.sqrt X = 1 / Real.sqrt (X * 2 ^ 2) * 2 := by
  rw [Real.sqrt_mul' X (by norm_num), Real.sqrt_sq (by norm_num)]
  rcases eq_or_ne (Real.sqrt X) 0 with h | h
  · rw [h]; simp
  · field_simp

/-- An estimate for `4 x` that is half the estimate for `x` has the same relative error. -/
theorem relErr_period (x x' y y' : ℚ) (hx : x' = x * 2 ^ 2) (hy : y = y' * 2) (r r' : ℝ)
    (hr : r = 1 / Real.sqrt (x : ℝ)) (hr' : r' = 1 / Real.sqrt (x' : ℝ)) :
    |(y' : ℝ) - r'| / r' = |(y : ℝ) - r| / r := by
  have e : r = r' * 2 := by
    rw [hr, hr', hx]
    push_cast
    exact inv_sqrt_four _
  rw [hy, e]
  push_cast
  exact relErr_halve _ _

namespace FloatFormat

variable (F : FloatFormat)

/-- Relative errors of the raw estimate for `x` and for `4 x` coincide, for every positive normal
`x`; those of the refined estimate coincide when the biased exponent of `x` is at least `2`. -/
theorem periodic_step (he : 4 ≤ F.ebits) (hm : 4 ≤ F.mbits) (K w d : Nat) (hw : 0 < w)
    (hwc : w * 2 ^ d = 2 * 2 ^ F.mbits) (hK1 : (F.bias + 2) * 2 ^ F.mbits ≤ K) (hK2 : F.isFinPos K)
    (hband : F.bandTree K (965513 ^ 2) (1034173 ^ 2) (1000000 ^ 2) w d (F.bias * 2 ^ F.mbits)
      = true)
    (b : Nat) (hb1 : 2 ^ F.mbits ≤ b) (hb2 : F.isFinPos (b + 2 * 2 ^ F.mbits))
    (r r' : ℝ) (hr : r = 1 / Real.sqrt (F.toRat b : ℝ))
    (hr' : r' = 1 / Real.sqrt (F.toRat (b + 2 * 2 ^ F.mbits) : ℝ)) :
    |(F.toRat (K - (b + 2 * 2 ^ F.mbits) / 2) : ℝ) - r'| / r' =
        |(F.toRat (K - b / 2) : ℝ) - r| / r ∧
      (2 * 2 ^ F.mbits ≤ b →
        |(F.toRat (F.stepF (b + 2 * 2 ^ F.mbits) (K - (b + 2 * 2 ^ F.mbits) / 2)) : ℝ) - r'| / r'
          = |(F.toRat (F.stepF b (K - b / 2)) : ℝ) - r| / r) := by
  have hx := F.toRat_shift b 2 hb1 hb2
  obtain ⟨_, _, _, hy⟩ := F.raw_shift (by omega) K hK1 hK2 b hb2
  refine ⟨relErr_period _ _ _ _ hx hy r r' hr hr', ?_⟩
  intro h2
  obtain ⟨_, _, _, hs⟩ := F.refine_shift he hm K w d hw hwc hK1 hK2 hband b h2 hb2
  exact relErr_period _ _ _ _ hx hs r r' hr hr'

/-- Relative errors of the raw and of the refined estimate for `x` and for `4 ^ k * x` coincide
when the biased exponent of `x` is at least `2`. -/
theorem periodic_iter (he : 4 ≤ F.ebits) (hm : 4 ≤ F.mbits) (K w d : Nat) (hw : 0 < w)
    (hwc : w * 2 ^ d = 2 * 2 ^ F.mbits) (hK1 : (F.bias + 2) * 2 ^ F.mbits ≤ K) (hK2 : F.isFinPos K)
    (hband : F.bandTree K (965513 ^ 2) (1034173 ^ 2) (1000000 ^ 2) w d (F.bias * 2 ^ F.mbits)
      = true) :
    ∀ (k b : Nat), 2 * 2 ^ F.mbits ≤ b → F.isFinPos (b + k * (2 * 2 ^ F.mbits)) →
      ∀ r r' : ℝ, r = 1 / Real.sqrt (F.toRat b : ℝ) →
        r' = 1 / Real.sqrt (F.toRat (b + k * (2 * 2 ^ F.mbits)) : ℝ) →
        |(F.toRat (K - (b + k * (2 * 2 ^ F.mbits)) / 2) : ℝ) - r'| / r' =
            |(F.toRat (K - b / 2) : ℝ) - r| / r ∧
          |(F.toRat (F.stepF (b + k * (2 * 2 ^ F.mbits))
              (K - (b + k * (2 * 2 ^ F.mbits)) / 2)) : ℝ) - r'| / r' =
            |(F.toRat (F.stepF b (K - b / 2)) : ℝ) - r| / r := by
  intro k
  induction k with
  | zero =>
    intro b _ _ r r' hr hr'
    rw [Nat.zero_mul, Nat.add_zero] at hr' ⊢
    rw [hr, hr']
    exact ⟨rfl, rfl⟩
  | succ k ih =>
    intro b hb1 hb2 r r' hr hr'
    have e : b + (k + 1) * (2 * 2 ^ F.mbits) = b + k * (2 * 2 ^ F.mbits) + 2 * 2 ^ F.mbits := by
      ring
    rw [e] at hb2 hr' ⊢
    have hfk : F.isFinPos (b + k * (2 * 2 ^ F.mbits)) :=
      lt_of_le_of_lt (Nat.le_add_right _ _) hb2
    have hP : 0 < 2 ^ F.mbits := Nat.two_pow_pos _
    have hbk : 2 * 2 ^ F.mbits ≤ b + k * (2 * 2 ^ F.mbits) := le_trans hb1 (Nat.le_add_right _ _)
    obtain ⟨i1, i2⟩ := ih b hb1 hfk r _ hr rfl
    obtain ⟨s1, s2⟩ := F.periodic_step he hm K w d hw hwc hK1 hK2 hband
      (b + k * (2 * 2 ^ F.mbits)) (by omega) hb2 _ r' rfl hr'
    exact ⟨s1.trans i1, (s2 hbk).trans i2⟩

/-- Every positive normal pattern with biased exponent at least `2` has the relative errors, raw
and refined, of a pattern of the band of the biased exponents `bias - 1` and `bias` (the values
in `[1/2, 2)`) with the same significand field. -/
theorem periodic_band (he : 4 ≤ F.ebits) (hm : 4 ≤ F.mbits) (K w d : Nat) (hw : 0 < w)
    (hwc : w * 2 ^ d = 2 * 2 ^ F.mbits) (hK1 : (F.bias + 2) * 2 ^ F.mbits ≤ K) (hK2 : F.isFinPos K)
    (hband : F.bandTree K (965513 ^ 2) (1034173 ^ 2) (1000000 ^ 2) w d (F.bias * 2 ^ F.mbits)
      = true)
    (b : Nat) (hb1 : 2 * 2 ^ F.mbits ≤ b) (hb2 : F.isFinPos b) :
    ∃ b0, (F.bias - 1) * 2 ^ F.mbits ≤ b0 ∧ b0 < (F.bias + 1) * 2 ^ F.mbits ∧
      b0 % 2 ^ F.mbits = b % 2 ^ F.mbits ∧
      ∀ r r0 : ℝ, r = 1 / Real.sqrt (F.toRat b : ℝ) → r0 = 1 / Real.sqrt (F.toRat b0 : ℝ) →
        |(F.toRat (K - b / 2) : ℝ) - r| / r = |(F.toRat (K - b0 / 2) : ℝ) - r0| / r0 ∧
        |(F.toRat (F.stepF b (K - b / 2)) : ℝ) - r| / r =
          |(F.toRat (F.stepF b0 (K - b0 / 2)) : ℝ) - r0| / r0 := by
  have hP : 0 < 2 ^ F.mbits := Nat.two_pow_pos _
  have hbias := F.bias_ge_three (by omega)
  have hb2' := hb2
  unfold isFinPos at hb2'
  rw [F.two_pow_ebits (by omega)] at hb2'
  have e1 : (2 * F.bias + 1) * 2 ^ F.mbits = 2 * (F.bias * 2 ^ F.mbits) + 2 ^ F.mbits := by ring
  have e2 : (F.bias + 1) * 2 ^ F.mbits = F.bias * 2 ^ F.mbits + 2 ^ F.mbits := by ring
  have e3 : (F.bias - 1) * 2 ^ F.mbits + 2 ^ F.mbits = F.bias * 2 ^ F.mbits := by
    have : F.bias = F.bias - 1 + 1 := by omega
    nth_rewrite 2 [this]
    ring
  have hB3 : 3 * 2 ^ F.mbits ≤ F.bias * 2 ^ F.mbits := Nat.mul_le_mul_right _ hbias
  have hmodk : ∀ a k : Nat, (a + k * (2 * 2 ^ F.mbits)) % 2 ^ F.mbits = a % 2 ^ F.mbits := by
    intro a k
    have : a + k * (2 * 2 ^ F.mbits) = a + (k * 2) * 2 ^ F.mbits := by ring
    rw [this, Nat.add_mul_mod_self_right]
  by_cases hlow : b < (F.bias - 1) * 2 ^ F.mbits
  · -- go up
    obtain ⟨D, hD⟩ : ∃ D, D = (F.bias + 1) * 2 ^ F.mbits - 1 - b := ⟨_, rfl⟩
    have hdm := Nat.div_add_mod D (2 * 2 ^ F.mbits)
    have hml := Nat.mod_lt D (show 0 < 2 * 2 ^ F.mbits by omega)
    obtain ⟨t, ht⟩ : ∃ t, t = D / (2 * 2 ^ F.mbits) * (2 * 2 ^ F.mbits) := ⟨_, rfl⟩
    have ht' : 2 * 2 ^ F.mbits * (D / (2 * 2 ^ F.mbits)) = t := by rw [ht]; ring
    rw [ht'] at hdm
    have hfin : F.isFinPos (b + D / (2 * 2 ^ F.mbits) * (2 * 2 ^ F.mbits)) := by
      unfold isFinPos
      rw [F.two_pow_ebits (by omega), ← ht]
      omega
    refine ⟨b + D / (2 * 2 ^ F.mbits) * (2 * 2 ^ F.mbits), by rw [← ht]; omega,
      by rw [← ht]; omega, hmodk _ _, ?_⟩
    intro r r0 hr hr0
    obtain ⟨i1, i2⟩ := F.periodic_iter he hm K w d hw hwc hK1 hK2 hband _ b hb1 hfin r r0 hr hr0
    exact ⟨i1.symm, i2.symm⟩
  · -- go down
    obtain ⟨D, hD⟩ : ∃ D, D = b - (F.bias - 1) * 2 ^ F.mbits := ⟨_, rfl⟩
    have hdm := Nat.div_add_mod D (2 * 2 ^ F.mbits)
    have hml := Nat.mod_lt D (show 0 < 2 * 2 ^ F.mbits by omega)
    obtain ⟨t, ht⟩ : ∃ t, t = D / (2 * 2 ^ F.mbits) * (2 * 2 ^ F.mbits) := ⟨_, rfl⟩
    have ht' : 2 * 2 ^ F.mbits * (D / (2 * 2 ^ F.mbits)) = t := by rw [ht]; ring
    rw [ht'] at hdm
    have hb : b - t + D / (2 * 2 ^ F.mbits) * (2 * 2 ^ F.mbits) = b := by
      rw [← ht]; omega
    refine ⟨b - t, by omega, by omega, ?_, ?_⟩
    · have := hmodk (b - t) (D / (2 * 2 ^ F.mbits))
      rw [hb] at this
      exact this.symm
    · intro r r0 hr hr0
      have := F.periodic_iter he hm K w d hw hwc hK1 hK2 hband (D / (2 * 2 ^ F.mbits)) (b - t)
        (by omega) (by rw [hb]; exact hb2) r0 r hr0 (by rw [hb]; exact hr)
      rw [hb] at this
      exact this

end FloatFormat

/-! ## Periodicity in the exponent -/

/-- Periodicity in the exponent for `float` and the constant `0x5F375A86`. -/
theorem period_flt :
    (∀ b, 0x00800000 ≤ b → b + 2 ^ 24 < 0x7F800000 →
      bitApprox_flt (b + 2 ^ 24) + 2 ^ 23 = bitApprox_flt b ∧
      binary32.toRat (b + 2 ^ 24) = binary32.toRat b * 4 ∧
      binary32.toRat (bitApprox_flt b) = binary32.toRat (bitApprox_flt (b + 2 ^ 24)) * 2 ∧
      (∀ r r' : ℝ, r = 1 / Real.sqrt (binary32.toRat b : ℝ) →
        r' = 1 / Real.sqrt (binary32.toRat (b + 2 ^ 24) : ℝ) →
        |(binary32.toRat (bitApprox_flt (b + 2 ^ 24)) : ℝ) - r'| / r' =
          |(binary32.toRat (bitApprox_flt b) : ℝ) - r| / r) ∧
      (0x01000000 ≤ b →
        step_flt (b + 2 ^ 24) (bitApprox_flt (b + 2 ^ 24)) + 2 ^ 23 =
          step_flt b (bitApprox_flt b) ∧
        binary32.toRat (step_flt b (bitApprox_flt b)) =
          binary32.toRat (step_flt (b + 2 ^ 24) (bitApprox_flt (b + 2 ^ 24))) * 2 ∧
        ∀ r r' : ℝ, r = 1 / Real.sqrt (binary32.toRat b : ℝ) →
          r' = 1 / Real.sqrt (binary32.toRat (b + 2 ^ 24) : ℝ) →
          |(binary32.toRat (step_flt (b + 2 ^ 24) (bitApprox_flt (b + 2 ^ 24))) : ℝ) - r'| / r' =
            |(binary32.toRat (step_flt b (bitApprox_flt b)) : ℝ) - r| / r)) ∧
    (∀ b, 0x01000000 ≤ b → b < 0x7F800000 →
      ∃ b0, 0x3F000000 ≤ b0 ∧ b0 < 0x40000000 ∧ b0 % 2 ^ 23 = b % 2 ^ 23 ∧
        ∀ r r0 : ℝ, r = 1 / Real.sqrt (binary32.toRat b : ℝ) →
          r0 = 1 / Real.sqrt (binary32.toRat b0 : ℝ) →
          |(binary32.toRat (bitApprox_flt b) : ℝ) - r| / r =
            |(binary32.toRat (bitApprox_flt b0) : ℝ) - r0| / r0 ∧
          |(binary32.toRat (step_flt b (bitApprox_flt b)) : ℝ) - r| / r =
            |(binary32.toRat (step_flt b0 (bitApprox_flt b0)) : ℝ) - r0| / r0) := by
  have e24 : 2 * 2 ^ binary32.mbits = 2 ^ 24 := by decide
  have e23 : 1 * 2 ^ binary32.mbits = 2 ^ 23 := by decide
  have e23' : 2 ^ binary32.mbits = 2 ^ 23 := by decide
  have hK2 : binary32.isFinPos 0x5F375A86 := by unfold FloatFormat.isFinPos; decide
  have hfin : ∀ b, b < 0x7F800000 → binary32.isFinPos b := fun b h => by
    unfold FloatFormat.isFinPos
    exact lt_of_lt_of_le h (by decide)
  constructor
  · intro b h1 h2
    have hb2 : binary32.isFinPos (b + 2 * 2 ^ binary32.mbits) := by rw [e24]; exact hfin _ h2
    have hx := binary32.toRat_shift b 2 (by rw [e23']; exact h1) hb2
    obtain ⟨r1, _, _, r4⟩ := binary32.raw_shift (by decide) 0x5F375A86 (by decide) hK2 b hb2
    have hp := fun r r' hr hr' => (binary32.periodic_step (by decide) (by decide) 0x5F375A86 4096 12
      (by decide) (by decide) (by decide) hK2 band_flt b (by rw [e23']; exact h1) hb2 r r' hr hr')
    rw [e24] at hx r1 r4 hp
    rw [e23] at r1
    rw [← bitApprox_flt_eq b (by omega), ← bitApprox_flt_eq (b + 2 ^ 24) h2] at r1 r4
    simp only [← bitApprox_flt_eq b (show b < 0x7F800000 by omega),
      ← bitApprox_flt_eq (b + 2 ^ 24) h2, ← step_flt_eq] at hp
    refine ⟨r1, by rw [hx]; norm_num, r4, fun r r' hr hr' => (hp r r' hr hr').1, ?_⟩
    intro h3
    obtain ⟨s1, _, _, s4⟩ := binary32.refine_shift (by decide) (by decide) 0x5F375A86 4096 12
      (by decide) (by decide) (by decide) hK2 band_flt b (by rw [e24]; omega) hb2
    rw [e24] at s1 s4
    rw [e23] at s1
    simp only [← bitApprox_flt_eq b (show b < 0x7F800000 by omega),
      ← bitApprox_flt_eq (b + 2 ^ 24) h2, ← step_flt_eq] at s1 s4
    exact ⟨s1, s4, fun r r' hr hr' => (hp r r' hr hr').2 (by omega)⟩
  · intro b h1 h2
    obtain ⟨b0, k1, k2, k3, k4⟩ := binary32.periodic_band (by decide) (by decide) 0x5F375A86 4096 12
      (by decide) (by decide) (by decide) hK2 band_flt b (by rw [e24]; omega) (hfin b h2)
    have l1 : (binary32.bias - 1) * 2 ^ binary32.mbits = 0x3F000000 := by decide
    have l2 : (binary32.bias + 1) * 2 ^ binary32.mbits = 0x40000000 := by decide
    rw [l1] at k1
    rw [l2] at k2
    rw [e23'] at k3
    refine ⟨b0, k1, k2, k3, ?_⟩
    intro r r0 hr hr0
    have := k4 r r0 hr hr0
    simp only [← bitApprox_flt_eq b h2,
      ← bitApprox_flt_eq b0 (show b0 < 0x7F800000 by omega), ← step_flt_eq] at this
    exact this

/-- Periodicity in the exponent for `double` and the constant `0x5FE6EB50C7B537A9`. -/
theorem period_dbl :
    (∀ b, 0x0010000000000000 ≤ b → b + 2 ^ 53 < 0x7FF0000000000000 →
      bitApprox_dbl (b + 2 ^ 53) + 2 ^ 52 = bitApprox_dbl b ∧
      binary64.toRat (b + 2 ^ 53) = binary64.toRat b * 4 ∧
      binary64.toRat (bitApprox_dbl b) = binary64.toRat (bitApprox_dbl (b + 2 ^ 53)) * 2 ∧
      (∀ r r' : ℝ, r = 1 / Real.sqrt (binary64.toRat b : ℝ) →
        r' = 1 / Real.sqrt (binary64.toRat (b + 2 ^ 53) : ℝ) →
        |(binary64.toRat (bitApprox_dbl (b + 2 ^ 53)) : ℝ) - r'| / r' =
          |(binary64.toRat (bitApprox_dbl b) : ℝ) - r| / r) ∧
      (0x0020000000000000 ≤ b →
        step_dbl (b + 2 ^ 53) (bitApprox_dbl (b + 2 ^ 53)) + 2 ^ 52 =
          step_dbl b (bitApprox_dbl b) ∧
        binary64.toRat (step_dbl b (bitApprox_dbl b)) =
          binary64.toRat (step_dbl (b + 2 ^ 53) (bitApprox_dbl (b + 2 ^ 53))) * 2 ∧
        ∀ r r' : ℝ, r = 1 / Real.sqrt (binary64.toRat b : ℝ) →
          r' = 1 / Real.sqrt (binary64.toRat (b + 2 ^ 53) : ℝ) →
          |(binary64.toRat (step_dbl (b + 2 ^ 53) (bitApprox_dbl (b + 2 ^ 53))) : ℝ) - r'| / r' =
            |(binary64.toRat (step_dbl b (bitApprox_dbl b)) : ℝ) - r| / r)) ∧
    (∀ b, 0x0020000000000000 ≤ b → b < 0x7FF0000000000000 →
      ∃ b0, 0x3FE0000000000000 ≤ b0 ∧ b0 < 0x4000000000000000 ∧ b0 % 2 ^ 52 = b % 2 ^ 52 ∧
        ∀ r r0 : ℝ, r = 1 / Real.sqrt (binary64.toRat b : ℝ) →
          r0 = 1 / Real.sqrt (binary64.toRat b0 : ℝ) →
          |(binary64.toRat (bitApprox_dbl b) : ℝ) - r| / r =
            |(binary64.toRat (bitApprox_dbl b0) : ℝ) - r0| / r0 ∧
          |(binary64.toRat (step_dbl b (bitApprox_dbl b)) : ℝ) - r| / r =
            |(binary64.toRat (step_dbl b0 (bitApprox_dbl b0)) : ℝ) - r0| / r0) := by
  have e24 : 2 * 2 ^ binary64.mbits = 2 ^ 53 := by decide
  have e23 : 1 * 2 ^ binary64.mbits = 2 ^ 52 := by decide
  have e23' : 2 ^ binary64.mbits = 2 ^ 52 := by decide
  have hK2 : binary64.isFinPos 0x5FE6EB50C7B537A9 := by unfold FloatFormat.isFinPos; decide
  have hfin : ∀ b, b < 0x7FF0000000000000 → binary64.isFinPos b := fun b h => by
    unfold FloatFormat.isFinPos
    exact lt_of_lt_of_le h (by decide)
  constructor
  · intro b h1 h2
    have hb2 : binary64.isFinPos (b + 2 * 2 ^ binary64.mbits) := by rw [e24]; exact hfin _ h2
    have hx := binary64.toRat_shift b 2 (by rw [e23']; exact h1) hb2
    obtain ⟨r1, _, _, r4⟩ := binary64.raw_shift (by decide) 0x5FE6EB50C7B537A9 (by decide) hK2 b hb2
    have hp := fun r r' hr hr' => (binary64.periodic_step (by decide) (by decide) 0x5FE6EB50C7B537A9 (2 ^ 41) 12
      (by decide) (by decide) (by decide) hK2 band_dbl b (by rw [e23']; exact h1) hb2 r r' hr hr')
    rw [e24] at hx r1 r4 hp
    rw [e23] at r1
    rw [← bitApprox_dbl_eq b (by omega), ← bitApprox_dbl_eq (b + 2 ^ 53) h2] at r1 r4
    simp only [← bitApprox_dbl_eq b (show b < 0x7FF0000000000000 by omega),
      ← bitApprox_dbl_eq (b + 2 ^ 53) h2, ← step_dbl_eq] at hp
    refine ⟨r1, by rw [hx]; norm_num, r4, fun r r' hr hr' => (hp r r' hr hr').1, ?_⟩
    intro h3
    obtain ⟨s1, _, _, s4⟩ := binary64.refine_shift (by decide) (by decide) 0x5FE6EB50C7B537A9 (2 ^ 41) 12
      (by decide) (by decide) (by decide) hK2 band_dbl b (by rw [e24]; omega) hb2
    rw [e24] at s1 s4
    rw [e23] at s1
    simp only [← bitApprox_dbl_eq b (show b < 0x7FF0000000000000 by omega),
      ← bitApprox_dbl_eq (b + 2 ^ 53) h2, ← step_dbl_eq] at s1 s4
    exact ⟨s1, s4, fun r r' hr hr' => (hp r r' hr hr').2 (by omega)⟩
  · intro b h1 h2
    obtain ⟨b0, k1, k2, k3, k4⟩ := binary64.periodic_band (by decide) (by decide) 0x5FE6EB50C7B537A9 (2 ^ 41) 12
      (by decide) (by decide) (by decide) hK2 band_dbl b (by rw [e24]; omega) (hfin b h2)
    have l1 : (binary64.bias - 1) * 2 ^ binary64.mbits = 0x3FE0000000000000 := by decide
    have l2 : (binary64.bias + 1) * 2 ^ binary64.mbits = 0x4000000000000000 := by decide
    rw [l1] at k1
    rw [l2] at k2
    rw [e23'] at k3
    refine ⟨b0, k1, k2, k3, ?_⟩
    intro r r0 hr hr0
    have := k4 r r0 hr hr0
    simp only [← bitApprox_dbl_eq b h2,
      ← bitApprox_dbl_eq b0 (show b0 < 0x7FF0000000000000 by omega), ← step_dbl_eq] at this
    exact this

/-- Of two estimates below `1 / sqrt x`, the larger one is closer, relatively. -/
theorem err_lt_of_below (X Ya Yb : ℚ) (hX : 0 < X) (hYb : 0 < Yb) (hab : Yb < Ya)
    (h : Ya ^ 2 * X ≤ 1) (r : ℝ) (hr : r = 1 / Real.sqrt (X : ℝ)) :
    |(Ya : ℝ) - r| / r < |(Yb : ℝ) - r| / r := by
  have hX0 : (0 : ℝ) < (X : ℝ) := by exact_mod_cast hX
  have hb0 : (0 : ℝ) < (Yb : ℝ) := by exact_mod_cast hYb
  have hab0 : (Yb : ℝ) < (Ya : ℝ) := by exact_mod_cast hab
  rw [hr, relErr_eq _ _ hX0, relErr_eq _ _ hX0]
  obtain ⟨s, hs⟩ : ∃ s, s = Real.sqrt (X : ℝ) := ⟨_, rfl⟩
  have hs0 : 0 < s := by rw [hs]; exact Real.sqrt_pos.2 hX0
  have hss : s ^ 2 = (X : ℝ) := by rw [hs]; exact Real.sq_sqrt (le_of_lt hX0)
  rw [← hs]
  have r1 : (Ya : ℝ) ^ 2 * (X : ℝ) ≤ 1 := by exact_mod_cast h
  have ua : (Ya : ℝ) * s ≤ 1 := by
    by_contra hc
    rw [not_le] at hc
    have : (1 : ℝ) * 1 < (Ya : ℝ) * s * ((Ya : ℝ) * s) :=
      mul_lt_mul'' hc hc (by norm_num) (by norm_num)
    have e : (Ya : ℝ) ^ 2 * (X : ℝ) = (Ya : ℝ) * s * ((Ya : ℝ) * s) := by rw [← hss]; ring
    linarith only [this, e, r1]
  have ub : (Yb : ℝ) * s < (Ya : ℝ) * s := mul_lt_mul_of_pos_right hab0 hs0
  rw [abs_of_nonpos (by linarith only [ua]), abs_of_neg (by linarith only [ua, ub])]
  linarith only [ub]

/-! ## Claims on the periodicity in the exponent -/

/-- C21, as stated, fails on the code for the refined approximation: for the normal pattern
`0x00800003` (biased exponent 1) the raw estimate of `4 x` is the one of `x` minus `2 ^ 23`, but
the kernel returns `0x5EFF911C` for `x` and `0x5E7F911E` for `4 x`, which is not
`0x5EFF911C - 2 ^ 23`, and the relative error of the refined approximation for `4 x` is strictly
smaller than the one for `x` (`0.5 * x` is subnormal and is rounded). -/
theorem C21_refined_estimate_not_periodic_at_exponent_one :
    0x00800000 ≤ 0x00800003 ∧ 0x00800003 + 2 ^ 24 < 0x7F800000 ∧
    bitApprox_flt (0x00800003 + 2 ^ 24) = bitApprox_flt 0x00800003 - 2 ^ 23 ∧
    (fastInvSqrt_flt_V1 1 [0x00800003] [0]).map KState.out = some [0x5EFF911C] ∧
    (fastInvSqrt_flt_V1 1 [0x00800003 + 2 ^ 24] [0]).map KState.out = some [0x5E7F911E] ∧
    step_flt 0x00800003 (bitApprox_flt 0x00800003) = 0x5EFF911C ∧
    step_flt (0x00800003 + 2 ^ 24) (bitApprox_flt (0x00800003 + 2 ^ 24)) = 0x5E7F911E ∧
    0x5E7F911E ≠ 0x5EFF911C - 2 ^ 23 ∧
    (∀ r r4 : ℝ, r = 1 / Real.sqrt (binary32.toRat 0x00800003 : ℝ) →
      r4 = 1 / Real.sqrt (binary32.toRat (0x00800003 + 2 ^ 24) : ℝ) →
      |(binary32.toRat (step_flt (0x00800003 + 2 ^ 24) (bitApprox_flt (0x00800003 + 2 ^ 24))) : ℝ)
          - r4| / r4 <
        |(binary32.toRat (step_flt 0x00800003 (bitApprox_flt 0x00800003)) : ℝ) - r| / r) := by
  have s1 : step_flt 0x00800003 (bitApprox_flt 0x00800003) = 0x5EFF911C := by decide
  have s2 : step_flt (0x00800003 + 2 ^ 24) (bitApprox_flt (0x00800003 + 2 ^ 24)) = 0x5E7F911E := by
    decide
  have x1 : binary32.toRat 0x00800003 = 0x800003 / 2 ^ 149 := by
    rw [toRat_pos binary32 _ 0x800003 1 (by decide) (by decide) (by decide)]
    norm_num [binary32, FloatFormat.bias]
  have x4 : binary32.toRat (0x00800003 + 2 ^ 24) = 0x800003 / 2 ^ 149 * 2 ^ 2 := by
    rw [toRat_pos binary32 _ 0x800003 3 (by decide) (by decide) (by decide)]
    norm_num [binary32, FloatFormat.bias]
  have y1 : binary32.toRat 0x5EFF911C = 0xFF911C * 2 ^ 39 := by
    rw [toRat_pos binary32 _ 0xFF911C 189 (by decide) (by decide) (by decide)]
    norm_num [binary32, FloatFormat.bias]
  have y4 : binary32.toRat 0x5E7F911E = 0xFF911E * 2 ^ 38 := by
    rw [toRat_pos binary32 _ 0xFF911E 188 (by decide) (by decide) (by decide)]
    norm_num [binary32, FloatFormat.bias]
  refine ⟨by decide, by decide, by decide, by decide, by decide, s1, s2, by decide, ?_⟩
  intro r r4 hr hr4
  rw [s1, s2]
  have e := relErr_period (binary32.toRat 0x00800003) (binary32.toRat (0x00800003 + 2 ^ 24))
    (0xFF911E * 2 ^ 39) (binary32.toRat 0x5E7F911E) (by rw [x1, x4]) (by rw [y4]; norm_num)
    r r4 hr hr4
  rw [e]
  exact err_lt_of_below _ _ _ (by rw [x1]; norm_num) (by rw [y1]; norm_num)
    (by rw [y1]; norm_num) (by rw [x1]; norm_num) r hr

/-- C21, amended: (single precision) for every positive normal pattern `b` such that
`b + 2 ^ 24` is also a normal pattern, the raw estimate satisfies
`bitApprox_flt (b + 2 ^ 24) + 2 ^ 23 = bitApprox_flt b`, the value of `b + 2 ^ 24` is four times
the value of `b`, the raw estimate for `4 x` is exactly half the raw estimate for `x`, and the
relative errors of the raw estimates for `x` and `4 x` coincide; if moreover the biased exponent
of `b` is at least `2` (`0x01000000 ≤ b`), the refined estimate satisfies the same relation,
its value for `4 x` is half its value for `x`, and the relative errors of the refined estimates
coincide. Every normal pattern `b` with biased exponent at least `2` has the raw and the refined
relative error of a pattern `b0` of the band `[0x3F000000, 0x40000000)` (values in `[0.5, 2.0)`)
with the same significand field. Double precision: likewise with `2 ^ 53`, `2 ^ 52`, biased
exponent at least `2` (`0x0020000000000000 ≤ b`) and the band
`[0x3FE0000000000000, 0x4000000000000000)`. -/
theorem C21_periodic_in_exponent :
    (∀ b, 0x00800000 ≤ b → b + 2 ^ 24 < 0x7F800000 →
      bitApprox_flt (b + 2 ^ 24) + 2 ^ 23 = bitApprox_flt b ∧
      binary32.toRat (b + 2 ^ 24) = binary32.toRat b * 4 ∧
      binary32.toRat (bitApprox_flt b) = binary32.toRat (bitApprox_flt (b + 2 ^ 24)) * 2 ∧
      (∀ r r' : ℝ, r = 1 / Real.sqrt (binary32.toRat b : ℝ) →
        r' = 1 / Real.sqrt (binary32.toRat (b + 2 ^ 24) : ℝ) →
        |(binary32.toRat (bitApprox_flt (b + 2 ^ 24)) : ℝ) - r'| / r' =
          |(binary32.toRat (bitApprox_flt b) : ℝ) - r| / r) ∧
      (0x01000000 ≤ b →
        step_flt (b + 2 ^ 24) (bitApprox_flt (b + 2 ^ 24)) + 2 ^ 23 =
          step_flt b (bitApprox_flt b) ∧
        binary32.toRat (step_flt b (bitApprox_flt b)) =
          binary32.toRat (step_flt (b + 2 ^ 24) (bitApprox_flt (b + 2 ^ 24))) * 2 ∧
        ∀ r r' : ℝ, r = 1 / Real.sqrt (binary32.toRat b : ℝ) →
          r' = 1 / Real.sqrt (binary32.toRat (b + 2 ^ 24) : ℝ) →
          |(binary32.toRat (step_flt (b + 2 ^ 24) (bitApprox_flt (b + 2 ^ 24))) : ℝ) - r'| / r' =
            |(binary32.toRat (step_flt b (bitApprox_flt b)) : ℝ) - r| / r)) ∧
    (∀ b, 0x01000000 ≤ b → b < 0x7F800000 →
      ∃ b0, 0x3F000000 ≤ b0 ∧ b0 < 0x40000000 ∧ b0 % 2 ^ 23 = b % 2 ^ 23 ∧
        ∀ r r0 : ℝ, r = 1 / Real.sqrt (binary32.toRat b : ℝ) →
          r0 = 1 / Real.sqrt (binary32.toRat b0 : ℝ) →
          |(binary32.toRat (bitApprox_flt b) : ℝ) - r| / r =
            |(binary32.toRat (bitApprox_flt b0) : ℝ) - r0| / r0 ∧
          |(binary32.toRat (step_flt b (bitApprox_flt b)) : ℝ) - r| / r =
            |(binary32.toRat (step_flt b0 (bitApprox_flt b0)) : ℝ) - r0| / r0) ∧
    (∀ b, 0x0010000000000000 ≤ b → b + 2 ^ 53 < 0x7FF0000000000000 →
      bitApprox_dbl (b + 2 ^ 53) + 2 ^ 52 = bitApprox_dbl b ∧
      binary64.toRat (b + 2 ^ 53) = binary64.toRat b * 4 ∧
      binary64.toRat (bitApprox_dbl b) = binary64.toRat (bitApprox_dbl (b + 2 ^ 53)) * 2 ∧
      (∀ r r' : ℝ, r = 1 / Real.sqrt (binary64.toRat b : ℝ) →
        r' = 1 / Real.sqrt (binary64.toRat (b + 2 ^ 53) : ℝ) →
        |(binary64.toRat (bitApprox_dbl (b + 2 ^ 53)) : ℝ) - r'| / r' =
          |(binary64.toRat (bitApprox_dbl b) : ℝ) - r| / r) ∧
      (0x0020000000000000 ≤ b →
        step_dbl (b + 2 ^ 53) (bitApprox_dbl (b + 2 ^ 53)) + 2 ^ 52 =
          step_dbl b (bitApprox_dbl b) ∧
        binary64.toRat (step_dbl b (bitApprox_dbl b)) =
          binary64.toRat (step_dbl (b + 2 ^ 53) (bitApprox_dbl (b + 2 ^ 53))) * 2 ∧
        ∀ r r' : ℝ, r = 1 / Real.sqrt (binary64.toRat b : ℝ) →
          r' = 1 / Real.sqrt (binary64.toRat (b + 2 ^ 53) : ℝ) →
          |(binary64.toRat (step_dbl (b + 2 ^ 53) (bitApprox_dbl (b + 2 ^ 53))) : ℝ) - r'| / r' =
            |(binary64.toRat (step_dbl b (bitApprox_dbl b)) : ℝ) - r| / r)) ∧
    (∀ b, 0x0020000000000000 ≤ b → b < 0x7FF0000000000000 →
      ∃ b0, 0x3FE0000000000000 ≤ b0 ∧ b0 < 0x4000000000000000 ∧ b0 % 2 ^ 52 = b % 2 ^ 52 ∧
        ∀ r r0 : ℝ, r = 1 / Real.sqrt (binary64.toRat b : ℝ) →
          r0 = 1 / Real.sqrt (binary64.toRat b0 : ℝ) →
          |(binary64.toRat (bitApprox_dbl b) : ℝ) - r| / r =
            |(binary64.toRat (bitApprox_dbl b0) : ℝ) - r0| / r0 ∧
          |(binary64.toRat (step_dbl b (bitApprox_dbl b)) : ℝ) - r| / r =
            |(binary64.toRat (step_dbl b0 (bitApprox_dbl b0)) : ℝ) - r0| / r0) :=
  ⟨period_flt.1, period_flt.2, period_dbl.1, period_dbl.2⟩

/-- Instance of C21 (amended) at `1.0` and `4.0`, single and double precision. -/
theorem C21_periodic_in_exponent_witness :
    bitApprox_flt (0x3F800000 + 2 ^ 24) + 2 ^ 23 = bitApprox_flt 0x3F800000 ∧
    step_flt (0x3F800000 + 2 ^ 24) (bitApprox_flt (0x3F800000 + 2 ^ 24)) + 2 ^ 23 =
      step_flt 0x3F800000 (bitApprox_flt 0x3F800000) ∧
    (∃ b0, 0x3F000000 ≤ b0 ∧ b0 < 0x40000000 ∧ b0 % 2 ^ 23 = 0x40800000 % 2 ^ 23) ∧
    bitApprox_dbl (0x3FF0000000000000 + 2 ^ 53) + 2 ^ 52 = bitApprox_dbl 0x3FF0000000000000 ∧
    step_dbl (0x3FF0000000000000 + 2 ^ 53) (bitApprox_dbl (0x3FF0000000000000 + 2 ^ 53)) + 2 ^ 52 =
      step_dbl 0x3FF0000000000000 (bitApprox_dbl 0x3FF0000000000000) :=
  ⟨(C21_periodic_in_exponent.1 0x3F800000 (by decide) (by decide)).1,
    ((C21_periodic_in_exponent.1 0x3F800000 (by decide) (by decide)).2.2.2.2 (by decide)).1,
    (C21_periodic_in_exponent.2.1 0x40800000 (by decide) (by decide)).imp
      (fun _ h => ⟨h.1, h.2.1, h.2.2.1⟩),
    (C21_periodic_in_exponent.2.2.1 0x3FF0000000000000 (by decide) (by decide)).1,
    ((C21_periodic_in_exponent.2.2.1 0x3FF0000000000000 (by decide) (by decide)).2.2.2.2
      (by decide)).1⟩

/-! ## The prior and the candidate counts of the searches -/

/-- `magicnumber_dbl` in terms of the result `s32` of `magicnumber_flt` and the prior
`P = (uint64_t)init_dbl`: for every fuel from `33` on both are defined, `P` lies in
`[2 ^ 62, 2 ^ 63)`, and the rounds are `searchRounds` from `P - 2 ^ 32`. -/
theorem magicnumber_dbl_prior (E32 E64 : Nat → Nat) (fuel : Nat) (hf : 33 ≤ fuel) :
    ∃ s32 P, magicnumber_flt fuel E32 = some s32 ∧
      binary64.toUInt 64 (init_dbl s32.best.minMaxC) = some P ∧ 2 ^ 62 ≤ P ∧ P < 2 ^ 63 ∧
      magicnumber_dbl fuel E32 E64 =
        some ⟨laterBest 64 E64 7 (firstBest E64 (P - 2 ^ 32) (16 ^ 7)),
          searchRounds 64 E64 (P - 2 ^ 32) 7⟩ := by
  obtain ⟨i, h1, h2, h3⟩ := init_dbl_range _ (magicnumber_flt_lt E32)
  refine ⟨_, i, magicnumber_flt_run E32 fuel hf, h1, h2, h3, ?_⟩
  unfold magicnumber_dbl
  rw [magicnumber_flt_run E32 fuel hf]
  simp only [h1]
  have e1 : sub64 i (2 ^ 32) = i - 2 ^ 32 := by
    unfold sub64
    omega
  have e2 : (i - 2 ^ 32 + 2 ^ 32) % 2 ^ 64 = i - 2 ^ 32 + 16 ^ (7 + 1) := by
    omega
  rw [e1, e2]
  exact searchLoop_run 64 E64 (i - 2 ^ 32) 7 fuel fuel hf (by omega) (by omega)

/-- The first round ends with one of its candidates as soon as one of them has an error below
`DBL_MAX`. -/
theorem firstBest_grid (E : Nat → Nat) (minC δ : Nat)
    (h : ∃ c ∈ List.range' minC 16 δ, binary64.lt (E c) DBL_MAX = true) :
    ∃ i, i < 16 ∧ (firstBest E minC δ).minMaxC = minC + δ * i := by
  obtain ⟨c, hc, hlt⟩ := h
  rcases scan_cases E (List.range' minC 16 δ) ⟨DBL_MAX, 0⟩ with h | h
  · have := h.1 c hc
    rw [hlt] at this
    exact absurd this (by decide)
  · obtain ⟨_, _, _, pre, post, h4, _⟩ := h
    have hm : (firstBest E minC δ).minMaxC ∈
        pre ++ (firstBest E minC δ).minMaxC :: post :=
      List.mem_append_right _ (List.mem_cons_self _ _)
    unfold firstBest at hm ⊢
    rw [← h4] at hm
    exact List.mem_range'.1 hm

/-- The first round keeps the initial `(DBL_MAX, 0)` when none of its candidates has an error
below `DBL_MAX`. -/
theorem firstBest_none (E : Nat → Nat) (minC δ : Nat)
    (h : ∀ c ∈ List.range' minC 16 δ, binary64.lt (E c) DBL_MAX = false) :
    firstBest E minC δ = ⟨DBL_MAX, 0⟩ := by
  rcases scan_cases E (List.range' minC 16 δ) ⟨DBL_MAX, 0⟩ with h' | h'
  · exact h'.2
  · obtain ⟨⟨c, hc, hlt⟩, _⟩ := h'
    rw [h c hc] at hlt
    exact absurd hlt (by decide)

/-- Later rounds from the initial `minMaxC = 0` have no candidate. -/
theorem laterRounds_zero (w : Nat) (E : Nat → Nat) (n : Nat) (b : Best) (hb : b.minMaxC = 0) :
    ∀ r ∈ laterRounds w E n b, r.cands = [] := by
  intro r hr
  rw [List.eq_nil_iff_forall_not_mem]
  intro c hc
  have := ((laterRounds_bounds w E n b).2 r hr c hc).2.2
  omega

/-- Later rounds from an incumbent with room for its window have 32 candidates each. -/
theorem laterRounds_count (w : Nat) (E : Nat → Nat) (n : Nat) (b : Best)
    (h1 : 2 * 16 ^ n ≤ b.minMaxC) (h2 : b.minMaxC + 16 ^ n < 2 ^ w) :
    ∀ r ∈ laterRounds w E n b, r.cands.length = 32 := by
  intro r hr
  obtain ⟨k, _, _, _, _, hc, _⟩ := laterRounds_local w E n b r hr
  have hin := (laterRounds_window w E n b h1 h2 r hr).2.2.2.2.1
  rw [hc] at hin ⊢
  unfold windowCands at hin ⊢
  split
  · exact List.length_range' _ _ _
  · rename_i hneg
    rw [if_neg hneg] at hin
    cases hin

/-- Number of later rounds. -/
theorem laterRounds_length (w : Nat) (E : Nat → Nat) (n : Nat) (b : Best) :
    (laterRounds w E n b).length = n := by
  have := congrArg List.length (laterRounds_delta w E n b)
  simpa using this

/-- Sum of a constant over a list. -/
theorem sum_map_const {α : Type} (l : List α) (f : α → Nat) (k : Nat)
    (h : ∀ a ∈ l, f a = k) : (l.map f).sum = k * l.length := by
  induction l with
  | nil => simp
  | cons a l ih =>
    rw [List.map_cons, List.sum_cons, h a (List.mem_cons_self _ _),
      ih (fun x hx => h x (List.mem_cons_of_mem _ hx)), List.length_cons]
    ring

/-- Candidate counts of a search with room for its windows: 16 in the first round; 32 in each
later round when a candidate of the first round has an error below `DBL_MAX`, none
otherwise. -/
theorem searchRounds_counts (w : Nat) (E : Nat → Nat) (minC n : Nat)
    (h1 : 2 * 16 ^ n ≤ minC) (hm : minC + 16 ^ (n + 1) < 2 ^ w) :
    (∃ r, (searchRounds w E minC n).head? = some r ∧
      r.cands = List.range' minC 16 (16 ^ n) ∧ r.cands.length = 16) ∧
    ((∃ r ∈ (searchRounds w E minC n).head?, ∃ c ∈ r.cands,
        binary64.lt (E c) DBL_MAX = true) →
      (∀ r ∈ (searchRounds w E minC n).tail, r.cands.length = 32) ∧
      ((searchRounds w E minC n).map fun r => r.cands.length).sum = 16 + 32 * n) ∧
    ((∀ r ∈ (searchRounds w E minC n).head?, ∀ c ∈ r.cands,
        binary64.lt (E c) DBL_MAX = false) →
      (∀ r ∈ (searchRounds w E minC n).tail, r.cands.length = 0) ∧
      ((searchRounds w E minC n).map fun r => r.cands.length).sum = 16) := by
  unfold searchRounds
  simp only [List.head?_cons, List.tail_cons, Option.mem_def, Option.some.injEq,
    List.map_cons, List.sum_cons, List.length_range']
  refine ⟨⟨_, rfl, rfl, List.length_range' _ _ _⟩, ?_, ?_⟩
  · rintro ⟨r, rfl, c, hc, hlt⟩
    obtain ⟨i, hi, e⟩ := firstBest_grid E minC (16 ^ n) ⟨c, hc, hlt⟩
    have p := pow16_succ n
    have q := pow16_pos n
    have hi' : 16 ^ n * i ≤ 16 ^ n * 15 := Nat.mul_le_mul_left _ (by omega)
    have hcnt := laterRounds_count w E n (firstBest E minC (16 ^ n))
      (by rw [e]; omega) (by rw [e]; omega)
    refine ⟨hcnt, ?_⟩
    rw [sum_map_const _ _ 32 hcnt, laterRounds_length]
  · intro h
    have e := firstBest_none E minC (16 ^ n) (fun c hc => h _ rfl c hc)
    have hz := laterRounds_zero w E n (firstBest E minC (16 ^ n)) (by rw [e])
    have hcnt : ∀ r ∈ laterRounds w E n (firstBest E minC (16 ^ n)), r.cands.length = 0 :=
      fun r hr => by rw [hz r hr]; rfl
    refine ⟨hcnt, ?_⟩
    rw [sum_map_const _ _ 0 hcnt]
    omega

/-! ## Claim on the window of `magicnumber_dbl` -/

/-- C24, as stated, fails: with the error `1.0` for every candidate, `magicnumber_flt` returns
`0x5F300000`, the prior `(uint64_t)init_dbl` is `0x5FE6000000000000`, and the first window of
`magicnumber_dbl` is `[0x5FE5FFFF00000000, 0x5FE6000000000000)`: the prior is its exclusive
upper bound, not a value it contains. -/
theorem C24_prior_is_not_in_first_window :
    ∃ s32 s r, magicnumber_flt 33 (fun _ => 0x3FF0000000000000) = some s32 ∧
      s32.best.minMaxC = 0x5F300000 ∧
      binary64.toUInt 64 (init_dbl s32.best.minMaxC) = some 0x5FE6000000000000 ∧
      magicnumber_dbl 33 (fun _ => 0x3FF0000000000000) (fun _ => 0x3FF0000000000000) = some s ∧
      s.rounds.head? = some r ∧ r.minC = 0x5FE5FFFF00000000 ∧ r.maxC = 0x5FE6000000000000 ∧
      ¬ (r.minC ≤ 0x5FE6000000000000 ∧ 0x5FE6000000000000 < r.maxC) := by
  obtain ⟨s32, P, h1, h2, _, _, h5⟩ :=
    magicnumber_dbl_prior (fun _ => 0x3FF0000000000000) (fun _ => 0x3FF0000000000000) 33
      (by decide)
  have hc : s32.best.minMaxC = 0x5F300000 := by
    rw [magicnumber_flt_run _ 33 (by decide)] at h1
    cases h1
    decide
  have hP : P = 0x5FE6000000000000 := by
    rw [hc] at h2
    have : binary64.toUInt 64 (init_dbl 0x5F300000) = some 0x5FE6000000000000 := by decide
    rw [this] at h2
    cases h2
    rfl
  subst hP
  refine ⟨s32, _, _, h1, hc, by rw [hc]; decide, h5, rfl, ?_, ?_, ?_⟩
  · decide
  · decide
  · decide

/-- C24, amended: for every pair of error functions and every fuel from `33` on, with `P` the
prior `(uint64_t)init_dbl` derived from the result of `magicnumber_flt`, the first window of
`magicnumber_dbl` is `[P - 2^32, P)` with step `2^28`: the prior is its exclusive upper bound,
and the candidates of the first round are `P - 2^32 + k * 2^28` for `k < 16`, all below `P`. -/
theorem C24_first_window_ends_at_prior (E32 E64 : Nat → Nat) (fuel : Nat) (hf : 33 ≤ fuel) :
    ∃ s32 P s r, magicnumber_flt fuel E32 = some s32 ∧
      binary64.toUInt 64 (init_dbl s32.best.minMaxC) = some P ∧
      magicnumber_dbl fuel E32 E64 = some s ∧ s.rounds.head? = some r ∧
      2 ^ 32 ≤ P ∧ r.minC = P - 2 ^ 32 ∧ r.maxC = P ∧ r.delta = 2 ^ 28 ∧
      r.cands = List.range' (P - 2 ^ 32) 16 (2 ^ 28) ∧
      (∀ c, c ∈ r.cands ↔ ∃ k, k < 16 ∧ c = P - 2 ^ 32 + 2 ^ 28 * k) ∧
      ∀ c ∈ r.cands, P - 2 ^ 32 ≤ c ∧ c + 2 ^ 28 ≤ P := by
  obtain ⟨s32, P, h1, h2, h3, h4, h5⟩ := magicnumber_dbl_prior E32 E64 fuel hf
  have p7 : (16 : Nat) ^ 7 = 2 ^ 28 := by norm_num
  have p8 : (16 : Nat) ^ (7 + 1) = 2 ^ 32 := by norm_num
  refine ⟨s32, P, _, _, h1, h2, h5, rfl, by omega, rfl, ?_, ?_, ?_, ?_, ?_⟩
  · show P - 2 ^ 32 + 16 ^ (7 + 1) = P
    omega
  · exact p7
  · show List.range' (P - 2 ^ 32) 16 (16 ^ 7) = _
    rw [p7]
  · intro c
    show c ∈ List.range' (P - 2 ^ 32) 16 (16 ^ 7) ↔ _
    rw [p7, List.mem_range']
  · intro c hc
    have hc' : c ∈ List.range' (P - 2 ^ 32) 16 (16 ^ 7) := hc
    rw [p7] at hc'
    obtain ⟨k, hk, e⟩ := List.mem_range'.1 hc'
    omega

/-- C24 (amended) at fuel `33` and the error functions `c ↦ c`. -/
theorem C24_first_window_ends_at_prior_witness :
    ∃ s32 P s r, magicnumber_flt 33 (fun c => c) = some s32 ∧
      binary64.toUInt 64 (init_dbl s32.best.minMaxC) = some P ∧
      magicnumber_dbl 33 (fun c => c) (fun c => c) = some s ∧ s.rounds.head? = some r ∧
      2 ^ 32 ≤ P ∧ r.minC = P - 2 ^ 32 ∧ r.maxC = P ∧ r.delta = 2 ^ 28 ∧
      r.cands = List.range' (P - 2 ^ 32) 16 (2 ^ 28) ∧
      (∀ c, c ∈ r.cands ↔ ∃ k, k < 16 ∧ c = P - 2 ^ 32 + 2 ^ 28 * k) ∧
      ∀ c ∈ r.cands, P - 2 ^ 32 ≤ c ∧ c + 2 ^ 28 ≤ P :=
  C24_first_window_ends_at_prior (fun c => c) (fun c => c) 33 (by decide)

/-- Range of the candidates and of the result of a search from the window
`[minC, minC + 16 ^ (n + 1))`: every candidate `c` has
`15 * minC + 16 ≤ 15 * c + 16 ^ (n + 1)` and `c < minC + 16 ^ (n + 1)`; the result is the
initial `(DBL_MAX, 0)` or lies in the same range, the latter when a candidate of the first
round has an error below `DBL_MAX`. -/
theorem searchRounds_range (w : Nat) (E : Nat → Nat) (minC n : Nat) :
    (∀ r ∈ searchRounds w E minC n, ∀ c ∈ r.cands,
      15 * minC + 16 ≤ 15 * c + 16 ^ (n + 1) ∧ c < minC + 16 ^ (n + 1)) ∧
    (laterBest w E n (firstBest E minC (16 ^ n)) = ⟨DBL_MAX, 0⟩ ∨
      (15 * minC + 16 ≤ 15 * (laterBest w E n (firstBest E minC (16 ^ n))).minMaxC +
          16 ^ (n + 1) ∧
        (laterBest w E n (firstBest E minC (16 ^ n))).minMaxC < minC + 16 ^ (n + 1))) ∧
    ((∃ c ∈ List.range' minC 16 (16 ^ n), binary64.lt (E c) DBL_MAX = true) →
      15 * minC + 16 ≤ 15 * (laterBest w E n (firstBest E minC (16 ^ n))).minMaxC +
          16 ^ (n + 1) ∧
        (laterBest w E n (firstBest E minC (16 ^ n))).minMaxC < minC + 16 ^ (n + 1)) := by
  obtain ⟨⟨hb1, hb2⟩, hc⟩ := laterRounds_bounds w E n (firstBest E minC (16 ^ n))
  have p := pow16_succ n
  have q := pow16_pos n
  have hgrid : (∃ i, i < 16 ∧ (firstBest E minC (16 ^ n)).minMaxC = minC + 16 ^ n * i) →
      15 * minC + 16 ≤ 15 * (laterBest w E n (firstBest E minC (16 ^ n))).minMaxC +
          16 ^ (n + 1) ∧
        (laterBest w E n (firstBest E minC (16 ^ n))).minMaxC < minC + 16 ^ (n + 1) := by
    rintro ⟨i, hi, e⟩
    have hi' : 16 ^ n * i ≤ 16 ^ n * 15 := Nat.mul_le_mul_left _ (by omega)
    omega
  refine ⟨?_, ?_, ?_⟩
  · intro r hr c hcr
    rcases (mem_searchRounds w E minC n r).1 hr with e | e
    · subst e
      obtain ⟨i, hi, e⟩ := List.mem_range'.1 hcr
      have hi' : 16 ^ n * i ≤ 16 ^ n * 15 := Nat.mul_le_mul_left _ (by omega)
      omega
    · obtain ⟨k1, k2, k3⟩ := hc r e c hcr
      rcases firstBest_cases E minC (16 ^ n) with h | ⟨i, hi, h⟩
      · rw [h] at k3
        exact absurd k3 (Nat.lt_irrefl 0)
      · have hi' : 16 ^ n * i ≤ 16 ^ n * 15 := Nat.mul_le_mul_left _ (by omega)
        omega
  · rcases firstBest_cases E minC (16 ^ n) with h | h
    · left
      rw [h]
      exact laterBest_zero w E n _ rfl
    · right
      exact hgrid h
  · intro h
    exact hgrid (firstBest_grid E minC (16 ^ n) h)

/-! ## The sample loops -/

/-- The sample loop in closed form: from `m = stride * j` with `k` iterations left it
evaluates the samples `base + stride * i` for `i = j, ..., j + k - 1`, in this order, without
wrap of `m` or of `conv.x`. -/
theorem sampleLoop_run (w base bound stride : Nat) (relErr : Nat → Nat) (N : Nat)
    (hb : bound = stride * N) (hs : 0 < stride) (hw : bound + stride ≤ 2 ^ w)
    (hbase : base + bound ≤ 2 ^ w) :
    ∀ (k j e : Nat) (xs : List Nat) (fuel : Nat), j + k = N → k < fuel →
      sampleLoop w base bound stride relErr fuel (stride * j) e xs =
        some (maxErrorOver relErr ((List.range' j k).map fun i => base + stride * i) e,
          xs ++ (List.range' j k).map fun i => base + stride * i) := by
  intro k
  induction k with
  | zero =>
    intro j e xs fuel hj hf
    obtain ⟨g, rfl⟩ : ∃ g, fuel = g + 1 := ⟨fuel - 1, by omega⟩
    have : ¬ stride * j < bound := by
      rw [hb, show j = N by omega]
      exact Nat.lt_irrefl _
    simp [sampleLoop, this, maxErrorOver]
  | succ k ih =>
    intro j e xs fuel hj hf
    obtain ⟨g, rfl⟩ : ∃ g, fuel = g + 1 := ⟨fuel - 1, by omega⟩
    have hjN : j + 1 ≤ N := by omega
    have hmul : stride * (j + 1) ≤ stride * N := Nat.mul_le_mul_left _ hjN
    have hexp : stride * (j + 1) = stride * j + stride := by ring
    have hlt : stride * j < bound := by omega
    have h1 : (base + stride * j) % 2 ^ w = base + stride * j :=
      Nat.mod_eq_of_lt (by omega)
    have h2 : (stride * j + stride) % 2 ^ w = stride * (j + 1) := by
      rw [Nat.mod_eq_of_lt (by omega), hexp]
    unfold sampleLoop
    simp only [hlt, if_true, h1, h2]
    rw [ih (j + 1) _ _ g (by omega) (by omega)]
    simp [List.range'_succ, maxErrorOver]

/-- The samples of `magicnumber_flt`, for every candidate: the patterns `0x3F000000 + m`,
`m < 2^24`. -/
theorem samples_flt_run (relErr : Nat → Nat → Nat) (c fuel : Nat) (hf : 2 ^ 24 < fuel) :
    samples_flt fuel relErr c =
      some (maxErrorOver (relErr c) ((List.range (2 ^ 24)).map fun m => 0x3F000000 + m) 0,
        (List.range (2 ^ 24)).map fun m => 0x3F000000 + m) := by
  have h := sampleLoop_run 32 0x3F000000 (1 <<< 24) 1 (relErr c) (2 ^ 24) (by decide)
    (by decide) (by decide) (by decide) (2 ^ 24) 0 0 [] fuel (by decide) hf
  unfold samples_flt
  rw [Nat.mul_zero] at h
  rw [h, List.nil_append, List.range_eq_range']
  simp only [Nat.one_mul]

/-- The samples of `magicnumber_dbl`, for every candidate: the patterns
`0x3FE * 2^52 + 2^28 * k`, `k < 2^25`. -/
theorem samples_dbl_run (relErr : Nat → Nat → Nat) (c fuel : Nat) (hf : 2 ^ 25 < fuel) :
    samples_dbl fuel relErr c =
      some (maxErrorOver (relErr c)
          ((List.range (2 ^ 25)).map fun k => 0x3FE * 2 ^ 52 + 2 ^ 28 * k) 0,
        (List.range (2 ^ 25)).map fun k => 0x3FE * 2 ^ 52 + 2 ^ 28 * k) := by
  have h := sampleLoop_run 64 ((0x3FE * (1 <<< 52)) % 2 ^ 64) (((1 <<< 52) * 2) % 2 ^ 64)
    (1 <<< 28) (relErr c) (2 ^ 25) (by decide) (by decide) (by decide) (by decide)
    (2 ^ 25) 0 0 [] fuel (by decide) hf
  unfold samples_dbl
  rw [Nat.mul_zero] at h
  simp only []
  rw [h, List.nil_append, List.range_eq_range']
  have e1 : (0x3FE * (1 <<< 52)) % 2 ^ 64 = 0x3FE * 2 ^ 52 := by decide
  have e2 : (1 <<< 28 : Nat) = 2 ^ 28 := by decide
  rw [e1, e2]

/-- C23: in exact arithmetic the prior `1.5 * 2^52 * (1023 - sigma)` with
`sigma = 127 - c / (1.5 * 2^23)` is `c * 2^29 + 1344 * 2^52`, which is `0x5400000000000000`
plus `c` shifted left by 29 bits.  The value `init_dbl` of the source is the same expression in
`double` arithmetic, on constants that have exactly the values `1.5`, `2^23`, `2^52`, `127`
and `1023` (for `c = 0x5F375A86` the converted prior is exactly `c * 2^29 + 1344 * 2^52`), and
`magicnumber_dbl` is `magicnumber_flt` followed by the search from the window that this prior
gives: no other prior enters. -/
theorem C23_prior_from_single_result :
    (∀ c32 : Nat, init_dbl_exact c32 = (c32 : ℚ) * 2 ^ 29 + 1344 * 2 ^ 52 ∧
      init_dbl_exact c32 = ((0x5400000000000000 + c32 <<< 29 : Nat) : ℚ)) ∧
    (∀ c32 : Nat, init_dbl c32 = initDblWith muld subd divd threehalfs_d (pow_2 23) (pow_2 52)
      (binary64.ofNat 127) (binary64.ofNat 1023) (binary64.ofNat c32)) ∧
    (binary64.toRat threehalfs_d = 3 / 2 ∧ binary64.toRat (pow_2 23) = 2 ^ 23 ∧
      binary64.toRat (pow_2 52) = 2 ^ 52 ∧ binary64.toRat (binary64.ofNat 127) = 127 ∧
      binary64.toRat (binary64.ofNat 1023) = 1023 ∧
      binary64.toRat (binary64.ofNat 0x5F375A86) = 0x5F375A86) ∧
    binary64.toUInt 64 (init_dbl 0x5F375A86) = some (0x5F375A86 * 2 ^ 29 + 1344 * 2 ^ 52) ∧
    (∀ (E32 E64 : Nat → Nat) (fuel : Nat), magicnumber_dbl fuel E32 E64 =
      (magicnumber_flt fuel E32).bind fun s32 =>
        (binary64.toUInt 64 (init_dbl s32.best.minMaxC)).bind fun P =>
          searchLoop 64 E64 fuel fuel (sub64 P (2 ^ 32)) ((sub64 P (2 ^ 32) + 2 ^ 32) % 2 ^ 64)
            (2 ^ 28) ⟨DBL_MAX, 0⟩ []) := by
  have hbias : binary64.bias = 1023 := by decide
  have hmb : binary64.mbits = 52 := rfl
  refine ⟨?_, fun _ => rfl, ⟨toRat_threehalfs_d, ?_, ?_, ?_, ?_, ?_⟩, by decide, ?_⟩
  · intro c32
    have e : init_dbl_exact c32 = (c32 : ℚ) * 2 ^ 29 + 1344 * 2 ^ 52 := by
      unfold init_dbl_exact initDblWith
      field_simp
      ring
    refine ⟨e, ?_⟩
    rw [e, Nat.shiftLeft_eq]
    push_cast
    norm_num
    ring
  · rw [toRat_pos binary64 _ 0x10000000000000 1046 (by decide) (by decide) (by decide)]
    norm_num [hbias, hmb]
  · rw [toRat_pos binary64 _ 0x10000000000000 1075 (by decide) (by decide) (by decide)]
    norm_num [hbias, hmb]
  · rw [toRat_pos binary64 _ 0x1FC00000000000 1029 (by decide) (by decide) (by decide)]
    norm_num [hbias, hmb]
  · rw [toRat_pos binary64 _ 0x1FF80000000000 1032 (by decide) (by decide) (by decide)]
    norm_num [hbias, hmb]
  · rw [toRat_pos binary64 _ 0x17CDD6A1800000 1053 (by decide) (by decide) (by decide)]
    norm_num [hbias, hmb]
  · intro E32 E64 fuel
    unfold magicnumber_dbl
    cases magicnumber_flt fuel E32 with
    | none => rfl
    | some s32 =>
      simp only [Option.bind]
      cases binary64.toUInt 64 (init_dbl s32.best.minMaxC) with
      | none => rfl
      | some P => rfl

/-! ## The loop of `execute` -/

/-- The loop of `execute` for a kernel that returns on every output array of length `n`: from
`i ≤ loop` it calls the kernel `loop - i` times. -/
theorem execute_loop_run (fn : Func) (n : Nat) (vals : List Nat) (loop : Int)
    (hk : ∀ out : List Nat, out.length = n →
      ∃ st, fn.run n vals out = some st ∧ st.out.length = n) :
    ∀ (k : Nat) (i : Int) (out : List Nat) (calls fuel : Nat), i + k = loop → k < fuel →
      out.length = n →
      ∃ out1, execute_loop fn n vals loop fuel i out calls = some (out1, calls + k) ∧
        out1.length = n := by
  intro k
  induction k with
  | zero =>
    intro i out calls fuel hi hf ho
    obtain ⟨g, rfl⟩ : ∃ g, fuel = g + 1 := ⟨fuel - 1, by omega⟩
    have : ¬ i < loop := by omega
    exact ⟨out, by simp [execute_loop, this], ho⟩
  | succ k ih =>
    intro i out calls fuel hi hf ho
    obtain ⟨g, rfl⟩ : ∃ g, fuel = g + 1 := ⟨fuel - 1, by omega⟩
    have hlt : i < loop := by omega
    obtain ⟨st, hst, hl⟩ := hk out ho
    obtain ⟨out1, h1, h2⟩ := ih (i + 1) st.out (calls + 1) g (by omega) (by omega) hl
    refine ⟨out1, ?_, h2⟩
    unfold execute_loop
    simp only [hlt, if_true, hst]
    rw [h1]
    congr 2
    omega

/-- The loop of `execute` does not call the kernel when `loop ≤ 0`. -/
theorem execute_loop_none (fn : Func) (n : Nat) (vals : List Nat) (loop : Int) (h : loop ≤ 0)
    (out : List Nat) (fuel : Nat) :
    execute_loop fn n vals loop (fuel + 1) 0 out 0 = some (out, 0) := by
  have : ¬ (0 : Int) < loop := by omega
  simp [execute_loop, this]

/-- For a value `0 < X < 2^31` of `-B`, `execute` calls the kernel `fastInvSqrt_flt_V1` or
`fastInvSqrt_dbl_V1` exactly `X` times. -/
theorem execute_small_loop (db n : Nat) (vals out0 : List Nat) (X fuel : Nat) (hdb : db < 2)
    (hn : n < 2 ^ 64) (hv : vals.length = n) (ho : out0.length = n)
    (hX : X < 2 ^ 31) (hf : X < fuel) :
    ∃ out, execute db "1" n vals (X : Int) out0 fuel = some (.ret ⟨vals, out, X⟩) ∧
      out.length = n := by
  have hl : longToInt (X : Int) = (X : Int) := by
    unfold longToInt
    omega
  have key : ∀ fn : Func, (fn = .fastInvSqrt_flt_V1 ∨ fn = .fastInvSqrt_dbl_V1) →
      ∃ out, execute_loop fn n vals (X : Int) fuel 0 out0 0 = some (out, X) ∧
        out.length = n := by
    intro fn hfn
    have hk : ∀ out : List Nat, out.length = n →
        ∃ st, fn.run n vals out = some st ∧ st.out.length = n := by
      intro out hout
      rcases hfn with rfl | rfl
      · exact ⟨_, fastInvSqrt_flt_V1_run n vals out hn hv hout, by simp [hv]⟩
      · exact ⟨_, fastInvSqrt_dbl_V1_run n vals out hn hv hout, by simp [hv]⟩
    obtain ⟨out, h1, h2⟩ := execute_loop_run fn n vals (X : Int) hk X 0 out0 0 fuel
      (by omega) hf ho
    exact ⟨out, by simpa using h1, h2⟩
  rcases Nat.lt_succ_iff_lt_or_eq.1 hdb with h | h
  · have : db = 0 := by omega
    subst this
    obtain ⟨out, h1, h2⟩ := key .fastInvSqrt_flt_V1 (Or.inl rfl)
    refine ⟨out, ?_, h2⟩
    have hg : get_version 0 "1" = some (.ret .fastInvSqrt_flt_V1) := by decide
    unfold execute
    simp only [hg, hl, h1]
  · subst h
    obtain ⟨out, h1, h2⟩ := key .fastInvSqrt_dbl_V1 (Or.inr rfl)
    refine ⟨out, ?_, h2⟩
    have hg : get_version 1 "1" = some (.ret .fastInvSqrt_dbl_V1) := by decide
    unfold execute
    simp only [hg, hl, h1]

/-! ## Claim on the number of kernel runs -/

/-- C25: `main` accepts the value `4294967296` of `-B` (it is a decimal `long` greater than
`0`), but the call of `execute` converts it to the parameter `int loop`, which becomes `0`:
the kernel is not called, and the output array that `execute` prints is the fresh array,
which the kernel never wrote.  Likewise `-B2147483648` becomes `-2^31` (no call) and
`-B4294967297` becomes `1` (one call).  For the value `3` the kernel is called 3 times. -/
theorem C25_loop_count_is_truncated :
    parse_B (fun _ => ⟨4294967296, 10, false⟩) "4294967296" 0 = .ret 4294967296 ∧
    longToInt 4294967296 = 0 ∧
    execute 0 "1" 1 [0x40800000] 4294967296 [0xDEADBEEF] 5 =
      some (.ret ⟨[0x40800000], [0xDEADBEEF], 0⟩) ∧
    parse_B (fun _ => ⟨2147483648, 10, false⟩) "2147483648" 0 = .ret 2147483648 ∧
    longToInt 2147483648 = -2147483648 ∧
    execute 0 "1" 1 [0x40800000] 2147483648 [0xDEADBEEF] 5 =
      some (.ret ⟨[0x40800000], [0xDEADBEEF], 0⟩) ∧
    parse_B (fun _ => ⟨4294967297, 10, false⟩) "4294967297" 0 = .ret 4294967297 ∧
    execute 0 "1" 1 [0x40800000] 4294967297 [0xDEADBEEF] 5 =
      some (.ret ⟨[0x40800000], [0x3EFF911F], 1⟩) ∧
    parse_B (fun _ => ⟨3, 1, false⟩) "3" 0 = .ret 3 ∧
    execute 0 "1" 1 [0x40800000] 3 [0xDEADBEEF] 5 =
      some (.ret ⟨[0x40800000], [0x3EFF911F], 3⟩) := by
  refine ⟨by decide, by decide, by decide, by decide, by decide, by decide, by decide,
    by decide, by decide, by decide⟩

/-! ## The loops of `benchmarkAccuracy_flt` -/

/-- The scalar benchmark loop in closed form: from `conv.x = x` it passes the patterns
`x, x + 1, ..., 0x7f7fffff` to the kernel, one per call. -/
theorem benchScalar_loop_run :
    ∀ (k x : Nat) (sample : List Nat) (calls : List (List Nat)) (fuel : Nat),
      x + k = 0x7f800000 → k < fuel → 0 < sample.length →
      ∃ s1, s1.length = sample.length ∧
        benchScalar_loop fuel x sample calls =
          some (s1, calls ++ (List.range' x k).map fun v => [v]) := by
  intro k
  induction k with
  | zero =>
    intro x sample calls fuel hx hf hs
    obtain ⟨g, rfl⟩ : ∃ g, fuel = g + 1 := ⟨fuel - 1, by omega⟩
    have : ¬ x < 0x7f800000 := by omega
    exact ⟨sample, rfl, by simp [benchScalar_loop, this]⟩
  | succ k ih =>
    intro x sample calls fuel hx hf hs
    obtain ⟨g, rfl⟩ : ∃ g, fuel = g + 1 := ⟨fuel - 1, by omega⟩
    have hlt : x < 0x7f800000 := by omega
    have hm : (x + 1) % 2 ^ 32 = x + 1 := Nat.mod_eq_of_lt (by omega)
    obtain ⟨a, rest, rfl⟩ : ∃ a rest, sample = a :: rest := by
      cases sample with
      | nil => simp at hs
      | cons a rest => exact ⟨a, rest, rfl⟩
    obtain ⟨s1, h1, h2⟩ := ih (x + 1) ((a :: rest).set 0 x) (calls ++ [((a :: rest).set 0 x).take 1])
      g (by omega) (by omega) (by simp)
    refine ⟨s1, by simpa using h1, ?_⟩
    unfold benchScalar_loop
    simp only [hlt, if_true, hm]
    rw [h2]
    simp [List.range'_succ]

/-- The inner loop of the SIMD benchmark on an array of four floats. -/
theorem benchFill_eq (x : Nat) (sample : List Nat) (hs : sample.length = 4)
    (hx : x + 4 < 2 ^ 32) : benchFill x sample = (x + 4, [x, x + 1, x + 2, x + 3]) := by
  obtain ⟨a, b, c, d, rfl⟩ : ∃ a b c d, sample = [a, b, c, d] := by
    match sample, hs with
    | [a, b, c, d], _ => exact ⟨a, b, c, d, rfl⟩
  have h1 : (x + 1) % 2 ^ 32 = x + 1 := Nat.mod_eq_of_lt (by omega)
  have h2 : (x + 1 + 1) % 2 ^ 32 = x + 2 := Nat.mod_eq_of_lt (by omega)
  have h3 : (x + 2 + 1) % 2 ^ 32 = x + 3 := Nat.mod_eq_of_lt (by omega)
  have h4 : (x + 3 + 1) % 2 ^ 32 = x + 4 := Nat.mod_eq_of_lt (by omega)
  have hr : List.range 4 = [0, 1, 2, 3] := by decide
  unfold benchFill
  rw [hr]
  simp only [List.foldl_cons, List.foldl_nil, h1, h2, h3, h4, List.set_cons_zero,
    List.set_cons_succ]

/-- The SIMD benchmark loop in closed form: from `conv.x = x0 + 5 * j` it passes the blocks
`[x, x + 1, x + 2, x + 3]` for `x = x0 + 5 * i`, `i = j, ..., j + k - 1`, where `k` is the
number of such `x` with `x + 4 < 0x7f800000`: after each block one pattern is skipped. -/
theorem benchSimd_loop_run (x0 : Nat) :
    ∀ (k j : Nat) (sample : List Nat) (calls : List (List Nat)) (fuel : Nat),
      x0 + 5 * j ≤ 0x7f800000 → (0x7f800000 - (x0 + 5 * j)) / 5 = k → k < fuel →
      sample.length = 4 →
      ∃ s1, s1.length = 4 ∧
        benchSimd_loop fuel (x0 + 5 * j) sample calls =
          some (s1, calls ++ (List.range' j k).map fun i =>
            [x0 + 5 * i, x0 + 5 * i + 1, x0 + 5 * i + 2, x0 + 5 * i + 3]) := by
  intro k
  induction k with
  | zero =>
    intro j sample calls fuel hx hk hf hs
    obtain ⟨g, rfl⟩ : ∃ g, fuel = g + 1 := ⟨fuel - 1, by omega⟩
    have hm : (x0 + 5 * j + 4) % 2 ^ 32 = x0 + 5 * j + 4 := Nat.mod_eq_of_lt (by omega)
    have : ¬ x0 + 5 * j + 4 < 0x7f800000 := by omega
    refine ⟨sample, hs, ?_⟩
    unfold benchSimd_loop
    rw [hm, if_neg this, List.range'_zero, List.map_nil, List.append_nil]
  | succ k ih =>
    intro j sample calls fuel hx hk hf hs
    obtain ⟨g, rfl⟩ : ∃ g, fuel = g + 1 := ⟨fuel - 1, by omega⟩
    have hm : (x0 + 5 * j + 4) % 2 ^ 32 = x0 + 5 * j + 4 := Nat.mod_eq_of_lt (by omega)
    have hlt : x0 + 5 * j + 4 < 0x7f800000 := by omega
    have hfill := benchFill_eq (x0 + 5 * j) sample hs (by omega)
    have hn : (x0 + 5 * j + 4 + 1) % 2 ^ 32 = x0 + 5 * (j + 1) := by
      rw [Nat.mod_eq_of_lt (by omega)]
      ring
    obtain ⟨s1, h1, h2⟩ := ih (j + 1)
      [x0 + 5 * j, x0 + 5 * j + 1, x0 + 5 * j + 2, x0 + 5 * j + 3]
      (calls ++ [[x0 + 5 * j, x0 + 5 * j + 1, x0 + 5 * j + 2, x0 + 5 * j + 3]]) g
      (by omega) (by omega) (by omega) rfl
    refine ⟨s1, h1, ?_⟩
    unfold benchSimd_loop
    rw [hm, if_pos hlt]
    simp only [hfill, hn]
    rw [show List.take 4 [x0 + 5 * j, x0 + 5 * j + 1, x0 + 5 * j + 2, x0 + 5 * j + 3] =
      [x0 + 5 * j, x0 + 5 * j + 1, x0 + 5 * j + 2, x0 + 5 * j + 3] from rfl, h2]
    simp [List.range'_succ]

/-- `benchmarkAccuracy_flt` from the results of its three loops. -/
theorem benchmarkAccuracy_flt_eq (fuel : Nat) (sample0 s1 s2 s3 : List Nat)
    (c1 c2 c3 : List (List Nat))
    (h1 : benchScalar_loop fuel 0x00800000 sample0 [] = some (s1, c1))
    (h2 : benchScalar_loop fuel 0x00800000 s1 [] = some (s2, c2))
    (h3 : benchSimd_loop fuel 0x00800000 s2 [] = some (s3, c3)) :
    benchmarkAccuracy_flt fuel sample0 = some ⟨c1, c2, c3⟩ := by
  unfold benchmarkAccuracy_flt
  rw [h1]
  simp only []
  rw [h2]
  simp only []
  rw [h3]

/-! ## Claim on the accuracy benchmark -/

/-- C26: the scalar loop and the double-Newton loop of `benchmarkAccuracy_flt` pass every
positive normal pattern `0x00800000 ≤ x < 0x7f800000` to their kernel, one per call, in
increasing order.  The SIMD loop does not: `conv.x` is incremented four times by the inner loop
and once more by the outer loop, so the calls receive the blocks
`[x, x + 1, x + 2, x + 3]` for `x = 0x00800000 + 5 * k`, `k < 426141286`; a pattern `x` is
passed to `fastInvSqrt_flt` exactly when `x < 0x7f7ffffe` and `(x - 0x00800000) mod 5 ≠ 4`.
The pattern `0x00800004` and the largest normal pattern `0x7f7fffff` are never passed. -/
theorem C26_simd_benchmark_skips_patterns (fuel : Nat) (sample0 : List Nat)
    (hf : 2 ^ 31 ≤ fuel) (hs : sample0.length = 4) :
    ∃ scalar doubleNewton simd,
      benchmarkAccuracy_flt fuel sample0 = some ⟨scalar, doubleNewton, simd⟩ ∧
      scalar = (List.range' 0x00800000 0x7f000000).map (fun x => [x]) ∧
      doubleNewton = (List.range' 0x00800000 0x7f000000).map (fun x => [x]) ∧
      (∀ x, 0x00800000 ≤ x → x < 0x7f800000 → [x] ∈ scalar ∧ [x] ∈ doubleNewton) ∧
      simd = (List.range 426141286).map (fun k =>
        [0x00800000 + 5 * k, 0x00800000 + 5 * k + 1, 0x00800000 + 5 * k + 2,
          0x00800000 + 5 * k + 3]) ∧
      (∀ x, (∃ call ∈ simd, x ∈ call) ↔
        0x00800000 ≤ x ∧ x < 0x7f7ffffe ∧ (x - 0x00800000) % 5 ≠ 4) ∧
      (∀ call ∈ simd, 0x00800004 ∉ call) ∧ (∀ call ∈ simd, 0x7f7fffff ∉ call) := by
  obtain ⟨s1, l1, h1⟩ := benchScalar_loop_run 0x7f000000 0x00800000 sample0 [] fuel
    (by decide) (by omega) (by omega)
  obtain ⟨s2, l2, h2⟩ := benchScalar_loop_run 0x7f000000 0x00800000 s1 [] fuel
    (by decide) (by omega) (by omega)
  obtain ⟨s3, l3, h3⟩ := benchSimd_loop_run 0x00800000 426141286 0 s2 [] fuel
    (by decide) (by decide) (by omega) (by omega)
  rw [Nat.mul_zero, Nat.add_zero] at h3
  have memS : ∀ x, (∃ call ∈ (List.range 426141286).map (fun k =>
        [0x00800000 + 5 * k, 0x00800000 + 5 * k + 1, 0x00800000 + 5 * k + 2,
          0x00800000 + 5 * k + 3]), x ∈ call) ↔
        0x00800000 ≤ x ∧ x < 0x7f7ffffe ∧ (x - 0x00800000) % 5 ≠ 4 := by
    intro x
    constructor
    · rintro ⟨call, hc, hx⟩
      obtain ⟨k, hk, rfl⟩ := List.mem_map.1 hc
      rw [List.mem_range] at hk
      simp only [List.mem_cons, List.mem_singleton, List.not_mem_nil, or_false] at hx
      omega
    · rintro ⟨a, b, c⟩
      refine ⟨_, List.mem_map.2 ⟨(x - 0x00800000) / 5, List.mem_range.2 (by omega), rfl⟩, ?_⟩
      simp only [List.mem_cons, List.mem_singleton, List.not_mem_nil, or_false]
      omega
  rw [← List.range_eq_range', List.nil_append] at h3
  rw [List.nil_append] at h1 h2
  have hrun := benchmarkAccuracy_flt_eq fuel sample0 s1 s2 s3 _ _ _ h1 h2 h3
  refine ⟨_, _, _, hrun, rfl, rfl, ?_, rfl, memS, ?_, ?_⟩
  · intro x hx1 hx2
    have : [x] ∈ (List.range' 0x00800000 0x7f000000).map (fun x => [x]) :=
      List.mem_map.2 ⟨x, List.mem_range'.2 ⟨x - 0x00800000, by omega, by omega⟩, rfl⟩
    exact ⟨this, this⟩
  · intro call hc hx
    have := (memS 0x00800004).1 ⟨call, hc, hx⟩
    omega
  · intro call hc hx
    have := (memS 0x7f7fffff).1 ⟨call, hc, hx⟩
    omega

/-- C26 at fuel `2^31` and a fresh array of four zeros. -/
theorem C26_simd_benchmark_skips_patterns_witness :
    ∃ scalar doubleNewton simd,
      benchmarkAccuracy_flt (2 ^ 31) [0, 0, 0, 0] = some ⟨scalar, doubleNewton, simd⟩ ∧
      scalar = (List.range' 0x00800000 0x7f000000).map (fun x => [x]) ∧
      doubleNewton = (List.range' 0x00800000 0x7f000000).map (fun x => [x]) ∧
      (∀ x, 0x00800000 ≤ x → x < 0x7f800000 → [x] ∈ scalar ∧ [x] ∈ doubleNewton) ∧
      simd = (List.range 426141286).map (fun k =>
        [0x00800000 + 5 * k, 0x00800000 + 5 * k + 1, 0x00800000 + 5 * k + 2,
          0x00800000 + 5 * k + 3]) ∧
      (∀ x, (∃ call ∈ simd, x ∈ call) ↔
        0x00800000 ≤ x ∧ x < 0x7f7ffffe ∧ (x - 0x00800000) % 5 ≠ 4) ∧
      (∀ call ∈ simd, 0x00800004 ∉ call) ∧ (∀ call ∈ simd, 0x7f7fffff ∉ call) :=
  C26_simd_benchmark_skips_patterns (2 ^ 31) [0, 0, 0, 0] (by decide) rfl

/-! ## Magnitudes of finite results -/

namespace FloatFormat

variable (F : FloatFormat)

theorem expOf_magOf (b : Nat) : F.expOf (F.magOf b) = F.expOf b := by
  unfold expOf magOf
  have : 2 ^ (F.ebits + F.mbits) = 2 ^ F.mbits * 2 ^ F.ebits := by
    rw [← pow_add, Nat.add_comm]
  rw [this, Nat.mod_mul_right_div_self, Nat.mod_mod]

theorem manOf_magOf (b : Nat) : F.manOf (F.magOf b) = F.manOf b := by
  unfold manOf magOf
  exact Nat.mod_mod_of_dvd b (pow_dvd_pow 2 (Nat.le_add_left _ _))

theorem sigOf_magOf (b : Nat) : F.sigOf (F.magOf b) = F.sigOf b := by
  unfold sigOf
  rw [expOf_magOf, manOf_magOf]

theorem qOf_magOf (b : Nat) : F.qOf (F.magOf b) = F.qOf b := by
  unfold qOf
  rw [expOf_magOf]

theorem val2_magOf (b : Nat) : F.val2 (F.magOf b) = F.val2 b := by
  unfold val2
  rw [sigOf_magOf, qOf_magOf]

theorem isNaN_magOf (b : Nat) : F.isNaN (F.magOf b) = F.isNaN b := by
  unfold isNaN
  rw [expOf_magOf, manOf_magOf]

theorem isInf_magOf (b : Nat) : F.isInf (F.magOf b) = F.isInf b := by
  unfold isInf
  rw [expOf_magOf, manOf_magOf]

theorem magOf_magOf (b : Nat) : F.magOf (F.magOf b) = F.magOf b := by
  unfold magOf
  exact Nat.mod_mod _ _

theorem magOf_of_lt (b : Nat) (h : b < 2 ^ (F.ebits + F.mbits)) : F.magOf b = b :=
  Nat.mod_eq_of_lt h

theorem magOf_add_sign (s r : Nat) (h : r < 2 ^ (F.ebits + F.mbits)) :
    F.magOf (s * 2 ^ (F.ebits + F.mbits) + r) = r := by
  unfold magOf
  rw [Nat.add_comm, Nat.add_mul_mod_self_right, Nat.mod_eq_of_lt h]

theorem magLe_mono (b K K' : Nat) (h : F.magLe b K) (hK : K ≤ K') : F.magLe b K' :=
  le_trans h (Nat.mul_le_mul_right _ (by omega))

/-- The pattern of `2 ^ K`, for `K ≤ bias`, is finite. -/
theorem pow_bits_finPos (he : 1 ≤ F.ebits) (K : Nat) (hK : K ≤ F.bias) :
    F.isFinPos ((K + F.bias) * 2 ^ F.mbits) := by
  unfold isFinPos
  rw [F.two_pow_ebits he]
  exact mul_lt_mul_of_pos_right (by omega) (Nat.two_pow_pos _)

theorem magLe_finPos (he : 1 ≤ F.ebits) (b K : Nat) (hK : K ≤ F.bias) (h : F.magLe b K) :
    F.isFinPos (F.magOf b) :=
  lt_of_le_of_lt h (F.pow_bits_finPos he K hK)

theorem magLe_not_special (he : 1 ≤ F.ebits) (b K : Nat) (hK : K ≤ F.bias)
    (h : F.magLe b K) : F.isNaN b = false ∧ F.isInf b = false := by
  have := F.finPos_not_special _ (F.magLe_finPos he b K hK h)
  rw [isNaN_magOf, isInf_magOf] at this
  exact this

theorem val2_le_of_magLe (he : 2 ≤ F.ebits) (b K : Nat) (hK : K ≤ F.bias)
    (h : F.magLe b K) : F.val2 b ≤ 2 ^ (F.mbits + (K + F.bias)) := by
  have hb := F.bias_pos he
  have hp := F.pow_bits_finPos (by omega) K hK
  have h1 := F.val2_mono _ _ hp h
  rw [val2_magOf, F.val2_eq _ hp, Nat.mul_div_cancel _ (Nat.two_pow_pos _),
    if_neg (by omega), Nat.mul_mod_left, Nat.add_zero, ← pow_add] at h1
  exact h1

/-- The sign of the rounded result is kept apart from its magnitude. -/
theorem roundPack_sign (s N k Z : Nat) :
    F.roundPack s N k Z = s * 2 ^ (F.ebits + F.mbits) + F.roundPack 0 N k Z := by
  unfold roundPack zeroBits infBits
  by_cases hN : N = 0
  · simp [hN]
  · simp only [if_neg hN, Nat.zero_mul, Nat.zero_add]
    split_ifs <;> omega

/-- Rounding does not cross a power of two: a value of at most `2 ^ K` is rounded to a
pattern not above the pattern of `2 ^ K`. -/
theorem roundPack_le_pow (he : 3 ≤ F.ebits) (N k Z K : Nat) (hZ : F.bias ≤ Z + 1)
    (hK : K < F.bias) (h : N * 2 ^ k ≤ 2 ^ (Z + K)) :
    F.roundPack 0 N k Z ≤ (K + F.bias) * 2 ^ F.mbits := by
  rcases Nat.eq_zero_or_pos N with h0 | hN
  · subst h0
    simp [roundPack, zeroBits]
  have hb := F.bias_ge_three he
  obtain ⟨l1, l2⟩ := ilog2_spec N hN
  have hle : k + ilog2 N ≤ Z + K := by
    have : 2 ^ (k + ilog2 N) ≤ 2 ^ (Z + K) := by
      calc 2 ^ (k + ilog2 N) = 2 ^ ilog2 N * 2 ^ k := by rw [pow_add, Nat.mul_comm]
        _ ≤ N * 2 ^ k := Nat.mul_le_mul_right _ l1
        _ ≤ _ := h
    exact (Nat.pow_le_pow_iff_right (by decide)).1 this
  have hT : max (k + ilog2 N) (Z + 1 - F.bias) ≤ Z + F.bias - 1 :=
    max_le (by omega) (by omega)
  obtain ⟨e1, _, _⟩ := F.roundPack_eq (by omega) N k Z hN hZ hT
  rw [e1]
  have hs := F.roundSig_le N k (max (k + ilog2 N) (Z + 1 - F.bias)) hN (le_max_left _ _)
  rcases Nat.lt_or_ge (k + ilog2 N) (Z + K) with hlt | hge
  · have hT2 : max (k + ilog2 N) (Z + 1 - F.bias) ≤ Z + K - 1 :=
      max_le (by omega) (by omega)
    generalize max (k + ilog2 N) (Z + 1 - F.bias) = T at hs hT2 ⊢
    have h3 : T - (Z + 1 - F.bias) + 2 ≤ K + F.bias := by omega
    calc (T - (Z + 1 - F.bias)) * 2 ^ F.mbits + F.roundSig N k T
        ≤ (T - (Z + 1 - F.bias)) * 2 ^ F.mbits + 2 * 2 ^ F.mbits := by omega
      _ = (T - (Z + 1 - F.bias) + 2) * 2 ^ F.mbits := by ring
      _ ≤ _ := Nat.mul_le_mul_right _ h3
  · have hk : k + ilog2 N = Z + K := by omega
    have hT3 : max (k + ilog2 N) (Z + 1 - F.bias) = k + ilog2 N :=
      max_eq_left (by omega)
    have hN2 : N = 2 ^ ilog2 N := by
      have h4 : N * 2 ^ k ≤ 2 ^ ilog2 N * 2 ^ k := by
        rw [← pow_add, Nat.add_comm, hk]
        exact h
      exact le_antisymm (Nat.le_of_mul_le_mul_right h4 (Nat.two_pow_pos k)) l1
    have hsig : F.roundSig N k (k + ilog2 N) ≤ 2 ^ F.mbits := by
      by_cases c : F.mbits + k ≤ k + ilog2 N
      · obtain ⟨n1, _⟩ := F.roundSig_near N k (k + ilog2 N) c
        have hS : 0 < 2 ^ (k + ilog2 N - (F.mbits + k)) := Nat.two_pow_pos _
        have hN3 : N = 2 ^ F.mbits * 2 ^ (k + ilog2 N - (F.mbits + k)) := by
          rw [← pow_add]
          have : F.mbits + (k + ilog2 N - (F.mbits + k)) = ilog2 N := by omega
          rw [this]
          exact hN2
        by_contra hc
        rw [not_le] at hc
        have h5 : (2 ^ F.mbits + 1) * 2 ^ (k + ilog2 N - (F.mbits + k)) ≤
            F.roundSig N k (k + ilog2 N) * 2 ^ (k + ilog2 N - (F.mbits + k)) :=
          Nat.mul_le_mul_right _ hc
        rw [Nat.add_mul, Nat.one_mul, ← hN3] at h5
        omega
      · unfold roundSig
        rw [if_neg c]
        have : F.mbits + k - (k + ilog2 N) = F.mbits - ilog2 N := by omega
        rw [this]
        have e : N * 2 ^ (F.mbits - ilog2 N) = 2 ^ F.mbits := by
          rw [hN2, ← pow_add]
          have : ilog2 (2 ^ ilog2 N) = ilog2 N := by rw [← hN2]
          rw [this]
          congr 1
          omega
        exact le_of_eq e
    rw [hT3]
    have h3 : k + ilog2 N - (Z + 1 - F.bias) + 1 = K + F.bias := by omega
    calc (k + ilog2 N - (Z + 1 - F.bias)) * 2 ^ F.mbits + F.roundSig N k (k + ilog2 N)
        ≤ (k + ilog2 N - (Z + 1 - F.bias)) * 2 ^ F.mbits + 2 ^ F.mbits := by omega
      _ = (k + ilog2 N - (Z + 1 - F.bias) + 1) * 2 ^ F.mbits := by ring
      _ = _ := by rw [h3]

end FloatFormat

namespace FloatFormat

variable (F : FloatFormat)

theorem magLe_roundPack (he : 3 ≤ F.ebits) (s N k Z K : Nat) (hZ : F.bias ≤ Z + 1)
    (hK : K < F.bias) (h : N * 2 ^ k ≤ 2 ^ (Z + K)) : F.magLe (F.roundPack s N k Z) K := by
  have hr := F.roundPack_le_pow he N k Z K hZ hK h
  have hlt : F.roundPack 0 N k Z < 2 ^ (F.ebits + F.mbits) :=
    lt_of_le_of_lt hr (F.finPos_lt _ (F.pow_bits_finPos (by omega) K (by omega)))
  unfold magLe
  rw [roundPack_sign, F.magOf_add_sign _ _ hlt]
  exact hr

/-- The product of two finite numbers of magnitude at most `2 ^ Ka` and `2 ^ Kb` is finite, of
magnitude at most `2 ^ (Ka + Kb)`. -/
theorem fmul_magLe (he : 3 ≤ F.ebits) (a b Ka Kb : Nat) (ha : F.magLe a Ka)
    (hb : F.magLe b Kb) (hK : Ka + Kb < F.bias) :
    F.magLe (F.fmul a b) (Ka + Kb) ∧
      (F.signOf a = 0 → F.signOf b = 0 → F.fmul a b ≤ (Ka + Kb + F.bias) * 2 ^ F.mbits) := by
  obtain ⟨na, ia⟩ := F.magLe_not_special (by omega) a Ka (by omega) ha
  obtain ⟨nb, ib⟩ := F.magLe_not_special (by omega) b Kb (by omega) hb
  have e : F.fmul a b = F.roundPack ((F.signOf a + F.signOf b) % 2) (F.sigOf a * F.sigOf b)
      (F.qOf a + F.qOf b) (2 * F.bias + 2 * F.mbits) := by
    unfold fmul
    simp [na, nb, ia, ib]
  have va := F.val2_le_of_magLe (by omega) a Ka (by omega) ha
  have vb := F.val2_le_of_magLe (by omega) b Kb (by omega) hb
  have hN : F.sigOf a * F.sigOf b * 2 ^ (F.qOf a + F.qOf b) ≤
      2 ^ (2 * F.bias + 2 * F.mbits + (Ka + Kb)) := by
    have h1 : F.sigOf a * F.sigOf b * 2 ^ (F.qOf a + F.qOf b) = F.val2 a * F.val2 b := by
      unfold val2
      rw [pow_add]
      ring
    have h2 : 2 ^ (2 * F.bias + 2 * F.mbits + (Ka + Kb)) =
        2 ^ (F.mbits + (Ka + F.bias)) * 2 ^ (F.mbits + (Kb + F.bias)) := by
      rw [← pow_add]
      congr 1
      omega
    rw [h1, h2]
    exact Nat.mul_le_mul va vb
  constructor
  · rw [e]
    exact F.magLe_roundPack he _ _ _ _ _ (by omega) hK hN
  · intro sa sb
    rw [e, sa, sb]
    exact F.roundPack_le_pow he _ _ _ _ (by omega) hK hN

theorem magOf_neg (b : Nat) : F.magOf (F.neg b) = F.magOf b := by
  unfold neg magOf
  split_ifs with h
  · exact Nat.add_mod_right _ _
  · have hP : 2 ^ (F.ebits + F.mbits) ≤ b := by
      unfold signOf at h
      by_contra hc
      rw [not_le] at hc
      rw [Nat.div_eq_of_lt hc] at h
      exact h rfl
    exact (Nat.mod_eq_sub_mod hP).symm

/-- The sum of two finite numbers of magnitude at most `2 ^ K` is finite, of magnitude at most
`2 ^ (K + 1)`. -/
theorem fadd_magLe (he : 3 ≤ F.ebits) (a b K : Nat) (ha : F.magLe a K) (hb : F.magLe b K)
    (hK : K + 1 < F.bias) : F.magLe (F.fadd a b) (K + 1) := by
  obtain ⟨na, ia⟩ := F.magLe_not_special (by omega) a K (by omega) ha
  obtain ⟨nb, ib⟩ := F.magLe_not_special (by omega) b K (by omega) hb
  have va := F.val2_le_of_magLe (by omega) a K (by omega) ha
  have vb := F.val2_le_of_magLe (by omega) b K (by omega) hb
  have hA : F.sigOf a * 2 ^ (F.qOf a - min (F.qOf a) (F.qOf b)) * 2 ^ min (F.qOf a) (F.qOf b) =
      F.val2 a := by
    unfold val2
    rw [Nat.mul_assoc, ← pow_add, Nat.sub_add_cancel (min_le_left _ _)]
  have hB : F.sigOf b * 2 ^ (F.qOf b - min (F.qOf a) (F.qOf b)) * 2 ^ min (F.qOf a) (F.qOf b) =
      F.val2 b := by
    unfold val2
    rw [Nat.mul_assoc, ← pow_add, Nat.sub_add_cancel (min_le_right _ _)]
  have h2 : 2 ^ (F.bias + F.mbits + (K + 1)) = 2 * 2 ^ (F.mbits + (K + F.bias)) := by
    rw [← pow_succ']
    congr 1
    omega
  have hsum : ∀ N, N ≤ F.sigOf a * 2 ^ (F.qOf a - min (F.qOf a) (F.qOf b)) +
        F.sigOf b * 2 ^ (F.qOf b - min (F.qOf a) (F.qOf b)) →
      N * 2 ^ min (F.qOf a) (F.qOf b) ≤ 2 ^ (F.bias + F.mbits + (K + 1)) := by
    intro N hN
    have := Nat.mul_le_mul_right (2 ^ min (F.qOf a) (F.qOf b)) hN
    rw [Nat.add_mul, hA, hB] at this
    rw [h2]
    omega
  unfold fadd
  simp only [na, nb, ia, ib, Bool.or_self, Bool.false_eq_true, if_false, Bool.false_and]
  split_ifs
  · exact F.magLe_roundPack he _ _ _ _ _ (by omega) hK (hsum _ (le_refl _))
  · exact F.magLe_roundPack he _ _ _ _ _ (by omega) hK (hsum _ (by omega))
  · exact F.magLe_roundPack he _ _ _ _ _ (by omega) hK (hsum _ (by omega))
  · unfold magLe zeroBits magOf
    simp

/-- The difference of two finite numbers of magnitude at most `2 ^ K` is finite, of magnitude
at most `2 ^ (K + 1)`. -/
theorem fsub_magLe (he : 3 ≤ F.ebits) (a b K : Nat) (ha : F.magLe a K) (hb : F.magLe b K)
    (hK : K + 1 < F.bias) : F.magLe (F.fsub a b) (K + 1) := by
  obtain ⟨nb, _⟩ := F.magLe_not_special (by omega) b K (by omega) hb
  unfold fsub
  rw [nb]
  simp only [Bool.false_eq_true, if_false]
  refine F.fadd_magLe he a (F.neg b) K ha ?_ hK
  unfold magLe
  rw [magOf_neg]
  exact hb

theorem fabs_eq (b : Nat) : F.fabs b = F.magOf b := rfl

theorem signOf_fabs (b : Nat) : F.signOf (F.fabs b) = 0 := by
  unfold signOf fabs
  rw [Nat.div_eq_of_lt (Nat.mod_lt _ (Nat.two_pow_pos _))]

theorem magLe_fabs (b K : Nat) (h : F.magLe b K) : F.magLe (F.fabs b) K := by
  unfold magLe
  rw [fabs_eq, magOf_magOf]
  exact h

theorem magLe_of_le (b K : Nat) (hK : K ≤ F.bias) (he : 1 ≤ F.ebits)
    (h : b ≤ (K + F.bias) * 2 ^ F.mbits) : F.magLe b K ∧ F.signOf b = 0 := by
  have hf : F.isFinPos b := lt_of_le_of_lt h (F.pow_bits_finPos he K hK)
  refine ⟨?_, F.finPos_sign b hf⟩
  unfold magLe
  rw [F.magOf_of_lt b (F.finPos_lt b hf)]
  exact h

/-- The square root of a finite number `0 ≤ a ≤ 2 ^ (2 K)` is a finite number
`0 ≤ r ≤ 2 ^ K`. -/
theorem fsqrt_le (he : 3 ≤ F.ebits) (a K : Nat) (hK : 2 * K ≤ F.bias)
    (h : a ≤ (2 * K + F.bias) * 2 ^ F.mbits) :
    F.fsqrt a ≤ (K + F.bias) * 2 ^ F.mbits := by
  have hb3 := F.bias_ge_three he
  have hf : F.isFinPos a := lt_of_le_of_lt h (F.pow_bits_finPos (by omega) _ hK)
  obtain ⟨na, ia⟩ := F.finPos_not_special a hf
  have hs := F.finPos_sign a hf
  obtain ⟨hm, _⟩ := F.magLe_of_le a (2 * K) hK (by omega) h
  have va := F.val2_le_of_magLe (by omega) a (2 * K) hK hm
  unfold fsqrt
  rw [na, ia, hs]
  simp only [Bool.false_eq_true, if_false, Nat.zero_ne_one]
  by_cases hz : F.isZero a = true
  · rw [if_pos hz]
    unfold isZero at hz
    simp only [Bool.and_eq_true, beq_iff_eq] at hz
    have he0 := (F.finPos_exp a hf).1
    rw [hz.1] at he0
    have : a < 2 ^ F.mbits := by
      by_contra hc
      rw [not_lt] at hc
      have := Nat.div_pos hc (Nat.two_pow_pos _)
      omega
    have hle : 1 * 2 ^ F.mbits ≤ (K + F.bias) * 2 ^ F.mbits :=
      Nat.mul_le_mul_right _ (by omega)
    omega
  · rw [if_neg hz]
    refine F.roundPack_le_pow he _ 0 _ K (by omega) (by omega) ?_
    rw [pow_zero, Nat.mul_one]
    obtain ⟨M, hM⟩ : ∃ M, M = F.sigOf a * 2 ^ (F.qOf a + F.bias + F.mbits + 2 * (F.mbits + 2)) :=
      ⟨_, rfl⟩
    obtain ⟨W, hW⟩ : ∃ W, W = 2 ^ (F.bias + F.mbits + (F.mbits + 2) + K) := ⟨_, rfl⟩
    have hMW : M ≤ W * W := by
      have h1 : M = F.val2 a * 2 ^ (F.bias + F.mbits + 2 * (F.mbits + 2)) := by
        rw [hM]
        unfold val2
        rw [Nat.mul_assoc, ← pow_add]
        congr 2
        omega
      have h2 : W * W = 2 ^ (F.mbits + (2 * K + F.bias)) *
          2 ^ (F.bias + F.mbits + 2 * (F.mbits + 2)) := by
        rw [hW, ← pow_add, ← pow_add]
        congr 1
        omega
      rw [h1, h2]
      exact Nat.mul_le_mul_right _ va
    have hR : Nat.sqrt M ≤ W := by
      have := Nat.sqrt_le_sqrt hMW
      rw [Nat.sqrt_eq] at this
      exact this
    have h2W : 2 ^ (F.bias + F.mbits + (F.mbits + 2) + 1 + K) = 2 * W := by
      rw [hW, ← pow_succ']
      congr 1
      omega
    have key : ∀ st : Nat, st ≤ 1 → (Nat.sqrt M * Nat.sqrt M = M → st = 0) →
        2 * Nat.sqrt M + st ≤ 2 * W := by
      intro st h1 h0
      rcases Nat.lt_or_ge (Nat.sqrt M) W with hlt | hge
      · omega
      · have hRW : Nat.sqrt M = W := le_antisymm hR hge
        have hsq : Nat.sqrt M * Nat.sqrt M = M := by
          have h1 := Nat.sqrt_le M
          rw [hRW] at h1 ⊢
          exact le_antisymm h1 hMW
        have := h0 hsq
        omega
    rw [← hM, h2W]
    refine key _ ?_ ?_
    · split_ifs <;> omega
    · intro hsq
      rw [if_pos hsq]

end FloatFormat

/-- The conversion of a finite `float` of magnitude at most `2 ^ K` is a finite `double` of
the same sign and of magnitude at most `2 ^ K`. -/
theorem toDouble_magLe (a K : Nat) (h : binary32.magLe a K) (hK : K ≤ 127) :
    binary64.magLe (toDouble a) K ∧
      (binary32.signOf a = 0 → toDouble a ≤ (K + binary64.bias) * 2 ^ binary64.mbits) := by
  have hb32 : binary32.bias = 127 := by decide
  obtain ⟨na, ia⟩ := binary32.magLe_not_special (by decide) a K (by rw [hb32]; exact hK) h
  have va := binary32.val2_le_of_magLe (by decide) a K (by rw [hb32]; exact hK) h
  have hb : binary64.bias = 1023 := by decide
  have hN : binary32.sigOf a * 2 ^ (binary32.qOf a +
      (binary64.bias + binary64.mbits - (binary32.bias + binary32.mbits))) ≤
      2 ^ (binary64.bias + binary64.mbits + K) := by
    have e1 : binary64.bias + binary64.mbits - (binary32.bias + binary32.mbits) = 925 := by
      decide
    have e2 : binary64.bias + binary64.mbits + K =
        binary32.mbits + (K + binary32.bias) + 925 := by
      have : binary64.bias + binary64.mbits = 1075 := by decide
      have : binary32.mbits + binary32.bias = 150 := by decide
      omega
    rw [e1, e2]
    have h1 : binary32.sigOf a * 2 ^ (binary32.qOf a + 925) = binary32.val2 a * 2 ^ 925 := by
      unfold FloatFormat.val2
      rw [pow_add, Nat.mul_assoc]
    have h2 : 2 ^ (binary32.mbits + (K + binary32.bias) + 925) =
        2 ^ (binary32.mbits + (K + binary32.bias)) * 2 ^ 925 := pow_add _ _ _
    rw [h1, h2]
    generalize (2 : Nat) ^ 925 = c
    exact Nat.mul_le_mul_right c va
  have e : toDouble a = binary64.roundPack (binary32.signOf a) (binary32.sigOf a)
      (binary32.qOf a + (binary64.bias + binary64.mbits - (binary32.bias + binary32.mbits)))
      (binary64.bias + binary64.mbits) := by
    unfold toDouble
    simp [na, ia]
  constructor
  · rw [e]
    exact binary64.magLe_roundPack (by decide) _ _ _ _ _ (by omega) (by omega) hN
  · intro hs
    rw [e, hs]
    exact binary64.roundPack_le_pow (by decide) _ _ _ _ (by omega) (by omega) hN

/-! ## The error measure is finite on the candidates of the search -/

/-- For a candidate `c` in `[0x5F000000, 0x5F800000]` and a sample in `[0.5, 2.0)` the
`relativeError` that `magicnumber_flt` computes is a finite, non-negative `double`, at most
`2 ^ 14`. -/
theorem relativeError_flt_le (c x : Nat) (hc1 : 0x5F000000 ≤ c) (hc2 : c ≤ 0x5F800000)
    (hx1 : 0x3F000000 ≤ x) (hx2 : x < 0x40000000) :
    relativeError_flt c x ≤ 0x40D0000000000000 := by
  have he : 3 ≤ binary32.ebits := by decide
  have hE : 3 ≤ binary64.ebits := by decide
  have hb : binary32.bias = 127 := by decide
  have hB : binary64.bias = 1023 := by decide
  have p1 : (1 + binary32.bias) * 2 ^ binary32.mbits = 0x40000000 := by decide
  have P1 : (1 + binary64.bias) * 2 ^ binary64.mbits = 0x4000000000000000 := by decide
  have P2 : (2 * 1 + binary64.bias) * 2 ^ binary64.mbits = 0x4010000000000000 := by decide
  have P14 : (7 + 7 + binary64.bias) * 2 ^ binary64.mbits = 0x40D0000000000000 := by decide
  -- the sample and the constants
  obtain ⟨mx, sx⟩ := binary32.magLe_of_le x 1 (by decide) (by decide) (by rw [p1]; omega)
  obtain ⟨mh, _⟩ := binary32.magLe_of_le half_f 0 (by decide) (by decide) (by decide)
  obtain ⟨mt, _⟩ := binary32.magLe_of_le threehalfs_f 1 (by decide) (by decide) (by decide)
  obtain ⟨m1, _⟩ := binary64.magLe_of_le one_d 0 (by decide) (by decide) (by decide)
  obtain ⟨m100, s100⟩ := binary64.magLe_of_le hundred_d 7 (by decide) (by decide) (by decide)
  -- the raw estimate
  have hy : sub32 c (x >>> 1) ≤ 0x40000000 := by
    have hs : x >>> 1 = x / 2 := by rw [Nat.shiftRight_eq_div_pow, pow_one]
    unfold sub32
    rw [hs]
    omega
  obtain ⟨my, _⟩ := binary32.magLe_of_le (sub32 c (x >>> 1)) 1 (by decide) (by decide)
    (by rw [p1]; exact hy)
  -- the Newton step on `float`
  have mxh := (binary32.fmul_magLe he x half_f 1 0 mx mh (by decide)).1
  have mt1 := (binary32.fmul_magLe he _ _ (1 + 0) 1 mxh my (by decide)).1
  have mt2 := (binary32.fmul_magLe he _ _ (1 + 0 + 1) 1 mt1 my (by decide)).1
  have md := binary32.fsub_magLe he threehalfs_f _ (1 + 0 + 1 + 1)
    (binary32.magLe_mono _ _ _ mt (by decide)) mt2 (by decide)
  have my1 := (binary32.fmul_magLe he _ _ 1 (1 + 0 + 1 + 1 + 1) my md (by decide)).1
  -- the comparison with the square root on `double`
  have mY := (toDouble_magLe _ (1 + (1 + 0 + 1 + 1 + 1)) my1 (by decide)).1
  have hX := (toDouble_magLe x 1 mx (by decide)).2 sx
  have hr := binary64.fsqrt_le hE (toDouble x) 1 (by decide) (by rw [P2]; rw [P1] at hX; omega)
  obtain ⟨mr, _⟩ := binary64.magLe_of_le _ 1 (by decide) (by decide) hr
  have mp := (binary64.fmul_magLe hE _ _ 1 (1 + (1 + 0 + 1 + 1 + 1)) mr mY (by decide)).1
  have mq := binary64.fsub_magLe hE _ one_d (1 + (1 + (1 + 0 + 1 + 1 + 1)))
    mp (binary64.magLe_mono _ _ _ m1 (by decide)) (by decide)
  have ma := binary64.magLe_fabs _ _ mq
  have hfin := (binary64.fmul_magLe hE _ hundred_d 7 7
    (binary64.magLe_mono _ _ _ ma (by decide)) m100 (by decide)).2
    (binary64.signOf_fabs _) s100
  rw [P14] at hfin
  exact hfin

/-- For a candidate `c` in `[0x3000000000000000, 0x6000000000000400]` and a sample in
`[0.5, 2.0)` the `relativeError` that `magicnumber_dbl` computes is a finite, non-negative
`double`, at most `2 ^ 20`. -/
theorem relativeError_dbl_le (c x : Nat) (hc1 : 0x3000000000000000 ≤ c)
    (hc2 : c ≤ 0x6000000000000400) (hx1 : 0x3FE0000000000000 ≤ x)
    (hx2 : x < 0x4000000000000000) :
    relativeError_dbl c x ≤ 0x4130000000000000 := by
  have hE : 3 ≤ binary64.ebits := by decide
  have hB : binary64.bias = 1023 := by decide
  have P1 : (1 + binary64.bias) * 2 ^ binary64.mbits = 0x4000000000000000 := by decide
  have P2 : (2 * 1 + binary64.bias) * 2 ^ binary64.mbits = 0x4010000000000000 := by decide
  have P3 : (3 + binary64.bias) * 2 ^ binary64.mbits = 0x4020000000000000 := by decide
  have P20 : (13 + 7 + binary64.bias) * 2 ^ binary64.mbits = 0x4130000000000000 := by decide
  obtain ⟨mx, sx⟩ := binary64.magLe_of_le x 1 (by decide) (by decide) (by rw [P1]; omega)
  obtain ⟨mh, _⟩ := binary64.magLe_of_le half_d 0 (by decide) (by decide) (by decide)
  obtain ⟨mt, _⟩ := binary64.magLe_of_le threehalfs_d 1 (by decide) (by decide) (by decide)
  obtain ⟨m1, _⟩ := binary64.magLe_of_le one_d 0 (by decide) (by decide) (by decide)
  obtain ⟨m100, s100⟩ := binary64.magLe_of_le hundred_d 7 (by decide) (by decide) (by decide)
  have hy : sub64 c (x >>> 1) ≤ 0x4020000000000000 := by
    have hs : x >>> 1 = x / 2 := by rw [Nat.shiftRight_eq_div_pow, pow_one]
    unfold sub64
    rw [hs]
    omega
  obtain ⟨my, _⟩ := binary64.magLe_of_le (sub64 c (x >>> 1)) 3 (by decide) (by decide)
    (by rw [P3]; exact hy)
  have mxh := (binary64.fmul_magLe hE x half_d 1 0 mx mh (by decide)).1
  have mt1 := (binary64.fmul_magLe hE _ _ (1 + 0) 3 mxh my (by decide)).1
  have mt2 := (binary64.fmul_magLe hE _ _ (1 + 0 + 3) 3 mt1 my (by decide)).1
  have md := binary64.fsub_magLe hE threehalfs_d _ (1 + 0 + 3 + 3)
    (binary64.magLe_mono _ _ _ mt (by decide)) mt2 (by decide)
  have my1 := (binary64.fmul_magLe hE _ _ 3 (1 + 0 + 3 + 3 + 1) my md (by decide)).1
  have hr := binary64.fsqrt_le hE x 1 (by decide) (by rw [P2]; omega)
  obtain ⟨mr, _⟩ := binary64.magLe_of_le _ 1 (by decide) (by decide) hr
  have mp := (binary64.fmul_magLe hE _ _ 1 (3 + (1 + 0 + 3 + 3 + 1)) mr my1 (by decide)).1
  have mq := binary64.fsub_magLe hE _ one_d (1 + (3 + (1 + 0 + 3 + 3 + 1)))
    mp (binary64.magLe_mono _ _ _ m1 (by decide)) (by decide)
  have ma := binary64.magLe_fabs _ _ mq
  have hfin := (binary64.fmul_magLe hE _ hundred_d 13 7
    (binary64.magLe_mono _ _ _ ma (by decide)) m100 (by decide)).2
    (binary64.signOf_fabs _) s100
  rw [P20] at hfin
  exact hfin

/-- The maximum over the samples stays below a bound of the initial value and of every
sample. -/
theorem maxErrorOver_le (relErr : Nat → Nat) (B : Nat) :
    ∀ (xs : List Nat) (e : Nat), e ≤ B → (∀ x ∈ xs, relErr x ≤ B) →
      maxErrorOver relErr xs e ≤ B := by
  intro xs
  induction xs with
  | nil => intro e he _; exact he
  | cons x xs ih =>
    intro e he h
    unfold maxErrorOver
    rw [List.foldl_cons]
    refine ih _ ?_ (fun y hy => h y (List.mem_cons_of_mem _ hy))
    split_ifs
    · exact h x (List.mem_cons_self _ _)
    · exact he

/-- A pattern below the pattern of `DBL_MAX` is a `double` below `DBL_MAX`. -/
theorem lt_DBL_MAX_of_lt (c : Nat) (h : c < 0x7FEFFFFFFFFFFFFF) :
    binary64.lt c DBL_MAX = true := by
  rw [binary64.cmp_lt_iff]
  have h63 : c < 2 ^ (binary64.ebits + binary64.mbits) := lt_of_lt_of_le h (by decide)
  have hs : binary64.signOf c = 0 := by
    unfold FloatFormat.signOf
    rw [Nat.div_eq_of_lt h63]
  have hn : binary64.isNaN c = false := by
    have he : binary64.expOf c < 2 ^ 11 - 1 := by
      unfold FloatFormat.expOf
      have : c / 2 ^ binary64.mbits < 2 ^ 11 - 1 := by
        rw [Nat.div_lt_iff_lt_mul (Nat.two_pow_pos _)]
        exact lt_of_lt_of_le h (by decide)
      rw [Nat.mod_eq_of_lt (lt_trans this (by decide))]
      exact this
    unfold FloatFormat.isNaN
    have : binary64.expOf c ≠ 2 ^ binary64.ebits - 1 := by
      have : (2 : Nat) ^ binary64.ebits - 1 = 2 ^ 11 - 1 := rfl
      omega
    simp [this]
  refine ⟨hn, by decide, ?_⟩
  unfold FloatFormat.ordKey
  rw [hs, if_pos rfl, if_pos (by decide)]
  unfold FloatFormat.magOf
  rw [Nat.mod_eq_of_lt h63]
  have : (binary64.magOf DBL_MAX : Int) = 0x7FEFFFFFFFFFFFFF := by decide
  unfold FloatFormat.magOf at this
  rw [this]
  exact_mod_cast h

/-- The sample loop of `magicnumber_flt` returns, for every candidate. -/
theorem maxError_flt_run (fuel c : Nat) (hf : 2 ^ 24 < fuel) :
    maxError_flt fuel c = some (maxErrorOver (relativeError_flt c)
      ((List.range (2 ^ 24)).map fun m => 0x3F000000 + m) 0) := by
  unfold maxError_flt
  rw [samples_flt_run relativeError_flt c fuel hf, Option.map_some']

/-- The sample loop of `magicnumber_dbl` returns, for every candidate. -/
theorem maxError_dbl_run (fuel c : Nat) (hf : 2 ^ 25 < fuel) :
    maxError_dbl fuel c = some (maxErrorOver (relativeError_dbl c)
      ((List.range (2 ^ 25)).map fun k => 0x3FE * 2 ^ 52 + 2 ^ 28 * k) 0) := by
  unfold maxError_dbl
  rw [samples_dbl_run relativeError_dbl c fuel hf, Option.map_some']

/-- The `maxError` of a candidate in `[0x5F000000, 0x5F800000]` is below `DBL_MAX`. -/
theorem maxError_flt_lt (c : Nat) (hc1 : 0x5F000000 ≤ c) (hc2 : c ≤ 0x5F800000) :
    binary64.lt (maxErrorOver (relativeError_flt c)
      ((List.range (2 ^ 24)).map fun m => 0x3F000000 + m) 0) DBL_MAX = true := by
  refine lt_DBL_MAX_of_lt _ (lt_of_le_of_lt
    (maxErrorOver_le _ 0x40D0000000000000 _ 0 (by decide) ?_) (by decide))
  intro x hx
  obtain ⟨m, hm, rfl⟩ := List.mem_map.1 hx
  have := List.mem_range.1 hm
  exact relativeError_flt_le c _ hc1 hc2 (by omega) (by omega)

/-- The `maxError` of a candidate in `[0x3000000000000000, 0x6000000000000400]` is below
`DBL_MAX`. -/
theorem maxError_dbl_lt (c : Nat) (hc1 : 0x3000000000000000 ≤ c)
    (hc2 : c ≤ 0x6000000000000400) :
    binary64.lt (maxErrorOver (relativeError_dbl c)
      ((List.range (2 ^ 25)).map fun k => 0x3FE * 2 ^ 52 + 2 ^ 28 * k) 0) DBL_MAX = true := by
  refine lt_DBL_MAX_of_lt _ (lt_of_le_of_lt
    (maxErrorOver_le _ 0x4130000000000000 _ 0 (by decide) ?_) (by decide))
  intro x hx
  obtain ⟨m, hm, rfl⟩ := List.mem_map.1 hx
  have := List.mem_range.1 hm
  exact relativeError_dbl_le c _ hc1 hc2 (by omega) (by omega)

/-! ## The search depends on the errors of its candidates only -/

theorem foldl_update_congr (E E' : Nat → Nat) :
    ∀ (cs : List Nat), (∀ c ∈ cs, E c = E' c) → ∀ b : Best,
      cs.foldl (Best.update E) b = cs.foldl (Best.update E') b := by
  intro cs
  induction cs with
  | nil => intro _ _; rfl
  | cons c cs ih =>
    intro h b
    rw [List.foldl_cons, List.foldl_cons]
    have hc : Best.update E b c = Best.update E' b c := by
      unfold Best.update
      rw [h c (List.mem_cons_self _ _)]
    rw [hc]
    exact ih (fun c' hc' => h c' (List.mem_cons_of_mem _ hc')) _

theorem laterRounds_congr (w : Nat) (E E' : Nat → Nat) :
    ∀ (n : Nat) (b : Best), (∀ r ∈ laterRounds w E n b, ∀ c ∈ r.cands, E c = E' c) →
      laterRounds w E n b = laterRounds w E' n b ∧ laterBest w E n b = laterBest w E' n b := by
  intro n
  induction n with
  | zero => intro b _; exact ⟨rfl, rfl⟩
  | succ n ih =>
    intro b h
    rw [laterRounds_succ] at h
    have hc := foldl_update_congr E E' (windowCands w b.minMaxC (16 ^ (n + 1)))
      (fun c hc => h _ (List.mem_cons_self _ _) c hc) b
    obtain ⟨i1, i2⟩ := ih _ (fun r hr => h r (List.mem_cons_of_mem _ hr))
    rw [laterRounds_succ, laterRounds_succ, laterBest_succ, laterBest_succ, ← hc, i1, i2]
    exact ⟨rfl, rfl⟩

/-- Two error functions that agree on the candidates of a search give the same rounds and the
same result. -/
theorem searchRounds_congr (w : Nat) (E E' : Nat → Nat) (minC n : Nat)
    (h : ∀ r ∈ searchRounds w E minC n, ∀ c ∈ r.cands, E c = E' c) :
    searchRounds w E minC n = searchRounds w E' minC n ∧
      laterBest w E n (firstBest E minC (16 ^ n)) =
        laterBest w E' n (firstBest E' minC (16 ^ n)) := by
  have hf : firstBest E minC (16 ^ n) = firstBest E' minC (16 ^ n) := by
    unfold firstBest
    exact foldl_update_congr E E' _
      (fun c hc => h _ ((mem_searchRounds w E minC n _).2 (Or.inl rfl)) c hc) _
  obtain ⟨i1, i2⟩ := laterRounds_congr w E E' n (firstBest E minC (16 ^ n))
    (fun r hr => h r ((mem_searchRounds w E minC n r).2 (Or.inr hr)))
  unfold searchRounds
  rw [i2, i1, hf]
  exact ⟨rfl, rfl⟩

/-! ## Searches whose errors are below `DBL_MAX` on a range that holds every candidate -/

/-- The last round of a search whose candidates lie in `[lo, hi]`, with errors below `DBL_MAX`
there: the search has `n + 1` rounds, every round after the first has the window around the
result of the round before, the last round has step `1`, the result of the search is its end
and one of its candidates, and the error of the result is not above the error of any integer
of its window. -/
theorem searchRounds_final_on (w : Nat) (E : Nat → Nat) (lo hi : Nat)
    (hE : ∀ c, lo ≤ c → c ≤ hi → binary64.lt (E c) DBL_MAX = true) (minC n : Nat) (hn : 1 ≤ n)
    (h1 : 2 * 16 ^ n ≤ minC) (hm : minC + 16 ^ (n + 1) < 2 ^ w)
    (hr : ∀ r ∈ searchRounds w E minC n, ∀ c ∈ r.cands, lo ≤ c ∧ c ≤ hi) :
    List.Chain' (fun r r' : Round =>
        r'.minC + r.delta = r.best.minMaxC ∧ r'.maxC = r.best.minMaxC + r.delta ∧
        r'.delta = r.delta / 16 ∧ r.best.minMaxC ∈ r'.cands ∧
        ∀ c, c ∈ r'.cands ↔ ∃ i, i < 32 ∧ c = r'.minC + r'.delta * i)
      (searchRounds w E minC n) ∧
    ∃ r, (searchRounds w E minC n).getLast? = some r ∧ r.delta = 1 ∧
      laterBest w E n (firstBest E minC (16 ^ n)) = r.best ∧
      (laterBest w E n (firstBest E minC (16 ^ n))).minMaxC ∈ r.cands ∧
      (laterBest w E n (firstBest E minC (16 ^ n))).minMaxError =
        E (laterBest w E n (firstBest E minC (16 ^ n))).minMaxC ∧
      ∀ c, r.minC ≤ c → c < r.maxC →
        binary64.le (laterBest w E n (firstBest E minC (16 ^ n))).minMaxError (E c) = true := by
  obtain ⟨E', hE'⟩ : ∃ E' : Nat → Nat, E' = fun c => if lo ≤ c ∧ c ≤ hi then E c else 0 :=
    ⟨_, rfl⟩
  have hin : ∀ c, lo ≤ c → c ≤ hi → E c = E' c := by
    intro c c1 c2
    rw [hE']
    simp only [if_pos (And.intro c1 c2)]
  have hfin : ∀ c, binary64.lt (E' c) DBL_MAX = true := by
    intro c
    by_cases hc : lo ≤ c ∧ c ≤ hi
    · rw [← hin c hc.1 hc.2]
      exact hE c hc.1 hc.2
    · rw [hE']
      simp only [if_neg hc]
      decide
  obtain ⟨cr, cb⟩ := searchRounds_congr w E E' minC n
    (fun r hr' c hc => hin c (hr r hr' c hc).1 (hr r hr' c hc).2)
  obtain ⟨hch, hwin⟩ := searchRounds_window w E' hfin minC n h1 hm
  have hlen := searchRounds_length w E minC n
  rw [cb, cr]
  refine ⟨hch, ?_⟩
  cases hl : (searchRounds w E' minC n).getLast? with
  | none =>
    rw [List.getLast?_eq_none_iff] at hl
    rw [cr, hl] at hlen
    simp at hlen
  | some r =>
    obtain ⟨f1, f2, f3, f4, f5⟩ := searchRounds_final w E' hfin minC n hn h1 hm r hl
    obtain ⟨_, _, l3⟩ := searchRounds_last w E' minC n hn r hl
    obtain ⟨w1, _, w3⟩ := hwin r l3
    have hmem : r ∈ searchRounds w E minC n := by
      rw [cr]
      exact List.mem_of_mem_getLast? hl
    refine ⟨r, rfl, f1, f2, f3, ?_, ?_⟩
    · rw [f4]
      exact (hin _ (hr r hmem _ f3).1 (hr r hmem _ f3).2).symm
    · intro c c1 c2
      have hc : c ∈ r.cands := (w3 c).2 ⟨c - r.minC, by rw [w1, f1] at c2; omega, by
        rw [f1]; omega⟩
      rw [hin c (hr r hmem c hc).1 (hr r hmem c hc).2]
      exact f5 c c1 c2

/-- The prior of `magicnumber_dbl` and the closed form of its search, with the range of the
prior. -/
theorem magicnumber_dbl_prior_bounds (E32 E64 : Nat → Nat) (fuel : Nat) (hf : 33 ≤ fuel) :
    ∃ s32 P, magicnumber_flt fuel E32 = some s32 ∧
      binary64.toUInt 64 (init_dbl s32.best.minMaxC) = some P ∧ 2 ^ 62 ≤ P ∧
      P ≤ 0x6000000000000400 ∧
      magicnumber_dbl fuel E32 E64 =
        some ⟨laterBest 64 E64 7 (firstBest E64 (P - 2 ^ 32) (16 ^ 7)),
          searchRounds 64 E64 (P - 2 ^ 32) 7⟩ := by
  obtain ⟨i, h1, h2, h3⟩ := init_dbl_bounds _ (magicnumber_flt_lt E32)
  refine ⟨_, i, magicnumber_flt_run E32 fuel hf, h1, h2, by omega, ?_⟩
  unfold magicnumber_dbl
  rw [magicnumber_flt_run E32 fuel hf]
  simp only [h1]
  have e1 : sub64 i (2 ^ 32) = i - 2 ^ 32 := by
    unfold sub64
    omega
  have e2 : (i - 2 ^ 32 + 2 ^ 32) % 2 ^ 64 = i - 2 ^ 32 + 16 ^ (7 + 1) := by
    omega
  rw [e1, e2]
  exact searchLoop_run 64 E64 (i - 2 ^ 32) 7 fuel fuel hf (by omega) (by omega)

/-- The search of `magicnumber_flt` for an error function that is below `DBL_MAX` on
`[0x5F000000, 0x5F800000]`. -/
theorem magicnumber_flt_on (E : Nat → Nat) (fuel : Nat) (hf : 33 ≤ fuel)
    (hE : ∀ c, 0x5F000000 ≤ c → c ≤ 0x5F800000 → binary64.lt (E c) DBL_MAX = true) :
    ∃ s, magicnumber_flt fuel E = some s ∧ s.rounds.length = 5 ∧
      (∀ r ∈ s.rounds, ∀ c ∈ r.cands,
        (0x5F300000 - 0x11110 ≤ c ∧ c < 0x5F400000) ∧ binary64.lt (E c) DBL_MAX = true) ∧
      (0x5F300000 - 0x11110 ≤ s.best.minMaxC ∧ s.best.minMaxC < 0x5F400000 ∧
        (0x5F375A86 - s.best.minMaxC) + (s.best.minMaxC - 0x5F375A86) < 2 ^ 20) ∧
      ((∃ r, s.rounds.head? = some r ∧ r.cands.length = 16) ∧
        (∀ r ∈ s.rounds.tail, r.cands.length = 32) ∧
        (s.rounds.map fun r => r.cands.length).sum = 144) ∧
      List.Chain' (fun r r' : Round =>
          r'.minC + r.delta = r.best.minMaxC ∧ r'.maxC = r.best.minMaxC + r.delta ∧
          r'.delta = r.delta / 16 ∧ r.best.minMaxC ∈ r'.cands ∧
          ∀ c, c ∈ r'.cands ↔ ∃ i, i < 32 ∧ c = r'.minC + r'.delta * i) s.rounds ∧
      ∃ r, s.rounds.getLast? = some r ∧ r.delta = 1 ∧ s.best = r.best ∧
        s.best.minMaxC ∈ r.cands ∧ s.best.minMaxError = E s.best.minMaxC ∧
        ∀ c, r.minC ≤ c → c < r.maxC → binary64.le s.best.minMaxError (E c) = true := by
  obtain ⟨h1, _, h3⟩ := searchRounds_flt_range E
  have hr : ∀ r ∈ searchRounds 32 E 0x5F300000 4, ∀ c ∈ r.cands,
      0x5F000000 ≤ c ∧ c ≤ 0x5F800000 := by
    intro r hr c hc
    have := h1 r hr c hc
    omega
  have hb := h3 ⟨0, by decide, hE _ (by decide) (by decide)⟩
  obtain ⟨⟨r0, k1, kc, k2⟩, k3, _⟩ :=
    searchRounds_counts 32 E 0x5F300000 4 (by decide) (by decide)
  have hacc : ∃ r ∈ (searchRounds 32 E 0x5F300000 4).head?, ∃ c ∈ r.cands,
      binary64.lt (E c) DBL_MAX = true := by
    refine ⟨r0, k1, 0x5F300000, ?_, hE _ (by decide) (by decide)⟩
    rw [kc]
    exact List.mem_range'.2 ⟨0, by decide, by decide⟩
  obtain ⟨k5, k6⟩ := k3 hacc
  obtain ⟨f1, f2⟩ := searchRounds_final_on 32 E 0x5F000000 0x5F800000 hE 0x5F300000 4
    (by decide) (by decide) (by decide) hr
  refine ⟨_, magicnumber_flt_run E fuel hf, ?_, ?_, ?_, ⟨⟨r0, ?_, k2⟩, ?_, ?_⟩, ?_, ?_⟩
  · dsimp only
    exact searchRounds_length 32 E 0x5F300000 4
  · dsimp only
    intro r hr' c hc
    exact ⟨h1 r hr' c hc, hE c (hr r hr' c hc).1 (hr r hr' c hc).2⟩
  · dsimp only
    omega
  · dsimp only
    exact k1
  · dsimp only
    exact k5
  · dsimp only
    exact k6
  · dsimp only
    exact f1
  · dsimp only
    exact f2

/-- The search of `magicnumber_dbl` for an error function that is below `DBL_MAX` on
`[0x3000000000000000, 0x6000000000000400]`, after any single precision search. -/
theorem magicnumber_dbl_on (E32 E64 : Nat → Nat) (fuel : Nat) (hf : 33 ≤ fuel)
    (hE : ∀ c, 0x3000000000000000 ≤ c → c ≤ 0x6000000000000400 →
      binary64.lt (E64 c) DBL_MAX = true) :
    ∃ s32 P s, magicnumber_flt fuel E32 = some s32 ∧
      binary64.toUInt 64 (init_dbl s32.best.minMaxC) = some P ∧ 2 ^ 62 ≤ P ∧
      magicnumber_dbl fuel E32 E64 = some s ∧ s.rounds.length = 8 ∧
      (∀ r ∈ s.rounds, ∀ c ∈ r.cands,
        (P - 2 ^ 32 - (2 ^ 28 + 2 ^ 24 + 2 ^ 20 + 2 ^ 16 + 2 ^ 12 + 2 ^ 8 + 2 ^ 4) ≤ c ∧
          c < P) ∧ binary64.lt (E64 c) DBL_MAX = true) ∧
      (P - 2 ^ 32 - (2 ^ 28 + 2 ^ 24 + 2 ^ 20 + 2 ^ 16 + 2 ^ 12 + 2 ^ 8 + 2 ^ 4) ≤
          s.best.minMaxC ∧ s.best.minMaxC < P) ∧
      ((∃ r, s.rounds.head? = some r ∧ r.cands.length = 16) ∧
        (∀ r ∈ s.rounds.tail, r.cands.length = 32) ∧
        (s.rounds.map fun r => r.cands.length).sum = 240) ∧
      List.Chain' (fun r r' : Round =>
          r'.minC + r.delta = r.best.minMaxC ∧ r'.maxC = r.best.minMaxC + r.delta ∧
          r'.delta = r.delta / 16 ∧ r.best.minMaxC ∈ r'.cands ∧
          ∀ c, c ∈ r'.cands ↔ ∃ i, i < 32 ∧ c = r'.minC + r'.delta * i) s.rounds ∧
      ∃ r, s.rounds.getLast? = some r ∧ r.delta = 1 ∧ s.best = r.best ∧
        s.best.minMaxC ∈ r.cands ∧ s.best.minMaxError = E64 s.best.minMaxC ∧
        ∀ c, r.minC ≤ c → c < r.maxC → binary64.le s.best.minMaxError (E64 c) = true := by
  obtain ⟨s32, P, g1, g2, g3, g4, g5⟩ := magicnumber_dbl_prior_bounds E32 E64 fuel hf
  obtain ⟨h1, _, h3⟩ := searchRounds_range 64 E64 (P - 2 ^ 32) 7
  have hr : ∀ r ∈ searchRounds 64 E64 (P - 2 ^ 32) 7, ∀ c ∈ r.cands,
      0x3000000000000000 ≤ c ∧ c ≤ 0x6000000000000400 := by
    intro r hr c hc
    have := h1 r hr c hc
    omega
  have hm0 : P - 2 ^ 32 ∈ List.range' (P - 2 ^ 32) 16 (16 ^ 7) :=
    List.mem_range'.2 ⟨0, by decide, by omega⟩
  have hb := h3 ⟨P - 2 ^ 32, hm0, hE _ (by omega) (by omega)⟩
  obtain ⟨⟨r0, k1, kc, k2⟩, k3, _⟩ :=
    searchRounds_counts 64 E64 (P - 2 ^ 32) 7 (by omega) (by omega)
  have hacc : ∃ r ∈ (searchRounds 64 E64 (P - 2 ^ 32) 7).head?, ∃ c ∈ r.cands,
      binary64.lt (E64 c) DBL_MAX = true := by
    refine ⟨r0, k1, P - 2 ^ 32, ?_, hE _ (by omega) (by omega)⟩
    rw [kc]
    exact hm0
  obtain ⟨k5, k6⟩ := k3 hacc
  obtain ⟨f1, f2⟩ := searchRounds_final_on 64 E64 0x3000000000000000 0x6000000000000400 hE
    (P - 2 ^ 32) 7 (by decide) (by omega) (by omega) hr
  refine ⟨s32, P, _, g1, g2, g3, g5, ?_, ?_, ?_, ⟨⟨r0, ?_, k2⟩, ?_, ?_⟩, ?_, ?_⟩
  · dsimp only
    exact searchRounds_length 64 E64 (P - 2 ^ 32) 7
  · dsimp only
    intro r hr' c hc
    have := h1 r hr' c hc
    exact ⟨by omega, hE c (hr r hr' c hc).1 (hr r hr' c hc).2⟩
  · dsimp only
    omega
  · dsimp only
    exact k1
  · dsimp only
    exact k5
  · dsimp only
    exact k6
  · dsimp only
    exact f1
  · dsimp only
    exact f2

/-! ## Claims on the result of the calibration search -/

/-- C16: with `E32` and `E64` the values of `maxError` that the sample loops of
`magicnumber_flt` and `magicnumber_dbl` leave for each candidate (the loops return for every
candidate), `magicnumber_flt` returns after 5 rounds and `magicnumber_dbl` after 8 rounds; every
round after the first has the window `[c* - step, c* + step)` around the `minMaxC = c*` left by
the round before, a sixteenth of its step, the grid points of this window as candidates, and
`c*` among them; the last round has step `1`, the constant returned is the end of this round and
one of its candidates, its error is the `maxError` of this candidate, and it is `<=` the error
of every integer of the window of the last round. -/
theorem C16_result_is_final_round_candidate (fuel : Nat) (hf : 2 ^ 25 < fuel) :
    ∃ E32 E64 : Nat → Nat, (∀ c, maxError_flt fuel c = some (E32 c)) ∧
      (∀ c, maxError_dbl fuel c = some (E64 c)) ∧
      (∃ s, magicnumber_flt fuel E32 = some s ∧ s.rounds.length = 5 ∧
        List.Chain' (fun r r' : Round =>
            r'.minC + r.delta = r.best.minMaxC ∧ r'.maxC = r.best.minMaxC + r.delta ∧
            r'.delta = r.delta / 16 ∧ r.best.minMaxC ∈ r'.cands ∧
            ∀ c, c ∈ r'.cands ↔ ∃ i, i < 32 ∧ c = r'.minC + r'.delta * i) s.rounds ∧
        ∃ r, s.rounds.getLast? = some r ∧ r.delta = 1 ∧ s.best = r.best ∧
          s.best.minMaxC ∈ r.cands ∧ s.best.minMaxError = E32 s.best.minMaxC ∧
          ∀ c, r.minC ≤ c → c < r.maxC → binary64.le s.best.minMaxError (E32 c) = true) ∧
      (∃ s, magicnumber_dbl fuel E32 E64 = some s ∧ s.rounds.length = 8 ∧
        List.Chain' (fun r r' : Round =>
            r'.minC + r.delta = r.best.minMaxC ∧ r'.maxC = r.best.minMaxC + r.delta ∧
            r'.delta = r.delta / 16 ∧ r.best.minMaxC ∈ r'.cands ∧
            ∀ c, c ∈ r'.cands ↔ ∃ i, i < 32 ∧ c = r'.minC + r'.delta * i) s.rounds ∧
        ∃ r, s.rounds.getLast? = some r ∧ r.delta = 1 ∧ s.best = r.best ∧
          s.best.minMaxC ∈ r.cands ∧ s.best.minMaxError = E64 s.best.minMaxC ∧
          ∀ c, r.minC ≤ c → c < r.maxC → binary64.le s.best.minMaxError (E64 c) = true) := by
  obtain ⟨E32, d32⟩ : ∃ E : Nat → Nat, E = fun c => maxErrorOver (relativeError_flt c)
      ((List.range (2 ^ 24)).map fun m => 0x3F000000 + m) 0 := ⟨_, rfl⟩
  have r32 : ∀ c, maxError_flt fuel c = some (E32 c) := by
    intro c
    rw [d32]
    exact maxError_flt_run fuel c (by omega)
  have f32 : ∀ c, 0x5F000000 ≤ c → c ≤ 0x5F800000 → binary64.lt (E32 c) DBL_MAX = true := by
    intro c c1 c2
    rw [d32]
    exact maxError_flt_lt c c1 c2
  obtain ⟨E64, d64⟩ : ∃ E : Nat → Nat, E = fun c => maxErrorOver (relativeError_dbl c)
      ((List.range (2 ^ 25)).map fun k => 0x3FE * 2 ^ 52 + 2 ^ 28 * k) 0 := ⟨_, rfl⟩
  have r64 : ∀ c, maxError_dbl fuel c = some (E64 c) := by
    intro c
    rw [d64]
    exact maxError_dbl_run fuel c hf
  have f64 : ∀ c, 0x3000000000000000 ≤ c → c ≤ 0x6000000000000400 →
      binary64.lt (E64 c) DBL_MAX = true := by
    intro c c1 c2
    rw [d64]
    exact maxError_dbl_lt c c1 c2
  obtain ⟨s, a1, a2, _, _, _, a6, a7⟩ := magicnumber_flt_on E32 fuel (by omega) f32
  obtain ⟨_, _, t, _, _, _, b1, b2, _, _, _, b6, b7⟩ :=
    magicnumber_dbl_on E32 E64 fuel (by omega) f64
  exact ⟨E32, E64, r32, r64, ⟨s, a1, a2, a6, a7⟩, ⟨t, b1, b2, b6, b7⟩⟩

/-- C16 with fuel `2 ^ 25 + 1`. -/
theorem C16_result_is_final_round_candidate_witness :
    ∃ E32 E64 : Nat → Nat, (∀ c, maxError_flt (2 ^ 25 + 1) c = some (E32 c)) ∧
      (∀ c, maxError_dbl (2 ^ 25 + 1) c = some (E64 c)) ∧
      (∃ s, magicnumber_flt (2 ^ 25 + 1) E32 = some s ∧ s.rounds.length = 5 ∧
        List.Chain' (fun r r' : Round =>
            r'.minC + r.delta = r.best.minMaxC ∧ r'.maxC = r.best.minMaxC + r.delta ∧
            r'.delta = r.delta / 16 ∧ r.best.minMaxC ∈ r'.cands ∧
            ∀ c, c ∈ r'.cands ↔ ∃ i, i < 32 ∧ c = r'.minC + r'.delta * i) s.rounds ∧
        ∃ r, s.rounds.getLast? = some r ∧ r.delta = 1 ∧ s.best = r.best ∧
          s.best.minMaxC ∈ r.cands ∧ s.best.minMaxError = E32 s.best.minMaxC ∧
          ∀ c, r.minC ≤ c → c < r.maxC → binary64.le s.best.minMaxError (E32 c) = true) ∧
      (∃ s, magicnumber_dbl (2 ^ 25 + 1) E32 E64 = some s ∧ s.rounds.length = 8 ∧
        List.Chain' (fun r r' : Round =>
            r'.minC + r.delta = r.best.minMaxC ∧ r'.maxC = r.best.minMaxC + r.delta ∧
            r'.delta = r.delta / 16 ∧ r.best.minMaxC ∈ r'.cands ∧
            ∀ c, c ∈ r'.cands ↔ ∃ i, i < 32 ∧ c = r'.minC + r'.delta * i) s.rounds ∧
        ∃ r, s.rounds.getLast? = some r ∧ r.delta = 1 ∧ s.best = r.best ∧
          s.best.minMaxC ∈ r.cands ∧ s.best.minMaxError = E64 s.best.minMaxC ∧
          ∀ c, r.minC ≤ c → c < r.maxC → binary64.le s.best.minMaxError (E64 c) = true) :=
  C16_result_is_final_round_candidate (2 ^ 25 + 1) (by decide)

/-- C17: with `E` the value of `maxError` that the sample loop of `magicnumber_flt` leaves for
each candidate (the loop returns for every candidate), `magicnumber_flt` returns after 5 rounds,
every candidate it evaluates lies in `[0x5F300000 - 0x11110, 0x5F400000)` and has an error
below `DBL_MAX`, and the constant returned lies in this range and differs from `0x5F375A86` by
less than `2 ^ 20`.  The range of the candidates is the same for every error function. -/
theorem C17_constant_near_literature_value (fuel : Nat) (hf : 2 ^ 24 < fuel) :
    (∃ E : Nat → Nat, (∀ c, maxError_flt fuel c = some (E c)) ∧
      ∃ s, magicnumber_flt fuel E = some s ∧ s.rounds.length = 5 ∧
        (∀ r ∈ s.rounds, ∀ c ∈ r.cands,
          (0x5F300000 - 0x11110 ≤ c ∧ c < 0x5F400000) ∧ binary64.lt (E c) DBL_MAX = true) ∧
        0x5F300000 - 0x11110 ≤ s.best.minMaxC ∧ s.best.minMaxC < 0x5F400000 ∧
        (0x5F375A86 - s.best.minMaxC) + (s.best.minMaxC - 0x5F375A86) < 2 ^ 20) ∧
    (∀ E : Nat → Nat, ∃ s, magicnumber_flt fuel E = some s ∧ s.rounds.length = 5 ∧
      ∀ r ∈ s.rounds, ∀ c ∈ r.cands, 0x5F300000 - 0x11110 ≤ c ∧ c < 0x5F400000) := by
  obtain ⟨E32, d32⟩ : ∃ E : Nat → Nat, E = fun c => maxErrorOver (relativeError_flt c)
      ((List.range (2 ^ 24)).map fun m => 0x3F000000 + m) 0 := ⟨_, rfl⟩
  have r32 : ∀ c, maxError_flt fuel c = some (E32 c) := by
    intro c
    rw [d32]
    exact maxError_flt_run fuel c (by omega)
  have f32 : ∀ c, 0x5F000000 ≤ c → c ≤ 0x5F800000 → binary64.lt (E32 c) DBL_MAX = true := by
    intro c c1 c2
    rw [d32]
    exact maxError_flt_lt c c1 c2
  constructor
  · obtain ⟨s, a1, a2, a3, a4, _⟩ := magicnumber_flt_on E32 fuel (by omega) f32
    exact ⟨E32, r32, s, a1, a2, a3, a4⟩
  · intro E
    refine ⟨_, magicnumber_flt_run E fuel (by omega), ?_, ?_⟩
    · dsimp only
      exact searchRounds_length 32 E 0x5F300000 4
    · dsimp only
      exact (searchRounds_flt_range E).1

/-- C17 with fuel `2 ^ 24 + 1`. -/
theorem C17_constant_near_literature_value_witness :
    (∃ E : Nat → Nat, (∀ c, maxError_flt (2 ^ 24 + 1) c = some (E c)) ∧
      ∃ s, magicnumber_flt (2 ^ 24 + 1) E = some s ∧ s.rounds.length = 5 ∧
        (∀ r ∈ s.rounds, ∀ c ∈ r.cands,
          (0x5F300000 - 0x11110 ≤ c ∧ c < 0x5F400000) ∧ binary64.lt (E c) DBL_MAX = true) ∧
        0x5F300000 - 0x11110 ≤ s.best.minMaxC ∧ s.best.minMaxC < 0x5F400000 ∧
        (0x5F375A86 - s.best.minMaxC) + (s.best.minMaxC - 0x5F375A86) < 2 ^ 20) ∧
    (∀ E : Nat → Nat, ∃ s, magicnumber_flt (2 ^ 24 + 1) E = some s ∧ s.rounds.length = 5 ∧
      ∀ r ∈ s.rounds, ∀ c ∈ r.cands, 0x5F300000 - 0x11110 ≤ c ∧ c < 0x5F400000) :=
  C17_constant_near_literature_value (2 ^ 24 + 1) (by decide)

/-- C28: with `E64` the value of `maxError` that the sample loop of `magicnumber_dbl` leaves
for each candidate (the loop returns for every candidate), and for every error function `E32` of
the single precision search, hence every value of its result: `magicnumber_dbl` returns after 8
rounds, and with `P` the prior `(uint64_t)init_dbl`, every candidate `c` it evaluates in any
round has `P - 2^32 - (2^28 + 2^24 + 2^20 + 2^16 + 2^12 + 2^8 + 2^4) ≤ c < P` and an error
below `DBL_MAX`, and the constant it returns lies in the same range (`2^62 ≤ P`, so that the
subtractions do not wrap). -/
theorem C28_candidates_below_prior (fuel : Nat) (hf : 2 ^ 25 < fuel) :
    ∃ E64 : Nat → Nat, (∀ c, maxError_dbl fuel c = some (E64 c)) ∧
      ∀ E32 : Nat → Nat, ∃ s32 P s, magicnumber_flt fuel E32 = some s32 ∧
        binary64.toUInt 64 (init_dbl s32.best.minMaxC) = some P ∧ 2 ^ 62 ≤ P ∧
        magicnumber_dbl fuel E32 E64 = some s ∧ s.rounds.length = 8 ∧
        (∀ r ∈ s.rounds, ∀ c ∈ r.cands,
          (P - 2 ^ 32 - (2 ^ 28 + 2 ^ 24 + 2 ^ 20 + 2 ^ 16 + 2 ^ 12 + 2 ^ 8 + 2 ^ 4) ≤ c ∧
            c < P) ∧ binary64.lt (E64 c) DBL_MAX = true) ∧
        P - 2 ^ 32 - (2 ^ 28 + 2 ^ 24 + 2 ^ 20 + 2 ^ 16 + 2 ^ 12 + 2 ^ 8 + 2 ^ 4) ≤
          s.best.minMaxC ∧
        s.best.minMaxC < P := by
  obtain ⟨E64, d64⟩ : ∃ E : Nat → Nat, E = fun c => maxErrorOver (relativeError_dbl c)
      ((List.range (2 ^ 25)).map fun k => 0x3FE * 2 ^ 52 + 2 ^ 28 * k) 0 := ⟨_, rfl⟩
  have r64 : ∀ c, maxError_dbl fuel c = some (E64 c) := by
    intro c
    rw [d64]
    exact maxError_dbl_run fuel c hf
  have f64 : ∀ c, 0x3000000000000000 ≤ c → c ≤ 0x6000000000000400 →
      binary64.lt (E64 c) DBL_MAX = true := by
    intro c c1 c2
    rw [d64]
    exact maxError_dbl_lt c c1 c2
  refine ⟨E64, r64, ?_⟩
  intro E32
  obtain ⟨s32, P, t, b0, b00, bP, b1, b2, b3, b4, _⟩ :=
    magicnumber_dbl_on E32 E64 fuel (by omega) f64
  exact ⟨s32, P, t, b0, b00, bP, b1, b2, b3, b4.1, b4.2⟩

/-- C28 with fuel `2 ^ 25 + 1`. -/
theorem C28_candidates_below_prior_witness :
    ∃ E64 : Nat → Nat, (∀ c, maxError_dbl (2 ^ 25 + 1) c = some (E64 c)) ∧
      ∀ E32 : Nat → Nat, ∃ s32 P s, magicnumber_flt (2 ^ 25 + 1) E32 = some s32 ∧
        binary64.toUInt 64 (init_dbl s32.best.minMaxC) = some P ∧ 2 ^ 62 ≤ P ∧
        magicnumber_dbl (2 ^ 25 + 1) E32 E64 = some s ∧ s.rounds.length = 8 ∧
        (∀ r ∈ s.rounds, ∀ c ∈ r.cands,
          (P - 2 ^ 32 - (2 ^ 28 + 2 ^ 24 + 2 ^ 20 + 2 ^ 16 + 2 ^ 12 + 2 ^ 8 + 2 ^ 4) ≤ c ∧
            c < P) ∧ binary64.lt (E64 c) DBL_MAX = true) ∧
        P - 2 ^ 32 - (2 ^ 28 + 2 ^ 24 + 2 ^ 20 + 2 ^ 16 + 2 ^ 12 + 2 ^ 8 + 2 ^ 4) ≤
          s.best.minMaxC ∧
        s.best.minMaxC < P :=
  C28_candidates_below_prior (2 ^ 25 + 1) (by decide)

/-- C30: with `E32` and `E64` the values of `maxError` that the sample loops of
`magicnumber_flt` and `magicnumber_dbl` leave for each candidate (the loops return for every
candidate), the first round of either search evaluates exactly 16 candidates and every later
round exactly 32; `magicnumber_flt` has 5 rounds and evaluates `16 + 4 * 32 = 144` candidates,
the search loop of `magicnumber_dbl` has 8 rounds and evaluates `16 + 7 * 32 = 240`. -/
theorem C30_candidate_counts (fuel : Nat) (hf : 2 ^ 25 < fuel) :
    ∃ E32 E64 : Nat → Nat, (∀ c, maxError_flt fuel c = some (E32 c)) ∧
      (∀ c, maxError_dbl fuel c = some (E64 c)) ∧
      (∃ s, magicnumber_flt fuel E32 = some s ∧ s.rounds.length = 5 ∧
        (∃ r, s.rounds.head? = some r ∧ r.cands.length = 16) ∧
        (∀ r ∈ s.rounds.tail, r.cands.length = 32) ∧
        (s.rounds.map fun r => r.cands.length).sum = 144) ∧
      (∃ s, magicnumber_dbl fuel E32 E64 = some s ∧ s.rounds.length = 8 ∧
        (∃ r, s.rounds.head? = some r ∧ r.cands.length = 16) ∧
        (∀ r ∈ s.rounds.tail, r.cands.length = 32) ∧
        (s.rounds.map fun r => r.cands.length).sum = 240) := by
  obtain ⟨E32, d32⟩ : ∃ E : Nat → Nat, E = fun c => maxErrorOver (relativeError_flt c)
      ((List.range (2 ^ 24)).map fun m => 0x3F000000 + m) 0 := ⟨_, rfl⟩
  have r32 : ∀ c, maxError_flt fuel c = some (E32 c) := by
    intro c
    rw [d32]
    exact maxError_flt_run fuel c (by omega)
  have f32 : ∀ c, 0x5F000000 ≤ c → c ≤ 0x5F800000 → binary64.lt (E32 c) DBL_MAX = true := by
    intro c c1 c2
    rw [d32]
    exact maxError_flt_lt c c1 c2
  obtain ⟨E64, d64⟩ : ∃ E : Nat → Nat, E = fun c => maxErrorOver (relativeError_dbl c)
      ((List.range (2 ^ 25)).map fun k => 0x3FE * 2 ^ 52 + 2 ^ 28 * k) 0 := ⟨_, rfl⟩
  have r64 : ∀ c, maxError_dbl fuel c = some (E64 c) := by
    intro c
    rw [d64]
    exact maxError_dbl_run fuel c hf
  have f64 : ∀ c, 0x3000000000000000 ≤ c → c ≤ 0x6000000000000400 →
      binary64.lt (E64 c) DBL_MAX = true := by
    intro c c1 c2
    rw [d64]
    exact maxError_dbl_lt c c1 c2
  obtain ⟨s, a1, a2, _, _, a5, _⟩ := magicnumber_flt_on E32 fuel (by omega) f32
  obtain ⟨_, _, t, _, _, _, b1, b2, _, _, b5, _⟩ :=
    magicnumber_dbl_on E32 E64 fuel (by omega) f64
  exact ⟨E32, E64, r32, r64, ⟨s, a1, a2, a5⟩, ⟨t, b1, b2, b5⟩⟩

/-- C30 with fuel `2 ^ 25 + 1`. -/
theorem C30_candidate_counts_witness :
    ∃ E32 E64 : Nat → Nat, (∀ c, maxError_flt (2 ^ 25 + 1) c = some (E32 c)) ∧
      (∀ c, maxError_dbl (2 ^ 25 + 1) c = some (E64 c)) ∧
      (∃ s, magicnumber_flt (2 ^ 25 + 1) E32 = some s ∧ s.rounds.length = 5 ∧
        (∃ r, s.rounds.head? = some r ∧ r.cands.length = 16) ∧
        (∀ r ∈ s.rounds.tail, r.cands.length = 32) ∧
        (s.rounds.map fun r => r.cands.length).sum = 144) ∧
      (∃ s, magicnumber_dbl (2 ^ 25 + 1) E32 E64 = some s ∧ s.rounds.length = 8 ∧
        (∃ r, s.rounds.head? = some r ∧ r.cands.length = 16) ∧
        (∀ r ∈ s.rounds.tail, r.cands.length = 32) ∧
        (s.rounds.map fun r => r.cands.length).sum = 240) :=
  C30_candidate_counts (2 ^ 25 + 1) (by decide)

end InvSqrt
